import Mathlib

/-!
# Fil-C runtime: capability checks, allocation and object lifecycle

A shallow embedding of the access checker and allocator of
`libpas/src/libpas/filc_runtime.c`.

Conventions of the embedding.

* Addresses and sizes are natural numbers.  Pointer arithmetic that stays
  inside an object is exact; where the C code computes with `size_t`
  values that may wrap, the reduction modulo `2 ^ 64` is written out.
* A `filc_object*` is the address of the object header.  The header fields
  live in `filc_heap.objects`, payload bytes live in `filc_heap.memory`.
* Every operation is a function from the heap to a `filc_result`, which
  carries the heap reached even when the operation panics.
* The code is embedded as run by one thread: a compare-and-swap succeeds
  exactly when the location holds the expected value, and the collector
  (store barriers, mark stacks, enter/exit) is not part of the state.
-/

set_option linter.unusedVariables false

/-- The tag of one payload word (`filc_word_type`). -/
inductive filc_word_type
  | FILC_WORD_TYPE_UNSET
  | FILC_WORD_TYPE_INT
  | FILC_WORD_TYPE_PTR
  | FILC_WORD_TYPE_FREE
  | FILC_WORD_TYPE_FUNCTION
  | FILC_WORD_TYPE_THREAD
  | FILC_WORD_TYPE_DIRSTREAM
  | FILC_WORD_TYPE_SIGNAL_HANDLER
  | FILC_WORD_TYPE_PTR_TABLE
  | FILC_WORD_TYPE_PTR_TABLE_ARRAY
  | FILC_WORD_TYPE_DL_HANDLE
  | FILC_WORD_TYPE_JMP_BUF
  | FILC_WORD_TYPE_EXACT_PTR_TABLE
  deriving DecidableEq, Repr

open filc_word_type

/-- Modelled from the spec: the word granularity `FILC_WORD_SIZE` of the
missing header `filc_runtime.h` (a word is 16 bytes). -/
def FILC_WORD_SIZE : Nat := 16

/-- Modelled from the spec: flag bit `FREE` of the object flags word; the
bit positions of the missing header follow the order in which
`filc_object_flags_dump_with_comma` tests them. -/
def FILC_OBJECT_FLAG_FREE : Nat := 1

/-- Modelled from the spec: flag bit `RETURN_BUFFER`. -/
def FILC_OBJECT_FLAG_RETURN_BUFFER : Nat := 2

/-- Modelled from the spec: flag bit `SPECIAL`. -/
def FILC_OBJECT_FLAG_SPECIAL : Nat := 4

/-- Modelled from the spec: flag bit `GLOBAL`. -/
def FILC_OBJECT_FLAG_GLOBAL : Nat := 8

/-- Modelled from the spec: flag bit `MMAP`. -/
def FILC_OBJECT_FLAG_MMAP : Nat := 16

/-- Modelled from the spec: flag bit `READONLY`. -/
def FILC_OBJECT_FLAG_READONLY : Nat := 32

/-- Modelled from the spec: the pin count is packed into the bits of the
16-bit flags word above the six flag bits. -/
def FILC_OBJECT_FLAGS_PIN_SHIFT : Nat := 6

/-- The object header (`filc_object`): payload bounds, the 16-bit flags
word and the flexible array of word tags, which carries no length of its
own (its extent is `filc_object_num_words`). -/
structure filc_object where
  lower : Nat
  upper : Nat
  flags : Nat
  word_types : Nat → filc_word_type

/-- A capability (`filc_ptr`): the header address of its object, if any,
and the raw address. -/
structure filc_ptr where
  object : Option Nat
  ptr : Nat
  deriving DecidableEq

/-- The heap: object headers by header address, payload by byte address. -/
structure filc_heap where
  objects : Nat → filc_object
  memory : Nat → Nat

/-- The access kind of a check (`filc_access_kind`). -/
inductive filc_access_kind
  | filc_read_access
  | filc_write_access
  deriving DecidableEq, Repr

open filc_access_kind

/-- Why an operation stopped the process: one constructor per `FILC_CHECK`
message used by the embedded functions, `assertion` for a failed
`PAS_ASSERT`/`FILC_ASSERT`, `null_dereference` for a header read through a
null object pointer, and `never_returns` for a retry loop that waits for
another thread to change a word, which no step of this thread does. -/
inductive filc_panic
  | null_object
  | ptr_below_lower
  | ptr_at_or_above_upper
  | too_many_bytes
  | readonly_object
  | free_object
  | free_or_special_object
  | span_contains_non_ints
  | ptr_not_aligned
  | word_is_non_ptr
  | cannot_copy_non_int_non_ptr
  | type_mismatch_while_copying
  | free_already_free
  | free_pinned
  | free_special
  | free_global
  | free_mmap
  | free_no_object
  | free_ptr_not_lower
  | pin_free_object
  | pin_count_overflow
  | assertion
  | null_dereference
  | never_returns
  | munmap_not_whole
  | munmap_not_mmapped
  deriving DecidableEq, Repr

/-- The bounds and null-object failures of check-common together with the
read-only and free/special failures: the spec's access violations. -/
def filc_panic.is_access_violation : filc_panic → Bool
  | .null_object => true
  | .ptr_below_lower => true
  | .ptr_at_or_above_upper => true
  | .too_many_bytes => true
  | .readonly_object => true
  | .free_object => true
  | .free_or_special_object => true
  | _ => false

/-- The word-tag failures: the spec's type violations. -/
def filc_panic.is_type_violation : filc_panic → Bool
  | .span_contains_non_ints => true
  | .ptr_not_aligned => true
  | .word_is_non_ptr => true
  | .cannot_copy_non_int_non_ptr => true
  | .type_mismatch_while_copying => true
  | _ => false

/-- The outcome of an operation: it returned `value`, or it panicked; in
both cases `heap` is the heap it left behind. -/
inductive filc_result (α : Type)
  | done (value : α) (heap : filc_heap)
  | panic (why : filc_panic) (heap : filc_heap)

/-- The heap an operation left behind. -/
def filc_result.heap {α : Type} : filc_result α → filc_heap
  | .done _ h => h
  | .panic _ h => h

/-- Whether the operation returned. -/
def filc_result.succeeded {α : Type} : filc_result α → Bool
  | .done _ _ => true
  | .panic _ _ => false

/-- The panic an operation ended in, if it did. -/
def filc_result.why {α : Type} : filc_result α → Option filc_panic
  | .done _ _ => none
  | .panic e _ => some e

/-- Sequencing: run `k` on the heap of a finished operation, keep a panic. -/
def filc_result.and_then {α β : Type} (r : filc_result α)
    (k : α → filc_heap → filc_result β) : filc_result β :=
  match r with
  | .done a h => k a h
  | .panic e h => .panic e h

/-- Modelled from the spec: `filc_ptr_lower` of the missing header
`filc_runtime.h`, the lower bound through the capability, null without an
object. -/
def filc_ptr_lower (h : filc_heap) (ptr : filc_ptr) : Nat :=
  match ptr.object with
  | none => 0
  | some o => (h.objects o).lower

/-- Modelled from the spec: `filc_ptr_upper` of the missing header, the
upper bound through the capability, null without an object. -/
def filc_ptr_upper (h : filc_heap) (ptr : filc_ptr) : Nat :=
  match ptr.object with
  | none => 0
  | some o => (h.objects o).upper

/-- Modelled from the spec: `filc_ptr_offset` of the missing header, the
`uintptr_t` distance of the address from the lower bound. -/
def filc_ptr_offset (h : filc_heap) (ptr : filc_ptr) : Nat :=
  (ptr.ptr + 2 ^ 64 - filc_ptr_lower h ptr) % 2 ^ 64

/-- Modelled from the spec: `filc_ptr_available` of the missing header, the
`uintptr_t` distance from the address to the upper bound. -/
def filc_ptr_available (h : filc_heap) (ptr : filc_ptr) : Nat :=
  (filc_ptr_upper h ptr + 2 ^ 64 - ptr.ptr) % 2 ^ 64

/-- Modelled from the spec: `filc_ptr_with_ptr` of the missing header, the
same capability at another address. -/
def filc_ptr_with_ptr (ptr : filc_ptr) (new_ptr : Nat) : filc_ptr :=
  { object := ptr.object, ptr := new_ptr }

/-- Modelled from the spec: `filc_ptr_with_offset` of the missing header,
the same capability with the address moved by `offset`. -/
def filc_ptr_with_offset (ptr : filc_ptr) (offset : Nat) : filc_ptr :=
  { object := ptr.object, ptr := ptr.ptr + offset }

/-- Modelled from the spec: `pas_round_up_to_power_of_2` of the missing
header `pas_utils.h` on `size_t`, for an alignment that is a power of two;
the sum wraps at 64 bits. -/
def pas_round_up_to_power_of_2 (size alignment : Nat) : Nat :=
  (size + alignment - 1) % 2 ^ 64 / alignment * alignment

/-- Modelled from the spec: `pas_round_down_to_power_of_2` of the missing
header `pas_utils.h` on `size_t`. -/
def pas_round_down_to_power_of_2 (size alignment : Nat) : Nat :=
  size / alignment * alignment

/-- Modelled from the spec: `filc_object_size` of the missing header, the
payload length. -/
def filc_object_size (o : filc_object) : Nat :=
  o.upper - o.lower

/-- Modelled from the spec: `filc_object_num_words_for_size` of the missing
header, the number of 16-byte words that cover `size` bytes. -/
def filc_object_num_words_for_size (size : Nat) : Nat :=
  pas_round_up_to_power_of_2 size FILC_WORD_SIZE / FILC_WORD_SIZE

/-- Modelled from the spec: `filc_object_num_words` of the missing header,
the extent of the tag array. -/
def filc_object_num_words (o : filc_object) : Nat :=
  filc_object_num_words_for_size (filc_object_size o)

/-- Store one field update of a header back into the heap. -/
def filc_heap.set_object (h : filc_heap) (o : Nat) (obj : filc_object) : filc_heap :=
  { h with objects := fun x => if x = o then obj else h.objects x }

/-- Write one word tag: `object->word_types[index] = word_type`. -/
def filc_object.set_word_type (obj : filc_object) (index : Nat)
    (word_type : filc_word_type) : filc_object :=
  { obj with word_types := fun i => if i = index then word_type else obj.word_types i }

/-- `filc_check_access_common` with the testing-only validation disabled:
the five `FILC_CHECK`s in source order.  It writes nothing. -/
def filc_check_access_common (h : filc_heap) (ptr : filc_ptr) (bytes : Nat)
    (access_kind : filc_access_kind) : filc_result Unit :=
  match ptr.object with
  | none => .panic .null_object h
  | some o =>
    if ¬ (ptr.ptr ≥ filc_ptr_lower h ptr) then .panic .ptr_below_lower h
    else if ¬ (ptr.ptr < filc_ptr_upper h ptr) then .panic .ptr_at_or_above_upper h
    else if ¬ (bytes ≤ filc_ptr_available h ptr) then .panic .too_many_bytes h
    else if access_kind = filc_write_access ∧
        (h.objects o).flags &&& FILC_OBJECT_FLAG_READONLY ≠ 0 then
      .panic .readonly_object h
    else .done () h

/-- One turn of the lazy-typing loop of `check_int` on the word tag at
`word_type_index`: an `UNSET` tag is swapped to `INT`, any other tag must
be `INT`. -/
def check_int_word (h : filc_heap) (o : Nat) (word_type_index : Nat) : filc_result Unit :=
  let word_type := (h.objects o).word_types word_type_index
  if word_type = FILC_WORD_TYPE_UNSET then
    .done () (h.set_object o ((h.objects o).set_word_type word_type_index FILC_WORD_TYPE_INT))
  else if word_type = FILC_WORD_TYPE_INT then .done () h
  else .panic .span_contains_non_ints h

/-- The `for` loop of `check_int`: `n` words starting at `word_type_index`,
in ascending order, stopping at the first failure. -/
def check_int_loop (o : Nat) : (n : Nat) → (word_type_index : Nat) → filc_heap → filc_result Unit
  | 0, _, h => .done () h
  | n + 1, word_type_index, h =>
    match check_int_word h o word_type_index with
    | .done _ h1 => check_int_loop o n (word_type_index + 1) h1
    | .panic e h1 => .panic e h1

/-- `check_int`: the words from `offset / 16` to `(offset + bytes - 1) / 16`,
the subtraction on `uintptr_t`. -/
def check_int (h : filc_heap) (ptr : filc_ptr) (bytes : Nat) : filc_result Unit :=
  match ptr.object with
  | none => .panic .null_dereference h
  | some o =>
    let offset := filc_ptr_offset h ptr
    let first_word_type_index := offset / FILC_WORD_SIZE
    let last_word_type_index := (offset + bytes + 2 ^ 64 - 1) % 2 ^ 64 / FILC_WORD_SIZE
    check_int_loop o (last_word_type_index + 1 - first_word_type_index) first_word_type_index h

/-- `filc_check_access_int`. -/
def filc_check_access_int (h : filc_heap) (ptr : filc_ptr) (bytes : Nat)
    (access_kind : filc_access_kind) : filc_result Unit :=
  if bytes = 0 then .done () h
  else
    (filc_check_access_common h ptr bytes access_kind).and_then fun _ h1 =>
      check_int h1 ptr bytes

/-- `filc_check_access_ptr`: check-common for `sizeof(filc_ptr)` = 16 bytes,
alignment of the offset, then the lazy `UNSET` to `PTR` transition. -/
def filc_check_access_ptr (h : filc_heap) (ptr : filc_ptr)
    (access_kind : filc_access_kind) : filc_result Unit :=
  (filc_check_access_common h ptr 16 access_kind).and_then fun _ h1 =>
    match ptr.object with
    | none => .panic .null_dereference h1
    | some o =>
      let offset := filc_ptr_offset h1 ptr
      if ¬ (offset % FILC_WORD_SIZE = 0) then .panic .ptr_not_aligned h1
      else
        let word_type_index := offset / FILC_WORD_SIZE
        let word_type := (h1.objects o).word_types word_type_index
        if word_type = FILC_WORD_TYPE_UNSET then
          .done () (h1.set_object o
            ((h1.objects o).set_word_type word_type_index FILC_WORD_TYPE_PTR))
        else if word_type = FILC_WORD_TYPE_PTR then .done () h1
        else .panic .word_is_non_ptr h1

/-- `check_accessible`: the object is neither free nor special. -/
def check_accessible (h : filc_heap) (ptr : filc_ptr) : filc_result Unit :=
  match ptr.object with
  | none => .panic .null_dereference h
  | some o =>
    if (h.objects o).flags &&& (FILC_OBJECT_FLAG_FREE ||| FILC_OBJECT_FLAG_SPECIAL) ≠ 0 then
      .panic .free_or_special_object h
    else .done () h

/-- `check_object_accessible`: the same test on an object pointer. -/
def check_object_accessible (h : filc_heap) (o : Nat) : filc_result Unit :=
  if (h.objects o).flags &&& (FILC_OBJECT_FLAG_FREE ||| FILC_OBJECT_FLAG_SPECIAL) ≠ 0 then
    .panic .free_or_special_object h
  else .done () h

/-- `filc_pin`: no-op on null and global objects, otherwise one more pin in
the high bits of the 16-bit flags word. -/
def filc_pin (h : filc_heap) (object : Option Nat) : filc_result Unit :=
  match object with
  | none => .done () h
  | some o =>
    if (h.objects o).flags &&& FILC_OBJECT_FLAG_GLOBAL ≠ 0 then .done () h
    else
      let old_flags := (h.objects o).flags
      if old_flags &&& FILC_OBJECT_FLAG_FREE ≠ 0 then .panic .pin_free_object h
      else if old_flags &&& FILC_OBJECT_FLAG_RETURN_BUFFER ≠ 0 then .panic .assertion h
      else
        let new_flags := (old_flags + (1 <<< FILC_OBJECT_FLAGS_PIN_SHIFT)) % 2 ^ 16
        if new_flags >>> FILC_OBJECT_FLAGS_PIN_SHIFT = 0 then .panic .pin_count_overflow h
        else .done () (h.set_object o { h.objects o with flags := new_flags })

/-- `filc_unpin`: no-op on null and global objects, otherwise one pin less,
under the four assertions of the source. -/
def filc_unpin (h : filc_heap) (object : Option Nat) : filc_result Unit :=
  match object with
  | none => .done () h
  | some o =>
    if (h.objects o).flags &&& FILC_OBJECT_FLAG_GLOBAL ≠ 0 then .done () h
    else
      let old_flags := (h.objects o).flags
      if old_flags &&& FILC_OBJECT_FLAG_FREE ≠ 0 then .panic .assertion h
      else if old_flags >>> FILC_OBJECT_FLAGS_PIN_SHIFT = 0 then .panic .assertion h
      else if old_flags &&& FILC_OBJECT_FLAG_RETURN_BUFFER ≠ 0 then .panic .assertion h
      else if ¬ (old_flags ≥ (1 <<< FILC_OBJECT_FLAGS_PIN_SHIFT)) then .panic .assertion h
      else
        let new_flags := old_flags - (1 <<< FILC_OBJECT_FLAGS_PIN_SHIFT)
        .done () (h.set_object o { h.objects o with flags := new_flags })

/-- The C library `memset` on the payload: `n` bytes from `s` become the
byte `c`. -/
def memset (m : Nat → Nat) (s c n : Nat) : Nat → Nat :=
  fun a => if s ≤ a ∧ a < s + n then c % 256 else m a

/-- The C library `memmove` on the payload: the `n` bytes from `dst` become
the bytes that stood at `src` before the call. -/
def memmove (m : Nat → Nat) (dst src n : Nat) : Nat → Nat :=
  fun a => if dst ≤ a ∧ a < dst + n then m (src + (a - dst)) else m a

/-- The C library `memcmp`: the sign of the first differing byte pair. -/
def memcmp (m : Nat → Nat) (p1 p2 : Nat) : (n : Nat) → Int
  | 0 => 0
  | n + 1 =>
    if m p1 < m p2 then -1
    else if m p1 > m p2 then 1
    else memcmp m (p1 + 1) (p2 + 1) n

/-- Replace the payload of a heap. -/
def filc_heap.set_memory (h : filc_heap) (m : Nat → Nat) : filc_heap :=
  { h with memory := m }

/-- A `pas_uint128` as read from memory: its sixteen bytes, lowest address
first. -/
def load_uint128 (m : Nat → Nat) (a : Nat) : List Nat :=
  (List.range 16).map fun k => m (a + k)

/-- Store a `pas_uint128` given by its sixteen bytes at address `a`. -/
def store_uint128 (m : Nat → Nat) (a : Nat) (word : List Nat) : Nat → Nat :=
  fun x => if a ≤ x ∧ x < a + 16 then word.getD (x - a) 0 else m x

/-- The test `!word` on a `pas_uint128`: every byte is zero. -/
def uint128_is_zero (word : List Nat) : Bool :=
  word.all fun b => b = 0

/-- `filc_memset_with_exit`: a plain `memset`, bracketed by pin, exit, enter
and unpin when more than `max_bytes` (`FILC_MAX_BYTES_BETWEEN_POLLCHECKS`,
a constant of the missing header) are written. -/
def filc_memset_with_exit (max_bytes : Nat) (h : filc_heap) (object : Option Nat)
    (ptr value bytes : Nat) : filc_result Unit :=
  if bytes ≤ max_bytes then .done () (h.set_memory (memset h.memory ptr value bytes))
  else
    (filc_pin h object).and_then fun _ h1 =>
      filc_unpin (h1.set_memory (memset h1.memory ptr value bytes)) object

/-- `filc_low_level_ptr_safe_bzero`: whole words of zero, after the
assertion that `bytes` is a multiple of the word size. -/
def filc_low_level_ptr_safe_bzero (h : filc_heap) (raw_ptr bytes : Nat) : filc_result Unit :=
  if ¬ (bytes % FILC_WORD_SIZE = 0) then .panic .assertion h
  else .done () (h.set_memory (memset h.memory raw_ptr 0 (bytes / FILC_WORD_SIZE * FILC_WORD_SIZE)))

/-- `filc_low_level_ptr_safe_bzero_with_exit`. -/
def filc_low_level_ptr_safe_bzero_with_exit (max_bytes : Nat) (h : filc_heap)
    (object : Option Nat) (raw_ptr bytes : Nat) : filc_result Unit :=
  if bytes ≤ max_bytes then filc_low_level_ptr_safe_bzero h raw_ptr bytes
  else
    (filc_pin h object).and_then fun _ h1 =>
      (filc_low_level_ptr_safe_bzero h1 raw_ptr bytes).and_then fun _ h2 =>
        filc_unpin h2 object

/-- `filc_memset`: nothing for `count = 0`; check-common for writing; a zero
fill int-checks only the partial words at the two ends and clears the
whole words in between after `check_accessible`; any other fill int-checks
the whole range. -/
def filc_memset (max_bytes : Nat) (h : filc_heap) (ptr : filc_ptr) (value count : Nat) :
    filc_result Unit :=
  if count = 0 then .done () h
  else
    let raw_ptr := ptr.ptr
    (filc_check_access_common h ptr count filc_write_access).and_then fun _ h1 =>
      if value = 0 then
        let start := raw_ptr
        let end_ := raw_ptr + count
        let aligned_start := pas_round_up_to_power_of_2 start FILC_WORD_SIZE
        let aligned_end := pas_round_down_to_power_of_2 end_ FILC_WORD_SIZE
        if aligned_start > end_ ∨ aligned_end < start then
          (check_int h1 ptr count).and_then fun _ h2 =>
            .done () (h2.set_memory (memset h2.memory raw_ptr 0 count))
        else
          (if aligned_start > start then
            (check_int h1 ptr (aligned_start - start)).and_then fun _ h2 =>
              .done () (h2.set_memory (memset h2.memory start 0 (aligned_start - start)))
           else .done () h1).and_then fun _ h3 =>
            (check_accessible h3 ptr).and_then fun _ h4 =>
              (filc_low_level_ptr_safe_bzero_with_exit max_bytes h4 ptr.object aligned_start
                (aligned_end - aligned_start)).and_then fun _ h5 =>
                if end_ > aligned_end then
                  (check_int h5 (filc_ptr_with_ptr ptr aligned_end)
                    (end_ - aligned_end)).and_then fun _ h6 =>
                    .done () (h6.set_memory (memset h6.memory aligned_end 0 (end_ - aligned_end)))
                else .done () h5
      else
        (check_int h1 ptr count).and_then fun _ h2 =>
          filc_memset_with_exit max_bytes h2 ptr.object raw_ptr value count

/-- The two partial-word edges of a copy (`memmove_smidgen_part`). -/
inductive memmove_smidgen_part
  | memmove_lower_smidgen
  | memmove_upper_smidgen
  deriving DecidableEq, Repr

open memmove_smidgen_part

/-- `memmove_smidgen`: the bytes of the copy below the first whole
destination word, or above the last one, copied bytewise after both sides
pass `check_int`. -/
def memmove_smidgen (part : memmove_smidgen_part) (h : filc_heap) (dst src : filc_ptr)
    (dst_start aligned_dst_start dst_end aligned_dst_end src_start : Nat) : filc_result Unit :=
  match part with
  | memmove_lower_smidgen =>
    if aligned_dst_start > dst_start then
      (check_int h dst (aligned_dst_start - dst_start)).and_then fun _ h1 =>
        (check_int h1 src (aligned_dst_start - dst_start)).and_then fun _ h2 =>
          .done () (h2.set_memory
            (memmove h2.memory dst_start src_start (aligned_dst_start - dst_start)))
    else .done () h
  | memmove_upper_smidgen =>
    if dst_end > aligned_dst_end then
      (check_int h (filc_ptr_with_ptr dst aligned_dst_end)
          (dst_end - aligned_dst_end)).and_then fun _ h1 =>
        (check_int h1 (filc_ptr_with_offset src (aligned_dst_end - dst_start))
            (dst_end - aligned_dst_end)).and_then fun _ h2 =>
          .done () (h2.set_memory
            (memmove h2.memory aligned_dst_end (src_start + (aligned_dst_end - dst_start))
              (dst_end - aligned_dst_end)))
    else .done () h

/-- The body of the word loop of `memmove_impl` for one destination word:
a zero source word is stored without any tag test; a non-zero word under
an `UNSET` source tag makes the loop retry; otherwise the source tag must
be `INT` or `PTR`, an `UNSET` destination tag takes it, any other
destination tag must equal it, and the word is stored. -/
def memmove_word (h : filc_heap) (dst_object src_object : Nat) (src_can_has_ptrs : Bool)
    (cur_dst cur_src cur_dst_word_index cur_src_word_index : Nat) : filc_result Unit :=
  let src_word_type :=
    if src_can_has_ptrs then (h.objects src_object).word_types cur_src_word_index
    else FILC_WORD_TYPE_INT
  let src_word := load_uint128 h.memory cur_src
  if uint128_is_zero src_word then
    .done () (h.set_memory (store_uint128 h.memory cur_dst (List.replicate 16 0)))
  else if src_word_type = FILC_WORD_TYPE_UNSET then .panic .never_returns h
  else if ¬ (src_word_type = FILC_WORD_TYPE_INT ∨ src_word_type = FILC_WORD_TYPE_PTR) then
    .panic .cannot_copy_non_int_non_ptr h
  else
    let dst_word_type := (h.objects dst_object).word_types cur_dst_word_index
    if dst_word_type = FILC_WORD_TYPE_UNSET then
      let h1 := h.set_object dst_object
        ((h.objects dst_object).set_word_type cur_dst_word_index src_word_type)
      .done () (h1.set_memory (store_uint128 h1.memory cur_dst src_word))
    else if ¬ (src_word_type = dst_word_type) then .panic .type_mismatch_while_copying h
    else .done () (h.set_memory (store_uint128 h.memory cur_dst src_word))

/-- The `while (countdown--)` loop of `memmove_impl`.  After each word the
cursors move one word up or down; `pollcheck n` tells whether the
pollcheck taken with `n` words still to go reported activity, in which
case both objects are tested with `check_accessible` again. -/
def memmove_loop (dst src : filc_ptr) (dst_object src_object : Nat)
    (src_can_has_ptrs is_up pollchecked : Bool) (pollcheck : Nat → Bool) :
    (countdown : Nat) → (cur_dst cur_src cur_dst_word_index cur_src_word_index : Nat) →
    filc_heap → filc_result Unit
  | 0, _, _, _, _, h => .done () h
  | n + 1, cur_dst, cur_src, cur_dst_word_index, cur_src_word_index, h =>
    match memmove_word h dst_object src_object src_can_has_ptrs cur_dst cur_src
        cur_dst_word_index cur_src_word_index with
    | .panic e h1 => .panic e h1
    | .done _ h1 =>
      let next_dst := if is_up then cur_dst + 16 else cur_dst - 16
      let next_src := if is_up then cur_src + 16 else cur_src - 16
      let next_dst_word_index := if is_up then cur_dst_word_index + 1 else cur_dst_word_index - 1
      let next_src_word_index := if is_up then cur_src_word_index + 1 else cur_src_word_index - 1
      if pollchecked && pollcheck n then
        match check_accessible h1 dst with
        | .panic e h2 => .panic e h2
        | .done _ h2 =>
          match check_accessible h2 src with
          | .panic e h3 => .panic e h3
          | .done _ h3 =>
            memmove_loop dst src dst_object src_object src_can_has_ptrs is_up pollchecked
              pollcheck n next_dst next_src next_dst_word_index next_src_word_index h3
      else
        memmove_loop dst src dst_object src_object src_can_has_ptrs is_up pollchecked
          pollcheck n next_dst next_src next_dst_word_index next_src_word_index h1

/-- `memmove_impl` (the barrier mode only concerns the collector and is
left out): a copy that covers no whole destination word is an int copy;
otherwise the first edge, the accessibility tests, the word loop in the
direction given by the address order, and the other edge. -/
def memmove_impl (h : filc_heap) (dst src : filc_ptr) (count : Nat) (pollchecked : Bool)
    (pollcheck : Nat → Bool) : filc_result Unit :=
  let dst_start := dst.ptr
  let src_start := src.ptr
  let dst_end := dst_start + count
  let aligned_dst_start := pas_round_up_to_power_of_2 dst_start FILC_WORD_SIZE
  let aligned_dst_end := pas_round_down_to_power_of_2 dst_end FILC_WORD_SIZE
  if aligned_dst_start > dst_end ∨ aligned_dst_end < dst_start then
    (check_int h dst count).and_then fun _ h1 =>
      (check_int h1 src count).and_then fun _ h2 =>
        .done () (h2.set_memory (memmove h2.memory dst_start src_start count))
  else
    let is_up : Bool := decide (dst_start < src_start)
    (memmove_smidgen (if is_up then memmove_lower_smidgen else memmove_upper_smidgen)
        h dst src dst_start aligned_dst_start dst_end aligned_dst_end src_start).and_then
      fun _ h1 =>
      let src_can_has_ptrs : Bool :=
        decide (dst_start % FILC_WORD_SIZE = src_start % FILC_WORD_SIZE)
      (check_accessible h1 dst).and_then fun _ h2 =>
        (if src_can_has_ptrs then check_accessible h2 src
         else check_int h2 src count).and_then fun _ h3 =>
          match dst.object, src.object with
          | some dst_object, some src_object =>
            let cur_dst := aligned_dst_start
            let cur_src := src_start + (aligned_dst_start - dst_start)
            let cur_dst_word_index := (cur_dst - (h3.objects dst_object).lower) / FILC_WORD_SIZE
            let cur_src_word_index := (cur_src - (h3.objects src_object).lower) / FILC_WORD_SIZE
            let countdown := (aligned_dst_end - aligned_dst_start) / FILC_WORD_SIZE
            let back := if is_up then 0 else countdown - 1
            (memmove_loop dst src dst_object src_object src_can_has_ptrs is_up pollchecked
                pollcheck countdown (cur_dst + 16 * back) (cur_src + 16 * back)
                (cur_dst_word_index + back) (cur_src_word_index + back) h3).and_then
              fun _ h4 =>
              memmove_smidgen (if is_up then memmove_upper_smidgen else memmove_lower_smidgen)
                h4 dst src dst_start aligned_dst_start dst_end aligned_dst_end src_start
          | _, _ => .panic .null_dereference h3

/-- `filc_memmove`: nothing for `count = 0`; check-common on the destination
for writing and on the source for reading; then `memmove_impl`, barriered
and pollchecked. -/
def filc_memmove (h : filc_heap) (dst src : filc_ptr) (count : Nat)
    (pollcheck : Nat → Bool) : filc_result Unit :=
  if count = 0 then .done () h
  else
    (filc_check_access_common h dst count filc_write_access).and_then fun _ h1 =>
      (filc_check_access_common h1 src count filc_read_access).and_then fun _ h2 =>
        memmove_impl h2 dst src count true pollcheck

/-- `filc_native_zmemcmp`: zero for `count = 0`; check-common for reading on
both pointers, `check_accessible` on both, then the comparison, bracketed
by pin and unpin of both objects when more than `max_bytes` are compared. -/
def filc_native_zmemcmp (max_bytes : Nat) (h : filc_heap) (ptr1 ptr2 : filc_ptr)
    (count : Nat) : filc_result Int :=
  if count = 0 then .done 0 h
  else
    (filc_check_access_common h ptr1 count filc_read_access).and_then fun _ h1 =>
      (filc_check_access_common h1 ptr2 count filc_read_access).and_then fun _ h2 =>
        (check_accessible h2 ptr1).and_then fun _ h3 =>
          (check_accessible h3 ptr2).and_then fun _ h4 =>
            if count ≤ max_bytes then .done (memcmp h4.memory ptr1.ptr ptr2.ptr count) h4
            else
              (filc_pin h4 ptr1.object).and_then fun _ h5 =>
                (filc_pin h5 ptr2.object).and_then fun _ h6 =>
                  let result := memcmp h6.memory ptr1.ptr ptr2.ptr count
                  (filc_unpin h6 ptr1.object).and_then fun _ h7 =>
                    (filc_unpin h7 ptr2.object).and_then fun _ h8 => .done result h8

/-- The loop `for (index = n; index--;) object->word_types[index] = t`. -/
def fill_word_types (t : filc_word_type) : (index : Nat) → filc_object → filc_object
  | 0, obj => obj
  | index + 1, obj => fill_word_types t index (obj.set_word_type index t)

/-- `filc_free_yolo`: panics on a free or pinned object; otherwise sets the
`FREE` flag and then every word tag to `FREE`. -/
def filc_free_yolo (h : filc_heap) (object : Nat) : filc_result Unit :=
  let old_flags := (h.objects object).flags
  if old_flags &&& FILC_OBJECT_FLAG_FREE ≠ 0 then .panic .free_already_free h
  else if old_flags >>> FILC_OBJECT_FLAGS_PIN_SHIFT ≠ 0 then .panic .free_pinned h
  else
    let new_flags := old_flags ||| FILC_OBJECT_FLAG_FREE
    let h1 := h.set_object object { h.objects object with flags := new_flags }
    .done () (h1.set_object object
      (fill_word_types FILC_WORD_TYPE_FREE (filc_object_num_words (h1.objects object))
        (h1.objects object)))

/-- `filc_free`: rejects special, global and mmap objects, then
`filc_free_yolo`. -/
def filc_free (h : filc_heap) (object : Nat) : filc_result Unit :=
  if (h.objects object).flags &&& FILC_OBJECT_FLAG_SPECIAL ≠ 0 then .panic .free_special h
  else if (h.objects object).flags &&& FILC_OBJECT_FLAG_GLOBAL ≠ 0 then .panic .free_global h
  else if (h.objects object).flags &&& FILC_OBJECT_FLAG_MMAP ≠ 0 then .panic .free_mmap h
  else filc_free_yolo h object

/-- Modelled from the spec: `PAS_OFFSETOF(filc_object, word_types)` of the
missing header; the header holds the two 64-bit bounds and the 16-bit
flags word before the tags. -/
def filc_object_word_types_offset : Nat := 18

/-- Modelled from the spec: `pas_add_uintptr_overflow` of the missing header
`pas_utils.h`, the sum when it fits in 64 bits. -/
def pas_add_uintptr_overflow (a b : Nat) : Option Nat :=
  if a + b < 2 ^ 64 then some (a + b) else none

/-- What `prepare_allocate` hands back through its pointer arguments. -/
structure filc_allocation_plan where
  size : Nat
  num_words : Nat
  offset_to_payload : Nat
  total_size : Nat
  deriving DecidableEq, Repr

/-- `prepare_allocate_object`: the size rounded up to the word size, the
word count and the header size; `none` when one of its two assertions
fails. -/
def prepare_allocate_object (size : Nat) : Option (Nat × Nat × Nat) :=
  let original_size := size
  let size := pas_round_up_to_power_of_2 size FILC_WORD_SIZE
  if ¬ (size ≥ original_size) then none
  else
    let num_words := filc_object_num_words_for_size size
    match pas_add_uintptr_overflow filc_object_word_types_offset num_words with
    | none => none
    | some base_object_size => some (size, num_words, base_object_size)

/-- `prepare_allocate`: adds the payload offset, rounded up to `alignment`,
and the total size; `none` when an assertion fails. -/
def prepare_allocate (size alignment : Nat) : Option filc_allocation_plan :=
  match prepare_allocate_object size with
  | none => none
  | some (size, num_words, base_object_size) =>
    let offset_to_payload := pas_round_up_to_power_of_2 base_object_size alignment
    if ¬ (offset_to_payload ≥ base_object_size) then none
    else
      match pas_add_uintptr_overflow offset_to_payload size with
      | none => none
      | some total_size =>
        some { size := size, num_words := num_words, offset_to_payload := offset_to_payload,
               total_size := total_size }

/-- `initialize_object`: bounds, flags, all tags, zeroed payload. -/
def initialize_object (h : filc_heap) (result size num_words offset_to_payload : Nat)
    (object_flags : Nat) (initial_word_type : filc_word_type) : filc_heap :=
  let h1 := h.set_object result
    { h.objects result with
      lower := result + offset_to_payload
      upper := result + offset_to_payload + size
      flags := object_flags }
  let h2 := h1.set_object result (fill_word_types initial_word_type num_words (h1.objects result))
  h2.set_memory (memset h2.memory (result + offset_to_payload) 0 size)

/-- `finish_allocate`: both branches of its size test run
`initialize_object`; they differ only in the allocation-root bracket. -/
def finish_allocate (h : filc_heap) (allocation size num_words offset_to_payload : Nat)
    (object_flags : Nat) (initial_word_type : filc_word_type) : filc_result Nat :=
  .done allocation
    (initialize_object h allocation size num_words offset_to_payload object_flags
      initial_word_type)

/-- `allocate_impl`; `verse_heap_allocate` is the heap allocator, which is
outside this file: it maps the total size to the address of the storage. -/
def allocate_impl (verse_heap_allocate : Nat → Nat) (h : filc_heap) (size : Nat)
    (object_flags : Nat) (initial_word_type : filc_word_type) : filc_result Nat :=
  match prepare_allocate size FILC_WORD_SIZE with
  | none => .panic .assertion h
  | some plan =>
    finish_allocate h (verse_heap_allocate plan.total_size) plan.size plan.num_words
      plan.offset_to_payload object_flags initial_word_type

/-- `filc_allocate`. -/
def filc_allocate (verse_heap_allocate : Nat → Nat) (h : filc_heap) (size : Nat) :
    filc_result Nat :=
  allocate_impl verse_heap_allocate h size 0 FILC_WORD_TYPE_UNSET

/-- `filc_allocate_int`. -/
def filc_allocate_int (verse_heap_allocate : Nat → Nat) (h : filc_heap) (size : Nat) :
    filc_result Nat :=
  allocate_impl verse_heap_allocate h size 0 FILC_WORD_TYPE_INT

/-- `filc_allocate_with_alignment`; `verse_heap_allocate_with_alignment`
maps the total size and the alignment asked for to the storage address. -/
def filc_allocate_with_alignment (verse_heap_allocate_with_alignment : Nat → Nat → Nat)
    (h : filc_heap) (size alignment : Nat) : filc_result Nat :=
  let alignment := max alignment FILC_WORD_SIZE
  match prepare_allocate size alignment with
  | none => .panic .assertion h
  | some plan =>
    finish_allocate h (verse_heap_allocate_with_alignment plan.total_size alignment) plan.size
      plan.num_words plan.offset_to_payload 0 FILC_WORD_TYPE_UNSET

/-- One turn of the copy loop of `finish_reallocate` for word `index`: a
non-zero word under an `UNSET` tag makes the loop retry; otherwise tag and
word are copied to the new object. -/
def reallocate_copy_word (h : filc_heap) (result old_object dst src index : Nat) :
    filc_result Unit :=
  let word_type := (h.objects old_object).word_types index
  let word := load_uint128 h.memory (src + 16 * index)
  if word_type = FILC_WORD_TYPE_UNSET ∧ ¬ uint128_is_zero word then .panic .never_returns h
  else
    let h1 := h.set_object result ((h.objects result).set_word_type index word_type)
    .done () (h1.set_memory (store_uint128 h1.memory (dst + 16 * index) word))

/-- The loop `for (index = common_num_words; index--;)` of
`finish_reallocate`. -/
def reallocate_copy_loop (result old_object dst src : Nat) :
    (index : Nat) → filc_heap → filc_result Unit
  | 0, h => .done () h
  | index + 1, h =>
    match reallocate_copy_word h result old_object dst src index with
    | .panic e h1 => .panic e h1
    | .done _ h1 => reallocate_copy_loop result old_object dst src index h1

/-- `finish_reallocate`: the old object must be neither free nor special;
the new header and a blank payload are written, the common words are
copied with their tags, and the old object is freed with `filc_free`. -/
def finish_reallocate (h : filc_heap) (allocation old_object new_size num_words
    offset_to_payload : Nat) : filc_result Nat :=
  (check_object_accessible h old_object).and_then fun _ h1 =>
    let old_num_words := filc_object_num_words (h1.objects old_object)
    let common_num_words := min num_words old_num_words
    let result := allocation
    let h2 := h1.set_object result
      { h1.objects result with
        lower := result + offset_to_payload
        upper := result + offset_to_payload + new_size
        flags := 0 }
    let h3 := h2.set_object result
      (fill_word_types FILC_WORD_TYPE_UNSET num_words (h2.objects result))
    let h4 := h3.set_memory (memset h3.memory (result + offset_to_payload) 0 new_size)
    let dst := result + offset_to_payload
    let src := (h4.objects old_object).lower
    (reallocate_copy_loop result old_object dst src common_num_words h4).and_then fun _ h5 =>
      (filc_free h5 old_object).and_then fun _ h6 => .done result h6

/-- `filc_reallocate`. -/
def filc_reallocate (verse_heap_allocate : Nat → Nat) (h : filc_heap) (object new_size : Nat) :
    filc_result Nat :=
  match prepare_allocate new_size FILC_WORD_SIZE with
  | none => .panic .assertion h
  | some plan =>
    finish_reallocate h (verse_heap_allocate plan.total_size) object plan.size plan.num_words
      plan.offset_to_payload

/-- `filc_reallocate_with_alignment`: the alignment goes to the heap
allocator only; the payload offset is computed for `FILC_WORD_SIZE`. -/
def filc_reallocate_with_alignment (verse_heap_allocate_with_alignment : Nat → Nat → Nat)
    (h : filc_heap) (object new_size alignment : Nat) : filc_result Nat :=
  let alignment := max alignment FILC_WORD_SIZE
  match prepare_allocate new_size FILC_WORD_SIZE with
  | none => .panic .assertion h
  | some plan =>
    finish_reallocate h (verse_heap_allocate_with_alignment plan.total_size alignment) object
      plan.size plan.num_words plan.offset_to_payload

/-- Modelled from the spec: `filc_ptr_create_with_manual_tracking` of the
missing header, the capability of an object, pointing at its lower bound. -/
def filc_ptr_create_with_manual_tracking (h : filc_heap) (object : Nat) : filc_ptr :=
  { object := some object, ptr := (h.objects object).lower }

/-- `object_for_deallocate`: the pointer must have an object and point at
its lower bound. -/
def object_for_deallocate (h : filc_heap) (ptr : filc_ptr) : filc_result Nat :=
  match ptr.object with
  | none => .panic .free_no_object h
  | some o =>
    if ¬ (ptr.ptr = filc_ptr_lower h ptr) then .panic .free_ptr_not_lower h
    else .done o h

/-- `filc_native_zgc_alloc`. -/
def filc_native_zgc_alloc (verse_heap_allocate : Nat → Nat) (h : filc_heap) (size : Nat) :
    filc_result filc_ptr :=
  (filc_allocate verse_heap_allocate h size).and_then fun object h1 =>
    .done (filc_ptr_create_with_manual_tracking h1 object) h1

/-- `filc_native_zgc_aligned_alloc`. -/
def filc_native_zgc_aligned_alloc (verse_heap_allocate_with_alignment : Nat → Nat → Nat)
    (h : filc_heap) (alignment size : Nat) : filc_result filc_ptr :=
  (filc_allocate_with_alignment verse_heap_allocate_with_alignment h size alignment).and_then
    fun object h1 => .done (filc_ptr_create_with_manual_tracking h1 object) h1

/-- `filc_native_zgc_realloc`. -/
def filc_native_zgc_realloc (verse_heap_allocate : Nat → Nat) (h : filc_heap)
    (old_ptr : filc_ptr) (size : Nat) : filc_result filc_ptr :=
  if old_ptr.ptr = 0 then filc_native_zgc_alloc verse_heap_allocate h size
  else
    (object_for_deallocate h old_ptr).and_then fun old_object h1 =>
      (filc_reallocate verse_heap_allocate h1 old_object size).and_then fun object h2 =>
        .done (filc_ptr_create_with_manual_tracking h2 object) h2

/-- `filc_native_zgc_aligned_realloc`: it calls
`filc_reallocate_with_alignment (my_thread, object, alignment, size)`,
whose parameters are `(my_thread, object, new_size, alignment)`. -/
def filc_native_zgc_aligned_realloc (verse_heap_allocate_with_alignment : Nat → Nat → Nat)
    (h : filc_heap) (old_ptr : filc_ptr) (alignment size : Nat) : filc_result filc_ptr :=
  if old_ptr.ptr = 0 then
    filc_native_zgc_aligned_alloc verse_heap_allocate_with_alignment h alignment size
  else
    (object_for_deallocate h old_ptr).and_then fun old_object h1 =>
      (filc_reallocate_with_alignment verse_heap_allocate_with_alignment h1 old_object
          alignment size).and_then fun object h2 =>
        .done (filc_ptr_create_with_manual_tracking h2 object) h2

/-- `filc_native_zgc_free`: nothing for a null address, else `filc_free` of
the object found by `object_for_deallocate`. -/
def filc_native_zgc_free (h : filc_heap) (ptr : filc_ptr) : filc_result Unit :=
  if ptr.ptr = 0 then .done () h
  else (object_for_deallocate h ptr).and_then fun object h1 => filc_free h1 object

/-- An object all of whose addresses, rounded up to a word, fit in 64
bits. -/
def filc_object.addressable (obj : filc_object) : Prop :=
  obj.upper + 16 ≤ 2 ^ 64

instance (obj : filc_object) : Decidable obj.addressable := by
  unfold filc_object.addressable; infer_instance

/-- A small heap for evaluating the operations: every header is an
unflagged object with payload `[4096, 4128)` and `UNSET` tags, and the
payload memory is zero. -/
def sample_heap : filc_heap :=
  { objects := fun _ =>
      { lower := 4096, upper := 4128, flags := 0, word_types := fun _ => FILC_WORD_TYPE_UNSET }
    memory := fun _ => 0 }

/-- The four failures of check-common that concern the object reference
and the bounds. -/
def filc_panic.is_bounds_violation : filc_panic → Bool
  | .null_object => true
  | .ptr_below_lower => true
  | .ptr_at_or_above_upper => true
  | .too_many_bytes => true
  | _ => false

/-- The heap `filc_free_yolo` leaves behind when it succeeds. -/
def freed_heap (h : filc_heap) (object : Nat) : filc_heap :=
  let h1 := h.set_object object
    { h.objects object with flags := (h.objects object).flags ||| FILC_OBJECT_FLAG_FREE }
  h1.set_object object
    (fill_word_types FILC_WORD_TYPE_FREE (filc_object_num_words (h1.objects object))
      (h1.objects object))

/-- The step relation of the word tags: from `h` to `h1` no bounds change,
the flags of a free object do not change, and a tag either stays or goes
from `UNSET` to `INT` or `PTR`. -/
def tags_advance (h h1 : filc_heap) : Prop :=
  ∀ o, (h1.objects o).lower = (h.objects o).lower ∧
    (h1.objects o).upper = (h.objects o).upper ∧
    ((h.objects o).flags &&& FILC_OBJECT_FLAG_FREE ≠ 0 →
      (h1.objects o).flags = (h.objects o).flags) ∧
    ∀ i, (h1.objects o).word_types i = (h.objects o).word_types i ∨
      ((h.objects o).word_types i = FILC_WORD_TYPE_UNSET ∧
        ((h1.objects o).word_types i = FILC_WORD_TYPE_INT ∨
         (h1.objects o).word_types i = FILC_WORD_TYPE_PTR))

/-- The state of an object after a successful free: the `FREE` flag is set
and every word tag is `FREE`. -/
def is_freed (h : filc_heap) (o : Nat) : Prop :=
  (h.objects o).flags &&& FILC_OBJECT_FLAG_FREE ≠ 0 ∧
  ∀ i, i < filc_object_num_words (h.objects o) →
    (h.objects o).word_types i = FILC_WORD_TYPE_FREE

/-- The operations a program can apply to the heap. -/
inductive filc_op
  | check_access_int (ptr : filc_ptr) (bytes : Nat) (access_kind : filc_access_kind)
  | check_access_ptr (ptr : filc_ptr) (access_kind : filc_access_kind)
  | memset (ptr : filc_ptr) (value count : Nat)
  | memmove (dst src : filc_ptr) (count : Nat) (pollcheck : Nat → Bool)
  | zmemcmp (ptr1 ptr2 : filc_ptr) (count : Nat)
  | pin (object : Option Nat)
  | unpin (object : Option Nat)
  | free (object : Nat)
  | allocate (verse_heap_allocate : Nat → Nat) (size : Nat)
  | allocate_int (verse_heap_allocate : Nat → Nat) (size : Nat)
  | reallocate (verse_heap_allocate : Nat → Nat) (object new_size : Nat)

/-- The heap an operation leaves behind, whether it returns or panics. -/
def filc_op.run (max_bytes : Nat) (h : filc_heap) : filc_op → filc_heap
  | .check_access_int ptr bytes access_kind => (filc_check_access_int h ptr bytes access_kind).heap
  | .check_access_ptr ptr access_kind => (filc_check_access_ptr h ptr access_kind).heap
  | .memset ptr value count => (filc_memset max_bytes h ptr value count).heap
  | .memmove dst src count pollcheck => (filc_memmove h dst src count pollcheck).heap
  | .zmemcmp ptr1 ptr2 count => (filc_native_zmemcmp max_bytes h ptr1 ptr2 count).heap
  | .pin object => (filc_pin h object).heap
  | .unpin object => (filc_unpin h object).heap
  | .free object => (filc_free h object).heap
  | .allocate verse_heap_allocate size => (filc_allocate verse_heap_allocate h size).heap
  | .allocate_int verse_heap_allocate size => (filc_allocate_int verse_heap_allocate h size).heap
  | .reallocate verse_heap_allocate object new_size =>
    (filc_reallocate verse_heap_allocate h object new_size).heap

/-- The four access operations: check-as-int, check-as-ptr, memset and
memmove. -/
def filc_op.is_access : filc_op → Bool
  | .check_access_int _ _ _ => true
  | .check_access_ptr _ _ => true
  | .memset _ _ _ => true
  | .memmove _ _ _ _ => true
  | _ => false

/-- The heap allocator does not hand out the header of object `o` again:
the collector keeps an object that is still referenced. -/
def filc_op.keeps_header (o : Nat) : filc_op → Prop
  | .allocate verse_heap_allocate _ => ∀ total_size, verse_heap_allocate total_size ≠ o
  | .allocate_int verse_heap_allocate _ => ∀ total_size, verse_heap_allocate total_size ≠ o
  | .reallocate verse_heap_allocate _ _ => ∀ total_size, verse_heap_allocate total_size ≠ o
  | _ => True

/-- Run a sequence of operations, each on the heap the one before left
behind. -/
def run_ops (max_bytes : Nat) (h : filc_heap) (ops : List filc_op) : filc_heap :=
  ops.foldl (fun h1 op => op.run max_bytes h1) h

/-- Object `o` is freed in `h` and has the addressable bounds `[L, U)`. -/
def freed_in (h : filc_heap) (o L U : Nat) : Prop :=
  is_freed h o ∧ (h.objects o).lower = L ∧ (h.objects o).upper = U ∧ U + 16 ≤ 2 ^ 64

/-- In the words of the claims: a size rounded up to a multiple of 16. -/
def rounded_size (size : Nat) : Nat :=
  (size + 15) / 16 * 16

/-- The distance from the header to the payload of an object allocated
with word alignment: the header and one tag per word, rounded up to a
multiple of 16. -/
def payload_offset (size : Nat) : Nat :=
  (filc_object_word_types_offset + rounded_size size / 16 + 15) / 16 * 16

/-! ## Pointer tables -/

/-- Modelled from the spec: `filc_ptr_forge_null` of the missing header, the
canonical null pointer: no capability, address zero. -/
def filc_ptr_forge_null : filc_ptr :=
  { object := none, ptr := 0 }

/-- Modelled from the spec: `filc_ptr_forge_invalid` of the missing header, a
pointer that carries an address and no capability. -/
def filc_ptr_forge_invalid (ptr : Nat) : filc_ptr :=
  { object := none, ptr := ptr }

/-- Modelled from the spec: `filc_ptr_is_totally_null` of the missing header:
neither capability nor address. -/
def filc_ptr_is_totally_null (ptr : filc_ptr) : Bool :=
  decide (ptr.object = none ∧ ptr.ptr = 0)

/-- Modelled from the spec: `FILC_PTR_TABLE_OFFSET` of the missing header; the
codes of a pointer table stay out of a reserved low range. -/
def FILC_PTR_TABLE_OFFSET : Nat := 66666

/-- Modelled from the spec: `FILC_PTR_TABLE_SHIFT` of the missing header; the
codes of a pointer table are multiples of 16. -/
def FILC_PTR_TABLE_SHIFT : Nat := 4

/-- Modelled from the spec: `FILC_SPECIAL_OBJECT_SIZE` of the missing header,
the header of a special object with its one tag, rounded up to a word. -/
def FILC_SPECIAL_OBJECT_SIZE : Nat := 32

/-- Modelled from the spec: `PAS_OFFSETOF(filc_ptr_table_array, ptrs)`; the
array header holds `num_entries` and `capacity`. -/
def filc_ptr_table_array_ptrs_offset : Nat := 16

/-- The dense array of a pointer table (`filc_ptr_table_array`): slot
`index` holds the capability with that index, or null.  Its storage is the
payload of a special object and is kept apart from the payload memory of
ordinary objects. -/
structure filc_ptr_table_array where
  num_entries : Nat
  capacity : Nat
  ptrs : Nat → filc_ptr

/-- A pointer table (`filc_ptr_table`).  `encode_map` is the hash map from
capabilities to indices, modelled from the spec as an association list
compared on object and address; `free_indices` is the stack of reusable
indices, top first, and `free_indices_capacity` the size of its buffer. -/
structure filc_ptr_table where
  encode_map : List (filc_ptr × Nat)
  free_indices : List Nat
  free_indices_capacity : Nat
  array : filc_ptr_table_array

/-- `filc_ptr_table_array_create`: a zeroed array of the given capacity;
`none` when one of the size assertions fails (here or in
`filc_allocate_special_early`). -/
def filc_ptr_table_array_create (capacity : Nat) : Option filc_ptr_table_array :=
  if ¬ (16 * capacity < 2 ^ 64) then none
  else
    match pas_add_uintptr_overflow filc_ptr_table_array_ptrs_offset (16 * capacity) with
    | none => none
    | some total_size =>
      match pas_add_uintptr_overflow FILC_SPECIAL_OBJECT_SIZE total_size with
      | none => none
      | some _ =>
        some { num_entries := 0, capacity := capacity, ptrs := fun _ => filc_ptr_forge_null }

/-- `filc_ptr_table_create`: an empty map, an empty free list with room for
ten indices, and an array of capacity ten. -/
def filc_ptr_table_create : Option filc_ptr_table :=
  match filc_ptr_table_array_create 10 with
  | none => none
  | some array =>
    some { encode_map := [], free_indices := [], free_indices_capacity := 10, array := array }

/-- The loop `for (index = num_entries; index--;)` that copies the slots of
the old array into the new one when the table grows. -/
def copy_ptr_table_entries (old_ptrs : Nat → filc_ptr) :
    (index : Nat) → (Nat → filc_ptr) → (Nat → filc_ptr)
  | 0, new_ptrs => new_ptrs
  | index + 1, new_ptrs =>
    copy_ptr_table_entries old_ptrs index
      (fun i => if i = index then old_ptrs index else new_ptrs i)

/-- The code of an index: `(result + FILC_PTR_TABLE_OFFSET) << FILC_PTR_TABLE_SHIFT`
on `uintptr_t`. -/
def ptr_table_code (result : Nat) : Nat :=
  ((result + FILC_PTR_TABLE_OFFSET) <<< FILC_PTR_TABLE_SHIFT) % 2 ^ 64

/-- The part of `ptr_table_encode_holding_lock` that picks the index of a
new entry: the top of the free list, else the next slot of the array,
which is first replaced by one of twice the capacity when it is full.
`none` when an assertion fails. -/
def ptr_table_take_index (t : filc_ptr_table) : Option (Nat × filc_ptr_table) :=
  match t.free_indices with
  | index :: rest => some (index, { t with free_indices := rest })
  | [] =>
    let grown : Option filc_ptr_table_array :=
      if t.array.num_entries ≥ t.array.capacity then
        if ¬ (t.array.num_entries = t.array.capacity) then none
        else
          let new_capacity := (t.array.capacity <<< 1) % 2 ^ 64
          if ¬ (new_capacity > t.array.capacity) then none
          else
            match filc_ptr_table_array_create new_capacity with
            | none => none
            | some new_array =>
              some { new_array with
                     ptrs := copy_ptr_table_entries t.array.ptrs t.array.num_entries
                       new_array.ptrs
                     num_entries := t.array.num_entries }
      else some t.array
    match grown with
    | none => none
    | some array =>
      if ¬ (array.num_entries < array.capacity) then none
      else
        some (array.num_entries,
          { t with array := { array with num_entries := array.num_entries + 1 } })

/-- `ptr_table_encode_holding_lock`: the code of the entry the map already
has for the capability, else a new entry under a new index, stored in the
map and in the array.  `none` when an assertion fails. -/
def ptr_table_encode_holding_lock (t : filc_ptr_table) (ptr : filc_ptr) :
    Option (Nat × filc_ptr_table) :=
  match t.encode_map.lookup ptr with
  | some result =>
    if ¬ (result < t.array.num_entries) then none
    else if ¬ (result < t.array.capacity) then none
    else some (ptr_table_code result, t)
  | none =>
    match ptr_table_take_index t with
    | none => none
    | some (result, t1) =>
      if ¬ (result < t1.array.num_entries) then none
      else if ¬ (result < t1.array.capacity) then none
      else
        some (ptr_table_code result,
          { t1 with
            encode_map := (ptr, result) :: t1.encode_map
            array := { t1.array with
                       ptrs := fun i => if i = result then ptr else t1.array.ptrs i } })

/-- Whether the object of a pointer has the `FREE` flag; `none` stands for
the read through a null object pointer. -/
def ptr_object_is_free (h : filc_heap) (ptr : filc_ptr) : Option Bool :=
  match ptr.object with
  | none => none
  | some o => some (decide ((h.objects o).flags &&& FILC_OBJECT_FLAG_FREE ≠ 0))

/-- `filc_ptr_table_encode`: zero, with the table untouched, for a null
address, a null object or a free object; else the code from
`ptr_table_encode_holding_lock`. -/
def filc_ptr_table_encode (h : filc_heap) (t : filc_ptr_table) (ptr : filc_ptr) :
    Option (Nat × filc_ptr_table) :=
  if ptr.ptr = 0 ∨ ptr.object = none ∨ ptr_object_is_free h ptr = some true then some (0, t)
  else ptr_table_encode_holding_lock t ptr

/-- `filc_ptr_table_decode_with_manual_tracking` (testing assertions off):
null for an index outside the array, for an empty slot and for a slot whose
object is free; else the slot.  The index is computed on `uintptr_t`. -/
def filc_ptr_table_decode_with_manual_tracking (h : filc_heap) (t : filc_ptr_table)
    (encoded_ptr : Nat) : Option filc_ptr :=
  let index := ((encoded_ptr >>> FILC_PTR_TABLE_SHIFT) + 2 ^ 64 - FILC_PTR_TABLE_OFFSET) % 2 ^ 64
  if index ≥ t.array.num_entries then some filc_ptr_forge_null
  else
    let result := t.array.ptrs index
    if result.ptr = 0 then some filc_ptr_forge_null
    else
      match ptr_object_is_free h result with
      | none => none
      | some true => some filc_ptr_forge_null
      | some false => some result

/-- The first loop of `filc_ptr_table_mark_outgoing_ptrs`: the entries of
the map whose key is not free make up the new map. -/
def ptr_table_rehash (h : filc_heap) :
    List (filc_ptr × Nat) → Option (List (filc_ptr × Nat))
  | [] => some []
  | entry :: rest =>
    match ptr_object_is_free h entry.1, ptr_table_rehash h rest with
    | some true, some new_map => some new_map
    | some false, some new_map => some (entry :: new_map)
    | _, _ => none

/-- One turn of the second loop of `filc_ptr_table_mark_outgoing_ptrs` for
slot `index`: a slot that holds a pointer to a free object is pushed on the
free list, whose buffer doubles when it is full, and is set to null. -/
def ptr_table_purge_slot (h : filc_heap) (t : filc_ptr_table) (index : Nat) :
    Option filc_ptr_table :=
  let ptr := t.array.ptrs index
  if ptr.ptr = 0 then some t
  else
    match ptr_object_is_free h ptr with
    | none => none
    | some false => some t
    | some true =>
      let grown : Option Nat :=
        if t.free_indices.length ≥ t.free_indices_capacity then
          if ¬ (t.free_indices.length = t.free_indices_capacity) then none
          else
            let new_free_indices_capacity := (t.free_indices_capacity <<< 1) % 2 ^ 64
            if ¬ (new_free_indices_capacity > t.free_indices_capacity) then none
            else some new_free_indices_capacity
        else some t.free_indices_capacity
      match grown with
      | none => none
      | some free_indices_capacity =>
        if ¬ (t.free_indices.length < free_indices_capacity) then none
        else
          some { t with
                 free_indices := index :: t.free_indices
                 free_indices_capacity := free_indices_capacity
                 array := { t.array with
                            ptrs := fun i =>
                              if i = index then filc_ptr_forge_null else t.array.ptrs i } }

/-- The second loop of `filc_ptr_table_mark_outgoing_ptrs`:
`for (index = num_entries; index--;)`. -/
def ptr_table_purge_loop (h : filc_heap) : (index : Nat) → filc_ptr_table → Option filc_ptr_table
  | 0, t => some t
  | index + 1, t =>
    match ptr_table_purge_slot h t index with
    | none => none
    | some t1 => ptr_table_purge_loop h index t1

/-- `filc_ptr_table_mark_outgoing_ptrs`, the marking pass of the collector
over a table (the marking itself is outside the state). -/
def filc_ptr_table_mark_outgoing_ptrs (h : filc_heap) (t : filc_ptr_table) :
    Option filc_ptr_table :=
  match ptr_table_rehash h t.encode_map with
  | none => none
  | some new_encode_map =>
    ptr_table_purge_loop h t.array.num_entries { t with encode_map := new_encode_map }

/-- An exact pointer table (`filc_exact_ptr_table`): the hash map from
addresses to capabilities, modelled from the spec as an association list
with one entry per key. -/
structure filc_exact_ptr_table where
  decode_map : List (Nat × filc_ptr)

/-- `filc_exact_ptr_table_create`: an empty map. -/
def filc_exact_ptr_table_create : filc_exact_ptr_table :=
  { decode_map := [] }

/-- `filc_exact_ptr_table_encode`: always the address; a pointer with a live
object is also stored in the map under its address, replacing what was
there. -/
def filc_exact_ptr_table_encode (h : filc_heap) (t : filc_exact_ptr_table) (ptr : filc_ptr) :
    Nat × filc_exact_ptr_table :=
  if ptr.object = none ∨ ptr_object_is_free h ptr = some true then (ptr.ptr, t)
  else
    (ptr.ptr,
      { decode_map := (ptr.ptr, ptr) :: t.decode_map.filter fun entry => entry.1 ≠ ptr.ptr })

/-- `filc_exact_ptr_table_decode_with_manual_tracking`: the capability
stored under the address, or a pointer without capability at that address
when the map is empty or has no entry; `none` when the assertion on the
stored address fails. -/
def filc_exact_ptr_table_decode_with_manual_tracking (t : filc_exact_ptr_table)
    (encoded_ptr : Nat) : Option filc_ptr :=
  if t.decode_map.length = 0 then some (filc_ptr_forge_invalid encoded_ptr)
  else
    let value := (t.decode_map.lookup encoded_ptr).getD filc_ptr_forge_null
    if filc_ptr_is_totally_null value then some (filc_ptr_forge_invalid encoded_ptr)
    else if ¬ (value.ptr = encoded_ptr) then none
    else some value

/-- The loop of `filc_exact_ptr_table_mark_outgoing_ptrs`: the entries
whose capability is not free make up the new map. -/
def exact_ptr_table_rehash (h : filc_heap) :
    List (Nat × filc_ptr) → Option (List (Nat × filc_ptr))
  | [] => some []
  | entry :: rest =>
    match ptr_object_is_free h entry.2, exact_ptr_table_rehash h rest with
    | some true, some new_map => some new_map
    | some false, some new_map => some (entry :: new_map)
    | _, _ => none

/-- `filc_exact_ptr_table_mark_outgoing_ptrs`. -/
def filc_exact_ptr_table_mark_outgoing_ptrs (h : filc_heap) (t : filc_exact_ptr_table) :
    Option filc_exact_ptr_table :=
  match exact_ptr_table_rehash h t.decode_map with
  | none => none
  | some new_decode_map => some { decode_map := new_decode_map }

/-- A later heap keeps the `FREE` flag of every object that had it: an
object that was freed stays freed. -/
def free_persists (h h1 : filc_heap) : Prop :=
  ∀ o, (h.objects o).flags &&& FILC_OBJECT_FLAG_FREE ≠ 0 →
    (h1.objects o).flags &&& FILC_OBJECT_FLAG_FREE ≠ 0

/-- A live capability: a non-null address and an object without the `FREE`
flag. -/
def ptr_is_live (h : filc_heap) (ptr : filc_ptr) : Prop :=
  ptr.ptr ≠ 0 ∧ ∃ o, ptr.object = some o ∧ (h.objects o).flags &&& FILC_OBJECT_FLAG_FREE = 0

/-- The operations on a pointer table that make up a history: encode calls
and marking passes of the collector. -/
inductive filc_ptr_table_op where
  | encode (ptr : filc_ptr)
  | mark_outgoing_ptrs

/-- One operation on a table, in the heap of its time; an encode also gives
the pointer with the code it got. -/
def filc_ptr_table_op.run (h : filc_heap) (t : filc_ptr_table) :
    filc_ptr_table_op → Option (filc_ptr_table × List (filc_ptr × Nat))
  | .encode ptr =>
    match filc_ptr_table_encode h t ptr with
    | none => none
    | some (code, t1) => some (t1, [(ptr, code)])
  | .mark_outgoing_ptrs =>
    match filc_ptr_table_mark_outgoing_ptrs h t with
    | none => none
    | some t1 => some (t1, [])

/-- A history of operations, each in the heap of its time; the result is
the table with the list of the encoded pointers and their codes. -/
def run_ptr_table_ops :
    filc_ptr_table → List (filc_heap × filc_ptr_table_op) →
      Option (filc_ptr_table × List (filc_ptr × Nat))
  | t, [] => some (t, [])
  | t, (h, op) :: rest =>
    match op.run h t with
    | none => none
    | some (t1, encoded1) =>
      match run_ptr_table_ops t1 rest with
      | none => none
      | some (t2, encoded2) => some (t2, encoded1 ++ encoded2)

/-- The table a history of operations leads to from a new table. -/
def ptr_table_after (ops : List (filc_heap × filc_ptr_table_op)) :
    Option (filc_ptr_table × List (filc_ptr × Nat)) :=
  match filc_ptr_table_create with
  | none => none
  | some t => run_ptr_table_ops t ops

/-- The consistency of a pointer table: the map and the array agree, the
free indices name empty slots, each once, and the capacities are those a
table grown from ten slots by doubling can have. -/
structure ptr_table_wf (t : filc_ptr_table) : Prop where
  map_slot : ∀ k v, (k, v) ∈ t.encode_map →
    v < t.array.num_entries ∧ t.array.ptrs v = k ∧ k.ptr ≠ 0 ∧ k.object ≠ none
  map_keys : (t.encode_map.map Prod.fst).Nodup
  slot_map : ∀ i, i < t.array.num_entries → (t.array.ptrs i).ptr ≠ 0 →
    (t.array.ptrs i, i) ∈ t.encode_map
  slot_null : ∀ i, i < t.array.num_entries → (t.array.ptrs i).ptr = 0 →
    t.array.ptrs i = filc_ptr_forge_null
  slot_beyond : ∀ i, t.array.num_entries ≤ i → t.array.ptrs i = filc_ptr_forge_null
  free_slot : ∀ i, i ∈ t.free_indices →
    i < t.array.num_entries ∧ t.array.ptrs i = filc_ptr_forge_null
  free_nodup : t.free_indices.Nodup
  entries_le : t.array.num_entries ≤ t.array.capacity
  capacity_eq : ∃ k, t.array.capacity = 10 * 2 ^ k
  capacity_lt : 16 * t.array.capacity + 48 < 2 ^ 64
  free_capacity : t.free_indices.length ≤ t.free_indices_capacity ∧
    0 < t.free_indices_capacity ∧ t.free_indices_capacity ≤ 2 * t.array.capacity

/-- What a table knows of the encoded pointers: each one that is still live
has its entry in the map, under the index of its code. -/
def ptr_table_knows (h : filc_heap) (t : filc_ptr_table) (encoded : List (filc_ptr × Nat)) :
    Prop :=
  ∀ p c, (p, c) ∈ encoded → ptr_is_live h p →
    ∃ v, (p, v) ∈ t.encode_map ∧ c = ptr_table_code v

/-- Whether slot `index` of the array holds a pointer to a free object, the
slots a marking pass purges. -/
def ptr_table_slot_is_freed (h : filc_heap) (t : filc_ptr_table) (index : Nat) : Bool :=
  decide ((t.array.ptrs index).ptr ≠ 0) &&
    decide (ptr_object_is_free h (t.array.ptrs index) = some true)

/-- A sample history of a pointer table: two capabilities are encoded, then
the object of the first is freed and a marking pass runs. -/
def sample_ptr_table_ops : List (filc_heap × filc_ptr_table_op) :=
  [(sample_heap, .encode { object := some 3, ptr := 4100 }),
   (sample_heap, .encode { object := some 4, ptr := 4104 }),
   (freed_heap sample_heap 3, .mark_outgoing_ptrs)]

/-- The table and the encoded pointers at the end of the sample history. -/
def sample_ptr_table : filc_ptr_table × List (filc_ptr × Nat) :=
  match ptr_table_after sample_ptr_table_ops with
  | some r => r
  | none =>
    ({ encode_map := [], free_indices := [], free_indices_capacity := 0,
       array := { num_entries := 0, capacity := 0, ptrs := fun _ => filc_ptr_forge_null } }, [])

/-- The sample history up to the marking pass: the two encode calls. -/
def sample_ptr_table_encodes : List (filc_heap × filc_ptr_table_op) :=
  [(sample_heap, .encode { object := some 3, ptr := 4100 }),
   (sample_heap, .encode { object := some 4, ptr := 4104 })]

/-- The table and the encoded pointers after the two encode calls. -/
def sample_encoded_ptr_table : filc_ptr_table × List (filc_ptr × Nat) :=
  match ptr_table_after sample_ptr_table_encodes with
  | some r => r
  | none => sample_ptr_table

/-- The operations on an exact pointer table that make up a history. -/
inductive filc_exact_ptr_table_op where
  | encode (ptr : filc_ptr)
  | mark_outgoing_ptrs

/-- One operation on an exact pointer table, in the heap of its time. -/
def filc_exact_ptr_table_op.run (h : filc_heap) (t : filc_exact_ptr_table) :
    filc_exact_ptr_table_op → Option filc_exact_ptr_table
  | .encode ptr => some (filc_exact_ptr_table_encode h t ptr).2
  | .mark_outgoing_ptrs => filc_exact_ptr_table_mark_outgoing_ptrs h t

/-- A history of operations on an exact pointer table, each in the heap of
its time. -/
def run_exact_ptr_table_ops :
    filc_exact_ptr_table → List (filc_heap × filc_exact_ptr_table_op) →
      Option filc_exact_ptr_table
  | t, [] => some t
  | t, (h, op) :: rest =>
    match op.run h t with
    | none => none
    | some t1 => run_exact_ptr_table_ops t1 rest

/-- The exact pointer table a history of operations leads to from a new
table. -/
def exact_ptr_table_after (ops : List (filc_heap × filc_exact_ptr_table_op)) :
    Option filc_exact_ptr_table :=
  run_exact_ptr_table_ops filc_exact_ptr_table_create ops

/-- The consistency of an exact pointer table within a history: every entry
is a capability with an object, stored under its own address, that an
encode call of the history put there. -/
def exact_ptr_table_wf (ops : List (filc_heap × filc_exact_ptr_table_op))
    (t : filc_exact_ptr_table) : Prop :=
  ∀ k v, (k, v) ∈ t.decode_map →
    v.ptr = k ∧ v.object ≠ none ∧ ∃ h, (h, filc_exact_ptr_table_op.encode v) ∈ ops

/-- A sample history of an exact pointer table: one capability is encoded. -/
def sample_exact_ptr_table_ops : List (filc_heap × filc_exact_ptr_table_op) :=
  [(sample_heap, .encode { object := some 3, ptr := 4100 })]

/-- The exact pointer table at the end of its sample history. -/
def sample_exact_ptr_table : filc_exact_ptr_table :=
  match exact_ptr_table_after sample_exact_ptr_table_ops with
  | some t => t
  | none => filc_exact_ptr_table_create

/-- Word `i` of an object with lower bound `lower` lies entirely inside the
byte range `[start, start + count)`. -/
def word_fully_covered (lower start count i : Nat) : Prop :=
  start ≤ lower + 16 * i ∧ lower + 16 * i + 16 ≤ start + count

instance (lower start count i : Nat) : Decidable (word_fully_covered lower start count i) := by
  unfold word_fully_covered; infer_instance

/-- Word `i` of an object with lower bound `lower` shares bytes with the
range `[start, start + count)` without lying entirely inside it. -/
def word_partly_covered (lower start count i : Nat) : Prop :=
  start < lower + 16 * i + 16 ∧ lower + 16 * i < start + count ∧
    ¬ word_fully_covered lower start count i

instance (lower start count i : Nat) : Decidable (word_partly_covered lower start count i) := by
  unfold word_partly_covered; infer_instance

/-- A heap for the large operations: every header is an object with payload
`[4096, 8192)`, `UNSET` tags and a pin count at its maximum of 1023, and
the payload memory is zero. -/
def pinned_heap : filc_heap :=
  { objects := fun _ =>
      { lower := 4096, upper := 8192, flags := 1023 <<< FILC_OBJECT_FLAGS_PIN_SHIFT,
        word_types := fun _ => FILC_WORD_TYPE_UNSET }
    memory := fun _ => 0 }

/-- The sixteen bytes at address `a` are all zero: the test `!src_word` of
the word loop of `memmove_impl`. -/
def word_is_zero (m : Nat → Nat) (a : Nat) : Prop :=
  ∀ k, k < 16 → m (a + k) = 0

instance (m : Nat → Nat) (a : Nat) : Decidable (word_is_zero m a) := by
  unfold word_is_zero; infer_instance

/-- The source tag the word loop of `memmove_impl` works with: the tag of
the source word when source and destination are equal modulo 16, else
`INT`. -/
def memmove_src_word_type (h : filc_heap) (src_object : Nat) (src_can_has_ptrs : Bool)
    (cur_src_word_index : Nat) : filc_word_type :=
  if src_can_has_ptrs then (h.objects src_object).word_types cur_src_word_index
  else FILC_WORD_TYPE_INT

/-- What the word loop of `memmove_impl` asks of one word: the source word
is all zero, or the source tag is `INT` or `PTR` and the destination tag is
`UNSET` or equal to it. -/
def memmove_word_ok (h : filc_heap) (dst_object src_object : Nat) (src_can_has_ptrs : Bool)
    (cur_src cur_dst_word_index cur_src_word_index : Nat) : Prop :=
  word_is_zero h.memory cur_src ∨
    ((memmove_src_word_type h src_object src_can_has_ptrs cur_src_word_index =
          FILC_WORD_TYPE_INT ∨
        memmove_src_word_type h src_object src_can_has_ptrs cur_src_word_index =
          FILC_WORD_TYPE_PTR) ∧
      ((h.objects dst_object).word_types cur_dst_word_index = FILC_WORD_TYPE_UNSET ∨
        (h.objects dst_object).word_types cur_dst_word_index =
          memmove_src_word_type h src_object src_can_has_ptrs cur_src_word_index))

/-- The tag of a destination word after the word loop of `memmove_impl`
copied a word onto it: the source tag when the word was `UNSET` and the
source word is not zero, else the tag it had. -/
def memmove_dst_word_type (h : filc_heap) (dst_object src_object : Nat)
    (src_can_has_ptrs : Bool) (cur_src cur_dst_word_index cur_src_word_index : Nat) :
    filc_word_type :=
  if (h.objects dst_object).word_types cur_dst_word_index = FILC_WORD_TYPE_UNSET ∧
      ¬ word_is_zero h.memory cur_src then
    memmove_src_word_type h src_object src_can_has_ptrs cur_src_word_index
  else (h.objects dst_object).word_types cur_dst_word_index

/-- What an int copy of `count` bytes from `src` to `dst` needs of the heap:
both ranges lie within live, ordinary objects whose upper bounds leave room
for a word below `2^64`, and every word tag the two ranges touch is `INT`. -/
structure memmove_int_ready (h : filc_heap) (dst src : filc_ptr) (count : Nat)
    (dst_object src_object : Nat) : Prop where
  dst_is : dst.object = some dst_object
  src_is : src.object = some src_object
  dst_addressable : (h.objects dst_object).addressable
  src_addressable : (h.objects src_object).addressable
  dst_lower : (h.objects dst_object).lower ≤ dst.ptr
  dst_upper : dst.ptr + count ≤ (h.objects dst_object).upper
  src_lower : (h.objects src_object).lower ≤ src.ptr
  src_upper : src.ptr + count ≤ (h.objects src_object).upper
  count_pos : 1 ≤ count
  dst_free : (h.objects dst_object).flags &&& FILC_OBJECT_FLAG_FREE = 0
  dst_special : (h.objects dst_object).flags &&& FILC_OBJECT_FLAG_SPECIAL = 0
  src_free : (h.objects src_object).flags &&& FILC_OBJECT_FLAG_FREE = 0
  src_special : (h.objects src_object).flags &&& FILC_OBJECT_FLAG_SPECIAL = 0
  dst_int : ∀ i, (dst.ptr - (h.objects dst_object).lower) / 16 ≤ i →
    i ≤ (dst.ptr - (h.objects dst_object).lower + count - 1) / 16 →
    (h.objects dst_object).word_types i = FILC_WORD_TYPE_INT
  src_int : ∀ i, (src.ptr - (h.objects src_object).lower) / 16 ≤ i →
    i ≤ (src.ptr - (h.objects src_object).lower + count - 1) / 16 →
    (h.objects src_object).word_types i = FILC_WORD_TYPE_INT

/-- The address of the source bytes that a copy from `s` to `d` puts on word
`i` of the destination object (lower bound `lower_d`). -/
def memmove_src_of (lower_d d s i : Nat) : Nat :=
  s + (lower_d + 16 * i - d)

/-- The index, in the source object (lower bound `lower_s`), of the source
word that a copy from `s` to `d` puts on word `i` of the destination. -/
def memmove_src_index (lower_d lower_s d s i : Nat) : Nat :=
  (s + (lower_d + 16 * i - d) - lower_s) / 16

/-- What a copy of `count` bytes between two ranges of equal alignment
needs of the heap, apart from the rule for the whole words: both ranges lie
within live, ordinary objects with word-aligned lower bounds, no word that
the source range covers only partly is a word that the destination range
covers fully, and the partly covered words at the ends of both ranges are
`UNSET` or `INT`.  The ranges may overlap. -/
structure memmove_aligned_ready (h : filc_heap) (dst src : filc_ptr) (count : Nat)
    (dst_object src_object : Nat) : Prop where
  dst_is : dst.object = some dst_object
  src_is : src.object = some src_object
  dst_addressable : (h.objects dst_object).addressable
  src_addressable : (h.objects src_object).addressable
  dst_aligned : (h.objects dst_object).lower % 16 = 0
  src_aligned : (h.objects src_object).lower % 16 = 0
  dst_lower : (h.objects dst_object).lower ≤ dst.ptr
  dst_upper : dst.ptr + count ≤ (h.objects dst_object).upper
  src_lower : (h.objects src_object).lower ≤ src.ptr
  src_upper : src.ptr + count ≤ (h.objects src_object).upper
  count_pos : 1 ≤ count
  dst_free : (h.objects dst_object).flags &&& FILC_OBJECT_FLAG_FREE = 0
  dst_special : (h.objects dst_object).flags &&& FILC_OBJECT_FLAG_SPECIAL = 0
  dst_writable : (h.objects dst_object).flags &&& FILC_OBJECT_FLAG_READONLY = 0
  src_free : (h.objects src_object).flags &&& FILC_OBJECT_FLAG_FREE = 0
  src_special : (h.objects src_object).flags &&& FILC_OBJECT_FLAG_SPECIAL = 0
  same_alignment : dst.ptr % 16 = src.ptr % 16
  edges_apart : dst_object = src_object →
    ∀ i, word_partly_covered (h.objects src_object).lower src.ptr count i →
      ¬ word_fully_covered (h.objects dst_object).lower dst.ptr count i
  dst_edges : ∀ i, word_partly_covered (h.objects dst_object).lower dst.ptr count i →
    (h.objects dst_object).word_types i = FILC_WORD_TYPE_UNSET ∨
      (h.objects dst_object).word_types i = FILC_WORD_TYPE_INT
  src_edges : ∀ i, word_partly_covered (h.objects src_object).lower src.ptr count i →
    (h.objects src_object).word_types i = FILC_WORD_TYPE_UNSET ∨
      (h.objects src_object).word_types i = FILC_WORD_TYPE_INT

/-- Whether an edge of a copy of `c` bytes to address `d` has bytes: the
test of `memmove_smidgen` for that part. -/
def memmove_edge_nonempty (part : memmove_smidgen_part) (d c : Nat) : Prop :=
  match part with
  | memmove_lower_smidgen => (d + 15) / 16 * 16 > d
  | memmove_upper_smidgen => d + c > (d + c) / 16 * 16

instance (part : memmove_smidgen_part) (d c : Nat) :
    Decidable (memmove_edge_nonempty part d c) := by
  cases part <;> unfold memmove_edge_nonempty <;> infer_instance

/-- The destination bytes of an edge of a copy of `c` bytes to address `d`. -/
def memmove_edge_covers (part : memmove_smidgen_part) (d c x : Nat) : Prop :=
  match part with
  | memmove_lower_smidgen => d ≤ x ∧ x < (d + 15) / 16 * 16
  | memmove_upper_smidgen => (d + c) / 16 * 16 ≤ x ∧ x < d + c

instance (part : memmove_smidgen_part) (d c x : Nat) :
    Decidable (memmove_edge_covers part d c x) := by
  cases part <;> unfold memmove_edge_covers <;> infer_instance

/-- The index of the destination word an edge of a copy lies in. -/
def memmove_edge_dst_word (part : memmove_smidgen_part) (lower_d d c : Nat) : Nat :=
  match part with
  | memmove_lower_smidgen => (d - lower_d) / 16
  | memmove_upper_smidgen => ((d + c) / 16 * 16 - lower_d) / 16

/-- The index of the source word an edge of a copy from `s` reads. -/
def memmove_edge_src_word (part : memmove_smidgen_part) (lower_s d s c : Nat) : Nat :=
  match part with
  | memmove_lower_smidgen => (s - lower_s) / 16
  | memmove_upper_smidgen => (s + ((d + c) / 16 * 16 - d) - lower_s) / 16


/-- A heap of int data: every header is an unflagged object with payload
`[4096, 4192)` whose six words are tagged `INT`, and the byte at address
`a` is `a % 251`. -/
def int_heap : filc_heap :=
  { objects := fun _ =>
      { lower := 4096, upper := 4192, flags := 0, word_types := fun _ => FILC_WORD_TYPE_INT }
    memory := fun a => a % 251 }

/-- A heap with one typed region and two fresh destinations.  Header 0 is
an object with payload `[4096, 4144)` whose words are tagged `INT`, `PTR`,
`INT`; its first two words hold non-zero bytes and its third word is the
integer zero.  Header 1 is a fresh object with payload `[8192, 8240)` and
every other header a fresh object with payload `[12288, 12336)`: `UNSET`
tags and zero bytes. -/
def typed_heap : filc_heap :=
  { objects := fun o =>
      if o = 0 then
        { lower := 4096, upper := 4144, flags := 0,
          word_types := fun i => if i = 1 then FILC_WORD_TYPE_PTR else FILC_WORD_TYPE_INT }
      else if o = 1 then
        { lower := 8192, upper := 8240, flags := 0, word_types := fun _ => FILC_WORD_TYPE_UNSET }
      else
        { lower := 12288, upper := 12336, flags := 0,
          word_types := fun _ => FILC_WORD_TYPE_UNSET }
    memory := fun a => if 4096 ≤ a ∧ a < 4128 then a % 7 + 1 else 0 }

/-- A heap for a copy within one object: every header is an unflagged
object with payload `[4096, 4160)` whose word 2 is tagged `PTR` and holds
non-zero bytes, and whose other words are `UNSET` and zero. -/
def overlap_heap : filc_heap :=
  { objects := fun _ =>
      { lower := 4096, upper := 4160, flags := 0,
        word_types := fun i => if i = 2 then FILC_WORD_TYPE_PTR else FILC_WORD_TYPE_UNSET }
    memory := fun a => if 4128 ≤ a ∧ a < 4144 then 1 else 0 }

/-- What the round trip of a typed region needs of the heap: `src` points
at `n` whole words of object `src_object` that are all tagged `INT` or
`PTR`; `dst1` and `dst2` point at the lower bounds of two more objects of
`16 * n` bytes whose words are all `UNSET`; the three objects are live,
ordinary and writable, with word-aligned lower bounds, and the
destinations are not the object they are filled from. -/
structure memmove_round_trip_ready (h : filc_heap) (src dst1 dst2 : filc_ptr) (n : Nat)
    (src_object dst1_object dst2_object : Nat) : Prop where
  src_is : src.object = some src_object
  dst1_is : dst1.object = some dst1_object
  dst2_is : dst2.object = some dst2_object
  words_pos : 1 ≤ n
  src_addressable : (h.objects src_object).addressable
  dst1_addressable : (h.objects dst1_object).addressable
  dst2_addressable : (h.objects dst2_object).addressable
  src_aligned : (h.objects src_object).lower % 16 = 0
  src_ptr_aligned : src.ptr % 16 = 0
  src_lower : (h.objects src_object).lower ≤ src.ptr
  src_upper : src.ptr + 16 * n ≤ (h.objects src_object).upper
  dst1_lower : (h.objects dst1_object).lower = dst1.ptr
  dst1_upper : (h.objects dst1_object).upper = dst1.ptr + 16 * n
  dst1_aligned : dst1.ptr % 16 = 0
  dst2_lower : (h.objects dst2_object).lower = dst2.ptr
  dst2_upper : (h.objects dst2_object).upper = dst2.ptr + 16 * n
  dst2_aligned : dst2.ptr % 16 = 0
  src_flags : (h.objects src_object).flags &&& FILC_OBJECT_FLAG_FREE = 0 ∧
    (h.objects src_object).flags &&& FILC_OBJECT_FLAG_SPECIAL = 0
  dst1_flags : (h.objects dst1_object).flags &&& FILC_OBJECT_FLAG_FREE = 0 ∧
    (h.objects dst1_object).flags &&& FILC_OBJECT_FLAG_SPECIAL = 0 ∧
    (h.objects dst1_object).flags &&& FILC_OBJECT_FLAG_READONLY = 0
  dst2_flags : (h.objects dst2_object).flags &&& FILC_OBJECT_FLAG_FREE = 0 ∧
    (h.objects dst2_object).flags &&& FILC_OBJECT_FLAG_SPECIAL = 0 ∧
    (h.objects dst2_object).flags &&& FILC_OBJECT_FLAG_READONLY = 0
  dst1_apart : dst1_object ≠ src_object
  dst2_apart : dst2_object ≠ dst1_object
  src_typed : ∀ i, i < n →
    (h.objects src_object).word_types ((src.ptr - (h.objects src_object).lower) / 16 + i) =
        FILC_WORD_TYPE_INT ∨
      (h.objects src_object).word_types ((src.ptr - (h.objects src_object).lower) / 16 + i) =
        FILC_WORD_TYPE_PTR
  dst1_fresh : ∀ i, (h.objects dst1_object).word_types i = FILC_WORD_TYPE_UNSET
  dst2_fresh : ∀ i, (h.objects dst2_object).word_types i = FILC_WORD_TYPE_UNSET

/-- A heap whose objects are return buffers: every header is an object with
payload `[4096, 4128)`, the `RETURN_BUFFER` flag and nothing else, no pin,
and `INT` tags. -/
def return_buffer_heap : filc_heap :=
  { objects := fun _ =>
      { lower := 4096, upper := 4128, flags := FILC_OBJECT_FLAG_RETURN_BUFFER,
        word_types := fun _ => FILC_WORD_TYPE_INT }
    memory := fun _ => 0 }

/-- The pin count of a flags word: the bits above the six flag bits. -/
def filc_object_pin_count (flags : Nat) : Nat :=
  flags >>> FILC_OBJECT_FLAGS_PIN_SHIFT

/-- The six flag bits of a flags word, below the pin count. -/
def filc_object_low_flags (flags : Nat) : Nat :=
  flags % 2 ^ FILC_OBJECT_FLAGS_PIN_SHIFT

/-- The C library `strnlen` on the payload: the number of bytes before the
first zero byte among the `maxlen` bytes at `s`, or `maxlen` when none of
them is zero. -/
def strnlen (m : Nat → Nat) (s : Nat) : (maxlen : Nat) → Nat
  | 0 => 0
  | maxlen + 1 => if m s = 0 then 0 else strnlen m (s + 1) maxlen + 1

/-- The C library `strlen` on a returned string: the number of bytes before
its first zero byte. -/
def strlen : List Nat → Nat
  | [] => 0
  | c :: rest => if c = 0 then 0 else strlen rest + 1

/-- `finish_check_and_get_new_str`: a fresh copy of `length + 1` bytes from
`base`, under the assertion that its last byte is zero. -/
def finish_check_and_get_new_str (h : filc_heap) (base length : Nat) :
    filc_result (List Nat) :=
  let result := (List.range (length + 1)).map fun k => h.memory (base + k)
  if ¬ (result.getD length 0 = 0) then .panic .assertion h
  else .done result h

/-- `filc_check_and_get_new_str`: check-common for one byte, `strnlen` over
the bytes available up to the upper bound, the two assertions that a
terminator was found, `check_int` on the string with its terminator, and
the copy. -/
def filc_check_and_get_new_str (h : filc_heap) (str : filc_ptr) : filc_result (List Nat) :=
  (filc_check_access_common h str 1 filc_read_access).and_then fun _ h1 =>
    let available := filc_ptr_available h1 str
    let length := strnlen h1.memory str.ptr available
    if ¬ (length < available) then .panic .assertion h1
    else if ¬ (length + 1 ≤ available) then .panic .assertion h1
    else
      (check_int h1 str (length + 1)).and_then fun _ h2 =>
        finish_check_and_get_new_str h2 str.ptr length

/-- `filc_check_and_get_tmp_str`: the string of `filc_check_and_get_new_str`
(its deallocation, deferred to the thread, is left out). -/
def filc_check_and_get_tmp_str (h : filc_heap) (ptr : filc_ptr) : filc_result (List Nat) :=
  filc_check_and_get_new_str h ptr

/-- `filc_native_zstrlen`: `strlen` of the checked copy. -/
def filc_native_zstrlen (h : filc_heap) (ptr : filc_ptr) : filc_result Nat :=
  (filc_check_and_get_tmp_str h ptr).and_then fun s h1 => .done (strlen s) h1

/-- A heap holding a string: every header is an unflagged object with
payload `[4096, 4128)` and `UNSET` tags; the bytes at 4100, 4101 and 4102
are `104 105 33` and every other byte is zero. -/
def string_heap : filc_heap :=
  { objects := fun _ =>
      { lower := 4096, upper := 4128, flags := 0, word_types := fun _ => FILC_WORD_TYPE_UNSET }
    memory := fun a => if a = 4100 then 104 else if a = 4101 then 105
      else if a = 4102 then 33 else 0 }

/-- Modelled from the spec: `pas_add_uint32_overflow` of the missing header
`pas_utils.h`, the sum when it fits in 32 bits. -/
def pas_add_uint32_overflow (a b : Nat) : Option Nat :=
  if a + b < 2 ^ 32 then some (a + b) else none

/-- The two statics of the thread id allocator: the list of free id nodes
starting at `first_free_tid`, and `next_fresh_tid`. -/
structure tid_state where
  first_free_tid : List Nat
  next_fresh_tid : Nat

/-- The statics as initialised: no free node and `next_fresh_tid = 1`. -/
def tid_state_initial : tid_state :=
  { first_free_tid := [], next_fresh_tid := 1 }

/-- `allocate_tid`: the id of the first free node when there is one, else
`next_fresh_tid`, which is then incremented under the assertion that the
32-bit sum does not overflow; `none` is the failed assertion. -/
def allocate_tid (s : tid_state) : Option (Nat × tid_state) :=
  match s.first_free_tid with
  | tid :: next => some (tid, { s with first_free_tid := next })
  | [] =>
    let result := s.next_fresh_tid
    match pas_add_uint32_overflow s.next_fresh_tid 1 with
    | none => none
    | some next_fresh => some (result, { s with next_fresh_tid := next_fresh })

/-- `deallocate_tid`: a new node for `tid` at the front of the free list. -/
def deallocate_tid (s : tid_state) (tid : Nat) : tid_state :=
  { s with first_free_tid := tid :: s.first_free_tid }

/-- A call of the thread id allocator. -/
inductive tid_op
  | allocate
  | deallocate (tid : Nat)
  deriving DecidableEq, Repr

/-- The allocator statics together with the ids that are allocated and not
yet deallocated, most recent first. -/
structure tid_world where
  state : tid_state
  live : List Nat

/-- One call on the statics, keeping track of the live ids.  A call that
the sequences of interest exclude, the deallocation of an id that is not
live, and an allocation that fails its assertion, end the run. -/
def tid_op.run : tid_op → tid_world → Option tid_world
  | .allocate, w =>
    match allocate_tid w.state with
    | none => none
    | some (tid, s) => some { state := s, live := tid :: w.live }
  | .deallocate tid, w =>
    if tid ∈ w.live then some { state := deallocate_tid w.state tid, live := w.live.erase tid }
    else none

/-- A sequence of calls, from left to right. -/
def run_tid_ops : List tid_op → tid_world → Option tid_world
  | [], w => some w
  | op :: rest, w =>
    match op.run w with
    | none => none
    | some w1 => run_tid_ops rest w1

/-- The world after a sequence of calls from the initial statics. -/
def tid_world_after (ops : List tid_op) : Option tid_world :=
  run_tid_ops ops { state := tid_state_initial, live := [] }

/-- The invariant of the thread id allocator: live and free ids are without
repetition and apart, all of them are at least 1 and below
`next_fresh_tid`, which fits in 32 bits. -/
structure tid_world_wf (w : tid_world) : Prop where
  live_nodup : w.live.Nodup
  free_nodup : w.state.first_free_tid.Nodup
  apart : ∀ t, t ∈ w.live → t ∉ w.state.first_free_tid
  live_range : ∀ t, t ∈ w.live → 1 ≤ t ∧ t < w.state.next_fresh_tid
  free_range : ∀ t, t ∈ w.state.first_free_tid → 1 ≤ t ∧ t < w.state.next_fresh_tid
  fresh_pos : 1 ≤ w.state.next_fresh_tid
  fresh_fits : w.state.next_fresh_tid < 2 ^ 32

/-- The state of the fd tracking of `runtime.c`: `fd_table`, `none` while it
is null and otherwise the `backer` field of each holder, where 0 is the
null backer and any other number the address of a `struct fd_backer`; and
the `epoll_table` of the backer at each address. -/
structure fd_world where
  fd_table : Option (List Nat)
  epoll_table : Nat → filc_exact_ptr_table

/-- `zlength` of `fd_table`: its number of holders, zero for the null
table. -/
def fd_table_length (table : Option (List Nat)) : Nat :=
  match table with
  | none => 0
  | some holders => holders.length

/-- The `backer` field of holder `index` of a table, null outside it. -/
def fd_table_backer (table : Option (List Nat)) (index : Nat) : Nat :=
  match table with
  | none => 0
  | some holders => holders.getD index 0

/-- `get_locked_fd_holder` without its locks, for one thread: `none` is the
failed `ZASSERT (fd >= 0)`.  When there is no table or `fd` is beyond its
length, a new table of `((size_t) fd + 1) * 2` zeroed holders (an
allocation of that many times the size of a holder, a multiple of 16)
takes over the backers of the old one; the holder at `fd` of the table
returned is the one the callers work on. -/
def get_locked_fd_holder (fd_table : Option (List Nat)) (fd : Int) : Option (List Nat) :=
  if ¬ (fd ≥ 0) then none
  else if fd_table = none ∨ fd.toNat ≥ fd_table_length fd_table then
    let new_length := (fd.toNat + 1) * 2
    some ((List.range new_length).map fun index =>
      if index < fd_table_length fd_table then fd_table_backer fd_table index else 0)
  else fd_table

/-- `get_fd_backer`: the backer of the holder of `fd`, and the table. -/
def get_fd_backer (fd_table : Option (List Nat)) (fd : Int) : Option (Nat × List Nat) :=
  match get_locked_fd_holder fd_table fd with
  | none => none
  | some holders => some (holders.getD fd.toNat 0, holders)

/-- `set_fd_backer`: the holder of `fd` takes `backer`. -/
def set_fd_backer (fd_table : Option (List Nat)) (fd : Int) (backer : Nat) :
    Option (List Nat) :=
  match get_locked_fd_holder fd_table fd with
  | none => none
  | some holders => some (holders.set fd.toNat backer)

/-- `zsys_close`: the holder is fetched for `fd >= 0`, `zsys_close_impl` is
called, and the backer is nulled when there is a holder and the result is
zero. -/
def zsys_close (zsys_close_impl : Int → Int) (fd_table : Option (List Nat)) (fd : Int) :
    Option (Int × Option (List Nat)) :=
  if fd ≥ 0 then
    match get_locked_fd_holder fd_table fd with
    | none => none
    | some holders =>
      let result := zsys_close_impl fd
      if result = 0 then some (result, some (holders.set fd.toNat 0))
      else some (result, some holders)
  else some (zsys_close_impl fd, fd_table)

/-- `zsys_dup`: the backer of `fd` is read, `zsys_dup_impl` is called, and
a result `>= 0` gets that backer. -/
def zsys_dup (zsys_dup_impl : Int → Int) (fd_table : Option (List Nat)) (fd : Int) :
    Option (Int × Option (List Nat)) :=
  match get_fd_backer fd_table fd with
  | none => none
  | some (backer, holders) =>
    let result := zsys_dup_impl fd
    if result ≥ 0 then
      match set_fd_backer (some holders) result backer with
      | none => none
      | some holders1 => some (result, some holders1)
    else some (result, some holders)

/-- `zsys_dup2`. -/
def zsys_dup2 (zsys_dup2_impl : Int → Int → Int) (fd_table : Option (List Nat))
    (oldfd newfd : Int) : Option (Int × Option (List Nat)) :=
  match get_fd_backer fd_table oldfd with
  | none => none
  | some (backer, holders) =>
    let result := zsys_dup2_impl oldfd newfd
    if result ≥ 0 then
      match set_fd_backer (some holders) result backer with
      | none => none
      | some holders1 => some (result, some holders1)
    else some (result, some holders)

/-- `zsys_fcntl`: the commands 0 (`F_DUPFD`) and 1030 (`F_DUPFD_CLOEXEC`)
carry the backer over to a result `>= 0`; every other command only calls
`zsys_fcntl_impl`. -/
def zsys_fcntl (zsys_fcntl_impl : Int → Int → Int) (fd_table : Option (List Nat))
    (fd cmd : Int) : Option (Int × Option (List Nat)) :=
  if cmd = 0 ∨ cmd = 1030 then
    match get_fd_backer fd_table fd with
    | none => none
    | some (backer, holders) =>
      let result := zsys_fcntl_impl fd cmd
      if result ≥ 0 then
        match set_fd_backer (some holders) result backer with
        | none => none
        | some holders1 => some (result, some holders1)
      else some (result, some holders)
  else some (zsys_fcntl_impl fd cmd, fd_table)

/-- `zsys_epoll_ctl`: with an event, whose `data.ptr` is given, and a backer
for `epfd`, the pointer is encoded in the backer's `epoll_table`; the
result is that of `zsys_epoll_ctl_impl`. -/
def zsys_epoll_ctl (result : Int) (h : filc_heap) (w : fd_world) (epfd : Int)
    (event : Option filc_ptr) : Option (Int × fd_world) :=
  match event with
  | none => some (result, w)
  | some data_ptr =>
    match get_fd_backer w.fd_table epfd with
    | none => none
    | some (backer, holders) =>
      if backer ≠ 0 then
        some (result,
          { fd_table := some holders
            epoll_table := fun b =>
              if b = backer then (filc_exact_ptr_table_encode h (w.epoll_table backer) data_ptr).2
              else w.epoll_table b })
      else some (result, { w with fd_table := some holders })

/-- The loop of `fix_events`: the `data.ptr` of each of the first `n` events
becomes what the table decodes its address to; `none` is an event beyond
the array or a failed assertion of the decoding. -/
def fix_events_loop (t : filc_exact_ptr_table) : (n : Nat) → List filc_ptr →
    Option (List filc_ptr)
  | 0, events => some events
  | _ + 1, [] => none
  | n + 1, event :: rest =>
    match filc_exact_ptr_table_decode_with_manual_tracking t event.ptr,
        fix_events_loop t n rest with
    | some decoded, some fixed => some (decoded :: fixed)
    | _, _ => none

/-- `fix_events`: nothing without a backer for `epfd`, else the loop over
the first `result` events. -/
def fix_events (w : fd_world) (epfd : Int) (events : List filc_ptr) (result : Int) :
    Option (List filc_ptr × fd_world) :=
  match get_fd_backer w.fd_table epfd with
  | none => none
  | some (backer, holders) =>
    if backer = 0 then some (events, { w with fd_table := some holders })
    else
      match fix_events_loop (w.epoll_table backer) result.toNat events with
      | none => none
      | some fixed => some (fixed, { w with fd_table := some holders })

/-- `zsys_epoll_wait`: `zsys_epoll_wait_impl` leaves `result` and the events
it wrote, whose `data.ptr` are plain addresses; `fix_events` decodes
them. -/
def zsys_epoll_wait (result : Int) (written : List Nat) (w : fd_world) (epfd : Int) :
    Option (Int × List filc_ptr × fd_world) :=
  match fix_events w epfd (written.map filc_ptr_forge_invalid) result with
  | none => none
  | some (events, w1) => some (result, events, w1)

/-- A sequence of `set_fd_backer` calls, from left to right; `none` is a
failed assertion of one of them. -/
def set_fd_backers : List (Int × Nat) → Option (List Nat) → Option (Option (List Nat))
  | [], table => some table
  | (fd, backer) :: rest, table =>
    match set_fd_backer table fd backer with
    | none => none
    | some holders => set_fd_backers rest (some holders)

/-- The value of `MAP_SHARED` in the host's `<sys/mman.h>`. -/
def MAP_SHARED : Nat := 1

/-- The value of `MAP_PRIVATE` in the host's `<sys/mman.h>`. -/
def MAP_PRIVATE : Nat := 2

/-- The value of `MAP_ANON` in the host's `<sys/mman.h>` (Linux). -/
def MAP_ANON : Nat := 32

/-- The value of `PROT_READ` in the host's `<sys/mman.h>`. -/
def PROT_READ : Nat := 1

/-- The value of `PROT_WRITE` in the host's `<sys/mman.h>`. -/
def PROT_WRITE : Nat := 2

/-- `initialize_object_with_existing_data`: the bounds around `data`, the
flags and all tags. -/
def initialize_object_with_existing_data (h : filc_heap) (result data size num_words : Nat)
    (object_flags : Nat) (initial_word_type : filc_word_type) : filc_heap :=
  let h1 := h.set_object result
    { h.objects result with lower := data, upper := data + size, flags := object_flags }
  h1.set_object result (fill_word_types initial_word_type num_words (h1.objects result))

/-- `filc_allocate_with_existing_data`: the four assertions on the flags,
`prepare_allocate_object`, the header from the heap allocator, and the
initialisation, which is the same in both branches of the size test. -/
def filc_allocate_with_existing_data (verse_heap_allocate : Nat → Nat) (h : filc_heap)
    (data size object_flags : Nat) (initial_word_type : filc_word_type) : filc_result Nat :=
  if ¬ (object_flags &&& FILC_OBJECT_FLAG_FREE = 0) then .panic .assertion h
  else if ¬ (object_flags &&& FILC_OBJECT_FLAG_RETURN_BUFFER = 0) then .panic .assertion h
  else if ¬ (object_flags &&& FILC_OBJECT_FLAG_SPECIAL = 0) then .panic .assertion h
  else if ¬ (object_flags &&& FILC_OBJECT_FLAG_GLOBAL = 0) then .panic .assertion h
  else
    match prepare_allocate_object size with
    | none => .panic .assertion h
    | some (size, num_words, base_object_size) =>
      let result := verse_heap_allocate base_object_size
      .done result
        (initialize_object_with_existing_data h result data size num_words object_flags
          initial_word_type)

/-- `mmap_error_result`: the address `-1` without capability. -/
def mmap_error_result : filc_ptr :=
  filc_ptr_forge_invalid (2 ^ 64 - 1)

/-- `filc_native_zsys_mmap`.  `prot` and `flags` are what `from_user_prot`
and `from_user_mmap_flags` made of the user's arguments, `none` when they
returned false; `raw_result` is what the system call `mmap` returned.  The
errors return `mmap_error_result` (the `errno` is left out); a mapping gets
an object with the `MMAP` flag around the mapped bytes, `UNSET` tags for a
private anonymous read-write mapping and `INT` tags otherwise. -/
def filc_native_zsys_mmap (verse_heap_allocate : Nat → Nat) (raw_result : Nat)
    (h : filc_heap) (address : filc_ptr) (length : Nat) (prot flags : Option Nat)
    (fd offset : Int) : filc_result filc_ptr :=
  if address.ptr ≠ 0 then .done mmap_error_result h
  else
    match prot, flags with
    | none, _ => .done mmap_error_result h
    | some _, none => .done mmap_error_result h
    | some prot, some flags =>
      if flags &&& MAP_SHARED = 0 ∧ flags &&& MAP_PRIVATE = 0 then .done mmap_error_result h
      else if flags &&& MAP_SHARED ≠ 0 ∧ flags &&& MAP_PRIVATE ≠ 0 then
        .done mmap_error_result h
      else if raw_result = 2 ^ 64 - 1 then .done mmap_error_result h
      else if raw_result = 0 then .panic .assertion h
      else
        let initial_word_type :=
          if flags &&& MAP_PRIVATE ≠ 0 ∧ flags &&& MAP_ANON ≠ 0 ∧ fd = -1 ∧ offset = 0 ∧
              prot = PROT_READ ||| PROT_WRITE then FILC_WORD_TYPE_UNSET
          else FILC_WORD_TYPE_INT
        (filc_allocate_with_existing_data verse_heap_allocate h raw_result length
            FILC_OBJECT_FLAG_MMAP initial_word_type).and_then fun object h1 =>
          if ¬ ((h1.objects object).lower = raw_result) then .panic .assertion h1
          else .done (filc_ptr_create_with_manual_tracking h1 object) h1

/-- `filc_native_zsys_munmap`: `object_for_deallocate`, the two checks on
the length and on the `MMAP` flag, `filc_free_yolo`, and then, outside the
heap, the handshakes and the system call `munmap`, whose result is
`result`. -/
def filc_native_zsys_munmap (result : Int) (h : filc_heap) (address : filc_ptr)
    (length : Nat) : filc_result Int :=
  (object_for_deallocate h address).and_then fun object h1 =>
    if ¬ (filc_object_size (h1.objects object) = length) then .panic .munmap_not_whole h1
    else if ¬ ((h1.objects object).flags &&& FILC_OBJECT_FLAG_MMAP ≠ 0) then
      .panic .munmap_not_mmapped h1
    else
      (filc_free_yolo h1 object).and_then fun _ h2 =>
        if ¬ (result = 0 ∨ result = -1) then .panic .assertion h2
        else .done result h2

/-- Modelled from the spec: the type `filc_global_initialization_context` of
the missing header: the reference count, as a natural number, and the
hash map from the addresses of global pointer slots to objects, as an
association list with one entry per key, newest first. -/
structure filc_global_initialization_context where
  ref_count : Nat
  map : List (Nat × Nat)

/-- What the initialization context functions read and write outside the
context: the object headers, the pointer held by the global pointer slot
at each address, the array `filc_global_variable_roots`, and whether the
global initialization lock is held. -/
structure filc_global_world where
  heap : filc_heap
  gptrs : Nat → filc_ptr
  filc_global_variable_roots : List Nat
  lock_held : Bool

/-- `filc_global_initialization_context_create`: a parent is returned with
one more reference; without a parent the lock is taken and a new context
with one reference and an empty map is returned. -/
def filc_global_initialization_context_create
    (parent : Option filc_global_initialization_context) (w : filc_global_world) :
    filc_global_initialization_context × filc_global_world :=
  match parent with
  | some parent => ({ parent with ref_count := parent.ref_count + 1 }, w)
  | none => ({ ref_count := 1, map := [] }, { w with lock_held := true })

/-- `filc_global_initialization_context_add`; `none` is a failed assertion.
A slot whose pointer has an address is initialised already and a slot with
an entry in the map was seen already: both return false.  Otherwise the
object is pushed onto the global roots, the entry is added, and true is
returned. -/
def filc_global_initialization_context_add (context : filc_global_initialization_context)
    (w : filc_global_world) (pizlonated_gptr object : Nat) :
    Option (Bool × filc_global_initialization_context × filc_global_world) :=
  if ¬ (w.lock_held = true) then none
  else if ¬ ((w.heap.objects object).flags &&& FILC_OBJECT_FLAG_GLOBAL ≠ 0) then none
  else
    let gptr_value := w.gptrs pizlonated_gptr
    if gptr_value.ptr ≠ 0 then
      if ¬ (filc_ptr_lower w.heap gptr_value = gptr_value.ptr) then none
      else if ¬ (gptr_value.object = some object) then none
      else some (false, context, w)
    else
      match context.map.lookup pizlonated_gptr with
      | some existing_object =>
        if ¬ (existing_object = object) then none
        else some (false, context, w)
      | none =>
        some (true, { context with map := (pizlonated_gptr, object) :: context.map },
          { w with filc_global_variable_roots := w.filc_global_variable_roots ++ [object] })

/-- The loop of `filc_global_initialization_context_destroy` over the
entries of the map: each slot gets the capability of its object. -/
def global_initialization_commit (h : filc_heap) :
    List (Nat × Nat) → (Nat → filc_ptr) → (Nat → filc_ptr)
  | [], gptrs => gptrs
  | (pizlonated_gptr, object) :: rest, gptrs =>
    global_initialization_commit h rest
      (fun a => if a = pizlonated_gptr then filc_ptr_create_with_manual_tracking h object
        else gptrs a)

/-- `filc_global_initialization_context_destroy`; `none` is the failed
assertion on a zero count.  A count that stays above zero only loses one;
at zero the entries are committed, the context is gone (the first
component is `none`) and the lock is released. -/
def filc_global_initialization_context_destroy (context : filc_global_initialization_context)
    (w : filc_global_world) :
    Option (Option filc_global_initialization_context × filc_global_world) :=
  if context.ref_count = 0 then none
  else if context.ref_count - 1 ≠ 0 then
    some (some { context with ref_count := context.ref_count - 1 }, w)
  else
    some (none,
      { w with
        gptrs := global_initialization_commit w.heap context.map w.gptrs
        lock_held := false })

/-- A call on an initialization context. -/
inductive filc_global_initialization_op
  | create
  | add (pizlonated_gptr object : Nat)
  | destroy
  deriving DecidableEq, Repr

/-- The state of a history of calls on one context: the context, `none`
once it is committed; the world; and the log of the `add` calls with what
they returned, newest first. -/
structure filc_global_initialization_state where
  context : Option filc_global_initialization_context
  world : filc_global_world
  log : List (Nat × Nat × Bool)

/-- One call of a history on the context: `create` is the nested call with
the context as parent.  A failed assertion, and a call on a context that
is committed already, end the run. -/
def filc_global_initialization_op.run :
    filc_global_initialization_op → filc_global_initialization_state →
    Option filc_global_initialization_state
  | .create, s =>
    match s.context with
    | none => none
    | some context =>
      let r := filc_global_initialization_context_create (some context) s.world
      some { s with context := some r.1, world := r.2 }
  | .add pizlonated_gptr object, s =>
    match s.context with
    | none => none
    | some context =>
      match filc_global_initialization_context_add context s.world pizlonated_gptr object with
      | none => none
      | some (result, context1, w1) =>
        some { context := some context1, world := w1,
               log := (pizlonated_gptr, object, result) :: s.log }
  | .destroy, s =>
    match s.context with
    | none => none
    | some context =>
      match filc_global_initialization_context_destroy context s.world with
      | none => none
      | some (context1, w1) => some { s with context := context1, world := w1 }

/-- A history of calls, from left to right. -/
def run_global_initialization_ops :
    List filc_global_initialization_op → filc_global_initialization_state →
    Option filc_global_initialization_state
  | [], s => some s
  | op :: rest, s =>
    match op.run s with
    | none => none
    | some s1 => run_global_initialization_ops rest s1

/-- The state right after `filc_global_initialization_context_create
(NULL)` in the world `w`. -/
def global_initialization_start (w : filc_global_world) : filc_global_initialization_state :=
  { context := some (filc_global_initialization_context_create none w).1
    world := (filc_global_initialization_context_create none w).2
    log := [] }

/-- The slots and objects of the `add` calls of a log that returned true. -/
def global_initialization_added (log : List (Nat × Nat × Bool)) : List (Nat × Nat) :=
  (log.filter fun e => e.2.2).map fun e => (e.1, e.2.1)

/-- The number of `create` calls of a history less the number of its
`destroy` calls, as an integer. -/
def global_initialization_balance : List filc_global_initialization_op → Int
  | [] => 0
  | .create :: rest => global_initialization_balance rest + 1
  | .destroy :: rest => global_initialization_balance rest - 1
  | .add _ _ :: rest => global_initialization_balance rest

/-- A world with two global objects and two empty global pointer slots:
every header is a `GLOBAL` object with payload `[4096, 4128)`, every slot
holds the null pointer, there are no roots, and the lock is free. -/
def sample_global_world : filc_global_world :=
  { heap :=
      { objects := fun _ =>
          { lower := 4096, upper := 4128, flags := FILC_OBJECT_FLAG_GLOBAL,
            word_types := fun _ => FILC_WORD_TYPE_INT }
        memory := fun _ => 0 }
    gptrs := fun _ => filc_ptr_forge_null
    filc_global_variable_roots := []
    lock_held := false }

/-- The invariant of a history `ops` of calls on one context, started in
the world `w0`: the headers are untouched; the roots grew by the objects
added, in order; no slot was added twice and every slot added was null at
the start; while the context is open its count is one more than the
balance of the history, its map holds what was added, no slot was written
and the lock is held; once it is committed the balance is minus one, the
slots added were written by the commit loop and the lock is free. -/
structure global_initialization_wf (w0 : filc_global_world)
    (ops : List filc_global_initialization_op) (s : filc_global_initialization_state) :
    Prop where
  heap_eq : s.world.heap = w0.heap
  roots_eq : s.world.filc_global_variable_roots =
    w0.filc_global_variable_roots ++ (global_initialization_added s.log).reverse.map Prod.snd
  keys_nodup : ((global_initialization_added s.log).map Prod.fst).Nodup
  slots_null : ∀ e, e ∈ global_initialization_added s.log → (w0.gptrs e.1).ptr = 0
  open_context : ∀ c, s.context = some c →
    (c.ref_count : Int) = 1 + global_initialization_balance ops ∧ 1 ≤ c.ref_count ∧
    c.map = global_initialization_added s.log ∧ s.world.gptrs = w0.gptrs ∧
    s.world.lock_held = true
  committed : s.context = none →
    1 + global_initialization_balance ops = 0 ∧
    s.world.gptrs =
      global_initialization_commit w0.heap (global_initialization_added s.log) w0.gptrs ∧
    s.world.lock_held = false

/-- Modelled from the spec: `FILC_THREAD_STATE_ENTERED` of the missing header
`filc_runtime.h`, one bit of the state byte of a thread. -/
def FILC_THREAD_STATE_ENTERED : Nat := 1

/-- Modelled from the spec: `FILC_THREAD_STATE_CHECK_REQUESTED`, another bit
of the state byte. -/
def FILC_THREAD_STATE_CHECK_REQUESTED : Nat := 2

/-- Modelled from the spec: `FILC_THREAD_STATE_STOP_REQUESTED`, another bit
of the state byte. -/
def FILC_THREAD_STATE_STOP_REQUESTED : Nat := 4

/-- Modelled from the spec: `FILC_THREAD_STATE_DEFERRED_SIGNAL`, another bit
of the state byte. -/
def FILC_THREAD_STATE_DEFERRED_SIGNAL : Nat := 8

/-- Modelled from the spec: `FILC_MAX_USER_SIGNUM` of the missing header, the
largest user signal number (`filc_to_user_signum` returns at most 31). -/
def FILC_MAX_USER_SIGNUM : Nat := 31

/-- The fields of `filc_thread` that entering, exiting and signal deferral
work on. -/
structure filc_thread where
  state : Nat
  special_signal_deferral_depth : Nat
  have_deferred_signal_special : Bool
  num_deferred_signals : Nat → Nat

/-- A thread in the course of a run, with what the model records about the
run: the number of accesses to the state byte so far, the successful
compare-and-swaps of this thread on its state byte as pairs of old and new
value, newest first, and the user signal numbers of the signal handler
calls made, oldest first. -/
structure filc_thread_run where
  thread : filc_thread
  tick : Nat
  writes : List (Nat × Nat)
  calls : List Nat

/-- What is outside one thread: `interfere k s` is the state byte the thread
finds at its `k`-th access when it was left as `s` (other threads and
signal handlers may have written it in between); `cas_fails k` says
whether a weak compare-and-swap at access `k` fails without cause; and
`signal_table s` says whether a handler is registered for user signal
`s`. -/
structure filc_thread_env where
  interfere : Nat → Nat → Nat
  cas_fails : Nat → Bool
  signal_table : Nat → Bool

/-- The outcome of a thread function: it returned, it failed an assertion,
or the fuel given to its retry loops ran out. -/
inductive filc_thread_result (α : Type)
  | returned (value : α) (r : filc_thread_run)
  | asserted (r : filc_thread_run)
  | out_of_fuel (r : filc_thread_run)

/-- Sequencing of thread functions. -/
def filc_thread_result.and_then {α β : Type} (x : filc_thread_result α)
    (k : α → filc_thread_run → filc_thread_result β) : filc_thread_result β :=
  match x with
  | .returned a r => k a r
  | .asserted r => .asserted r
  | .out_of_fuel r => .out_of_fuel r

/-- The run with another state byte. -/
def filc_thread_run.set_state (r : filc_thread_run) (state : Nat) : filc_thread_run :=
  { r with thread := { r.thread with state := state } }

/-- A read of `my_thread->state`: the byte found at this access is now the
state of the run. -/
def filc_thread_load (e : filc_thread_env) (r : filc_thread_run) : filc_thread_run :=
  { (r.set_state (e.interfere r.tick r.thread.state % 256)) with tick := r.tick + 1 }

/-- Whether `pas_compare_and_swap_uint8_weak (&my_thread->state, old_state,
...)` at this access succeeds: the byte found is `old_state` and the
swap does not fail without cause. -/
def filc_thread_cas_succeeds (e : filc_thread_env) (r : filc_thread_run) (old_state : Nat) :
    Bool :=
  decide (e.interfere r.tick r.thread.state % 256 = old_state) && !e.cas_fails r.tick

/-- The run after the compare-and-swap: a success stores `new_state` and is
recorded, a failure leaves the byte found. -/
def filc_thread_cas (e : filc_thread_env) (r : filc_thread_run) (old_state new_state : Nat) :
    filc_thread_run :=
  if filc_thread_cas_succeeds e r old_state then
    { (r.set_state new_state) with
      tick := r.tick + 1, writes := (old_state, new_state) :: r.writes }
  else filc_thread_load e r

/-- The compare-and-swap loop of `run_pollcheck_callback` that clears
`CHECK_REQUESTED`. -/
def run_pollcheck_callback_loop (e : filc_thread_env) :
    (fuel : Nat) → filc_thread_run → filc_thread_result Unit
  | 0, r => .out_of_fuel r
  | fuel + 1, r =>
    let r1 := filc_thread_load e r
    let old_state := r1.thread.state
    if old_state &&& FILC_THREAD_STATE_CHECK_REQUESTED = 0 then .asserted r1
    else
      let new_state := old_state &&& (255 ^^^ FILC_THREAD_STATE_CHECK_REQUESTED)
      if filc_thread_cas_succeeds e r1 old_state then
        .returned () (filc_thread_cas e r1 old_state new_state)
      else run_pollcheck_callback_loop e fuel (filc_thread_cas e r1 old_state new_state)

/-- `run_pollcheck_callback`: the assertion that a check is requested, the
callback, the loop that clears `CHECK_REQUESTED`, and the assertion that it
is clear.  The callback itself and the assertions on the callback pointer,
which the requesting thread keeps in step with the bit, are left out. -/
def run_pollcheck_callback (e : filc_thread_env) (fuel : Nat) (r : filc_thread_run) :
    filc_thread_result Unit :=
  let r1 := filc_thread_load e r
  if r1.thread.state &&& FILC_THREAD_STATE_CHECK_REQUESTED = 0 then .asserted r1
  else
    (run_pollcheck_callback_loop e fuel r1).and_then fun _ r2 =>
      let r3 := filc_thread_load e r2
      if r3.thread.state &&& FILC_THREAD_STATE_CHECK_REQUESTED ≠ 0 then .asserted r3
      else .returned () r3

/-- `run_pollcheck_callback_if_necessary`. -/
def run_pollcheck_callback_if_necessary (e : filc_thread_env) (fuel : Nat)
    (r : filc_thread_run) : filc_thread_result Unit :=
  let r1 := filc_thread_load e r
  if r1.thread.state &&& FILC_THREAD_STATE_CHECK_REQUESTED ≠ 0 then
    run_pollcheck_callback e fuel r1
  else .returned () r1

/-- The loop of `filc_enter` that waits on the condition variable while a
stop is requested. -/
def filc_enter_wait (e : filc_thread_env) :
    (fuel : Nat) → filc_thread_run → filc_thread_result Unit
  | 0, r => .out_of_fuel r
  | fuel + 1, r =>
    let r1 := filc_thread_load e r
    if r1.thread.state &&& FILC_THREAD_STATE_STOP_REQUESTED = 0 then .returned () r1
    else
      let r2 := filc_thread_load e r1
      if r2.thread.state &&& FILC_THREAD_STATE_ENTERED ≠ 0 then .asserted r2
      else filc_enter_wait e fuel r2

/-- The `for (;;)` loop of `filc_enter`. -/
def filc_enter_loop (e : filc_thread_env) :
    (fuel : Nat) → filc_thread_run → filc_thread_result Unit
  | 0, r => .out_of_fuel r
  | fuel + 1, r =>
    let r1 := filc_thread_load e r
    let old_state := r1.thread.state
    if old_state &&& FILC_THREAD_STATE_DEFERRED_SIGNAL ≠ 0 then .asserted r1
    else if old_state &&& FILC_THREAD_STATE_ENTERED ≠ 0 then .asserted r1
    else if old_state &&&
        (FILC_THREAD_STATE_CHECK_REQUESTED ||| FILC_THREAD_STATE_STOP_REQUESTED) ≠ 0 then
      let r2 := filc_thread_load e r1
      if r2.thread.state &&& FILC_THREAD_STATE_DEFERRED_SIGNAL ≠ 0 then .asserted r2
      else
        let r3 := filc_thread_load e r2
        if r3.thread.state &&& FILC_THREAD_STATE_ENTERED ≠ 0 then .asserted r3
        else
          match (run_pollcheck_callback_if_necessary e fuel r3).and_then fun _ r4 =>
              filc_enter_wait e fuel r4 with
          | .returned _ r5 => filc_enter_loop e fuel r5
          | .asserted r5 => .asserted r5
          | .out_of_fuel r5 => .out_of_fuel r5
    else
      let new_state := old_state ||| FILC_THREAD_STATE_ENTERED
      if filc_thread_cas_succeeds e r1 old_state then
        .returned () (filc_thread_cas e r1 old_state new_state)
      else filc_enter_loop e fuel (filc_thread_cas e r1 old_state new_state)

/-- `filc_enter`: the two assertions, the loop, and the assertion that the
thread is entered. -/
def filc_enter (e : filc_thread_env) (fuel : Nat) (r : filc_thread_run) :
    filc_thread_result Unit :=
  let r1 := filc_thread_load e r
  if r1.thread.state &&& FILC_THREAD_STATE_DEFERRED_SIGNAL ≠ 0 then .asserted r1
  else
    let r2 := filc_thread_load e r1
    if r2.thread.state &&& FILC_THREAD_STATE_ENTERED ≠ 0 then .asserted r2
    else
      (filc_enter_loop e fuel r2).and_then fun _ r3 =>
        let r4 := filc_thread_load e r3
        if r4.thread.state &&& FILC_THREAD_STATE_ENTERED = 0 then .asserted r4
        else .returned () r4

/-- `call_signal_handler`: the assertion that there is a handler, and the
call, which is recorded; what the handler does to the state byte is part
of the interference. -/
def call_signal_handler (e : filc_thread_env) (r : filc_thread_run) (signum : Nat) :
    filc_thread_result Unit :=
  if ¬ (e.signal_table signum = true) then .asserted r
  else
    let r1 := filc_thread_load e r
    .returned () { r1 with calls := r1.calls ++ [signum] }

/-- The loop `while (num_deferred_signals--) call_signal_handler (...)`. -/
def call_signal_handler_times (e : filc_thread_env) (signum : Nat) :
    (num_deferred_signals : Nat) → filc_thread_run → filc_thread_result Unit
  | 0, r => .returned () r
  | n + 1, r =>
    (call_signal_handler e r signum).and_then fun _ r1 =>
      call_signal_handler_times e signum n r1

/-- The first loop of `handle_deferred_signals`: false when
`DEFERRED_SIGNAL` is clear, which makes the function return; true once the
bit was cleared by compare-and-swap. -/
def handle_deferred_signals_clear (e : filc_thread_env) :
    (fuel : Nat) → filc_thread_run → filc_thread_result Bool
  | 0, r => .out_of_fuel r
  | fuel + 1, r =>
    let r1 := filc_thread_load e r
    let old_state := r1.thread.state
    if old_state &&& FILC_THREAD_STATE_DEFERRED_SIGNAL = 0 then .returned false r1
    else
      let new_state := old_state &&& (255 ^^^ FILC_THREAD_STATE_DEFERRED_SIGNAL)
      if filc_thread_cas_succeeds e r1 old_state then
        .returned true (filc_thread_cas e r1 old_state new_state)
      else handle_deferred_signals_clear e fuel (filc_thread_cas e r1 old_state new_state)

/-- The loop `for (index = FILC_MAX_USER_SIGNUM + 1; index--;)` of
`handle_deferred_signals`, with `index` signal numbers still to visit: the
counter of the signal is read and zeroed, and a non-zero count is
delivered through the registered handler. -/
def handle_deferred_signals_deliver (e : filc_thread_env) :
    (index : Nat) → filc_thread_run → filc_thread_result Unit
  | 0, r => .returned () r
  | index + 1, r =>
    let num_deferred_signals := r.thread.num_deferred_signals index
    let r1 : filc_thread_run :=
      { r with
        thread :=
          { r.thread with
            num_deferred_signals := fun s =>
              if s = index then 0 else r.thread.num_deferred_signals s } }
    if num_deferred_signals = 0 then handle_deferred_signals_deliver e index r1
    else if ¬ (e.signal_table index = true) then .asserted r1
    else
      (call_signal_handler_times e index num_deferred_signals r1).and_then fun _ r2 =>
        handle_deferred_signals_deliver e index r2

/-- `handle_deferred_signals`. -/
def handle_deferred_signals (e : filc_thread_env) (fuel : Nat) (r : filc_thread_run) :
    filc_thread_result Unit :=
  let r1 := filc_thread_load e r
  if r1.thread.state &&& FILC_THREAD_STATE_ENTERED = 0 then .asserted r1
  else
    (handle_deferred_signals_clear e fuel r1).and_then fun cleared r2 =>
      if cleared then handle_deferred_signals_deliver e (FILC_MAX_USER_SIGNUM + 1) r2
      else .returned () r2

/-- The `for (;;)` loop of `filc_exit`. -/
def filc_exit_loop (e : filc_thread_env) :
    (fuel : Nat) → filc_thread_run → filc_thread_result Unit
  | 0, r => .out_of_fuel r
  | fuel + 1, r =>
    let r1 := filc_thread_load e r
    let old_state := r1.thread.state
    if old_state &&& FILC_THREAD_STATE_ENTERED = 0 then .asserted r1
    else if old_state &&& FILC_THREAD_STATE_DEFERRED_SIGNAL ≠ 0 then
      match handle_deferred_signals e fuel r1 with
      | .returned _ r2 => filc_exit_loop e fuel r2
      | .asserted r2 => .asserted r2
      | .out_of_fuel r2 => .out_of_fuel r2
    else if old_state &&& FILC_THREAD_STATE_CHECK_REQUESTED ≠ 0 then
      let r2 := filc_thread_load e r1
      if r2.thread.state &&& FILC_THREAD_STATE_ENTERED = 0 then .asserted r2
      else
        match run_pollcheck_callback_if_necessary e fuel r2 with
        | .returned _ r3 => filc_exit_loop e fuel r3
        | .asserted r3 => .asserted r3
        | .out_of_fuel r3 => .out_of_fuel r3
    else
      let new_state := old_state &&& (255 ^^^ FILC_THREAD_STATE_ENTERED)
      if filc_thread_cas_succeeds e r1 old_state then
        .returned () (filc_thread_cas e r1 old_state new_state)
      else filc_exit_loop e fuel (filc_thread_cas e r1 old_state new_state)

/-- `filc_exit`: the assertion that the thread is entered, the loop, the
two assertions that `DEFERRED_SIGNAL` and `ENTERED` are clear, and the
read that decides on the broadcast for a requested stop, which writes
nothing. -/
def filc_exit (e : filc_thread_env) (fuel : Nat) (r : filc_thread_run) :
    filc_thread_result Unit :=
  let r1 := filc_thread_load e r
  if r1.thread.state &&& FILC_THREAD_STATE_ENTERED = 0 then .asserted r1
  else
    (filc_exit_loop e fuel r1).and_then fun _ r2 =>
      let r3 := filc_thread_load e r2
      if r3.thread.state &&& FILC_THREAD_STATE_DEFERRED_SIGNAL ≠ 0 then .asserted r3
      else
        let r4 := filc_thread_load e r3
        if r4.thread.state &&& FILC_THREAD_STATE_ENTERED ≠ 0 then .asserted r4
        else .returned () (filc_thread_load e r4)

/-- The loop of `signal_pizlonator` that sets `DEFERRED_SIGNAL`. -/
def signal_pizlonator_defer (e : filc_thread_env) :
    (fuel : Nat) → filc_thread_run → filc_thread_result Unit
  | 0, r => .out_of_fuel r
  | fuel + 1, r =>
    let r1 := filc_thread_load e r
    let old_state := r1.thread.state
    if old_state &&& FILC_THREAD_STATE_ENTERED = 0 then .asserted r1
    else if old_state &&& FILC_THREAD_STATE_DEFERRED_SIGNAL ≠ 0 then .returned () r1
    else
      let new_state := old_state ||| FILC_THREAD_STATE_DEFERRED_SIGNAL
      if filc_thread_cas_succeeds e r1 old_state then
        .returned () (filc_thread_cas e r1 old_state new_state)
      else signal_pizlonator_defer e fuel (filc_thread_cas e r1 old_state new_state)

/-- `signal_pizlonator` for the user signal number `user_signum` that
`filc_to_user_signum` returned.  On an entered thread, or inside a special
deferral scope, the 64-bit counter of the signal is incremented and the
signal is left for later; otherwise it is delivered at once between
`filc_enter` and `filc_exit`. -/
def signal_pizlonator (e : filc_thread_env) (fuel : Nat) (r : filc_thread_run)
    (user_signum : Nat) : filc_thread_result Unit :=
  if ¬ (user_signum ≤ FILC_MAX_USER_SIGNUM) then .asserted r
  else
    let r1 := filc_thread_load e r
    if r1.thread.state &&& FILC_THREAD_STATE_ENTERED ≠ 0 ∨
        r1.thread.special_signal_deferral_depth ≠ 0 then
      let r2 : filc_thread_run :=
        { r1 with
          thread :=
            { r1.thread with
              num_deferred_signals := fun s =>
                if s = user_signum then (r1.thread.num_deferred_signals s + 1) % 2 ^ 64
                else r1.thread.num_deferred_signals s } }
      if r2.thread.special_signal_deferral_depth ≠ 0 then
        .returned () { r2 with thread := { r2.thread with have_deferred_signal_special := true } }
      else signal_pizlonator_defer e fuel r2
    else
      (filc_enter e fuel r1).and_then fun _ r2 =>
        (call_signal_handler e r2 user_signum).and_then fun _ r3 =>
          filc_exit e fuel r3

/-- The signal entry point run for each signal of a list in turn. -/
def signal_pizlonator_all (e : filc_thread_env) (fuel : Nat) :
    List Nat → filc_thread_run → filc_thread_result Unit
  | [], r => .returned () r
  | user_signum :: rest, r =>
    (signal_pizlonator e fuel r user_signum).and_then fun _ r1 =>
      signal_pizlonator_all e fuel rest r1

/-- Nothing but the thread itself writes its state byte, no compare-and-swap
fails without cause, and `signal_table` tells which signals have a
handler. -/
def filc_thread_env_quiet (signal_table : Nat → Bool) : filc_thread_env :=
  { interfere := fun _ state => state, cas_fails := fun _ => false,
    signal_table := signal_table }

/-- The calls `handle_deferred_signals` makes for the counters
`num_deferred_signals` when `index` signal numbers are still to visit: the
largest signal number first, each as often as it was counted. -/
def deferred_signal_calls (num_deferred_signals : Nat → Nat) : (index : Nat) → List Nat
  | 0 => []
  | index + 1 =>
    List.replicate (num_deferred_signals index) index ++
      deferred_signal_calls num_deferred_signals index

/-- A thread at rest: the state byte `state`, no deferral scope, no signal
counted. -/
def sample_thread_run (state : Nat) : filc_thread_run :=
  { thread :=
      { state := state, special_signal_deferral_depth := 0,
        have_deferred_signal_special := false, num_deferred_signals := fun _ => 0 }
    tick := 0, writes := [], calls := [] }

/-- The run an outcome ended with. -/
def filc_thread_result.run {α : Type} : filc_thread_result α → filc_thread_run
  | .returned _ r => r
  | .asserted r => r
  | .out_of_fuel r => r

/-- Whether the function returned. -/
def filc_thread_result.has_returned {α : Type} : filc_thread_result α → Bool
  | .returned _ _ => true
  | .asserted _ => false
  | .out_of_fuel _ => false

/-- A write that leaves the `ENTERED` and `STOP_REQUESTED` bits of a state
byte as they were. -/
def filc_thread_write_keeps (w : Nat × Nat) : Prop :=
  w.1 < 256 ∧
    w.2 &&& FILC_THREAD_STATE_ENTERED = w.1 &&& FILC_THREAD_STATE_ENTERED ∧
    w.2 &&& FILC_THREAD_STATE_STOP_REQUESTED = w.1 &&& FILC_THREAD_STATE_STOP_REQUESTED

/-- The writes of `r1` are those of `r` with further writes in front, all of
which leave `ENTERED` and `STOP_REQUESTED` as they were. -/
def filc_thread_writes_keep (r r1 : filc_thread_run) : Prop :=
  ∃ new_writes, r1.writes = new_writes ++ r.writes ∧
    ∀ w, w ∈ new_writes → filc_thread_write_keeps w

/-- The writes of `r1` are those of `r` with further writes in front, all of
which satisfy `P`. -/
def filc_thread_writes_all (P : Nat × Nat → Prop) (r r1 : filc_thread_run) : Prop :=
  ∃ new_writes, r1.writes = new_writes ++ r.writes ∧ ∀ w, w ∈ new_writes → P w

/-- What a write `(old, new)` of `filc_enter` may do: it leaves
`STOP_REQUESTED` as it was, and when it changes `ENTERED` it is the
compare-and-swap from a state with all four bits clear to that state with
`ENTERED` set. -/
def filc_enter_write_ok (w : Nat × Nat) : Prop :=
  w.2 &&& FILC_THREAD_STATE_STOP_REQUESTED = w.1 &&& FILC_THREAD_STATE_STOP_REQUESTED ∧
    (w.2 &&& FILC_THREAD_STATE_ENTERED ≠ w.1 &&& FILC_THREAD_STATE_ENTERED →
      w.1 &&& (FILC_THREAD_STATE_ENTERED ||| FILC_THREAD_STATE_DEFERRED_SIGNAL |||
        FILC_THREAD_STATE_STOP_REQUESTED ||| FILC_THREAD_STATE_CHECK_REQUESTED) = 0 ∧
      w.2 = w.1 ||| FILC_THREAD_STATE_ENTERED)

/-- What a write `(old, new)` of `filc_exit` may do: it leaves
`STOP_REQUESTED` as it was, and when it changes `ENTERED` it is the
compare-and-swap from a state with `ENTERED` set and `DEFERRED_SIGNAL` and
`CHECK_REQUESTED` clear to that state with `ENTERED` clear. -/
def filc_exit_write_ok (w : Nat × Nat) : Prop :=
  w.2 &&& FILC_THREAD_STATE_STOP_REQUESTED = w.1 &&& FILC_THREAD_STATE_STOP_REQUESTED ∧
    (w.2 &&& FILC_THREAD_STATE_ENTERED ≠ w.1 &&& FILC_THREAD_STATE_ENTERED →
      w.1 &&& FILC_THREAD_STATE_ENTERED ≠ 0 ∧
      w.1 &&& (FILC_THREAD_STATE_DEFERRED_SIGNAL ||| FILC_THREAD_STATE_CHECK_REQUESTED) = 0 ∧
      w.2 = w.1 &&& (255 ^^^ FILC_THREAD_STATE_ENTERED))

/-- What the rest of the program does to the state byte of a thread between
two of its accesses: `ENTERED` is changed by the thread alone, in
`filc_enter` and `filc_exit`, which a signal handler calls in pairs; and
`DEFERRED_SIGNAL` is set by `signal_pizlonator` and cleared by
`handle_deferred_signals` on an entered thread only. -/
def filc_thread_env_respects (e : filc_thread_env) : Prop :=
  ∀ k state, state < 256 →
    (e.interfere k state % 256) &&& FILC_THREAD_STATE_ENTERED =
      state &&& FILC_THREAD_STATE_ENTERED ∧
    (state &&& FILC_THREAD_STATE_ENTERED = 0 →
      (e.interfere k state % 256) &&& FILC_THREAD_STATE_DEFERRED_SIGNAL =
        state &&& FILC_THREAD_STATE_DEFERRED_SIGNAL)

/-! ## Facts about the access checker -/

@[simp] theorem filc_heap.set_object_same (h : filc_heap) (o : Nat) (obj : filc_object) :
    (h.set_object o obj).objects o = obj := by
  simp [filc_heap.set_object]

@[simp] theorem filc_heap.set_object_other (h : filc_heap) (o x : Nat) (obj : filc_object)
    (hx : x ≠ o) : (h.set_object o obj).objects x = h.objects x := by
  simp [filc_heap.set_object, hx]

@[simp] theorem filc_heap.set_object_memory (h : filc_heap) (o : Nat) (obj : filc_object) :
    (h.set_object o obj).memory = h.memory := rfl

/-- The effect of one turn of the `check_int` loop on an `UNSET` or `INT`
word. -/
theorem check_int_word_ok (h : filc_heap) (o i : Nat)
    (ht : (h.objects o).word_types i = FILC_WORD_TYPE_UNSET ∨
      (h.objects o).word_types i = FILC_WORD_TYPE_INT) :
    ∃ h1, check_int_word h o i = .done () h1 ∧ h1.memory = h.memory ∧
      (∀ x, x ≠ o → h1.objects x = h.objects x) ∧
      (h1.objects o).lower = (h.objects o).lower ∧
      (h1.objects o).upper = (h.objects o).upper ∧
      (h1.objects o).flags = (h.objects o).flags ∧
      (h1.objects o).word_types i = FILC_WORD_TYPE_INT ∧
      ∀ j, j ≠ i → (h1.objects o).word_types j = (h.objects o).word_types j := by
  rcases ht with ht | ht
  · refine ⟨h.set_object o ((h.objects o).set_word_type i FILC_WORD_TYPE_INT),
      by simp [check_int_word, ht], rfl, ?_, ?_, ?_, ?_, ?_, ?_⟩ <;>
      simp +contextual [filc_object.set_word_type]
  · exact ⟨h, by simp [check_int_word, ht], rfl, fun _ _ => rfl, rfl, rfl, rfl, ht,
      fun _ _ => rfl⟩

/-- One turn of the `check_int` loop on a word of any other tag panics and
leaves the heap as it was. -/
theorem check_int_word_bad (h : filc_heap) (o i : Nat)
    (h1 : (h.objects o).word_types i ≠ FILC_WORD_TYPE_UNSET)
    (h2 : (h.objects o).word_types i ≠ FILC_WORD_TYPE_INT) :
    check_int_word h o i = .panic .span_contains_non_ints h := by
  simp [check_int_word, h1, h2]

/-- The `uintptr_t` distance to the upper bound is the exact difference for
an in-bounds address of an addressable object. -/
theorem filc_ptr_available_eq (h : filc_heap) (ptr : filc_ptr) (o : Nat)
    (ho : ptr.object = some o) (ha : (h.objects o).addressable)
    (hlt : ptr.ptr < (h.objects o).upper) :
    filc_ptr_available h ptr = (h.objects o).upper - ptr.ptr := by
  unfold filc_object.addressable at ha
  simp only [filc_ptr_available, filc_ptr_upper, ho]
  omega

/-- The `uintptr_t` offset is the exact difference for an address at or
above the lower bound. -/
theorem filc_ptr_offset_eq (h : filc_heap) (ptr : filc_ptr) (o : Nat)
    (ho : ptr.object = some o) (hle : (h.objects o).lower ≤ ptr.ptr)
    (hlt : ptr.ptr < 2 ^ 64) :
    filc_ptr_offset h ptr = ptr.ptr - (h.objects o).lower := by
  simp only [filc_ptr_offset, filc_ptr_lower, ho]
  omega

/-- What a passed check-common says, and that it leaves the heap alone. -/
theorem filc_check_access_common_done (h h1 : filc_heap) (ptr : filc_ptr) (bytes : Nat)
    (kind : filc_access_kind) (u : Unit)
    (hd : filc_check_access_common h ptr bytes kind = .done u h1) :
    h1 = h ∧ ∃ o, ptr.object = some o ∧ (h.objects o).lower ≤ ptr.ptr ∧
      ptr.ptr < (h.objects o).upper ∧ bytes ≤ filc_ptr_available h ptr ∧
      (kind = filc_write_access → (h.objects o).flags &&& FILC_OBJECT_FLAG_READONLY = 0) := by
  unfold filc_check_access_common at hd
  cases ho : ptr.object with
  | none => simp [ho] at hd
  | some o =>
    simp only [ho] at hd
    split_ifs at hd with c1 c2 c3 c4
    simp only [filc_result.done.injEq] at hd
    simp only [filc_ptr_lower, filc_ptr_upper, ho] at c1 c2
    refine ⟨hd.2.symm, o, rfl, c1, c2, c3, ?_⟩
    intro hk
    by_contra hne
    exact c4 ⟨hk, hne⟩

/-- C1. `filc_check_access_common` fails exactly when the object is null,
the address is below the lower bound, the address is at or above the
upper bound, more bytes are asked for than lie between the address and
the upper bound, or the access is a write to a read-only object; whether
it fails or not, it leaves every header and the payload as they were. -/
theorem filc_check_access_common_fails_iff (h : filc_heap) (ptr : filc_ptr) (bytes : Nat)
    (kind : filc_access_kind)
    (ha : ∀ o, ptr.object = some o → (h.objects o).addressable) :
    ((filc_check_access_common h ptr bytes kind).succeeded = false ↔
      (ptr.object = none ∨ ptr.ptr < filc_ptr_lower h ptr ∨ ptr.ptr ≥ filc_ptr_upper h ptr ∨
        bytes > filc_ptr_upper h ptr - ptr.ptr ∨
        (kind = filc_write_access ∧
          ∃ o, ptr.object = some o ∧
            (h.objects o).flags &&& FILC_OBJECT_FLAG_READONLY ≠ 0))) ∧
    (filc_check_access_common h ptr bytes kind).heap = h := by
  cases ho : ptr.object with
  | none => simp [filc_check_access_common, ho, filc_result.succeeded, filc_result.heap]
  | some o =>
    have hao := ha o ho
    unfold filc_object.addressable at hao
    simp only [filc_check_access_common, ho, filc_ptr_lower, filc_ptr_upper,
      filc_ptr_available]
    by_cases c1 : ptr.ptr ≥ (h.objects o).lower
    swap
    · simp only [c1, not_false_eq_true, if_true, filc_result.succeeded, filc_result.heap]
      exact ⟨⟨fun _ => Or.inr (Or.inl (by omega)), fun _ => trivial⟩, trivial⟩
    by_cases c2 : ptr.ptr < (h.objects o).upper
    swap
    · simp only [c1, c2, not_true_eq_false, not_false_eq_true, if_true, if_false,
        filc_result.succeeded, filc_result.heap]
      exact ⟨⟨fun _ => Or.inr (Or.inr (Or.inl (by omega))), fun _ => trivial⟩, trivial⟩
    have hav : ((h.objects o).upper + 2 ^ 64 - ptr.ptr) % 2 ^ 64
        = (h.objects o).upper - ptr.ptr := by omega
    rw [hav]
    by_cases c3 : bytes ≤ (h.objects o).upper - ptr.ptr
    swap
    · simp only [c1, c2, c3, not_true_eq_false, not_false_eq_true, if_true, if_false,
        filc_result.succeeded, filc_result.heap]
      exact ⟨⟨fun _ => Or.inr (Or.inr (Or.inr (Or.inl (by omega)))), fun _ => trivial⟩,
        trivial⟩
    by_cases c4 : kind = filc_write_access ∧
        (h.objects o).flags &&& FILC_OBJECT_FLAG_READONLY ≠ 0
    · simp only [c1, c2, c3, not_true_eq_false, if_false]
      rw [if_pos c4]
      exact ⟨⟨fun _ => Or.inr (Or.inr (Or.inr (Or.inr ⟨c4.1, o, rfl, c4.2⟩))),
        fun _ => rfl⟩, rfl⟩
    · simp only [c1, c2, c3, not_true_eq_false, if_false]
      rw [if_neg c4]
      refine ⟨⟨fun hf => (by cases hf), ?_⟩, rfl⟩
      rintro (hn | hl | hu | hb | ⟨hk, o2, ho2, hr⟩)
      · cases hn
      · omega
      · omega
      · omega
      · cases ho2
        exact absurd ⟨hk, hr⟩ c4

/-- Every header of the sample heap is addressable. -/
theorem sample_heap_addressable (o : Nat) : (sample_heap.objects o).addressable := by
  show 4128 + 16 ≤ 2 ^ 64
  norm_num

/-- C1 at a write of four bytes into the sample object. -/
theorem filc_check_access_common_fails_iff_witness :
    (∀ o, (⟨some 7, 4100⟩ : filc_ptr).object = some o →
      (sample_heap.objects o).addressable) ∧
    (filc_check_access_common sample_heap ⟨some 7, 4100⟩ 4 filc_write_access).heap
      = sample_heap :=
  ⟨fun o _ => sample_heap_addressable o,
   (filc_check_access_common_fails_iff sample_heap ⟨some 7, 4100⟩ 4 filc_write_access
      (fun o _ => sample_heap_addressable o)).2⟩

/-- The `check_int` loop over `n` words from `idx`: it returns exactly when
all of them are `UNSET` or `INT`, then they are all `INT`; a failure is the
non-int panic; in every case the payload, the other objects, the bounds
and the flags are untouched and a tag changes only from `UNSET` to `INT`
inside the range. -/
theorem check_int_loop_spec (o : Nat) : ∀ (n idx : Nat) (h : filc_heap),
    (check_int_loop o n idx h).heap.memory = h.memory ∧
    (∀ x, x ≠ o → (check_int_loop o n idx h).heap.objects x = h.objects x) ∧
    ((check_int_loop o n idx h).heap.objects o).lower = (h.objects o).lower ∧
    ((check_int_loop o n idx h).heap.objects o).upper = (h.objects o).upper ∧
    ((check_int_loop o n idx h).heap.objects o).flags = (h.objects o).flags ∧
    (∀ i, ((check_int_loop o n idx h).heap.objects o).word_types i = (h.objects o).word_types i ∨
      ((h.objects o).word_types i = FILC_WORD_TYPE_UNSET ∧
        ((check_int_loop o n idx h).heap.objects o).word_types i = FILC_WORD_TYPE_INT ∧
        idx ≤ i ∧ i < idx + n)) ∧
    ((check_int_loop o n idx h).succeeded = true ↔
      ∀ i, idx ≤ i → i < idx + n →
        (h.objects o).word_types i = FILC_WORD_TYPE_UNSET ∨
        (h.objects o).word_types i = FILC_WORD_TYPE_INT) ∧
    ((check_int_loop o n idx h).succeeded = true →
      ∀ i, idx ≤ i → i < idx + n →
        ((check_int_loop o n idx h).heap.objects o).word_types i = FILC_WORD_TYPE_INT) ∧
    ((check_int_loop o n idx h).succeeded = false →
      (check_int_loop o n idx h).why = some .span_contains_non_ints) := by
  intro n
  induction n with
  | zero =>
    intro idx h
    refine ⟨rfl, fun _ _ => rfl, rfl, rfl, rfl, fun _ => Or.inl rfl, ?_, ?_, ?_⟩
    · exact ⟨fun _ i h1 h2 => by omega, fun _ => rfl⟩
    · intro _ i h1 h2; omega
    · intro hf; cases hf
  | succ n ih =>
    intro idx h
    by_cases ht : (h.objects o).word_types idx = FILC_WORD_TYPE_UNSET ∨
        (h.objects o).word_types idx = FILC_WORD_TYPE_INT
    · obtain ⟨h1, hw, hm, hx, hl, hu, hf, hti, htj⟩ := check_int_word_ok h o idx ht
      obtain ⟨im, ix, il, iu, ifl, it, iok, iint, ibad⟩ := ih (idx + 1) h1
      have hstep : check_int_loop o (n + 1) idx h = check_int_loop o n (idx + 1) h1 := by
        simp only [check_int_loop, hw]
      rw [hstep]
      refine ⟨im.trans hm, fun x hxo => (ix x hxo).trans (hx x hxo), il.trans hl, iu.trans hu,
        ifl.trans hf, ?_, ?_, ?_, ibad⟩
      · intro i
        by_cases hi : i = idx
        · subst hi
          rcases it i with e | ⟨_, _, hlo, _⟩
          · rw [e, hti]
            rcases ht with ht | ht
            · exact Or.inr ⟨ht, rfl, le_refl _, by omega⟩
            · exact Or.inl ht.symm
          · omega
        · rcases it i with e | ⟨e1, e2, hlo, hhi⟩
          · exact Or.inl (e.trans (htj i hi))
          · exact Or.inr ⟨(htj i hi) ▸ e1, e2, by omega, by omega⟩
      · rw [iok]
        constructor
        · intro hall i h1' h2'
          by_cases hi : i = idx
          · subst hi; exact ht
          · rw [← htj i hi]; exact hall i (by omega) (by omega)
        · intro hall i h1' h2'
          rw [htj i (by omega)]; exact hall i (by omega) (by omega)
      · intro hs i h1' h2'
        by_cases hi : i = idx
        · subst hi
          rcases it i with e | ⟨_, e2, _, _⟩
          · rw [e, hti]
          · exact e2
        · exact iint hs i (by omega) (by omega)
    · have hb := check_int_word_bad h o idx (fun e => ht (Or.inl e)) (fun e => ht (Or.inr e))
      have hstep : check_int_loop o (n + 1) idx h = .panic .span_contains_non_ints h := by
        simp only [check_int_loop, hb]
      rw [hstep]
      refine ⟨rfl, fun _ _ => rfl, rfl, rfl, rfl, fun _ => Or.inl rfl, ?_, ?_, fun _ => rfl⟩
      · constructor
        · intro hf; cases hf
        · intro hall; exact absurd (hall idx (le_refl _) (by omega)) ht
      · intro hf; cases hf

/-- An operation that succeeded returned a value. -/
theorem filc_result.eq_done_of_succeeded {α : Type} (r : filc_result α)
    (hs : r.succeeded = true) : ∃ a h, r = .done a h := by
  cases r with
  | done a h => exact ⟨a, h, rfl⟩
  | panic e h => cases hs

/-- An operation that did not succeed ended in a panic. -/
theorem filc_result.eq_panic_of_not_succeeded {α : Type} (r : filc_result α)
    (hs : r.succeeded = false) : ∃ e h, r = .panic e h := by
  cases r with
  | done a h => cases hs
  | panic e h => exact ⟨e, h, rfl⟩

/-- For an in-bounds range of at least one byte, `check_int` is its loop
over the words `offset / 16` up to `(offset + bytes - 1) / 16`. -/
theorem check_int_eq_loop (h : filc_heap) (ptr : filc_ptr) (bytes o : Nat)
    (ho : ptr.object = some o) (ha : (h.objects o).addressable)
    (hlo : (h.objects o).lower ≤ ptr.ptr) (hb : 1 ≤ bytes)
    (hhi : ptr.ptr + bytes ≤ (h.objects o).upper) :
    check_int h ptr bytes =
      check_int_loop o
        ((ptr.ptr - (h.objects o).lower + bytes - 1) / 16 + 1
          - (ptr.ptr - (h.objects o).lower) / 16)
        ((ptr.ptr - (h.objects o).lower) / 16) h := by
  unfold filc_object.addressable at ha
  have hoff := filc_ptr_offset_eq h ptr o ho hlo (by omega)
  have hlast : (ptr.ptr - (h.objects o).lower + bytes + 2 ^ 64 - 1) % 2 ^ 64
      = ptr.ptr - (h.objects o).lower + bytes - 1 := by omega
  simp only [check_int, ho, hoff, FILC_WORD_SIZE, hlast]

/-- C2. For a pointer that passes check-common for `bytes ≥ 1`,
`filc_check_access_int` succeeds exactly when every word with index from
`offset / 16` to `(offset + bytes - 1) / 16` is `UNSET` or `INT`; after a
success exactly those words are `INT` and every other tag, the flags, the
bounds, the other objects and the payload are unchanged; and a word of any
other tag in that range makes it fail with the non-int type violation. -/
theorem filc_check_access_int_spec (h : filc_heap) (ptr : filc_ptr) (bytes o : Nat)
    (kind : filc_access_kind) (ho : ptr.object = some o)
    (ha : (h.objects o).addressable) (hb : 1 ≤ bytes)
    (hc : (filc_check_access_common h ptr bytes kind).succeeded = true) :
    ((filc_check_access_int h ptr bytes kind).succeeded = true ↔
      ∀ i, (ptr.ptr - (h.objects o).lower) / 16 ≤ i →
        i ≤ (ptr.ptr - (h.objects o).lower + bytes - 1) / 16 →
        (h.objects o).word_types i = FILC_WORD_TYPE_UNSET ∨
        (h.objects o).word_types i = FILC_WORD_TYPE_INT) ∧
    ((filc_check_access_int h ptr bytes kind).succeeded = true →
      (∀ i, (((filc_check_access_int h ptr bytes kind).heap.objects o).word_types i =
        if (ptr.ptr - (h.objects o).lower) / 16 ≤ i ∧
            i ≤ (ptr.ptr - (h.objects o).lower + bytes - 1) / 16
        then FILC_WORD_TYPE_INT else (h.objects o).word_types i)) ∧
      ((filc_check_access_int h ptr bytes kind).heap.objects o).flags = (h.objects o).flags ∧
      ((filc_check_access_int h ptr bytes kind).heap.objects o).lower = (h.objects o).lower ∧
      ((filc_check_access_int h ptr bytes kind).heap.objects o).upper = (h.objects o).upper ∧
      (∀ x, x ≠ o →
        (filc_check_access_int h ptr bytes kind).heap.objects x = h.objects x) ∧
      (filc_check_access_int h ptr bytes kind).heap.memory = h.memory) ∧
    ((∃ i, (ptr.ptr - (h.objects o).lower) / 16 ≤ i ∧
        i ≤ (ptr.ptr - (h.objects o).lower + bytes - 1) / 16 ∧
        (h.objects o).word_types i ≠ FILC_WORD_TYPE_UNSET ∧
        (h.objects o).word_types i ≠ FILC_WORD_TYPE_INT) →
      (filc_check_access_int h ptr bytes kind).why = some .span_contains_non_ints ∧
      filc_panic.is_type_violation .span_contains_non_ints = true) := by
  obtain ⟨u, h1, hd⟩ := filc_result.eq_done_of_succeeded _ hc
  obtain ⟨hh, o2, ho2, hlo, hhi, hav, _⟩ := filc_check_access_common_done h h1 ptr bytes kind u hd
  rw [ho] at ho2
  cases ho2
  rw [hh] at hd
  rw [filc_ptr_available_eq h ptr o ho ha hhi] at hav
  have hrun : filc_check_access_int h ptr bytes kind =
      check_int_loop o
        ((ptr.ptr - (h.objects o).lower + bytes - 1) / 16 + 1
          - (ptr.ptr - (h.objects o).lower) / 16)
        ((ptr.ptr - (h.objects o).lower) / 16) h := by
    rw [← check_int_eq_loop h ptr bytes o ho ha hlo hb (by omega)]
    simp only [filc_check_access_int, hd, filc_result.and_then]
    rw [if_neg (by omega)]
  rw [hrun]
  obtain ⟨sm, sx, sl, su, sf, st, sok, sint, sbad⟩ :=
    check_int_loop_spec o
      ((ptr.ptr - (h.objects o).lower + bytes - 1) / 16 + 1
        - (ptr.ptr - (h.objects o).lower) / 16)
      ((ptr.ptr - (h.objects o).lower) / 16) h
  have hrange : ∀ i, ((ptr.ptr - (h.objects o).lower) / 16 ≤ i ∧
      i < (ptr.ptr - (h.objects o).lower) / 16 +
        ((ptr.ptr - (h.objects o).lower + bytes - 1) / 16 + 1
          - (ptr.ptr - (h.objects o).lower) / 16)) ↔
      ((ptr.ptr - (h.objects o).lower) / 16 ≤ i ∧
        i ≤ (ptr.ptr - (h.objects o).lower + bytes - 1) / 16) := by
    intro i; omega
  refine ⟨?_, ?_, ?_⟩
  · rw [sok]
    constructor
    · intro hall i h1 h2
      exact hall i h1 (((hrange i).2 ⟨h1, h2⟩).2)
    · intro hall i h1 h2
      exact hall i h1 (((hrange i).1 ⟨h1, h2⟩).2)
  · intro hs
    refine ⟨?_, sf, sl, su, sx, sm⟩
    intro i
    by_cases hi : (ptr.ptr - (h.objects o).lower) / 16 ≤ i ∧
        i ≤ (ptr.ptr - (h.objects o).lower + bytes - 1) / 16
    · rw [if_pos hi]
      exact sint hs i hi.1 (((hrange i).2 hi).2)
    · rw [if_neg hi]
      rcases st i with e | ⟨_, _, e3, e4⟩
      · exact e
      · exact absurd ((hrange i).1 ⟨e3, e4⟩) hi
  · rintro ⟨i, h1, h2, h3, h4⟩
    refine ⟨sbad ?_, rfl⟩
    by_contra hne
    have hs : (check_int_loop o
        ((ptr.ptr - (h.objects o).lower + bytes - 1) / 16 + 1
          - (ptr.ptr - (h.objects o).lower) / 16)
        ((ptr.ptr - (h.objects o).lower) / 16) h).succeeded = true := by
      simpa using hne
    rcases (sok.1 hs) i h1 (((hrange i).2 ⟨h1, h2⟩).2) with e | e
    · exact h3 e
    · exact h4 e

/-- C2 at a read of twenty bytes that spans the two blank words of the
sample object. -/
theorem filc_check_access_int_spec_witness :
    (filc_check_access_common sample_heap ⟨some 7, 4100⟩ 20 filc_read_access).succeeded = true ∧
    (filc_check_access_int sample_heap ⟨some 7, 4100⟩ 20 filc_read_access).succeeded = true :=
  ⟨by decide,
   (filc_check_access_int_spec sample_heap ⟨some 7, 4100⟩ 20 7 filc_read_access rfl
      (sample_heap_addressable 7) (by decide) (by decide)).1.2 (fun _ _ _ => Or.inl rfl)⟩

/-- C3. `filc_check_access_ptr` succeeds exactly when check-common passes
for 16 bytes, the offset of the address from the lower bound is a multiple
of 16 and the covering word is `UNSET` or `PTR`; after a success that word
is `PTR` and nothing else in the heap has changed; with check-common
passed and the offset aligned, a covering word of any other tag makes it
fail with the non-ptr type violation. -/
theorem filc_check_access_ptr_spec (h : filc_heap) (ptr : filc_ptr) (kind : filc_access_kind)
    (ha : ∀ o, ptr.object = some o → (h.objects o).addressable) :
    ((filc_check_access_ptr h ptr kind).succeeded = true ↔
      ((filc_check_access_common h ptr 16 kind).succeeded = true ∧
        (ptr.ptr - filc_ptr_lower h ptr) % 16 = 0 ∧
        ∃ o, ptr.object = some o ∧
          ((h.objects o).word_types ((ptr.ptr - (h.objects o).lower) / 16)
              = FILC_WORD_TYPE_UNSET ∨
           (h.objects o).word_types ((ptr.ptr - (h.objects o).lower) / 16)
              = FILC_WORD_TYPE_PTR))) ∧
    ((filc_check_access_ptr h ptr kind).succeeded = true →
      ∀ o, ptr.object = some o →
        (∀ i, ((filc_check_access_ptr h ptr kind).heap.objects o).word_types i =
          if i = (ptr.ptr - (h.objects o).lower) / 16 then FILC_WORD_TYPE_PTR
          else (h.objects o).word_types i) ∧
        ((filc_check_access_ptr h ptr kind).heap.objects o).flags = (h.objects o).flags ∧
        ((filc_check_access_ptr h ptr kind).heap.objects o).lower = (h.objects o).lower ∧
        ((filc_check_access_ptr h ptr kind).heap.objects o).upper = (h.objects o).upper ∧
        (∀ x, x ≠ o → (filc_check_access_ptr h ptr kind).heap.objects x = h.objects x) ∧
        (filc_check_access_ptr h ptr kind).heap.memory = h.memory) ∧
    (∀ o, ptr.object = some o →
      (filc_check_access_common h ptr 16 kind).succeeded = true →
      (ptr.ptr - (h.objects o).lower) % 16 = 0 →
      (h.objects o).word_types ((ptr.ptr - (h.objects o).lower) / 16) ≠ FILC_WORD_TYPE_UNSET →
      (h.objects o).word_types ((ptr.ptr - (h.objects o).lower) / 16) ≠ FILC_WORD_TYPE_PTR →
      (filc_check_access_ptr h ptr kind).why = some .word_is_non_ptr ∧
      filc_panic.is_type_violation .word_is_non_ptr = true) := by
  cases hcr : filc_check_access_common h ptr 16 kind with
  | panic e h1 =>
    have hrun : filc_check_access_ptr h ptr kind = .panic e h1 := by
      simp only [filc_check_access_ptr, hcr, filc_result.and_then]
    rw [hrun]
    refine ⟨⟨fun hf => (by cases hf), fun hf => (by cases hf.1)⟩, fun hf => (by cases hf), ?_⟩
    intro o _ hf
    cases hf
  | done u h1 =>
    obtain ⟨hh, o, ho, hlo, hhi, hav, _⟩ := filc_check_access_common_done h h1 ptr 16 kind u hcr
    subst hh
    have hao := ha o ho
    have hoff := filc_ptr_offset_eq h1 ptr o ho hlo (by
      unfold filc_object.addressable at hao; omega)
    have hlow : filc_ptr_lower h1 ptr = (h1.objects o).lower := by
      simp only [filc_ptr_lower, ho]
    have hrun : filc_check_access_ptr h1 ptr kind =
        if ¬ ((ptr.ptr - (h1.objects o).lower) % 16 = 0) then .panic .ptr_not_aligned h1
        else if (h1.objects o).word_types ((ptr.ptr - (h1.objects o).lower) / 16)
            = FILC_WORD_TYPE_UNSET then
          .done () (h1.set_object o ((h1.objects o).set_word_type
            ((ptr.ptr - (h1.objects o).lower) / 16) FILC_WORD_TYPE_PTR))
        else if (h1.objects o).word_types ((ptr.ptr - (h1.objects o).lower) / 16)
            = FILC_WORD_TYPE_PTR then .done () h1
        else .panic .word_is_non_ptr h1 := by
      simp only [filc_check_access_ptr, hcr, filc_result.and_then, ho, hoff, FILC_WORD_SIZE]
    rw [hrun, hlow]
    by_cases c1 : (ptr.ptr - (h1.objects o).lower) % 16 = 0
    swap
    · rw [if_pos c1]
      refine ⟨⟨fun hf => (by cases hf), fun hf => absurd hf.2.1 c1⟩, fun hf => (by cases hf), ?_⟩
      intro o2 ho2 _ hal
      rw [ho] at ho2; cases ho2
      exact absurd hal c1
    rw [if_neg (not_not.mpr c1)]
    by_cases c2 : (h1.objects o).word_types ((ptr.ptr - (h1.objects o).lower) / 16)
        = FILC_WORD_TYPE_UNSET
    · rw [if_pos c2]
      refine ⟨⟨fun _ => ⟨rfl, c1, o, ho, Or.inl c2⟩, fun _ => rfl⟩, ?_, ?_⟩
      · intro _ o2 ho2
        rw [ho] at ho2; cases ho2
        refine ⟨?_, ?_, ?_, ?_, ?_, rfl⟩ <;>
          simp +contextual [filc_result.heap, filc_object.set_word_type]
      · intro o2 ho2 _ _ hne
        rw [ho] at ho2; cases ho2
        exact absurd c2 hne
    rw [if_neg c2]
    by_cases c3 : (h1.objects o).word_types ((ptr.ptr - (h1.objects o).lower) / 16)
        = FILC_WORD_TYPE_PTR
    · rw [if_pos c3]
      refine ⟨⟨fun _ => ⟨rfl, c1, o, ho, Or.inr c3⟩, fun _ => rfl⟩, ?_, ?_⟩
      · intro _ o2 ho2
        rw [ho] at ho2; cases ho2
        refine ⟨?_, rfl, rfl, rfl, fun _ _ => rfl, rfl⟩
        intro i
        by_cases hi : i = (ptr.ptr - (h1.objects o).lower) / 16
        · rw [if_pos hi, hi]; exact c3
        · rw [if_neg hi]; rfl
      · intro o2 ho2 _ _ _ hne
        rw [ho] at ho2; cases ho2
        exact absurd c3 hne
    · rw [if_neg c3]
      refine ⟨⟨fun hf => (by cases hf), ?_⟩, fun hf => (by cases hf), fun _ _ _ _ _ _ => ⟨rfl, rfl⟩⟩
      rintro ⟨_, _, o2, ho2, ht⟩
      rw [ho] at ho2; cases ho2
      rcases ht with ht | ht
      · exact absurd ht c2
      · exact absurd ht c3

/-- C3 at a pointer store to the first word of the sample object. -/
theorem filc_check_access_ptr_spec_witness :
    (∀ o, (⟨some 7, 4096⟩ : filc_ptr).object = some o →
      (sample_heap.objects o).addressable) ∧
    (filc_check_access_ptr sample_heap ⟨some 7, 4096⟩ filc_write_access).succeeded = true :=
  ⟨fun o _ => sample_heap_addressable o,
   (filc_check_access_ptr_spec sample_heap ⟨some 7, 4096⟩ filc_write_access
      (fun o _ => sample_heap_addressable o)).1.2
      ⟨by decide, by decide, 7, rfl, Or.inl rfl⟩⟩

/-- Check-common on a pointer with an addressable object, as a
conjunction of its four tests. -/
theorem filc_check_access_common_succeeded_iff (h : filc_heap) (ptr : filc_ptr)
    (bytes o : Nat) (kind : filc_access_kind) (ho : ptr.object = some o)
    (ha : (h.objects o).addressable) :
    (filc_check_access_common h ptr bytes kind).succeeded = true ↔
      ((h.objects o).lower ≤ ptr.ptr ∧ ptr.ptr < (h.objects o).upper ∧
        ptr.ptr + bytes ≤ (h.objects o).upper ∧
        ¬ (kind = filc_write_access ∧
          (h.objects o).flags &&& FILC_OBJECT_FLAG_READONLY ≠ 0)) := by
  unfold filc_object.addressable at ha
  simp only [filc_check_access_common, ho, filc_ptr_lower, filc_ptr_upper, filc_ptr_available]
  by_cases c1 : ptr.ptr ≥ (h.objects o).lower
  swap
  · rw [if_pos c1]
    exact ⟨fun hf => (by cases hf), fun hf => absurd hf.1 c1⟩
  rw [if_neg (not_not.mpr c1)]
  by_cases c2 : ptr.ptr < (h.objects o).upper
  swap
  · rw [if_pos c2]
    exact ⟨fun hf => (by cases hf), fun hf => absurd hf.2.1 c2⟩
  rw [if_neg (not_not.mpr c2)]
  have hav : ((h.objects o).upper + 2 ^ 64 - ptr.ptr) % 2 ^ 64
      = (h.objects o).upper - ptr.ptr := by omega
  rw [hav]
  by_cases c3 : bytes ≤ (h.objects o).upper - ptr.ptr
  swap
  · rw [if_pos c3]
    exact ⟨fun hf => (by cases hf), fun hf => (by omega)⟩
  rw [if_neg (not_not.mpr c3)]
  by_cases c4 : kind = filc_write_access ∧
      (h.objects o).flags &&& FILC_OBJECT_FLAG_READONLY ≠ 0
  · rw [if_pos c4]
    exact ⟨fun hf => (by cases hf), fun hf => absurd c4 hf.2.2.2⟩
  · rw [if_neg c4]
    exact ⟨fun _ => ⟨c1, c2, by omega, c4⟩, fun _ => rfl⟩

/-- The only panic check-common can end in for an in-bounds range is the
read-only one. -/
theorem filc_check_access_common_why_in_bounds (h : filc_heap) (ptr : filc_ptr)
    (bytes o : Nat) (kind : filc_access_kind) (ho : ptr.object = some o)
    (ha : (h.objects o).addressable) (hlo : (h.objects o).lower ≤ ptr.ptr)
    (hlt : ptr.ptr < (h.objects o).upper) (hhi : ptr.ptr + bytes ≤ (h.objects o).upper) :
    (filc_check_access_common h ptr bytes kind = .done () h) ∨
    (filc_check_access_common h ptr bytes kind = .panic .readonly_object h) := by
  unfold filc_object.addressable at ha
  have hav : ((h.objects o).upper + 2 ^ 64 - ptr.ptr) % 2 ^ 64
      = (h.objects o).upper - ptr.ptr := by omega
  have c3 : bytes ≤ (h.objects o).upper - ptr.ptr := by omega
  simp only [filc_check_access_common, ho, filc_ptr_lower, filc_ptr_upper, filc_ptr_available,
    hav]
  rw [if_neg (not_not.mpr hlo), if_neg (not_not.mpr hlt), if_neg (not_not.mpr c3)]
  by_cases c4 : kind = filc_write_access ∧
      (h.objects o).flags &&& FILC_OBJECT_FLAG_READONLY ≠ 0
  · rw [if_pos c4]; exact Or.inr rfl
  · rw [if_neg c4]; exact Or.inl rfl

/-- A type check after a failed check-common fails: the int check. -/
theorem filc_check_access_int_fails_of_common (h : filc_heap) (ptr : filc_ptr) (bytes : Nat)
    (kind : filc_access_kind) (hb : 1 ≤ bytes)
    (hc : (filc_check_access_common h ptr bytes kind).succeeded = false) :
    (filc_check_access_int h ptr bytes kind).succeeded = false := by
  obtain ⟨e, h1, hp⟩ := filc_result.eq_panic_of_not_succeeded _ hc
  simp only [filc_check_access_int, hp, filc_result.and_then]
  rw [if_neg (by omega)]
  rfl

/-- A type check after a failed check-common fails: the ptr check. -/
theorem filc_check_access_ptr_fails_of_common (h : filc_heap) (ptr : filc_ptr)
    (kind : filc_access_kind)
    (hc : (filc_check_access_common h ptr 16 kind).succeeded = false) :
    (filc_check_access_ptr h ptr kind).succeeded = false := by
  obtain ⟨e, h1, hp⟩ := filc_result.eq_panic_of_not_succeeded _ hc
  simp only [filc_check_access_ptr, hp, filc_result.and_then]
  rfl

/-- Check-common fails outside the bounds. -/
theorem filc_check_access_common_fails_out_of_bounds (h : filc_heap) (ptr : filc_ptr)
    (bytes o : Nat) (kind : filc_access_kind) (ho : ptr.object = some o)
    (ha : (h.objects o).addressable)
    (hout : ptr.ptr < (h.objects o).lower ∨ ptr.ptr ≥ (h.objects o).upper ∨
      ptr.ptr + bytes > (h.objects o).upper) :
    (filc_check_access_common h ptr bytes kind).succeeded = false := by
  by_contra hne
  have hs : (filc_check_access_common h ptr bytes kind).succeeded = true := by simpa using hne
  have := (filc_check_access_common_succeeded_iff h ptr bytes o kind ho ha).1 hs
  omega

/-- The panic of `check_int`, when there is one, is the non-int panic or
the null dereference. -/
theorem check_int_why (h : filc_heap) (ptr : filc_ptr) (bytes : Nat) :
    (check_int h ptr bytes).why = none ∨
    (check_int h ptr bytes).why = some .span_contains_non_ints ∨
    (check_int h ptr bytes).why = some .null_dereference := by
  unfold check_int
  cases ho : ptr.object with
  | none => exact Or.inr (Or.inr rfl)
  | some o =>
    simp only []
    generalize hn : (filc_ptr_offset h ptr + bytes + 2 ^ 64 - 1) % 2 ^ 64 / FILC_WORD_SIZE + 1
      - filc_ptr_offset h ptr / FILC_WORD_SIZE = n
    generalize hi : filc_ptr_offset h ptr / FILC_WORD_SIZE = idx
    have hbad := (check_int_loop_spec o n idx h).2.2.2.2.2.2.2.2
    cases hr : check_int_loop o n idx h with
    | done u h1 => exact Or.inl rfl
    | panic e h1 =>
      rw [hr] at hbad
      exact Or.inr (Or.inl (hbad rfl))

/-- C5, amended. For a pointer into an addressable object: an in-bounds
access never fails on the bounds part of check-common, check-as-int or
check-as-ptr; check-common and check-as-ptr fail whenever the address is
at or above the upper bound or the access would end above it, and so does
check-as-int of at least one byte; hence no such access succeeds through a
pointer to a zero-length object or at an address inside another object
with disjoint bounds; and `filc_allocate` of zero bytes returns an object
with a non-null lower bound equal to its upper bound. -/
theorem filc_bounds_checks (h : filc_heap) (ptr : filc_ptr) (o size : Nat)
    (kind : filc_access_kind) (ho : ptr.object = some o) (ha : (h.objects o).addressable) :
    ((h.objects o).lower ≤ ptr.ptr → ptr.ptr < (h.objects o).upper →
      ptr.ptr + size ≤ (h.objects o).upper →
      (∀ e, (filc_check_access_common h ptr size kind).why = some e →
        e.is_bounds_violation = false) ∧
      (∀ e, (filc_check_access_int h ptr size kind).why = some e →
        e.is_bounds_violation = false)) ∧
    ((h.objects o).lower ≤ ptr.ptr → ptr.ptr + 16 ≤ (h.objects o).upper →
      ∀ e, (filc_check_access_ptr h ptr kind).why = some e → e.is_bounds_violation = false) ∧
    ((ptr.ptr ≥ (h.objects o).upper ∨ ptr.ptr + size > (h.objects o).upper) →
      (filc_check_access_common h ptr size kind).succeeded = false ∧
      (1 ≤ size → (filc_check_access_int h ptr size kind).succeeded = false)) ∧
    ((ptr.ptr ≥ (h.objects o).upper ∨ ptr.ptr + 16 > (h.objects o).upper) →
      (filc_check_access_ptr h ptr kind).succeeded = false) ∧
    ((h.objects o).lower = (h.objects o).upper →
      (filc_check_access_common h ptr size kind).succeeded = false ∧
      (1 ≤ size → (filc_check_access_int h ptr size kind).succeeded = false) ∧
      (filc_check_access_ptr h ptr kind).succeeded = false) ∧
    (∀ b, ((h.objects o).upper ≤ (h.objects b).lower ∨
        (h.objects b).upper ≤ (h.objects o).lower) →
      (h.objects b).lower ≤ ptr.ptr → ptr.ptr < (h.objects b).upper →
      (filc_check_access_common h ptr size kind).succeeded = false ∧
      (1 ≤ size → (filc_check_access_int h ptr size kind).succeeded = false) ∧
      (filc_check_access_ptr h ptr kind).succeeded = false) ∧
    (∀ (verse_heap_allocate : Nat → Nat) (h0 : filc_heap),
      ∃ h1, filc_allocate verse_heap_allocate h0 0 = .done (verse_heap_allocate 32) h1 ∧
        (h1.objects (verse_heap_allocate 32)).lower = (h1.objects (verse_heap_allocate 32)).upper ∧
        (h1.objects (verse_heap_allocate 32)).lower ≠ 0) := by
  have hfail : ∀ n, (ptr.ptr < (h.objects o).lower ∨ ptr.ptr ≥ (h.objects o).upper ∨
      ptr.ptr + n > (h.objects o).upper) →
      (filc_check_access_common h ptr n kind).succeeded = false :=
    fun n hn => filc_check_access_common_fails_out_of_bounds h ptr n o kind ho ha hn
  refine ⟨?_, ?_, ?_, ?_, ?_, ?_, ?_⟩
  · intro hlo hlt hhi
    have hc := filc_check_access_common_why_in_bounds h ptr size o kind ho ha hlo hlt hhi
    constructor
    · intro e he
      rcases hc with hc | hc <;> rw [hc] at he <;> cases he
      rfl
    · intro e he
      unfold filc_check_access_int at he
      by_cases hz : size = 0
      · rw [if_pos hz] at he; cases he
      · rw [if_neg hz] at he
        rcases hc with hc | hc
        · rw [hc] at he
          simp only [filc_result.and_then] at he
          rcases check_int_why h ptr size with hw | hw | hw
          · rw [hw] at he; cases he
          · rw [hw] at he; cases he; rfl
          · rw [hw] at he; cases he; rfl
        · rw [hc] at he; cases he; rfl
  · intro hlo hhi e he
    have hc := filc_check_access_common_why_in_bounds h ptr 16 o kind ho ha hlo
      (by omega) hhi
    unfold filc_check_access_ptr at he
    rcases hc with hc | hc
    · rw [hc] at he
      simp only [filc_result.and_then, ho] at he
      split_ifs at he <;> cases he <;> rfl
    · rw [hc] at he; cases he; rfl
  · intro hout
    have hc := hfail size (by omega)
    exact ⟨hc, fun hb => filc_check_access_int_fails_of_common h ptr size kind hb hc⟩
  · intro hout
    exact filc_check_access_ptr_fails_of_common h ptr kind (hfail 16 (by omega))
  · intro hz
    have hc := hfail size (by omega)
    exact ⟨hc, fun hb => filc_check_access_int_fails_of_common h ptr size kind hb hc,
      filc_check_access_ptr_fails_of_common h ptr kind (hfail 16 (by omega))⟩
  · intro b hdis hlo hlt
    have hc := hfail size (by omega)
    exact ⟨hc, fun hb => filc_check_access_int_fails_of_common h ptr size kind hb hc,
      filc_check_access_ptr_fails_of_common h ptr kind (hfail 16 (by omega))⟩
  · intro alloc h0
    have hp : prepare_allocate 0 FILC_WORD_SIZE
        = some { size := 0, num_words := 0, offset_to_payload := 32, total_size := 32 } := by
      decide
    refine ⟨initialize_object h0 (alloc 32) 0 0 32 0 FILC_WORD_TYPE_UNSET, ?_, ?_, ?_⟩
    · simp only [filc_allocate, allocate_impl, hp, finish_allocate]
    · simp [initialize_object, fill_word_types, filc_heap.set_memory]
    · simp [initialize_object, fill_word_types, filc_heap.set_memory]

/-- C5 as stated fails: a check-as-int of zero bytes at the upper bound of
the sample object succeeds. -/
theorem filc_bounds_checks_counterexample :
    (⟨some 7, 4128⟩ : filc_ptr).ptr = (sample_heap.objects 7).upper ∧
    (filc_check_access_int sample_heap ⟨some 7, 4128⟩ 0 filc_read_access).succeeded = true := by
  decide

/-- C5, amended, at the sample object: a one-byte int access at the upper
bound fails. -/
theorem filc_bounds_checks_witness :
    (sample_heap.objects 7).addressable ∧
    (filc_check_access_int sample_heap ⟨some 7, 4128⟩ 1 filc_read_access).succeeded = false :=
  ⟨sample_heap_addressable 7,
   ((filc_bounds_checks sample_heap ⟨some 7, 4128⟩ 7 1 filc_read_access rfl
      (sample_heap_addressable 7)).2.2.1 (Or.inl (by decide))).2 (by decide)⟩

/-! ## Facts about the flags word -/

/-- Bit `k` of the constant one is clear for `k` other than zero. -/
theorem testBit_one_of_ne_zero (k : Nat) (hk : k ≠ 0) : Nat.testBit 1 k = false := by
  cases h : Nat.testBit 1 k with
  | false => rfl
  | true => exact absurd (Nat.testBit_one_eq_true_iff_self_eq_zero.1 h) hk

/-- Setting the `FREE` bit leaves every other bit as it was. -/
theorem or_free_testBit (f k : Nat) (hk : k ≠ 0) :
    (f ||| FILC_OBJECT_FLAG_FREE).testBit k = f.testBit k := by
  rw [FILC_OBJECT_FLAG_FREE, Nat.testBit_or, testBit_one_of_ne_zero k hk, Bool.or_false]

/-- After setting the `FREE` bit the `FREE` test is non-zero. -/
theorem or_free_and_free (f : Nat) :
    (f ||| FILC_OBJECT_FLAG_FREE) &&& FILC_OBJECT_FLAG_FREE ≠ 0 := by
  intro h
  have := congrArg (fun x => x.testBit 0) h
  simp [FILC_OBJECT_FLAG_FREE] at this

/-! ## Facts about free -/

/-- The tag-filling loop writes `t` below `n` and nothing else. -/
theorem fill_word_types_spec (t : filc_word_type) : ∀ (n : Nat) (obj : filc_object),
    (fill_word_types t n obj).lower = obj.lower ∧
    (fill_word_types t n obj).upper = obj.upper ∧
    (fill_word_types t n obj).flags = obj.flags ∧
    ∀ i, (fill_word_types t n obj).word_types i = if i < n then t else obj.word_types i := by
  intro n
  induction n with
  | zero => intro obj; exact ⟨rfl, rfl, rfl, fun i => by simp [fill_word_types]⟩
  | succ n ih =>
    intro obj
    obtain ⟨il, iu, ifl, it⟩ := ih (obj.set_word_type n t)
    refine ⟨il, iu, ifl, ?_⟩
    intro i
    show (fill_word_types t n (obj.set_word_type n t)).word_types i = _
    rw [it]
    by_cases h1 : i < n
    · rw [if_pos h1, if_pos (by omega)]
    · rw [if_neg h1]
      by_cases h2 : i = n
      · rw [if_pos (by omega)]; simp [filc_object.set_word_type, h2]
      · rw [if_neg (by omega)]; simp [filc_object.set_word_type, h2]

/-- What the freed heap holds. -/
theorem freed_heap_spec (h : filc_heap) (o : Nat) :
    ((freed_heap h o).objects o).lower = (h.objects o).lower ∧
    ((freed_heap h o).objects o).upper = (h.objects o).upper ∧
    ((freed_heap h o).objects o).flags = (h.objects o).flags ||| FILC_OBJECT_FLAG_FREE ∧
    (∀ i, ((freed_heap h o).objects o).word_types i =
      if i < filc_object_num_words (h.objects o) then FILC_WORD_TYPE_FREE
      else (h.objects o).word_types i) ∧
    (∀ x, x ≠ o → (freed_heap h o).objects x = h.objects x) ∧
    (freed_heap h o).memory = h.memory := by
  obtain ⟨fl, fu, ff, ft⟩ := fill_word_types_spec FILC_WORD_TYPE_FREE
    (filc_object_num_words
      ((h.set_object o { h.objects o with
        flags := (h.objects o).flags ||| FILC_OBJECT_FLAG_FREE }).objects o))
    ((h.set_object o { h.objects o with
      flags := (h.objects o).flags ||| FILC_OBJECT_FLAG_FREE }).objects o)
  simp only [filc_heap.set_object_same] at fl fu ff ft
  refine ⟨?_, ?_, ?_, ?_, ?_, rfl⟩
  · simp only [freed_heap, filc_heap.set_object_same]; exact fl
  · simp only [freed_heap, filc_heap.set_object_same]; exact fu
  · simp only [freed_heap, filc_heap.set_object_same]; exact ff
  · intro i
    simp only [freed_heap, filc_heap.set_object_same]
    rw [ft i]
    rfl
  · intro x hx
    simp only [freed_heap]
    rw [filc_heap.set_object_other _ _ _ _ hx, filc_heap.set_object_other _ _ _ _ hx]

/-- `filc_free_yolo` as a case distinction on the flags. -/
theorem filc_free_yolo_eq (h : filc_heap) (o : Nat) :
    filc_free_yolo h o =
      if (h.objects o).flags &&& FILC_OBJECT_FLAG_FREE ≠ 0 then .panic .free_already_free h
      else if (h.objects o).flags >>> FILC_OBJECT_FLAGS_PIN_SHIFT ≠ 0 then .panic .free_pinned h
      else .done () (freed_heap h o) := rfl

/-- C6. `filc_free` succeeds exactly when the object has none of the flags
`SPECIAL`, `GLOBAL`, `MMAP`, `FREE` and a zero pin count; on success the
`FREE` flag is set, every word tag of the object is `FREE`, the bounds,
every other flag bit, the other objects and the payload are unchanged;
and freeing the object again fails. -/
theorem filc_free_spec (h : filc_heap) (o : Nat) :
    ((filc_free h o).succeeded = true ↔
      ((h.objects o).flags &&& FILC_OBJECT_FLAG_SPECIAL = 0 ∧
       (h.objects o).flags &&& FILC_OBJECT_FLAG_GLOBAL = 0 ∧
       (h.objects o).flags &&& FILC_OBJECT_FLAG_MMAP = 0 ∧
       (h.objects o).flags &&& FILC_OBJECT_FLAG_FREE = 0 ∧
       (h.objects o).flags >>> FILC_OBJECT_FLAGS_PIN_SHIFT = 0)) ∧
    ((filc_free h o).succeeded = true →
      ((filc_free h o).heap.objects o).flags &&& FILC_OBJECT_FLAG_FREE ≠ 0 ∧
      (∀ i, i < filc_object_num_words (h.objects o) →
        ((filc_free h o).heap.objects o).word_types i = FILC_WORD_TYPE_FREE) ∧
      ((filc_free h o).heap.objects o).lower = (h.objects o).lower ∧
      ((filc_free h o).heap.objects o).upper = (h.objects o).upper ∧
      ((filc_free h o).heap.objects o).flags = (h.objects o).flags ||| FILC_OBJECT_FLAG_FREE ∧
      (∀ k, k ≠ 0 →
        ((filc_free h o).heap.objects o).flags.testBit k = (h.objects o).flags.testBit k) ∧
      (∀ x, x ≠ o → (filc_free h o).heap.objects x = h.objects x) ∧
      (filc_free h o).heap.memory = h.memory ∧
      (filc_free (filc_free h o).heap o).succeeded = false) := by
  by_cases c1 : (h.objects o).flags &&& FILC_OBJECT_FLAG_SPECIAL ≠ 0
  · have hr : filc_free h o = .panic .free_special h := by
      unfold filc_free; rw [if_pos c1]
    rw [hr]
    exact ⟨⟨fun hf => (by cases hf), fun hf => absurd hf.1 c1⟩, fun hf => (by cases hf)⟩
  by_cases c2 : (h.objects o).flags &&& FILC_OBJECT_FLAG_GLOBAL ≠ 0
  · have hr : filc_free h o = .panic .free_global h := by
      unfold filc_free; rw [if_neg c1, if_pos c2]
    rw [hr]
    exact ⟨⟨fun hf => (by cases hf), fun hf => absurd hf.2.1 c2⟩, fun hf => (by cases hf)⟩
  by_cases c3 : (h.objects o).flags &&& FILC_OBJECT_FLAG_MMAP ≠ 0
  · have hr : filc_free h o = .panic .free_mmap h := by
      unfold filc_free; rw [if_neg c1, if_neg c2, if_pos c3]
    rw [hr]
    exact ⟨⟨fun hf => (by cases hf), fun hf => absurd hf.2.2.1 c3⟩, fun hf => (by cases hf)⟩
  by_cases c4 : (h.objects o).flags &&& FILC_OBJECT_FLAG_FREE ≠ 0
  · have hr : filc_free h o = .panic .free_already_free h := by
      unfold filc_free; rw [if_neg c1, if_neg c2, if_neg c3, filc_free_yolo_eq, if_pos c4]
    rw [hr]
    exact ⟨⟨fun hf => (by cases hf), fun hf => absurd hf.2.2.2.1 c4⟩, fun hf => (by cases hf)⟩
  by_cases c5 : (h.objects o).flags >>> FILC_OBJECT_FLAGS_PIN_SHIFT ≠ 0
  · have hr : filc_free h o = .panic .free_pinned h := by
      unfold filc_free
      rw [if_neg c1, if_neg c2, if_neg c3, filc_free_yolo_eq, if_neg c4, if_pos c5]
    rw [hr]
    exact ⟨⟨fun hf => (by cases hf), fun hf => absurd hf.2.2.2.2 c5⟩, fun hf => (by cases hf)⟩
  have hr : filc_free h o = .done () (freed_heap h o) := by
    unfold filc_free
    rw [if_neg c1, if_neg c2, if_neg c3, filc_free_yolo_eq, if_neg c4, if_neg c5]
  rw [hr]
  obtain ⟨sl, su, sf, st, sx, sm⟩ := freed_heap_spec h o
  refine ⟨⟨fun _ => ⟨not_not.mp c1, not_not.mp c2, not_not.mp c3, not_not.mp c4,
    not_not.mp c5⟩, fun _ => rfl⟩, fun _ => ⟨?_, ?_, sl, su, sf, ?_, sx, sm, ?_⟩⟩
  · show ((freed_heap h o).objects o).flags &&& FILC_OBJECT_FLAG_FREE ≠ 0
    rw [sf]; exact or_free_and_free _
  · intro i hi
    show ((freed_heap h o).objects o).word_types i = FILC_WORD_TYPE_FREE
    rw [st i, if_pos hi]
  · intro k hk
    show ((freed_heap h o).objects o).flags.testBit k = _
    rw [sf]; exact or_free_testBit _ k hk
  · show (filc_free (freed_heap h o) o).succeeded = false
    have hfree : ((freed_heap h o).objects o).flags &&& FILC_OBJECT_FLAG_FREE ≠ 0 := by
      rw [sf]; exact or_free_and_free _
    unfold filc_free
    split_ifs
    · rfl
    · rfl
    · rfl
    · rw [filc_free_yolo_eq, if_pos hfree]; rfl

/-- C6 at the sample object: the first free succeeds, the second fails. -/
theorem filc_free_spec_witness :
    (filc_free sample_heap 7).succeeded = true ∧
    (filc_free (filc_free sample_heap 7).heap 7).succeeded = false :=
  ⟨by decide, ((filc_free_spec sample_heap 7).2 (by decide)).2.2.2.2.2.2.2.2⟩

/-! ## Word tags only advance -/

theorem tags_advance_refl (h : filc_heap) : tags_advance h h :=
  fun _ => ⟨rfl, rfl, fun _ => rfl, fun _ => Or.inl rfl⟩

theorem tags_advance_trans (h h1 h2 : filc_heap) (a : tags_advance h h1)
    (b : tags_advance h1 h2) : tags_advance h h2 := by
  intro o
  obtain ⟨al, au, af, at_⟩ := a o
  obtain ⟨bl, bu, bf, bt⟩ := b o
  refine ⟨bl.trans al, bu.trans au, fun hf => ?_, fun i => ?_⟩
  · rw [bf (by rw [af hf]; exact hf), af hf]
  · rcases at_ i with e | ⟨e1, e2⟩
    · rcases bt i with f | ⟨f1, f2⟩
      · exact Or.inl (f.trans e)
      · exact Or.inr ⟨e ▸ f1, f2⟩
    · rcases bt i with f | ⟨f1, f2⟩
      · exact Or.inr ⟨e1, by rw [f]; exact e2⟩
      · rcases e2 with e2 | e2 <;> rw [e2] at f1 <;> cases f1

/-- Writing payload bytes is a step of the tag relation. -/
theorem tags_advance_set_memory (h : filc_heap) (m : Nat → Nat) :
    tags_advance h (h.set_memory m) :=
  fun _ => ⟨rfl, rfl, fun _ => rfl, fun _ => Or.inl rfl⟩

/-- Sequencing keeps the tag relation. -/
theorem tags_advance_and_then {α β : Type} (h : filc_heap) (r : filc_result α)
    (k : α → filc_heap → filc_result β) (hr : tags_advance h r.heap)
    (hk : ∀ a h1, tags_advance h1 (k a h1).heap) :
    tags_advance h (r.and_then k).heap := by
  cases r with
  | done a h1 => exact tags_advance_trans h h1 _ hr (hk a h1)
  | panic e h1 => exact hr

theorem filc_check_access_common_heap (h : filc_heap) (ptr : filc_ptr) (bytes : Nat)
    (kind : filc_access_kind) : (filc_check_access_common h ptr bytes kind).heap = h := by
  unfold filc_check_access_common
  cases ptr.object with
  | none => rfl
  | some o => simp only []; split_ifs <;> rfl

theorem check_accessible_heap (h : filc_heap) (ptr : filc_ptr) :
    (check_accessible h ptr).heap = h := by
  unfold check_accessible
  cases ptr.object with
  | none => rfl
  | some o => simp only []; split_ifs <;> rfl

/-- `check_accessible` returns on the heap it was given or panics on it. -/
theorem check_accessible_cases (h : filc_heap) (ptr : filc_ptr) :
    check_accessible h ptr = .done () h ∨ ∃ e, check_accessible h ptr = .panic e h := by
  unfold check_accessible
  cases ptr.object with
  | none => exact Or.inr ⟨_, rfl⟩
  | some o =>
    dsimp only
    split_ifs
    · exact Or.inr ⟨_, rfl⟩
    · exact Or.inl rfl

theorem tags_advance_check_common (h : filc_heap) (ptr : filc_ptr) (bytes : Nat)
    (kind : filc_access_kind) :
    tags_advance h (filc_check_access_common h ptr bytes kind).heap := by
  rw [filc_check_access_common_heap]; exact tags_advance_refl h

theorem tags_advance_check_accessible (h : filc_heap) (ptr : filc_ptr) :
    tags_advance h (check_accessible h ptr).heap := by
  rw [check_accessible_heap]; exact tags_advance_refl h

theorem tags_advance_check_int_loop (o n idx : Nat) (h : filc_heap) :
    tags_advance h (check_int_loop o n idx h).heap := by
  obtain ⟨_, sx, sl, su, sf, st, _⟩ := check_int_loop_spec o n idx h
  intro x
  by_cases hx : x = o
  · subst hx
    refine ⟨sl, su, fun _ => sf, fun i => ?_⟩
    rcases st i with e | ⟨e1, e2, _⟩
    · exact Or.inl e
    · exact Or.inr ⟨e1, Or.inl e2⟩
  · rw [sx x hx]; exact ⟨rfl, rfl, fun _ => rfl, fun _ => Or.inl rfl⟩

theorem tags_advance_check_int (h : filc_heap) (ptr : filc_ptr) (bytes : Nat) :
    tags_advance h (check_int h ptr bytes).heap := by
  unfold check_int
  cases ptr.object with
  | none => exact tags_advance_refl h
  | some o => exact tags_advance_check_int_loop o _ _ h

theorem tags_advance_check_access_int (h : filc_heap) (ptr : filc_ptr) (bytes : Nat)
    (kind : filc_access_kind) :
    tags_advance h (filc_check_access_int h ptr bytes kind).heap := by
  unfold filc_check_access_int
  split_ifs
  · exact tags_advance_refl h
  · exact tags_advance_and_then h _ _ (tags_advance_check_common h ptr bytes kind)
      (fun _ h1 => tags_advance_check_int h1 ptr bytes)

/-- Retagging one `UNSET` word as `INT` or `PTR` is a step of the tag
relation. -/
theorem tags_advance_retag (h : filc_heap) (o i : Nat) (t : filc_word_type)
    (hu : (h.objects o).word_types i = FILC_WORD_TYPE_UNSET)
    (ht : t = FILC_WORD_TYPE_INT ∨ t = FILC_WORD_TYPE_PTR) :
    tags_advance h (h.set_object o ((h.objects o).set_word_type i t)) := by
  intro x
  by_cases hx : x = o
  · subst hx
    rw [filc_heap.set_object_same]
    refine ⟨rfl, rfl, fun _ => rfl, fun j => ?_⟩
    by_cases hj : j = i
    · subst hj
      refine Or.inr ⟨hu, ?_⟩
      simp only [filc_object.set_word_type, if_true]
      rcases ht with ht | ht <;> simp [ht]
    · exact Or.inl (by simp [filc_object.set_word_type, hj])
  · rw [filc_heap.set_object_other _ _ _ _ hx]
    exact ⟨rfl, rfl, fun _ => rfl, fun _ => Or.inl rfl⟩

theorem tags_advance_check_access_ptr (h : filc_heap) (ptr : filc_ptr)
    (kind : filc_access_kind) :
    tags_advance h (filc_check_access_ptr h ptr kind).heap := by
  unfold filc_check_access_ptr
  refine tags_advance_and_then h _ _ (tags_advance_check_common h ptr 16 kind) ?_
  intro _ h1
  cases ptr.object with
  | none => exact tags_advance_refl h1
  | some o =>
    simp only []
    split_ifs <;>
      first
      | exact tags_advance_refl h1
      | exact tags_advance_retag h1 o _ _ (by assumption) (Or.inr rfl)

/-- Changing the flags of an object that is not free is a step of the tag
relation. -/
theorem tags_advance_set_flags (h : filc_heap) (o f : Nat)
    (hnf : ¬ ((h.objects o).flags &&& FILC_OBJECT_FLAG_FREE ≠ 0)) :
    tags_advance h (h.set_object o { h.objects o with flags := f }) := by
  intro x
  by_cases hx : x = o
  · subst hx
    rw [filc_heap.set_object_same]
    exact ⟨rfl, rfl, fun hf => absurd hf hnf, fun _ => Or.inl rfl⟩
  · rw [filc_heap.set_object_other _ _ _ _ hx]
    exact ⟨rfl, rfl, fun _ => rfl, fun _ => Or.inl rfl⟩

theorem tags_advance_pin (h : filc_heap) (object : Option Nat) :
    tags_advance h (filc_pin h object).heap := by
  unfold filc_pin
  cases object with
  | none => exact tags_advance_refl h
  | some o =>
    simp only []
    split_ifs <;>
      first
      | exact tags_advance_refl h
      | exact tags_advance_set_flags h o _ (by assumption)

theorem tags_advance_unpin (h : filc_heap) (object : Option Nat) :
    tags_advance h (filc_unpin h object).heap := by
  unfold filc_unpin
  cases object with
  | none => exact tags_advance_refl h
  | some o =>
    simp only []
    split_ifs <;>
      first
      | exact tags_advance_refl h
      | exact tags_advance_set_flags h o _ (by assumption)

theorem tags_advance_memset_with_exit (max_bytes : Nat) (h : filc_heap) (object : Option Nat)
    (ptr value bytes : Nat) :
    tags_advance h (filc_memset_with_exit max_bytes h object ptr value bytes).heap := by
  unfold filc_memset_with_exit
  split_ifs
  · exact tags_advance_set_memory h _
  · refine tags_advance_and_then h _ _ (tags_advance_pin h object) ?_
    intro _ h1
    exact tags_advance_trans h1 _ _ (tags_advance_set_memory h1 _) (tags_advance_unpin _ object)

theorem tags_advance_bzero (h : filc_heap) (raw_ptr bytes : Nat) :
    tags_advance h (filc_low_level_ptr_safe_bzero h raw_ptr bytes).heap := by
  unfold filc_low_level_ptr_safe_bzero
  split_ifs
  · exact tags_advance_refl h
  · exact tags_advance_set_memory h _

theorem tags_advance_bzero_with_exit (max_bytes : Nat) (h : filc_heap) (object : Option Nat)
    (raw_ptr bytes : Nat) :
    tags_advance h
      (filc_low_level_ptr_safe_bzero_with_exit max_bytes h object raw_ptr bytes).heap := by
  unfold filc_low_level_ptr_safe_bzero_with_exit
  split_ifs
  · exact tags_advance_bzero h raw_ptr bytes
  · refine tags_advance_and_then h _ _ (tags_advance_pin h object) ?_
    intro _ h1
    refine tags_advance_and_then h1 _ _ (tags_advance_bzero h1 raw_ptr bytes) ?_
    intro _ h2
    exact tags_advance_unpin h2 object

theorem tags_advance_memset (max_bytes : Nat) (h : filc_heap) (ptr : filc_ptr)
    (value count : Nat) :
    tags_advance h (filc_memset max_bytes h ptr value count).heap := by
  unfold filc_memset
  split_ifs <;>
    repeat (first
      | exact tags_advance_refl _
      | exact tags_advance_set_memory _ _
      | exact tags_advance_check_common _ _ _ _
      | exact tags_advance_check_int _ _ _
      | exact tags_advance_check_accessible _ _
      | exact tags_advance_bzero_with_exit _ _ _ _ _
      | exact tags_advance_memset_with_exit _ _ _ _ _ _
      | refine tags_advance_and_then _ _ _ ?_ ?_
      | intro _ _
      | split_ifs
      | dsimp only)

theorem tags_advance_memmove_smidgen (part : memmove_smidgen_part) (h : filc_heap)
    (dst src : filc_ptr) (dst_start aligned_dst_start dst_end aligned_dst_end src_start : Nat) :
    tags_advance h
      (memmove_smidgen part h dst src dst_start aligned_dst_start dst_end aligned_dst_end
        src_start).heap := by
  unfold memmove_smidgen
  cases part <;> dsimp only <;> split_ifs <;>
    repeat (first
      | exact tags_advance_refl _
      | exact tags_advance_set_memory _ _
      | exact tags_advance_check_int _ _ _
      | refine tags_advance_and_then _ _ _ ?_ ?_
      | intro _ _)

theorem tags_advance_memmove_word (h : filc_heap) (dst_object src_object : Nat)
    (src_can_has_ptrs : Bool) (cur_dst cur_src cur_dst_word_index cur_src_word_index : Nat) :
    tags_advance h
      (memmove_word h dst_object src_object src_can_has_ptrs cur_dst cur_src
        cur_dst_word_index cur_src_word_index).heap := by
  unfold memmove_word
  generalize (if src_can_has_ptrs = true then
      (h.objects src_object).word_types cur_src_word_index
    else FILC_WORD_TYPE_INT) = src_word_type
  dsimp only
  split_ifs <;>
    first
    | exact tags_advance_refl h
    | exact tags_advance_set_memory h _
    | exact tags_advance_trans h _ _
        (tags_advance_retag h dst_object cur_dst_word_index src_word_type (by assumption)
          (by assumption))
        (tags_advance_set_memory _ _)

theorem tags_advance_memmove_loop (dst src : filc_ptr) (dst_object src_object : Nat)
    (src_can_has_ptrs is_up pollchecked : Bool) (pollcheck : Nat → Bool) :
    ∀ (countdown cur_dst cur_src cur_dst_word_index cur_src_word_index : Nat) (h : filc_heap),
      tags_advance h
        (memmove_loop dst src dst_object src_object src_can_has_ptrs is_up pollchecked
          pollcheck countdown cur_dst cur_src cur_dst_word_index cur_src_word_index h).heap := by
  intro countdown
  induction countdown with
  | zero => intro _ _ _ _ h; exact tags_advance_refl h
  | succ n ih =>
    intro cur_dst cur_src cur_dst_word_index cur_src_word_index h
    have hw := tags_advance_memmove_word h dst_object src_object src_can_has_ptrs cur_dst
      cur_src cur_dst_word_index cur_src_word_index
    unfold memmove_loop
    cases hr : memmove_word h dst_object src_object src_can_has_ptrs cur_dst cur_src
        cur_dst_word_index cur_src_word_index with
    | panic e h1 => rw [hr] at hw; exact hw
    | done u h1 =>
      rw [hr] at hw
      dsimp only
      by_cases cp : (pollchecked && pollcheck n) = true
      · rw [if_pos cp]
        rcases check_accessible_cases h1 dst with hd | ⟨e, hd⟩
        · rw [hd]
          dsimp only
          rcases check_accessible_cases h1 src with hs | ⟨e, hs⟩
          · rw [hs]
            exact tags_advance_trans h _ _ hw (ih _ _ _ _ _)
          · rw [hs]; exact hw
        · rw [hd]; exact hw
      · rw [if_neg cp]
        exact tags_advance_trans h _ _ hw (ih _ _ _ _ _)

theorem tags_advance_memmove_impl (h : filc_heap) (dst src : filc_ptr) (count : Nat)
    (pollchecked : Bool) (pollcheck : Nat → Bool) :
    tags_advance h (memmove_impl h dst src count pollchecked pollcheck).heap := by
  unfold memmove_impl
  dsimp only
  by_cases c0 : pas_round_up_to_power_of_2 dst.ptr FILC_WORD_SIZE > dst.ptr + count ∨
      pas_round_down_to_power_of_2 (dst.ptr + count) FILC_WORD_SIZE < dst.ptr
  · rw [if_pos c0]
    refine tags_advance_and_then _ _ _ (tags_advance_check_int _ _ _) ?_
    intro _ h1
    refine tags_advance_and_then _ _ _ (tags_advance_check_int _ _ _) ?_
    intro _ h2
    exact tags_advance_set_memory _ _
  · rw [if_neg c0]
    refine tags_advance_and_then _ _ _ (tags_advance_memmove_smidgen _ _ _ _ _ _ _ _ _) ?_
    intro _ h1
    refine tags_advance_and_then _ _ _ (tags_advance_check_accessible _ _) ?_
    intro _ h2
    refine tags_advance_and_then _ _ _ ?_ ?_
    · by_cases cs : decide (dst.ptr % FILC_WORD_SIZE = src.ptr % FILC_WORD_SIZE) = true
      · rw [if_pos cs]; exact tags_advance_check_accessible _ _
      · rw [if_neg cs]; exact tags_advance_check_int _ _ _
    · intro _ h3
      cases dst.object with
      | none => exact tags_advance_refl h3
      | some dst_object =>
        cases src.object with
        | none => exact tags_advance_refl h3
        | some src_object =>
          dsimp only
          refine tags_advance_and_then _ _ _
            (tags_advance_memmove_loop _ _ _ _ _ _ _ _ _ _ _ _ _ _) ?_
          intro _ h4
          exact tags_advance_memmove_smidgen _ _ _ _ _ _ _ _ _

theorem tags_advance_memmove (h : filc_heap) (dst src : filc_ptr) (count : Nat)
    (pollcheck : Nat → Bool) :
    tags_advance h (filc_memmove h dst src count pollcheck).heap := by
  unfold filc_memmove
  split_ifs
  · exact tags_advance_refl h
  · refine tags_advance_and_then _ _ _ (tags_advance_check_common _ _ _ _) ?_
    intro _ h1
    refine tags_advance_and_then _ _ _ (tags_advance_check_common _ _ _ _) ?_
    intro _ h2
    exact tags_advance_memmove_impl _ _ _ _ _ _

theorem tags_advance_zmemcmp (max_bytes : Nat) (h : filc_heap) (ptr1 ptr2 : filc_ptr)
    (count : Nat) :
    tags_advance h (filc_native_zmemcmp max_bytes h ptr1 ptr2 count).heap := by
  unfold filc_native_zmemcmp
  split_ifs <;>
    repeat (first
      | exact tags_advance_refl _
      | exact tags_advance_check_common _ _ _ _
      | exact tags_advance_check_accessible _ _
      | exact tags_advance_pin _ _
      | exact tags_advance_unpin _ _
      | refine tags_advance_and_then _ _ _ ?_ ?_
      | intro _ _
      | split_ifs
      | dsimp only)

/-- Every access operation is a step of the tag relation. -/
theorem tags_advance_run (max_bytes : Nat) (h : filc_heap) (op : filc_op)
    (ha : op.is_access = true) : tags_advance h (op.run max_bytes h) := by
  cases op with
  | check_access_int ptr bytes kind => exact tags_advance_check_access_int h ptr bytes kind
  | check_access_ptr ptr kind => exact tags_advance_check_access_ptr h ptr kind
  | memset ptr value count => exact tags_advance_memset max_bytes h ptr value count
  | memmove dst src count pollcheck => exact tags_advance_memmove h dst src count pollcheck
  | zmemcmp _ _ _ => cases ha
  | pin _ => cases ha
  | unpin _ => cases ha
  | free _ => cases ha
  | allocate _ _ => cases ha
  | allocate_int _ _ => cases ha
  | reallocate _ _ _ => cases ha

/-- Every sequence of access operations is a step of the tag relation. -/
theorem tags_advance_run_ops (max_bytes : Nat) (ops : List filc_op) :
    ∀ h : filc_heap, (∀ op ∈ ops, op.is_access = true) →
      tags_advance h (run_ops max_bytes h ops) := by
  induction ops with
  | nil => intro h _; exact tags_advance_refl h
  | cons op rest ih =>
    intro h hall
    have h1 := tags_advance_run max_bytes h op (hall op (List.mem_cons_self _ _))
    have h2 := ih (op.run max_bytes h) (fun x hx => hall x (List.mem_cons_of_mem _ hx))
    exact tags_advance_trans h _ _ h1 h2

/-- A passed check-common returned on the heap it was given. -/
theorem filc_check_access_common_eq_done (h : filc_heap) (ptr : filc_ptr) (bytes : Nat)
    (kind : filc_access_kind)
    (hs : (filc_check_access_common h ptr bytes kind).succeeded = true) :
    filc_check_access_common h ptr bytes kind = .done () h := by
  obtain ⟨u, h1, hd⟩ := filc_result.eq_done_of_succeeded _ hs
  have hh := (filc_check_access_common_done h h1 ptr bytes kind u hd).1
  rw [hd, hh]

/-- A successful check-as-int found every word of its range `UNSET` or
`INT` and left it `INT`. -/
theorem filc_check_access_int_tags (h : filc_heap) (ptr : filc_ptr) (bytes o : Nat)
    (kind : filc_access_kind) (ho : ptr.object = some o) (ha : (h.objects o).addressable)
    (hb : 1 ≤ bytes) (hs : (filc_check_access_int h ptr bytes kind).succeeded = true) :
    ∀ i, (ptr.ptr - (h.objects o).lower) / 16 ≤ i →
      i ≤ (ptr.ptr - (h.objects o).lower + bytes - 1) / 16 →
      ((h.objects o).word_types i = FILC_WORD_TYPE_UNSET ∨
        (h.objects o).word_types i = FILC_WORD_TYPE_INT) ∧
      ((filc_check_access_int h ptr bytes kind).heap.objects o).word_types i
        = FILC_WORD_TYPE_INT := by
  have hcs : (filc_check_access_common h ptr bytes kind).succeeded = true := by
    by_contra hne
    have hf := filc_check_access_int_fails_of_common h ptr bytes kind hb (by simpa using hne)
    rw [hf] at hs; cases hs
  have hcd := filc_check_access_common_eq_done h ptr bytes kind hcs
  obtain ⟨hlo, hlt, hhi, _⟩ :=
    (filc_check_access_common_succeeded_iff h ptr bytes o kind ho ha).1 hcs
  have hrun : filc_check_access_int h ptr bytes kind =
      check_int_loop o
        ((ptr.ptr - (h.objects o).lower + bytes - 1) / 16 + 1
          - (ptr.ptr - (h.objects o).lower) / 16)
        ((ptr.ptr - (h.objects o).lower) / 16) h := by
    rw [← check_int_eq_loop h ptr bytes o ho ha hlo hb hhi]
    simp only [filc_check_access_int, hcd, filc_result.and_then]
    rw [if_neg (by omega)]
  rw [hrun] at hs ⊢
  obtain ⟨_, _, _, _, _, _, sok, sint, _⟩ :=
    check_int_loop_spec o
      ((ptr.ptr - (h.objects o).lower + bytes - 1) / 16 + 1
        - (ptr.ptr - (h.objects o).lower) / 16)
      ((ptr.ptr - (h.objects o).lower) / 16) h
  intro i h1 h2
  exact ⟨(sok.1 hs) i h1 (by omega), sint hs i h1 (by omega)⟩

/-- A successful check-as-ptr found its word `UNSET` or `PTR` and left it
`PTR`. -/
theorem filc_check_access_ptr_tags (h : filc_heap) (ptr : filc_ptr) (o : Nat)
    (kind : filc_access_kind) (ho : ptr.object = some o) (ha : (h.objects o).addressable)
    (hs : (filc_check_access_ptr h ptr kind).succeeded = true) :
    ((h.objects o).word_types ((ptr.ptr - (h.objects o).lower) / 16) = FILC_WORD_TYPE_UNSET ∨
      (h.objects o).word_types ((ptr.ptr - (h.objects o).lower) / 16) = FILC_WORD_TYPE_PTR) ∧
    ((filc_check_access_ptr h ptr kind).heap.objects o).word_types
      ((ptr.ptr - (h.objects o).lower) / 16) = FILC_WORD_TYPE_PTR := by
  have hcs : (filc_check_access_common h ptr 16 kind).succeeded = true := by
    by_contra hne
    have hf := filc_check_access_ptr_fails_of_common h ptr kind (by simpa using hne)
    rw [hf] at hs; cases hs
  have hcd := filc_check_access_common_eq_done h ptr 16 kind hcs
  obtain ⟨hlo, hlt, hhi, _⟩ :=
    (filc_check_access_common_succeeded_iff h ptr 16 o kind ho ha).1 hcs
  have hoff := filc_ptr_offset_eq h ptr o ho hlo (by
    unfold filc_object.addressable at ha; omega)
  simp only [filc_check_access_ptr, hcd, filc_result.and_then, ho, hoff, FILC_WORD_SIZE]
    at hs ⊢
  split_ifs at hs ⊢ <;>
    first
    | exact ⟨Or.inl (by assumption), by simp [filc_result.heap, filc_object.set_word_type]⟩
    | exact ⟨Or.inr (by assumption), by assumption⟩
    | cases hs

/-- C4. Word-type monotonicity: over every sequence of check-as-int,
check-as-ptr, memset and memmove operations, successful or failing, a word
tag that is `INT` stays `INT`, one that is `PTR` stays `PTR`, and no tag
other than `UNSET` changes at all; hence after a successful int access
that covers word `i` every later ptr access to word `i` fails, and after a
successful ptr access to word `i` every later int access that covers word
`i` fails. -/
theorem word_type_monotonicity (max_bytes : Nat) (h : filc_heap) (ops : List filc_op)
    (hops : ∀ op ∈ ops, op.is_access = true) (o i : Nat) :
    (((h.objects o).word_types i = FILC_WORD_TYPE_INT →
      ((run_ops max_bytes h ops).objects o).word_types i = FILC_WORD_TYPE_INT) ∧
     ((h.objects o).word_types i = FILC_WORD_TYPE_PTR →
      ((run_ops max_bytes h ops).objects o).word_types i = FILC_WORD_TYPE_PTR) ∧
     ((h.objects o).word_types i ≠ FILC_WORD_TYPE_UNSET →
      ((run_ops max_bytes h ops).objects o).word_types i = (h.objects o).word_types i)) ∧
    (∀ (ptr : filc_ptr) (bytes : Nat) (kind : filc_access_kind),
      ptr.object = some o → (h.objects o).addressable → 1 ≤ bytes →
      (filc_check_access_int h ptr bytes kind).succeeded = true →
      (ptr.ptr - (h.objects o).lower) / 16 ≤ i →
      i ≤ (ptr.ptr - (h.objects o).lower + bytes - 1) / 16 →
      ∀ (ptr2 : filc_ptr) (kind2 : filc_access_kind),
        ptr2.object = some o → (ptr2.ptr - (h.objects o).lower) / 16 = i →
        (filc_check_access_ptr
          (run_ops max_bytes (filc_check_access_int h ptr bytes kind).heap ops)
          ptr2 kind2).succeeded = false) ∧
    (∀ (ptr : filc_ptr) (kind : filc_access_kind),
      ptr.object = some o → (h.objects o).addressable →
      (filc_check_access_ptr h ptr kind).succeeded = true →
      (ptr.ptr - (h.objects o).lower) / 16 = i →
      ∀ (ptr2 : filc_ptr) (bytes2 : Nat) (kind2 : filc_access_kind),
        ptr2.object = some o → 1 ≤ bytes2 →
        (ptr2.ptr - (h.objects o).lower) / 16 ≤ i →
        i ≤ (ptr2.ptr - (h.objects o).lower + bytes2 - 1) / 16 →
        (filc_check_access_int
          (run_ops max_bytes (filc_check_access_ptr h ptr kind).heap ops)
          ptr2 bytes2 kind2).succeeded = false) := by
  have hstay : ∀ (h0 : filc_heap) (t : filc_word_type), t ≠ FILC_WORD_TYPE_UNSET →
      (h0.objects o).word_types i = t →
      ((run_ops max_bytes h0 ops).objects o).word_types i = t := by
    intro h0 t ht h0t
    rcases (tags_advance_run_ops max_bytes ops h0 hops o).2.2.2 i with e | ⟨e, _⟩
    · rw [e]; exact h0t
    · rw [h0t] at e; exact absurd e ht
  refine ⟨⟨fun e => hstay h _ (by decide) e, fun e => hstay h _ (by decide) e,
    fun e => hstay h _ e rfl⟩, ?_, ?_⟩
  · intro ptr bytes kind ho ha hb hs h1 h2 ptr2 kind2 ho2 hidx
    have hint := (filc_check_access_int_tags h ptr bytes o kind ho ha hb hs i h1 h2).2
    have hadv := tags_advance_trans h _ _ (tags_advance_check_access_int h ptr bytes kind)
      (tags_advance_run_ops max_bytes ops (filc_check_access_int h ptr bytes kind).heap hops)
    obtain ⟨hl, hu, _, _⟩ := hadv o
    have hfin := hstay (filc_check_access_int h ptr bytes kind).heap _ (by decide) hint
    by_contra hne
    have hs2 : (filc_check_access_ptr
        (run_ops max_bytes (filc_check_access_int h ptr bytes kind).heap ops)
        ptr2 kind2).succeeded = true := by simpa using hne
    have ha2 : ((run_ops max_bytes (filc_check_access_int h ptr bytes kind).heap ops).objects
        o).addressable := by
      unfold filc_object.addressable at ha ⊢; rw [hu]; exact ha
    have ht := (filc_check_access_ptr_tags _ ptr2 o kind2 ho2 ha2 hs2).1
    rw [hl, hidx, hfin] at ht
    rcases ht with ht | ht <;> cases ht
  · intro ptr kind ho ha hs hidx ptr2 bytes2 kind2 ho2 hb2 h1 h2
    have hptr := (filc_check_access_ptr_tags h ptr o kind ho ha hs).2
    rw [hidx] at hptr
    have hadv := tags_advance_trans h _ _ (tags_advance_check_access_ptr h ptr kind)
      (tags_advance_run_ops max_bytes ops (filc_check_access_ptr h ptr kind).heap hops)
    obtain ⟨hl, hu, _, _⟩ := hadv o
    have hfin := hstay (filc_check_access_ptr h ptr kind).heap _ (by decide) hptr
    by_contra hne
    have hs2 : (filc_check_access_int
        (run_ops max_bytes (filc_check_access_ptr h ptr kind).heap ops)
        ptr2 bytes2 kind2).succeeded = true := by simpa using hne
    have ha2 : ((run_ops max_bytes (filc_check_access_ptr h ptr kind).heap ops).objects
        o).addressable := by
      unfold filc_object.addressable at ha ⊢; rw [hu]; exact ha
    have ht := (filc_check_access_int_tags _ ptr2 bytes2 o kind2 ho2 ha2 hb2 hs2 i
      (by rw [hl]; exact h1) (by rw [hl]; exact h2)).1
    rw [hfin] at ht
    rcases ht with ht | ht <;> cases ht

/-- C4 at the sample object: after a four-byte int store into its first
word and a zero memset over the object, a pointer load from the first word
fails. -/
theorem word_type_monotonicity_witness :
    (∀ op ∈ [filc_op.memset ⟨some 7, 4096⟩ 0 32], op.is_access = true) ∧
    (filc_check_access_ptr
      (run_ops 1000
        (filc_check_access_int sample_heap ⟨some 7, 4100⟩ 4 filc_write_access).heap
        [filc_op.memset ⟨some 7, 4096⟩ 0 32])
      ⟨some 7, 4096⟩ filc_read_access).succeeded = false :=
  ⟨fun op hop => by rw [List.mem_singleton] at hop; rw [hop]; rfl,
   (word_type_monotonicity 1000 sample_heap [filc_op.memset ⟨some 7, 4096⟩ 0 32]
      (fun op hop => by rw [List.mem_singleton] at hop; rw [hop]; rfl) 7 0).2.1
      ⟨some 7, 4100⟩ 4 filc_write_access rfl (sample_heap_addressable 7) (by decide)
      (by decide) (by decide) (by decide) ⟨some 7, 4096⟩ filc_read_access rfl (by decide)⟩

/-! ## Use after free -/

/-- A step of the tag relation keeps a freed object freed, with its bounds. -/
theorem freed_in_of_tags_advance (h h1 : filc_heap) (o L U : Nat) (ha : tags_advance h h1)
    (hf : freed_in h o L U) : freed_in h1 o L U := by
  obtain ⟨⟨hflag, htags⟩, hl, hu, hU⟩ := hf
  obtain ⟨al, au, af, at_⟩ := ha o
  refine ⟨⟨?_, ?_⟩, al.trans hl, au.trans hu, hU⟩
  · rw [af hflag]; exact hflag
  · intro i hi
    have hnw : filc_object_num_words (h1.objects o) = filc_object_num_words (h.objects o) := by
      simp only [filc_object_num_words, filc_object_size, al, au]
    rw [hnw] at hi
    rcases at_ i with e | ⟨e, _⟩
    · rw [e]; exact htags i hi
    · rw [htags i hi] at e; cases e

/-- The word count of an addressable object is its size in words, rounded
up. -/
theorem filc_object_num_words_eq (obj : filc_object) (ha : obj.upper + 16 ≤ 2 ^ 64) :
    filc_object_num_words obj = (obj.upper - obj.lower + 15) / 16 := by
  simp only [filc_object_num_words, filc_object_num_words_for_size, filc_object_size,
    pas_round_up_to_power_of_2, FILC_WORD_SIZE]
  omega

/-- `check_int` of at least one byte inside a freed object fails. -/
theorem check_int_fails_of_freed (h : filc_heap) (ptr : filc_ptr) (bytes o L U : Nat)
    (ho : ptr.object = some o) (hf : freed_in h o L U) (hlo : L ≤ ptr.ptr) (hb : 1 ≤ bytes)
    (hhi : ptr.ptr + bytes ≤ U) :
    (check_int h ptr bytes).succeeded = false := by
  obtain ⟨⟨_, htags⟩, hl, hu, hU⟩ := hf
  have ha : (h.objects o).addressable := by
    unfold filc_object.addressable; rw [hu]; exact hU
  rw [check_int_eq_loop h ptr bytes o ho ha (by rw [hl]; exact hlo) hb (by rw [hu]; exact hhi)]
  by_contra hne
  have hs := (check_int_loop_spec o _ _ h).2.2.2.2.2.2.1.1 (by simpa using hne)
  have hnw := filc_object_num_words_eq (h.objects o) (by rw [hu]; exact hU)
  have hidx : (ptr.ptr - (h.objects o).lower) / 16 < filc_object_num_words (h.objects o) := by
    rw [hnw, hl, hu]; omega
  have := hs ((ptr.ptr - (h.objects o).lower) / 16) (le_refl _) (by omega)
  rw [htags _ hidx] at this
  rcases this with e | e <;> cases e

/-- The free-or-special test of an object with the `FREE` flag is non-zero. -/
theorem and_free_or_special_ne_zero (f : Nat) (hf : f &&& FILC_OBJECT_FLAG_FREE ≠ 0) :
    f &&& (FILC_OBJECT_FLAG_FREE ||| FILC_OBJECT_FLAG_SPECIAL) ≠ 0 := by
  intro h
  apply hf
  apply Nat.eq_of_testBit_eq
  intro i
  have hi := congrArg (fun x => x.testBit i) h
  simp only [Nat.testBit_and, Nat.testBit_or, Nat.zero_testBit] at hi ⊢
  cases hfi : f.testBit i <;> cases h1 : FILC_OBJECT_FLAG_FREE.testBit i <;>
    simp_all

/-- `check_accessible` through a pointer to a freed object fails. -/
theorem check_accessible_fails_of_freed (h : filc_heap) (ptr : filc_ptr) (o L U : Nat)
    (ho : ptr.object = some o) (hf : freed_in h o L U) :
    (check_accessible h ptr).succeeded = false := by
  simp only [check_accessible, ho]
  rw [if_pos (and_free_or_special_ne_zero _ hf.1.1)]
  rfl

/-- A sequence fails when its first part fails. -/
theorem and_then_fails_left {α β : Type} (r : filc_result α)
    (k : α → filc_heap → filc_result β) (hr : r.succeeded = false) :
    (r.and_then k).succeeded = false := by
  cases r with
  | done a h1 => cases hr
  | panic e h1 => rfl

/-- A sequence fails when its second part fails on every heap the first
part can reach by a step of the tag relation. -/
theorem and_then_fails_right {α β : Type} (h0 : filc_heap) (r : filc_result α)
    (k : α → filc_heap → filc_result β) (hr : tags_advance h0 r.heap)
    (hk : ∀ a h1, tags_advance h0 h1 → (k a h1).succeeded = false) :
    (r.and_then k).succeeded = false := by
  cases r with
  | done a h1 => exact hk a h1 hr
  | panic e h1 => rfl

/-- The bounds a passed check-common establishes, for a freed object. -/
theorem bounds_of_common_of_freed (h : filc_heap) (ptr : filc_ptr) (bytes o L U : Nat)
    (kind : filc_access_kind) (ho : ptr.object = some o) (hf : freed_in h o L U)
    (hs : (filc_check_access_common h ptr bytes kind).succeeded = true) :
    L ≤ ptr.ptr ∧ ptr.ptr < U ∧ ptr.ptr + bytes ≤ U := by
  obtain ⟨_, hl, hu, hU⟩ := hf
  have ha : (h.objects o).addressable := by
    unfold filc_object.addressable; rw [hu]; exact hU
  obtain ⟨h1, h2, h3, _⟩ :=
    (filc_check_access_common_succeeded_iff h ptr bytes o kind ho ha).1 hs
  rw [hl] at h1; rw [hu] at h2 h3
  exact ⟨h1, h2, h3⟩

/-- Check-as-int of at least one byte through a pointer to a freed object
fails. -/
theorem filc_check_access_int_fails_of_freed (h : filc_heap) (ptr : filc_ptr)
    (bytes o L U : Nat) (kind : filc_access_kind) (ho : ptr.object = some o)
    (hf : freed_in h o L U) (hb : 1 ≤ bytes) :
    (filc_check_access_int h ptr bytes kind).succeeded = false := by
  by_cases hs : (filc_check_access_common h ptr bytes kind).succeeded = true
  · obtain ⟨h1, _, h3⟩ := bounds_of_common_of_freed h ptr bytes o L U kind ho hf hs
    unfold filc_check_access_int
    rw [if_neg (by omega), filc_check_access_common_eq_done h ptr bytes kind hs]
    exact check_int_fails_of_freed h ptr bytes o L U ho hf h1 hb h3
  · exact filc_check_access_int_fails_of_common h ptr bytes kind hb (by simpa using hs)

/-- Check-as-ptr through a pointer to a freed object fails. -/
theorem filc_check_access_ptr_fails_of_freed (h : filc_heap) (ptr : filc_ptr) (o L U : Nat)
    (kind : filc_access_kind) (ho : ptr.object = some o) (hf : freed_in h o L U) :
    (filc_check_access_ptr h ptr kind).succeeded = false := by
  by_contra hne
  have hs : (filc_check_access_ptr h ptr kind).succeeded = true := by simpa using hne
  have hcs : (filc_check_access_common h ptr 16 kind).succeeded = true := by
    by_contra hc
    have := filc_check_access_ptr_fails_of_common h ptr kind (by simpa using hc)
    rw [this] at hs; cases hs
  obtain ⟨h1, h2, h3⟩ := bounds_of_common_of_freed h ptr 16 o L U kind ho hf hcs
  obtain ⟨⟨_, htags⟩, hl, hu, hU⟩ := hf
  have ha : (h.objects o).addressable := by
    unfold filc_object.addressable; rw [hu]; exact hU
  have ht := (filc_check_access_ptr_tags h ptr o kind ho ha hs).1
  have hnw := filc_object_num_words_eq (h.objects o) (by rw [hu]; exact hU)
  have hidx : (ptr.ptr - (h.objects o).lower) / 16 < filc_object_num_words (h.objects o) := by
    rw [hnw, hl, hu]; omega
  rw [htags _ hidx] at ht
  rcases ht with e | e <;> cases e

/-- `filc_memset` of at least one byte through a pointer to a freed object
fails. -/
theorem filc_memset_fails_of_freed (max_bytes : Nat) (h : filc_heap) (ptr : filc_ptr)
    (value count o L U : Nat) (ho : ptr.object = some o) (hf : freed_in h o L U)
    (hc : 1 ≤ count) :
    (filc_memset max_bytes h ptr value count).succeeded = false := by
  unfold filc_memset
  rw [if_neg (by omega)]
  by_cases hs : (filc_check_access_common h ptr count filc_write_access).succeeded = true
  swap
  · exact and_then_fails_left _ _ (by simpa using hs)
  obtain ⟨h1, h2, h3⟩ :=
    bounds_of_common_of_freed h ptr count o L U filc_write_access ho hf hs
  rw [filc_check_access_common_eq_done h ptr count _ hs]
  simp only [filc_result.and_then]
  by_cases hv : value = 0
  swap
  · rw [if_neg hv]
    exact and_then_fails_left _ _ (check_int_fails_of_freed h ptr count o L U ho hf h1 hc h3)
  rw [if_pos hv]
  by_cases c0 : pas_round_up_to_power_of_2 ptr.ptr FILC_WORD_SIZE > ptr.ptr + count ∨
      pas_round_down_to_power_of_2 (ptr.ptr + count) FILC_WORD_SIZE < ptr.ptr
  · rw [if_pos c0]
    exact and_then_fails_left _ _ (check_int_fails_of_freed h ptr count o L U ho hf h1 hc h3)
  rw [if_neg c0]
  by_cases c1 : pas_round_up_to_power_of_2 ptr.ptr FILC_WORD_SIZE > ptr.ptr
  · rw [if_pos c1]
    refine and_then_fails_left _ _ (and_then_fails_left _ _ ?_)
    exact check_int_fails_of_freed h ptr _ o L U ho hf h1 (by omega) (by omega)
  · rw [if_neg c1]
    simp only [filc_result.and_then]
    exact and_then_fails_left _ _ (check_accessible_fails_of_freed h ptr o L U ho hf)

/-- `filc_native_zmemcmp` of at least one byte fails when one of the two
pointers points to a freed object. -/
theorem filc_native_zmemcmp_fails_of_freed (max_bytes : Nat) (h : filc_heap)
    (ptr1 ptr2 : filc_ptr) (count o L U : Nat) (hf : freed_in h o L U) (hc : 1 ≤ count)
    (ho : ptr1.object = some o ∨ ptr2.object = some o) :
    (filc_native_zmemcmp max_bytes h ptr1 ptr2 count).succeeded = false := by
  unfold filc_native_zmemcmp
  rw [if_neg (by omega)]
  refine and_then_fails_right h _ _ (tags_advance_check_common _ _ _ _) ?_
  intro _ h1 a1
  refine and_then_fails_right h1 _ _ (tags_advance_check_common _ _ _ _) ?_
  intro _ h2 a2
  have hf2 := freed_in_of_tags_advance h h2 o L U (tags_advance_trans h h1 h2 a1 a2) hf
  rcases ho with ho | ho
  · exact and_then_fails_left _ _ (check_accessible_fails_of_freed h2 ptr1 o L U ho hf2)
  · refine and_then_fails_right h2 _ _ (tags_advance_check_accessible _ _) ?_
    intro _ h3 a3
    have hf3 := freed_in_of_tags_advance h2 h3 o L U a3 hf2
    exact and_then_fails_left _ _ (check_accessible_fails_of_freed h3 ptr2 o L U ho hf3)

/-- An edge of a copy that touches a freed object either fails or is
empty. -/
theorem memmove_smidgen_of_freed (part : memmove_smidgen_part) (h : filc_heap)
    (dst src : filc_ptr) (count aligned_dst_start aligned_dst_end o L U : Nat)
    (hf : freed_in h o L U) (h1 : aligned_dst_start ≤ dst.ptr + count)
    (h2 : dst.ptr ≤ aligned_dst_end) (h3 : aligned_dst_end ≤ dst.ptr + count)
    (hb : (dst.object = some o ∧ L ≤ dst.ptr ∧ dst.ptr + count ≤ U) ∨
      (src.object = some o ∧ L ≤ src.ptr ∧ src.ptr + count ≤ U)) :
    (memmove_smidgen part h dst src dst.ptr aligned_dst_start (dst.ptr + count)
      aligned_dst_end src.ptr).succeeded = false ∨
    memmove_smidgen part h dst src dst.ptr aligned_dst_start (dst.ptr + count)
      aligned_dst_end src.ptr = .done () h := by
  cases part with
  | memmove_lower_smidgen =>
    simp only [memmove_smidgen]
    by_cases c : aligned_dst_start > dst.ptr
    · rw [if_pos c]
      left
      rcases hb with ⟨ho, b1, b2⟩ | ⟨ho, b1, b2⟩
      · exact and_then_fails_left _ _
          (check_int_fails_of_freed h dst _ o L U ho hf b1 (by omega) (by omega))
      · refine and_then_fails_right h _ _ (tags_advance_check_int _ _ _) ?_
        intro _ h4 a4
        exact and_then_fails_left _ _
          (check_int_fails_of_freed h4 src _ o L U ho
            (freed_in_of_tags_advance h h4 o L U a4 hf) b1 (by omega) (by omega))
    · rw [if_neg c]; exact Or.inr rfl
  | memmove_upper_smidgen =>
    simp only [memmove_smidgen]
    by_cases c : dst.ptr + count > aligned_dst_end
    · rw [if_pos c]
      left
      rcases hb with ⟨ho, b1, b2⟩ | ⟨ho, b1, b2⟩
      · refine and_then_fails_left _ _
          (check_int_fails_of_freed h (filc_ptr_with_ptr dst aligned_dst_end) _ o L U ho hf
            ?_ (by omega) ?_)
        · show L ≤ aligned_dst_end; omega
        · show aligned_dst_end + (dst.ptr + count - aligned_dst_end) ≤ U; omega
      · refine and_then_fails_right h _ _ (tags_advance_check_int _ _ _) ?_
        intro _ h4 a4
        refine and_then_fails_left _ _
          (check_int_fails_of_freed h4
            (filc_ptr_with_offset src (aligned_dst_end - dst.ptr)) _ o L U ho
            (freed_in_of_tags_advance h h4 o L U a4 hf) ?_ (by omega) ?_)
        · show L ≤ src.ptr + (aligned_dst_end - dst.ptr); omega
        · show src.ptr + (aligned_dst_end - dst.ptr) + (dst.ptr + count - aligned_dst_end) ≤ U
          omega
    · rw [if_neg c]; exact Or.inr rfl

/-- `memmove_impl` of at least one byte fails when the destination or the
source range lies in a freed object. -/
theorem memmove_impl_fails_of_freed (h : filc_heap) (dst src : filc_ptr)
    (count o L U : Nat) (pollchecked : Bool) (pollcheck : Nat → Bool)
    (hf : freed_in h o L U) (hc : 1 ≤ count)
    (hb : (dst.object = some o ∧ L ≤ dst.ptr ∧ dst.ptr + count ≤ U) ∨
      (src.object = some o ∧ L ≤ src.ptr ∧ src.ptr + count ≤ U)) :
    (memmove_impl h dst src count pollchecked pollcheck).succeeded = false := by
  unfold memmove_impl
  dsimp only
  by_cases c0 : pas_round_up_to_power_of_2 dst.ptr FILC_WORD_SIZE > dst.ptr + count ∨
      pas_round_down_to_power_of_2 (dst.ptr + count) FILC_WORD_SIZE < dst.ptr
  · rw [if_pos c0]
    rcases hb with ⟨ho, b1, b2⟩ | ⟨ho, b1, b2⟩
    · exact and_then_fails_left _ _ (check_int_fails_of_freed h dst count o L U ho hf b1 hc b2)
    · refine and_then_fails_right h _ _ (tags_advance_check_int _ _ _) ?_
      intro _ h4 a4
      exact and_then_fails_left _ _
        (check_int_fails_of_freed h4 src count o L U ho
          (freed_in_of_tags_advance h h4 o L U a4 hf) b1 hc b2)
  · rw [if_neg c0]
    have hdown : pas_round_down_to_power_of_2 (dst.ptr + count) FILC_WORD_SIZE
        ≤ dst.ptr + count := by
      simp only [pas_round_down_to_power_of_2, FILC_WORD_SIZE]; omega
    rcases memmove_smidgen_of_freed
        (if decide (dst.ptr < src.ptr) = true then memmove_smidgen_part.memmove_lower_smidgen
          else memmove_smidgen_part.memmove_upper_smidgen)
        h dst src count
        (pas_round_up_to_power_of_2 dst.ptr FILC_WORD_SIZE)
        (pas_round_down_to_power_of_2 (dst.ptr + count) FILC_WORD_SIZE) o L U hf
        (by omega) (by omega) hdown hb with hs | hs
    · exact and_then_fails_left _ _ hs
    · rw [hs]
      simp only [filc_result.and_then]
      rcases hb with ⟨ho, b1, b2⟩ | ⟨ho, b1, b2⟩
      · exact and_then_fails_left _ _ (check_accessible_fails_of_freed h dst o L U ho hf)
      · refine and_then_fails_right h _ _ (tags_advance_check_accessible _ _) ?_
        intro _ h4 a4
        have hf4 := freed_in_of_tags_advance h h4 o L U a4 hf
        refine and_then_fails_left _ _ ?_
        by_cases cs : decide (dst.ptr % FILC_WORD_SIZE = src.ptr % FILC_WORD_SIZE) = true
        · rw [if_pos cs]; exact check_accessible_fails_of_freed h4 src o L U ho hf4
        · rw [if_neg cs]; exact check_int_fails_of_freed h4 src count o L U ho hf4 b1 hc b2

/-- `filc_memmove` of at least one byte fails when the destination or the
source pointer points to a freed object. -/
theorem filc_memmove_fails_of_freed (h : filc_heap) (dst src : filc_ptr) (count o L U : Nat)
    (pollcheck : Nat → Bool) (hf : freed_in h o L U) (hc : 1 ≤ count)
    (ho : dst.object = some o ∨ src.object = some o) :
    (filc_memmove h dst src count pollcheck).succeeded = false := by
  unfold filc_memmove
  rw [if_neg (by omega)]
  by_cases hd : (filc_check_access_common h dst count filc_write_access).succeeded = true
  swap
  · exact and_then_fails_left _ _ (by simpa using hd)
  rw [filc_check_access_common_eq_done h dst count _ hd]
  simp only [filc_result.and_then]
  by_cases hs : (filc_check_access_common h src count filc_read_access).succeeded = true
  swap
  · exact and_then_fails_left _ _ (by simpa using hs)
  rw [filc_check_access_common_eq_done h src count _ hs]
  simp only [filc_result.and_then]
  refine memmove_impl_fails_of_freed h dst src count o L U true pollcheck hf hc ?_
  rcases ho with ho | ho
  · obtain ⟨b1, _, b3⟩ := bounds_of_common_of_freed h dst count o L U _ ho hf hd
    exact Or.inl ⟨ho, b1, b3⟩
  · obtain ⟨b1, _, b3⟩ := bounds_of_common_of_freed h src count o L U _ ho hf hs
    exact Or.inr ⟨ho, b1, b3⟩

/-- A heap that holds the same header for `o` keeps it freed. -/
theorem freed_in_of_objects_eq (h h1 : filc_heap) (o L U : Nat)
    (he : h1.objects o = h.objects o) (hf : freed_in h o L U) : freed_in h1 o L U := by
  unfold freed_in is_freed at hf ⊢
  rw [he]; exact hf

/-- `filc_free` of any object keeps a freed object freed. -/
theorem freed_in_free (h : filc_heap) (o x L U : Nat) (hf : freed_in h o L U) :
    freed_in (filc_free h x).heap o L U := by
  by_cases hx : x = o
  · subst hx
    have hflag := hf.1.1
    have hr : (filc_free h x).heap = h := by
      unfold filc_free
      split_ifs
      · rfl
      · rfl
      · rfl
      · rw [filc_free_yolo_eq, if_pos hflag]; rfl
    rw [hr]; exact hf
  · have hr : (filc_free h x).heap.objects o = h.objects o := by
      unfold filc_free
      split_ifs
      · rfl
      · rfl
      · rfl
      · rw [filc_free_yolo_eq]
        split_ifs
        · rfl
        · rfl
        · exact (freed_heap_spec h x).2.2.2.2.1 o (fun e => hx e.symm)
    exact freed_in_of_objects_eq h _ o L U hr hf

/-- `initialize_object` writes no header but the new one. -/
theorem initialize_object_objects_other (h : filc_heap) (result size num_words
    offset_to_payload object_flags : Nat) (t : filc_word_type) (x : Nat) (hx : x ≠ result) :
    (initialize_object h result size num_words offset_to_payload object_flags t).objects x
      = h.objects x := by
  simp only [initialize_object, filc_heap.set_memory]
  rw [filc_heap.set_object_other _ _ _ _ hx, filc_heap.set_object_other _ _ _ _ hx]

/-- `allocate_impl` writes no header but the new one. -/
theorem allocate_impl_objects_other (verse_heap_allocate : Nat → Nat) (h : filc_heap)
    (size object_flags : Nat) (t : filc_word_type) (x : Nat)
    (hx : ∀ total_size, verse_heap_allocate total_size ≠ x) :
    (allocate_impl verse_heap_allocate h size object_flags t).heap.objects x = h.objects x := by
  unfold allocate_impl
  cases prepare_allocate size FILC_WORD_SIZE with
  | none => rfl
  | some plan =>
    exact initialize_object_objects_other h _ _ _ _ _ _ x (fun e => hx _ e.symm)

/-- The copy loop of `finish_reallocate` writes no header but the new one. -/
theorem reallocate_copy_loop_objects_other (result old_object dst src : Nat) :
    ∀ (n : Nat) (h : filc_heap) (x : Nat), x ≠ result →
      (reallocate_copy_loop result old_object dst src n h).heap.objects x = h.objects x := by
  intro n
  induction n with
  | zero => intro h x _; rfl
  | succ n ih =>
    intro h x hx
    unfold reallocate_copy_loop
    unfold reallocate_copy_word
    dsimp only
    split_ifs
    · rfl
    · dsimp only
      rw [ih _ x hx]
      simp only [filc_heap.set_memory]
      exact filc_heap.set_object_other _ _ _ _ hx

/-- `filc_reallocate` keeps a freed object freed when the allocator does not
hand out its header. -/
theorem freed_in_reallocate (verse_heap_allocate : Nat → Nat) (h : filc_heap)
    (object new_size o L U : Nat) (hk : ∀ total_size, verse_heap_allocate total_size ≠ o)
    (hf : freed_in h o L U) :
    freed_in (filc_reallocate verse_heap_allocate h object new_size).heap o L U := by
  unfold filc_reallocate
  cases prepare_allocate new_size FILC_WORD_SIZE with
  | none => exact hf
  | some plan =>
    dsimp only
    unfold finish_reallocate check_object_accessible
    split_ifs
    · exact hf
    · simp only [filc_result.and_then]
      generalize hh4 : ((h.set_object (verse_heap_allocate plan.total_size)
          { h.objects (verse_heap_allocate plan.total_size) with
            lower := verse_heap_allocate plan.total_size + plan.offset_to_payload
            upper := verse_heap_allocate plan.total_size + plan.offset_to_payload + plan.size
            flags := 0 }).set_object (verse_heap_allocate plan.total_size)
          (fill_word_types FILC_WORD_TYPE_UNSET plan.num_words
            ((h.set_object (verse_heap_allocate plan.total_size)
              { h.objects (verse_heap_allocate plan.total_size) with
                lower := verse_heap_allocate plan.total_size + plan.offset_to_payload
                upper := verse_heap_allocate plan.total_size + plan.offset_to_payload
                  + plan.size
                flags := 0 }).objects (verse_heap_allocate plan.total_size)))) = h3
      have h3o : h3.objects o = h.objects o := by
        rw [← hh4, filc_heap.set_object_other _ _ _ _ (fun e => hk _ e.symm),
          filc_heap.set_object_other _ _ _ _ (fun e => hk _ e.symm)]
      generalize hh4 : h3.set_memory (memset h3.memory
        (verse_heap_allocate plan.total_size + plan.offset_to_payload) 0 plan.size) = h4
      have h4o : h4.objects o = h.objects o := by rw [← hh4]; exact h3o
      have hloop := reallocate_copy_loop_objects_other (verse_heap_allocate plan.total_size)
        object (verse_heap_allocate plan.total_size + plan.offset_to_payload)
        (h4.objects object).lower
        (min plan.num_words (filc_object_num_words (h.objects object))) h4 o
        (fun e => hk _ e.symm)
      cases hr : reallocate_copy_loop (verse_heap_allocate plan.total_size) object
          (verse_heap_allocate plan.total_size + plan.offset_to_payload)
          (h4.objects object).lower
          (min plan.num_words (filc_object_num_words (h.objects object))) h4 with
      | panic e h5 =>
        rw [hr] at hloop
        exact freed_in_of_objects_eq h _ o L U (hloop.trans h4o) hf
      | done u h5 =>
        rw [hr] at hloop
        have hf5 : freed_in h5 o L U :=
          freed_in_of_objects_eq h h5 o L U (hloop.trans h4o) hf
        have hfree := freed_in_free h5 o object L U hf5
        dsimp only
        cases hr2 : filc_free h5 object with
        | panic e h6 => rw [hr2] at hfree; exact hfree
        | done u h6 => rw [hr2] at hfree; exact hfree

/-- Every operation keeps a freed object freed, as long as the allocator
does not hand out its header again. -/
theorem freed_in_run (max_bytes : Nat) (h : filc_heap) (op : filc_op) (o L U : Nat)
    (hk : op.keeps_header o) (hf : freed_in h o L U) :
    freed_in (op.run max_bytes h) o L U := by
  cases op with
  | check_access_int ptr bytes kind =>
    exact freed_in_of_tags_advance h _ o L U (tags_advance_check_access_int h ptr bytes kind) hf
  | check_access_ptr ptr kind =>
    exact freed_in_of_tags_advance h _ o L U (tags_advance_check_access_ptr h ptr kind) hf
  | memset ptr value count =>
    exact freed_in_of_tags_advance h _ o L U (tags_advance_memset max_bytes h ptr value count) hf
  | memmove dst src count pollcheck =>
    exact freed_in_of_tags_advance h _ o L U (tags_advance_memmove h dst src count pollcheck) hf
  | zmemcmp ptr1 ptr2 count =>
    exact freed_in_of_tags_advance h _ o L U (tags_advance_zmemcmp max_bytes h ptr1 ptr2 count) hf
  | pin object => exact freed_in_of_tags_advance h _ o L U (tags_advance_pin h object) hf
  | unpin object => exact freed_in_of_tags_advance h _ o L U (tags_advance_unpin h object) hf
  | free object => exact freed_in_free h o object L U hf
  | allocate alloc size =>
    exact freed_in_of_objects_eq h _ o L U
      (allocate_impl_objects_other alloc h size 0 FILC_WORD_TYPE_UNSET o hk) hf
  | allocate_int alloc size =>
    exact freed_in_of_objects_eq h _ o L U
      (allocate_impl_objects_other alloc h size 0 FILC_WORD_TYPE_INT o hk) hf
  | reallocate alloc object new_size =>
    exact freed_in_reallocate alloc h object new_size o L U hk hf

/-- Every sequence of operations keeps a freed object freed. -/
theorem freed_in_run_ops (max_bytes : Nat) (o L U : Nat) (ops : List filc_op) :
    ∀ h : filc_heap, (∀ op ∈ ops, op.keeps_header o) → freed_in h o L U →
      freed_in (run_ops max_bytes h ops) o L U := by
  induction ops with
  | nil => intro h _ hf; exact hf
  | cons op rest ih =>
    intro h hall hf
    exact ih (op.run max_bytes h) (fun x hx => hall x (List.mem_cons_of_mem _ hx))
      (freed_in_run max_bytes h op o L U (hall op (List.mem_cons_self _ _)) hf)

/-- A successful `filc_free` returned the freed heap. -/
theorem filc_free_eq_of_succeeded (h : filc_heap) (o : Nat)
    (hs : (filc_free h o).succeeded = true) : filc_free h o = .done () (freed_heap h o) := by
  unfold filc_free at hs ⊢
  rw [filc_free_yolo_eq] at hs ⊢
  split_ifs at hs ⊢ <;> first | rfl | cases hs

/-- The freed heap holds the object freed, with its old bounds. -/
theorem freed_in_freed_heap (h : filc_heap) (o : Nat) (ha : (h.objects o).addressable) :
    freed_in (freed_heap h o) o (h.objects o).lower (h.objects o).upper := by
  obtain ⟨sl, su, sf, st, _, _⟩ := freed_heap_spec h o
  refine ⟨⟨?_, ?_⟩, sl, su, ha⟩
  · rw [sf]; exact or_free_and_free _
  · intro i hi
    have hnw : filc_object_num_words ((freed_heap h o).objects o)
        = filc_object_num_words (h.objects o) := by
      simp only [filc_object_num_words, filc_object_size, sl, su]
    rw [hnw] at hi
    rw [st i, if_pos hi]

/-- C7. Use after free always fails: once `filc_free` of an addressable
object has succeeded, then after any further sequence of operations (in
which the allocator does not hand out the header of the object again) the
object still has the `FREE` flag and only `FREE` tags, and through every
pointer to it every check-as-int of at least one byte, every check-as-ptr
and every memset, memmove (as destination or as source) and zmemcmp (as
either operand) of at least one byte fails, whatever the address. -/
theorem use_after_free_fails (max_bytes : Nat) (h : filc_heap) (o : Nat) (ops : List filc_op)
    (ha : (h.objects o).addressable) (hfree : (filc_free h o).succeeded = true)
    (hk : ∀ op ∈ ops, op.keeps_header o) :
    is_freed (run_ops max_bytes (filc_free h o).heap ops) o ∧
    ∀ ptr : filc_ptr, ptr.object = some o →
      (∀ bytes kind, 1 ≤ bytes →
        (filc_check_access_int (run_ops max_bytes (filc_free h o).heap ops)
          ptr bytes kind).succeeded = false) ∧
      (∀ kind,
        (filc_check_access_ptr (run_ops max_bytes (filc_free h o).heap ops)
          ptr kind).succeeded = false) ∧
      (∀ value count, 1 ≤ count →
        (filc_memset max_bytes (run_ops max_bytes (filc_free h o).heap ops)
          ptr value count).succeeded = false) ∧
      (∀ (other : filc_ptr) (count : Nat) (pollcheck : Nat → Bool), 1 ≤ count →
        (filc_memmove (run_ops max_bytes (filc_free h o).heap ops)
          ptr other count pollcheck).succeeded = false ∧
        (filc_memmove (run_ops max_bytes (filc_free h o).heap ops)
          other ptr count pollcheck).succeeded = false) ∧
      (∀ (other : filc_ptr) (count : Nat), 1 ≤ count →
        (filc_native_zmemcmp max_bytes (run_ops max_bytes (filc_free h o).heap ops)
          ptr other count).succeeded = false ∧
        (filc_native_zmemcmp max_bytes (run_ops max_bytes (filc_free h o).heap ops)
          other ptr count).succeeded = false) := by
  have hheap : (filc_free h o).heap = freed_heap h o := by
    rw [filc_free_eq_of_succeeded h o hfree]; rfl
  rw [hheap]
  have hf := freed_in_run_ops max_bytes o (h.objects o).lower (h.objects o).upper ops
    (freed_heap h o) hk (freed_in_freed_heap h o ha)
  refine ⟨hf.1, fun ptr ho => ⟨?_, ?_, ?_, ?_, ?_⟩⟩
  · intro bytes kind hb
    exact filc_check_access_int_fails_of_freed _ ptr bytes o _ _ kind ho hf hb
  · intro kind
    exact filc_check_access_ptr_fails_of_freed _ ptr o _ _ kind ho hf
  · intro value count hc
    exact filc_memset_fails_of_freed max_bytes _ ptr value count o _ _ ho hf hc
  · intro other count pollcheck hc
    exact ⟨filc_memmove_fails_of_freed _ ptr other count o _ _ pollcheck hf hc (Or.inl ho),
      filc_memmove_fails_of_freed _ other ptr count o _ _ pollcheck hf hc (Or.inr ho)⟩
  · intro other count hc
    exact ⟨filc_native_zmemcmp_fails_of_freed max_bytes _ ptr other count o _ _ hf hc (Or.inl ho),
      filc_native_zmemcmp_fails_of_freed max_bytes _ other ptr count o _ _ hf hc (Or.inr ho)⟩

/-- C7 at the sample object: after the free and a later int check, pin and
second free, a one-byte read through the old pointer fails. -/
theorem use_after_free_fails_witness :
    (sample_heap.objects 7).addressable ∧
    (filc_free sample_heap 7).succeeded = true ∧
    (∀ op ∈ [filc_op.check_access_int ⟨some 7, 4096⟩ 8 filc_read_access,
        filc_op.pin (some 7), filc_op.free 7], op.keeps_header 7) ∧
    (filc_check_access_int
      (run_ops 1000 (filc_free sample_heap 7).heap
        [filc_op.check_access_int ⟨some 7, 4096⟩ 8 filc_read_access,
          filc_op.pin (some 7), filc_op.free 7])
      ⟨some 7, 4100⟩ 1 filc_read_access).succeeded = false :=
  ⟨sample_heap_addressable 7, by decide,
   fun op hop => by
     simp only [List.mem_cons, List.mem_singleton, List.not_mem_nil, or_false] at hop
     rcases hop with e | e | e <;> rw [e] <;> trivial,
   ((use_after_free_fails 1000 sample_heap 7
      [filc_op.check_access_int ⟨some 7, 4096⟩ 8 filc_read_access,
        filc_op.pin (some 7), filc_op.free 7]
      (sample_heap_addressable 7) (by decide)
      (fun op hop => by
        simp only [List.mem_cons, List.mem_singleton, List.not_mem_nil, or_false] at hop
        rcases hop with e | e | e <;> rw [e] <;> trivial)).2
      ⟨some 7, 4100⟩ rfl).1 1 filc_read_access (by decide)⟩

/-! ## Allocation -/

/-- `prepare_allocate_object` when rounding the size up does not wrap and
the header size fits. -/
theorem prepare_allocate_object_eq (size : Nat) (h1 : size + 15 < 2 ^ 64) :
    prepare_allocate_object size =
      some (rounded_size size, rounded_size size / 16,
        filc_object_word_types_offset + rounded_size size / 16) := by
  have hr : pas_round_up_to_power_of_2 size FILC_WORD_SIZE = rounded_size size := by
    simp only [pas_round_up_to_power_of_2, FILC_WORD_SIZE, rounded_size]; omega
  have hn : filc_object_num_words_for_size (rounded_size size) = rounded_size size / 16 := by
    simp only [filc_object_num_words_for_size, pas_round_up_to_power_of_2, FILC_WORD_SIZE,
      rounded_size]
    omega
  have hge : rounded_size size ≥ size := by
    simp only [rounded_size]; omega
  have hadd : pas_add_uintptr_overflow filc_object_word_types_offset (rounded_size size / 16)
      = some (filc_object_word_types_offset + rounded_size size / 16) := by
    simp only [pas_add_uintptr_overflow, filc_object_word_types_offset, rounded_size]
    rw [if_pos (by omega)]
  simp only [prepare_allocate_object, hr, hn, hadd]
  rw [if_neg (not_not.mpr hge)]

/-- `prepare_allocate_object` fails its first assertion when rounding the
size up wraps. -/
theorem prepare_allocate_object_none (size : Nat) (h0 : size < 2 ^ 64)
    (h1 : 2 ^ 64 ≤ size + 15) : prepare_allocate_object size = none := by
  have hr : ¬ (pas_round_up_to_power_of_2 size FILC_WORD_SIZE ≥ size) := by
    simp only [pas_round_up_to_power_of_2, FILC_WORD_SIZE]; omega
  simp only [prepare_allocate_object]
  rw [if_pos hr]

/-- `prepare_allocate` for word alignment when nothing wraps. -/
theorem prepare_allocate_eq (size : Nat) (h1 : size + 15 < 2 ^ 64)
    (h2 : payload_offset size + rounded_size size < 2 ^ 64) :
    prepare_allocate size FILC_WORD_SIZE =
      some { size := rounded_size size, num_words := rounded_size size / 16,
             offset_to_payload := payload_offset size,
             total_size := payload_offset size + rounded_size size } := by
  have ho : pas_round_up_to_power_of_2
      (filc_object_word_types_offset + rounded_size size / 16) FILC_WORD_SIZE
      = payload_offset size := by
    simp only [pas_round_up_to_power_of_2, FILC_WORD_SIZE, payload_offset,
      filc_object_word_types_offset, rounded_size] at h2 ⊢
    omega
  have hge : payload_offset size ≥ filc_object_word_types_offset + rounded_size size / 16 := by
    simp only [payload_offset]; omega
  have hadd : pas_add_uintptr_overflow (payload_offset size) (rounded_size size)
      = some (payload_offset size + rounded_size size) := by
    simp only [pas_add_uintptr_overflow]
    rw [if_pos h2]
  simp only [prepare_allocate, prepare_allocate_object_eq size h1, ho, hadd]
  rw [if_neg (not_not.mpr hge)]

/-- `prepare_allocate` fails an assertion when rounding the size up wraps
or when header and payload together do not fit in 64 bits. -/
theorem prepare_allocate_none (size alignment : Nat) (h0 : size < 2 ^ 64)
    (h1 : 2 ^ 64 ≤ size + 15 ∨
      (alignment = FILC_WORD_SIZE ∧ 2 ^ 64 ≤ payload_offset size + rounded_size size)) :
    prepare_allocate size alignment = none := by
  by_cases hw : 2 ^ 64 ≤ size + 15
  · simp only [prepare_allocate, prepare_allocate_object_none size h0 hw]
  · rcases h1 with h1 | ⟨ha, h1⟩
    · exact absurd h1 hw
    · subst ha
      simp only [prepare_allocate, prepare_allocate_object_eq size (by omega)]
      by_cases c1 : pas_round_up_to_power_of_2
          (filc_object_word_types_offset + rounded_size size / 16) FILC_WORD_SIZE
          ≥ filc_object_word_types_offset + rounded_size size / 16
      · rw [if_neg (not_not.mpr c1)]
        have hle : pas_round_up_to_power_of_2
            (filc_object_word_types_offset + rounded_size size / 16) FILC_WORD_SIZE
            + rounded_size size ≥ 2 ^ 64 := by
          simp only [pas_round_up_to_power_of_2, FILC_WORD_SIZE, payload_offset,
            filc_object_word_types_offset, rounded_size] at h1 c1 ⊢
          omega
        simp only [pas_add_uintptr_overflow]
        rw [if_neg (by omega)]
      · rw [if_pos c1]

/-- What `initialize_object` writes. -/
theorem initialize_object_spec (h : filc_heap) (result size num_words offset_to_payload
    object_flags : Nat) (t : filc_word_type) :
    ((initialize_object h result size num_words offset_to_payload object_flags t).objects
      result).lower = result + offset_to_payload ∧
    ((initialize_object h result size num_words offset_to_payload object_flags t).objects
      result).upper = result + offset_to_payload + size ∧
    ((initialize_object h result size num_words offset_to_payload object_flags t).objects
      result).flags = object_flags ∧
    (∀ i, ((initialize_object h result size num_words offset_to_payload object_flags t).objects
      result).word_types i = if i < num_words then t else (h.objects result).word_types i) ∧
    (∀ a, (initialize_object h result size num_words offset_to_payload object_flags t).memory a
      = if result + offset_to_payload ≤ a ∧ a < result + offset_to_payload + size then 0
        else h.memory a) := by
  obtain ⟨fl, fu, ff, ft⟩ := fill_word_types_spec t num_words
    { h.objects result with
      lower := result + offset_to_payload
      upper := result + offset_to_payload + size
      flags := object_flags }
  simp only [initialize_object, filc_heap.set_memory, filc_heap.set_object_same]
  refine ⟨fl, fu, ff, ft, ?_⟩
  intro a
  simp only [memset, filc_heap.set_object_memory, Nat.zero_mod]

/-- C8, amended. For every 64-bit size whose rounding up to a multiple of
16 does not wrap and whose header and payload together fit in 64 bits,
`filc_allocate` returns the object at the address the heap allocator gave,
with flags 0, a payload of exactly the rounded size (at least the size
asked for, a multiple of 16), one tag per payload word, all `UNSET`
(`INT` for `filc_allocate_int`), and an all-zero payload; when the
rounding wraps, or header and payload together do not fit, both fail by
assertion and leave the heap untouched. -/
theorem filc_allocate_spec (verse_heap_allocate : Nat → Nat) (h : filc_heap) (size : Nat)
    (hsize : size < 2 ^ 64) :
    (size + 15 < 2 ^ 64 → payload_offset size + rounded_size size < 2 ^ 64 →
      ∀ (int_only : Bool),
      ∃ h1 object,
        (if int_only then filc_allocate_int verse_heap_allocate h size
          else filc_allocate verse_heap_allocate h size) = .done object h1 ∧
        object = verse_heap_allocate (payload_offset size + rounded_size size) ∧
        (h1.objects object).flags = 0 ∧
        (h1.objects object).upper - (h1.objects object).lower = rounded_size size ∧
        size ≤ rounded_size size ∧ rounded_size size % 16 = 0 ∧
        rounded_size size < size + 16 ∧
        filc_object_num_words (h1.objects object)
          = ((h1.objects object).upper - (h1.objects object).lower) / 16 ∧
        (∀ i, i < ((h1.objects object).upper - (h1.objects object).lower) / 16 →
          (h1.objects object).word_types i =
            if int_only then FILC_WORD_TYPE_INT else FILC_WORD_TYPE_UNSET) ∧
        (∀ a, (h1.objects object).lower ≤ a → a < (h1.objects object).upper →
          h1.memory a = 0)) ∧
    ((2 ^ 64 ≤ size + 15 ∨ 2 ^ 64 ≤ payload_offset size + rounded_size size) →
      filc_allocate verse_heap_allocate h size = .panic .assertion h ∧
      filc_allocate_int verse_heap_allocate h size = .panic .assertion h) := by
  constructor
  · intro h1 h2 int_only
    have hp := prepare_allocate_eq size h1 h2
    have hrs : size ≤ rounded_size size ∧ rounded_size size % 16 = 0 ∧
        rounded_size size < size + 16 := by
      simp only [rounded_size]; omega
    have key : ∀ t : filc_word_type,
        ∃ h1 object,
          allocate_impl verse_heap_allocate h size 0 t = .done object h1 ∧
          object = verse_heap_allocate (payload_offset size + rounded_size size) ∧
          (h1.objects object).flags = 0 ∧
          (h1.objects object).upper - (h1.objects object).lower = rounded_size size ∧
          size ≤ rounded_size size ∧ rounded_size size % 16 = 0 ∧
          rounded_size size < size + 16 ∧
          filc_object_num_words (h1.objects object)
            = ((h1.objects object).upper - (h1.objects object).lower) / 16 ∧
          (∀ i, i < ((h1.objects object).upper - (h1.objects object).lower) / 16 →
            (h1.objects object).word_types i = t) ∧
          (∀ a, (h1.objects object).lower ≤ a → a < (h1.objects object).upper →
            h1.memory a = 0) := by
      intro t
      obtain ⟨sl, su, sf, st, sm⟩ := initialize_object_spec h
        (verse_heap_allocate (payload_offset size + rounded_size size)) (rounded_size size)
        (rounded_size size / 16) (payload_offset size) 0 t
      have hsz : ((initialize_object h
          (verse_heap_allocate (payload_offset size + rounded_size size)) (rounded_size size)
          (rounded_size size / 16) (payload_offset size) 0 t).objects
          (verse_heap_allocate (payload_offset size + rounded_size size))).upper
          - ((initialize_object h
          (verse_heap_allocate (payload_offset size + rounded_size size)) (rounded_size size)
          (rounded_size size / 16) (payload_offset size) 0 t).objects
          (verse_heap_allocate (payload_offset size + rounded_size size))).lower
          = rounded_size size := by
        rw [sl, su]; omega
      refine ⟨_, _, ?_, rfl, sf, hsz, hrs.1, hrs.2.1, hrs.2.2, ?_, ?_, ?_⟩
      · simp only [allocate_impl, hp, finish_allocate]
      · simp only [filc_object_num_words, filc_object_num_words_for_size, filc_object_size,
          hsz, pas_round_up_to_power_of_2, FILC_WORD_SIZE]
        omega
      · intro i hi
        rw [hsz] at hi
        rw [st i, if_pos hi]
      · intro a ha1 ha2
        rw [sl] at ha1
        rw [su] at ha2
        rw [sm a, if_pos ⟨ha1, ha2⟩]
    cases int_only with
    | true => exact key FILC_WORD_TYPE_INT
    | false => exact key FILC_WORD_TYPE_UNSET
  · intro hov
    have hp : prepare_allocate size FILC_WORD_SIZE = none :=
      prepare_allocate_none size FILC_WORD_SIZE hsize
        (hov.elim Or.inl (fun h2 => Or.inr ⟨rfl, h2⟩))
    constructor <;> simp only [filc_allocate, filc_allocate_int, allocate_impl, hp]

/-- C8 as stated fails: rounding `2 ^ 64 - 16` up to a multiple of 16 does
not wrap, yet `filc_allocate` of that size fails by assertion, because
header and payload together do not fit in 64 bits. -/
theorem filc_allocate_spec_counterexample :
    pas_round_up_to_power_of_2 (2 ^ 64 - 16) FILC_WORD_SIZE = 2 ^ 64 - 16 ∧
    (filc_allocate (fun _ => 65536) sample_heap (2 ^ 64 - 16)).succeeded = false := by
  decide

/-- C8, amended, at a request of 100 bytes: the object has 112 bytes. -/
theorem filc_allocate_spec_witness :
    (100 : Nat) < 2 ^ 64 ∧
    ∃ h1 object, filc_allocate (fun _ => 65536) sample_heap 100 = .done object h1 ∧
      (h1.objects object).upper - (h1.objects object).lower = 112 := by
  refine ⟨by decide, ?_⟩
  obtain ⟨h1, object, hd, _, _, hs, _⟩ :=
    (filc_allocate_spec (fun _ => 65536) sample_heap 100 (by decide)).1 (by decide) (by decide)
      false
  exact ⟨h1, object, hd, hs⟩

/-! ## Reallocation -/

/-- Byte `k` of a loaded word is the byte at offset `k`. -/
theorem load_uint128_getD (m : Nat → Nat) (a k : Nat) (hk : k < 16) :
    (load_uint128 m a).getD k 0 = m (a + k) := by
  simp [load_uint128, List.getD_eq_getElem?_getD, List.getElem?_map, List.getElem?_range, hk]

/-- A loaded word is zero exactly when its sixteen bytes are. -/
theorem uint128_is_zero_load (m : Nat → Nat) (a : Nat) :
    uint128_is_zero (load_uint128 m a) = true ↔ ∀ k, k < 16 → m (a + k) = 0 := by
  simp [uint128_is_zero, load_uint128]

/-- Two loaded words are equal when their bytes are. -/
theorem load_uint128_congr (m1 m2 : Nat → Nat) (a b : Nat)
    (hb : ∀ k, k < 16 → m1 (a + k) = m2 (b + k)) :
    load_uint128 m1 a = load_uint128 m2 b := by
  unfold load_uint128
  apply List.map_congr_left
  intro k hk
  exact hb k (List.mem_range.1 hk)

/-- Storing the word loaded from `src` at `dst` copies sixteen bytes. -/
theorem store_load_uint128 (m : Nat → Nat) (dst src x : Nat) :
    store_uint128 m dst (load_uint128 m src) x =
      if dst ≤ x ∧ x < dst + 16 then m (src + (x - dst)) else m x := by
  unfold store_uint128
  by_cases hx : dst ≤ x ∧ x < dst + 16
  · rw [if_pos hx, if_pos hx, load_uint128_getD m src (x - dst) (by omega)]
  · rw [if_neg hx, if_neg hx]

/-- The copy loop of `finish_reallocate` over `n` words, when the two
payloads do not overlap and every `UNSET` source word is zero: it returns,
the new object has the first `n` tags of the old one, and the first `n`
words of the new payload hold what the old payload held. -/
theorem reallocate_copy_loop_spec (result old_object dst src : Nat)
    (hne : result ≠ old_object) : ∀ (n : Nat) (h : filc_heap),
    (dst + 16 * n ≤ src ∨ src + 16 * n ≤ dst) →
    (∀ i, i < n → (h.objects old_object).word_types i = FILC_WORD_TYPE_UNSET →
      ∀ k, k < 16 → h.memory (src + 16 * i + k) = 0) →
    ∃ h1, reallocate_copy_loop result old_object dst src n h = .done () h1 ∧
      (∀ x, x ≠ result → h1.objects x = h.objects x) ∧
      (h1.objects result).lower = (h.objects result).lower ∧
      (h1.objects result).upper = (h.objects result).upper ∧
      (h1.objects result).flags = (h.objects result).flags ∧
      (∀ i, (h1.objects result).word_types i =
        if i < n then (h.objects old_object).word_types i
        else (h.objects result).word_types i) ∧
      (∀ x, h1.memory x =
        if dst ≤ x ∧ x < dst + 16 * n then h.memory (src + (x - dst)) else h.memory x) := by
  intro n
  induction n with
  | zero =>
    intro h _ _
    refine ⟨h, rfl, fun _ _ => rfl, rfl, rfl, rfl, fun i => by simp, fun x => ?_⟩
    rw [if_neg (by omega)]
  | succ n ih =>
    intro h hdis hok
    have hcond : ¬ ((h.objects old_object).word_types n = FILC_WORD_TYPE_UNSET ∧
        ¬ uint128_is_zero (load_uint128 h.memory (src + 16 * n)) = true) := by
      rintro ⟨hu, hz⟩
      exact hz ((uint128_is_zero_load h.memory (src + 16 * n)).2 (hok n (by omega) hu))
    obtain ⟨h1, hrun, sx, sl, su, sf, st, sm⟩ := ih
      ((h.set_object result ((h.objects result).set_word_type n
        ((h.objects old_object).word_types n))).set_memory
        (store_uint128 h.memory (dst + 16 * n) (load_uint128 h.memory (src + 16 * n))))
      (by omega)
      (by
        intro i hi hu k hk
        simp only [filc_heap.set_memory] at hu ⊢
        rw [filc_heap.set_object_other _ _ _ _ (fun e => hne e.symm)] at hu
        rw [store_load_uint128, if_neg (by omega)]
        exact hok i (by omega) hu k hk)
    refine ⟨h1, ?_, ?_, ?_, ?_, ?_, ?_, ?_⟩
    · rw [← hrun]
      simp only [reallocate_copy_loop, reallocate_copy_word]
      rw [if_neg hcond]
      rfl
    · intro x hx
      rw [sx x hx]
      simp only [filc_heap.set_memory]
      exact filc_heap.set_object_other _ _ _ _ hx
    · rw [sl]; simp [filc_heap.set_memory, filc_object.set_word_type]
    · rw [su]; simp [filc_heap.set_memory, filc_object.set_word_type]
    · rw [sf]; simp [filc_heap.set_memory, filc_object.set_word_type]
    · intro i
      rw [st i]
      simp only [filc_heap.set_memory, filc_heap.set_object_same]
      rw [filc_heap.set_object_other _ _ _ _ (fun e => hne e.symm)]
      by_cases h1 : i < n
      · rw [if_pos h1, if_pos (by omega)]
      · rw [if_neg h1]
        by_cases h2 : i = n
        · rw [if_pos (by omega)]; simp [filc_object.set_word_type, h2]
        · rw [if_neg (by omega)]; simp [filc_object.set_word_type, h2]
    · intro x
      rw [sm x]
      simp only [filc_heap.set_memory]
      by_cases h1 : dst ≤ x ∧ x < dst + 16 * n
      · rw [if_pos h1, if_pos (by omega), store_load_uint128, if_neg (by omega)]
      · rw [if_neg h1, store_load_uint128]
        by_cases h2 : dst + 16 * n ≤ x ∧ x < dst + 16 * n + 16
        · rw [if_pos h2, if_pos (by omega)]
          congr 1
          omega
        · rw [if_neg h2, if_neg (by omega)]

/-- A mask test that is non-zero stays non-zero under a wider mask. -/
theorem and_or_ne_zero (f a b : Nat) (h : f &&& a ≠ 0 ∨ f &&& b ≠ 0) : f &&& (a ||| b) ≠ 0 := by
  intro hz
  have hbits : ∀ i, (f.testBit i && (a.testBit i || b.testBit i)) = false := by
    intro i
    have := congrArg (fun x => x.testBit i) hz
    simpa [Nat.testBit_and, Nat.testBit_or] using this
  rcases h with h | h
  · apply h
    apply Nat.eq_of_testBit_eq
    intro i
    have := hbits i
    rw [Nat.testBit_and, Nat.zero_testBit]
    cases hf : f.testBit i <;> cases ha : a.testBit i <;> simp_all
  · apply h
    apply Nat.eq_of_testBit_eq
    intro i
    have := hbits i
    rw [Nat.testBit_and, Nat.zero_testBit]
    cases hf : f.testBit i <;> cases hb : b.testBit i <;> simp_all

/-- A mask test that is zero on two masks is zero on their union. -/
theorem and_or_eq_zero (f a b : Nat) (ha : f &&& a = 0) (hb : f &&& b = 0) :
    f &&& (a ||| b) = 0 := by
  apply Nat.eq_of_testBit_eq
  intro i
  have h1 := congrArg (fun x => x.testBit i) ha
  have h2 := congrArg (fun x => x.testBit i) hb
  simp only [Nat.testBit_and, Nat.zero_testBit] at h1 h2
  rw [Nat.testBit_and, Nat.testBit_or, Nat.zero_testBit]
  cases hf : f.testBit i <;> simp_all

/-- `filc_free` of an object that may be freed returns the freed heap. -/
theorem filc_free_eq_done (h : filc_heap) (o : Nat)
    (c1 : (h.objects o).flags &&& FILC_OBJECT_FLAG_SPECIAL = 0)
    (c2 : (h.objects o).flags &&& FILC_OBJECT_FLAG_GLOBAL = 0)
    (c3 : (h.objects o).flags &&& FILC_OBJECT_FLAG_MMAP = 0)
    (c4 : (h.objects o).flags &&& FILC_OBJECT_FLAG_FREE = 0)
    (c5 : (h.objects o).flags >>> FILC_OBJECT_FLAGS_PIN_SHIFT = 0) :
    filc_free h o = .done () (freed_heap h o) := by
  unfold filc_free
  rw [if_neg (not_not.mpr c1), if_neg (not_not.mpr c2), if_neg (not_not.mpr c3),
    filc_free_yolo_eq, if_neg (not_not.mpr c4), if_neg (not_not.mpr c5)]

/-- `finish_reallocate` on a free or special object fails. -/
theorem finish_reallocate_fails (h : filc_heap) (allocation old_object new_size num_words
    offset_to_payload : Nat)
    (hf : (h.objects old_object).flags &&& FILC_OBJECT_FLAG_FREE ≠ 0 ∨
      (h.objects old_object).flags &&& FILC_OBJECT_FLAG_SPECIAL ≠ 0) :
    (finish_reallocate h allocation old_object new_size num_words
      offset_to_payload).succeeded = false := by
  unfold finish_reallocate check_object_accessible
  rw [if_pos (and_or_ne_zero _ _ _ hf)]
  rfl

/-- The freed heap holds the object freed. -/
theorem is_freed_freed_heap (h : filc_heap) (o : Nat) : is_freed (freed_heap h o) o := by
  obtain ⟨sl, su, sf, st, _, _⟩ := freed_heap_spec h o
  refine ⟨?_, ?_⟩
  · rw [sf]; exact or_free_and_free _
  · intro i hi
    have hnw : filc_object_num_words ((freed_heap h o).objects o)
        = filc_object_num_words (h.objects o) := by
      simp only [filc_object_num_words, filc_object_size, sl, su]
    rw [hnw] at hi
    rw [st i, if_pos hi]

/-- `finish_reallocate` on a live, unpinned, ordinary object, given fresh
storage whose payload does not overlap the old payload, and an old payload
whose `UNSET` words are zero: it returns the new object, blank except for
the common words, which carry the old tags and contents, and the old
object is freed. -/
theorem finish_reallocate_spec (h : filc_heap) (a o r nw off : Nat) (hne : a ≠ o)
    (hnw : 16 * nw ≤ r)
    (hdis : a + off + r ≤ (h.objects o).lower ∨
      (h.objects o).lower + 16 * filc_object_num_words (h.objects o) ≤ a + off)
    (hblank : ∀ i, i < filc_object_num_words (h.objects o) →
      (h.objects o).word_types i = FILC_WORD_TYPE_UNSET →
      ∀ k, k < 16 → h.memory ((h.objects o).lower + 16 * i + k) = 0)
    (c1 : (h.objects o).flags &&& FILC_OBJECT_FLAG_SPECIAL = 0)
    (c2 : (h.objects o).flags &&& FILC_OBJECT_FLAG_GLOBAL = 0)
    (c3 : (h.objects o).flags &&& FILC_OBJECT_FLAG_MMAP = 0)
    (c4 : (h.objects o).flags &&& FILC_OBJECT_FLAG_FREE = 0)
    (c5 : (h.objects o).flags >>> FILC_OBJECT_FLAGS_PIN_SHIFT = 0) :
    ∃ h1, finish_reallocate h a o r nw off = .done a h1 ∧
      (h1.objects a).flags = 0 ∧ (h1.objects a).lower = a + off ∧
      (h1.objects a).upper = a + off + r ∧
      (∀ i, i < min nw (filc_object_num_words (h.objects o)) →
        (h1.objects a).word_types i = (h.objects o).word_types i ∧
        load_uint128 h1.memory (a + off + 16 * i)
          = load_uint128 h.memory ((h.objects o).lower + 16 * i)) ∧
      (∀ i, filc_object_num_words (h.objects o) ≤ i → i < nw →
        (h1.objects a).word_types i = FILC_WORD_TYPE_UNSET ∧
        uint128_is_zero (load_uint128 h1.memory (a + off + 16 * i)) = true) ∧
      is_freed h1 o ∧ (h1.objects o).lower = (h.objects o).lower ∧
      (h1.objects o).upper = (h.objects o).upper := by
  obtain ⟨il, iu, ifl, it, im⟩ := initialize_object_spec h a r nw off 0 FILC_WORD_TYPE_UNSET
  have io := initialize_object_objects_other h a r nw off 0 FILC_WORD_TYPE_UNSET o
    (fun e => hne e.symm)
  generalize hh4 : initialize_object h a r nw off 0 FILC_WORD_TYPE_UNSET = h4
    at il iu ifl it im io
  obtain ⟨h5, hrun, sx, sl, su, sf, st, sm⟩ :=
    reallocate_copy_loop_spec a o (a + off) (h4.objects o).lower hne
      (min nw (filc_object_num_words (h.objects o))) h4
      (by
        rw [io]
        have hmin1 := Nat.min_le_left nw (filc_object_num_words (h.objects o))
        have hmin2 := Nat.min_le_right nw (filc_object_num_words (h.objects o))
        omega)
      (by
        intro i hi hu k hk
        rw [io] at hu ⊢
        have hlt : i < filc_object_num_words (h.objects o) :=
          lt_of_lt_of_le hi (Nat.min_le_right _ _)
        rw [im]
        split_ifs
        · rfl
        · exact hblank i hlt hu k hk)
  have h5o : h5.objects o = h.objects o := (sx o (fun e => hne e.symm)).trans io
  have hfree : filc_free h5 o = .done () (freed_heap h5 o) :=
    filc_free_eq_done h5 o (by rw [h5o]; exact c1) (by rw [h5o]; exact c2)
      (by rw [h5o]; exact c3) (by rw [h5o]; exact c4) (by rw [h5o]; exact c5)
  obtain ⟨fl, fu, ff, ft, fx, fm⟩ := freed_heap_spec h5 o
  have hacc : ¬ ((h.objects o).flags &&&
      (FILC_OBJECT_FLAG_FREE ||| FILC_OBJECT_FLAG_SPECIAL) ≠ 0) :=
    not_not.mpr (and_or_eq_zero _ _ _ c4 c1)
  have hfin : finish_reallocate h a o r nw off = .done a (freed_heap h5 o) := by
    unfold finish_reallocate check_object_accessible
    rw [if_neg hacc]
    simp only [filc_result.and_then]
    have hinit : ((h.set_object a
        { h.objects a with lower := a + off, upper := a + off + r, flags := 0 }).set_object a
        (fill_word_types FILC_WORD_TYPE_UNSET nw
          ((h.set_object a
            { h.objects a with lower := a + off, upper := a + off + r, flags := 0 }).objects
            a))).set_memory
        (memset ((h.set_object a
          { h.objects a with lower := a + off, upper := a + off + r, flags := 0 }).set_object a
          (fill_word_types FILC_WORD_TYPE_UNSET nw
            ((h.set_object a
              { h.objects a with lower := a + off, upper := a + off + r, flags := 0 }).objects
              a))).memory (a + off) 0 r) = h4 := by
      rw [← hh4]; rfl
    rw [hinit, hrun]
    simp only [hfree]
  have ha6 : (freed_heap h5 o).objects a = h5.objects a := fx a hne
  refine ⟨freed_heap h5 o, hfin, ?_, ?_, ?_, ?_, ?_, ?_, ?_, ?_⟩
  · rw [ha6, sf, ifl]
  · rw [ha6, sl, il]
  · rw [ha6, su, iu]
  · intro i hi
    constructor
    · rw [ha6, st i, if_pos hi, io]
    · rw [fm]
      apply load_uint128_congr
      intro k hk
      have hlt1 : i < nw := lt_of_lt_of_le hi (Nat.min_le_left _ _)
      have hlt2 : i < filc_object_num_words (h.objects o) :=
        lt_of_lt_of_le hi (Nat.min_le_right _ _)
      rw [sm, if_pos (by omega), io, im, if_neg (by omega)]
      congr 1
      omega
  · intro i hi1 hi2
    constructor
    · rw [ha6, st i, if_neg (by
        have := Nat.min_le_right nw (filc_object_num_words (h.objects o)); omega),
        it i, if_pos hi2]
    · rw [fm, uint128_is_zero_load]
      intro k hk
      rw [sm, if_neg (by
        have := Nat.min_le_right nw (filc_object_num_words (h.objects o)); omega),
        im, if_pos (by omega)]
  · exact is_freed_freed_heap h5 o
  · rw [fl, h5o]
  · rw [fu, h5o]

/-- C9, amended. For every new size whose rounding up to a multiple of 16
does not wrap and whose header and payload together fit in 64 bits, given
fresh storage (a header other than the old one, a payload that does not
overlap the old payload) and an old payload whose `UNSET` words are zero:
`filc_reallocate` of an object that is not free, special, global,
mmap-backed or pinned returns a new object with flags 0 and a payload of
the rounded size; each word below both word counts has the tag and the
16-byte content of the old word; each word at or above the old word count
is `UNSET` and zero; and the old object is freed.  Reallocating a free or
special object fails. -/
theorem filc_reallocate_spec (verse_heap_allocate : Nat → Nat) (h : filc_heap)
    (o new_size : Nat) (hsize : new_size + 15 < 2 ^ 64)
    (htotal : payload_offset new_size + rounded_size new_size < 2 ^ 64)
    (hfresh : verse_heap_allocate (payload_offset new_size + rounded_size new_size) ≠ o)
    (hdis :
      verse_heap_allocate (payload_offset new_size + rounded_size new_size)
          + payload_offset new_size + rounded_size new_size ≤ (h.objects o).lower ∨
      (h.objects o).lower + 16 * filc_object_num_words (h.objects o) ≤
        verse_heap_allocate (payload_offset new_size + rounded_size new_size)
          + payload_offset new_size)
    (hblank : ∀ i, i < filc_object_num_words (h.objects o) →
      (h.objects o).word_types i = FILC_WORD_TYPE_UNSET →
      ∀ k, k < 16 → h.memory ((h.objects o).lower + 16 * i + k) = 0) :
    (((h.objects o).flags &&& FILC_OBJECT_FLAG_SPECIAL = 0 ∧
      (h.objects o).flags &&& FILC_OBJECT_FLAG_GLOBAL = 0 ∧
      (h.objects o).flags &&& FILC_OBJECT_FLAG_MMAP = 0 ∧
      (h.objects o).flags &&& FILC_OBJECT_FLAG_FREE = 0 ∧
      (h.objects o).flags >>> FILC_OBJECT_FLAGS_PIN_SHIFT = 0) →
      ∃ h1 object,
        filc_reallocate verse_heap_allocate h o new_size = .done object h1 ∧
        object = verse_heap_allocate (payload_offset new_size + rounded_size new_size) ∧
        (h1.objects object).flags = 0 ∧
        (h1.objects object).upper - (h1.objects object).lower = rounded_size new_size ∧
        (∀ i, i < min (rounded_size new_size / 16) (filc_object_num_words (h.objects o)) →
          (h1.objects object).word_types i = (h.objects o).word_types i ∧
          load_uint128 h1.memory ((h1.objects object).lower + 16 * i)
            = load_uint128 h.memory ((h.objects o).lower + 16 * i)) ∧
        (∀ i, filc_object_num_words (h.objects o) ≤ i → i < rounded_size new_size / 16 →
          (h1.objects object).word_types i = FILC_WORD_TYPE_UNSET ∧
          uint128_is_zero (load_uint128 h1.memory ((h1.objects object).lower + 16 * i))
            = true) ∧
        is_freed h1 o) ∧
    (((h.objects o).flags &&& FILC_OBJECT_FLAG_FREE ≠ 0 ∨
      (h.objects o).flags &&& FILC_OBJECT_FLAG_SPECIAL ≠ 0) →
      (filc_reallocate verse_heap_allocate h o new_size).succeeded = false) := by
  have hp := prepare_allocate_eq new_size hsize htotal
  have hrun : filc_reallocate verse_heap_allocate h o new_size =
      finish_reallocate h
        (verse_heap_allocate (payload_offset new_size + rounded_size new_size)) o
        (rounded_size new_size) (rounded_size new_size / 16) (payload_offset new_size) := by
    simp only [filc_reallocate, hp]
  rw [hrun]
  constructor
  · rintro ⟨c1, c2, c3, c4, c5⟩
    obtain ⟨h1, hd, sf, sl, su, scommon, snew, sfreed, _, _⟩ :=
      finish_reallocate_spec h
        (verse_heap_allocate (payload_offset new_size + rounded_size new_size)) o
        (rounded_size new_size) (rounded_size new_size / 16) (payload_offset new_size)
        hfresh (by omega) hdis hblank c1 c2 c3 c4 c5
    refine ⟨h1, _, hd, rfl, sf, by rw [sl, su]; omega, ?_, ?_, sfreed⟩
    · intro i hi
      rw [sl]
      exact scommon i hi
    · intro i hi1 hi2
      rw [sl]
      exact snew i hi1 hi2
  · intro hf
    exact finish_reallocate_fails h _ o _ _ _ hf

/-- C9 as stated fails: the sample object is live, unpinned and ordinary,
yet reallocating it to `2 ^ 64 - 16` bytes fails by assertion. -/
theorem filc_reallocate_spec_counterexample :
    ((sample_heap.objects 7).flags &&& FILC_OBJECT_FLAG_SPECIAL = 0 ∧
      (sample_heap.objects 7).flags &&& FILC_OBJECT_FLAG_GLOBAL = 0 ∧
      (sample_heap.objects 7).flags &&& FILC_OBJECT_FLAG_MMAP = 0 ∧
      (sample_heap.objects 7).flags &&& FILC_OBJECT_FLAG_FREE = 0 ∧
      (sample_heap.objects 7).flags >>> FILC_OBJECT_FLAGS_PIN_SHIFT = 0) ∧
    (filc_reallocate (fun _ => 65536) sample_heap 7 (2 ^ 64 - 16)).succeeded = false := by
  decide

/-- C9, amended, at the sample object grown to 40 bytes: the old object is
freed. -/
theorem filc_reallocate_spec_witness :
    (40 : Nat) + 15 < 2 ^ 64 ∧ payload_offset 40 + rounded_size 40 < 2 ^ 64 ∧
    ∃ h1 object, filc_reallocate (fun _ => 65536) sample_heap 7 40 = .done object h1 ∧
      (h1.objects object).upper - (h1.objects object).lower = 48 ∧ is_freed h1 7 := by
  refine ⟨by decide, by decide, ?_⟩
  obtain ⟨h1, object, hd, _, _, hs, _, _, hf⟩ :=
    (filc_reallocate_spec (fun _ => 65536) sample_heap 7 40 (by decide) (by decide)
      (by decide) (Or.inr (by decide)) (fun _ _ _ _ _ => rfl)).1 (by decide)
  exact ⟨h1, object, hd, hs, hf⟩

/-- C10 on the code: `zgc_aligned_realloc (p, 64, 256)` on the sample
object, with the heap allocator returning the 256-aligned address 65536,
yields an object of 64 bytes, not 256, whose payload starts at an address
that is 32 modulo 64; `zgc_realloc (p, 256)` yields 256 bytes. -/
theorem filc_native_zgc_aligned_realloc_swaps_size_and_alignment :
    (∃ ptr h1,
      filc_native_zgc_aligned_realloc (fun _ _ => 65536) sample_heap ⟨some 7, 4096⟩ 64 256
        = .done ptr h1 ∧
      ptr.object = some 65536 ∧
      (h1.objects 65536).upper - (h1.objects 65536).lower = 64 ∧
      ptr.ptr = (h1.objects 65536).lower ∧ ptr.ptr % 64 = 32) ∧
    (∃ ptr h1,
      filc_native_zgc_realloc (fun _ => 65536) sample_heap ⟨some 7, 4096⟩ 256
        = .done ptr h1 ∧
      ptr.object = some 65536 ∧
      (h1.objects 65536).upper - (h1.objects 65536).lower = 256) := by
  constructor
  · exact ⟨_, _, rfl, rfl, rfl, rfl, rfl⟩
  · exact ⟨_, _, rfl, rfl, rfl⟩

/-! ## Facts about pointer tables -/

theorem lookup_some_mem {α β : Type} [DecidableEq α] (k : α) (v : β) :
    ∀ l : List (α × β), l.lookup k = some v → (k, v) ∈ l := by
  intro l
  induction l with
  | nil => intro hl; simp at hl
  | cons e rest ih =>
    obtain ⟨k1, v1⟩ := e
    intro hl
    by_cases hk : k = k1
    · subst hk
      simp [List.lookup] at hl
      simp [hl]
    · have hb : (k == k1) = false := by simpa using hk
      simp [List.lookup, hb] at hl
      exact List.mem_cons_of_mem _ (ih hl)

theorem lookup_none_not_mem {α β : Type} [DecidableEq α] (k : α) :
    ∀ l : List (α × β), l.lookup k = none → ∀ v, (k, v) ∉ l := by
  intro l
  induction l with
  | nil => intro _ v hv; simp at hv
  | cons e rest ih =>
    obtain ⟨k1, v1⟩ := e
    intro hl v hv
    by_cases hk : k = k1
    · subst hk
      simp [List.lookup] at hl
    · have hb : (k == k1) = false := by simpa using hk
      simp only [List.lookup, hb] at hl
      rcases List.mem_cons.mp hv with he | hr
      · exact hk (by injection he)
      · exact ih hl v hr

theorem lookup_of_mem_nodup {α β : Type} [DecidableEq α] (k : α) (v : β) :
    ∀ l : List (α × β), (l.map Prod.fst).Nodup → (k, v) ∈ l → l.lookup k = some v := by
  intro l
  induction l with
  | nil => intro _ hv; simp at hv
  | cons e rest ih =>
    obtain ⟨k1, v1⟩ := e
    intro hn hv
    simp only [List.map_cons, List.nodup_cons] at hn
    rcases List.mem_cons.mp hv with he | hr
    · injection he with h1 h2
      subst h1; subst h2
      simp [List.lookup]
    · have hk : k ≠ k1 := by
        intro hk
        subst hk
        exact hn.1 (List.mem_map.mpr ⟨(k, v), hr, rfl⟩)
      have hb : (k == k1) = false := by simpa using hk
      simp only [List.lookup, hb]
      exact ih hn.2 hr

theorem lookup_none_of_not_mem {α β : Type} [DecidableEq α] (k : α) (l : List (α × β))
    (hl : ∀ v, (k, v) ∉ l) : l.lookup k = none := by
  cases hlook : l.lookup k with
  | none => rfl
  | some v => exact absurd (lookup_some_mem k v l hlook) (hl v)

theorem ptr_table_capacity_le (capacity k : Nat) (hk : capacity = 10 * 2 ^ k)
    (hlt : 16 * capacity + 48 < 2 ^ 64) : capacity ≤ 10 * 2 ^ 56 := by
  have h56 : k ≤ 56 := by
    by_contra hc
    have h57 : 2 ^ 57 ≤ 2 ^ k := Nat.pow_le_pow_right (by norm_num) (by omega)
    have : (2:Nat) ^ 57 = 144115188075855872 := by norm_num
    have : (2:Nat) ^ 64 = 18446744073709551616 := by norm_num
    omega
  have h : 2 ^ k ≤ 2 ^ 56 := Nat.pow_le_pow_right (by norm_num) h56
  omega

theorem ptr_table_code_eq (v : Nat) (hv : v ≤ 10 * 2 ^ 56) :
    ptr_table_code v = (v + 66666) * 16 := by
  unfold ptr_table_code FILC_PTR_TABLE_OFFSET FILC_PTR_TABLE_SHIFT
  rw [Nat.shiftLeft_eq]
  have : (2:Nat) ^ 56 = 72057594037927936 := by norm_num
  have : (2:Nat) ^ 64 = 18446744073709551616 := by norm_num
  have h4 : (2:Nat) ^ 4 = 16 := by norm_num
  rw [h4]
  omega

theorem ptr_table_index_of_code (v : Nat) (hv : v ≤ 10 * 2 ^ 56) :
    ((ptr_table_code v >>> FILC_PTR_TABLE_SHIFT) + 2 ^ 64 - FILC_PTR_TABLE_OFFSET) % 2 ^ 64 = v := by
  rw [ptr_table_code_eq v hv]
  unfold FILC_PTR_TABLE_OFFSET FILC_PTR_TABLE_SHIFT
  rw [Nat.shiftRight_eq_div_pow]
  have : (2:Nat) ^ 56 = 72057594037927936 := by norm_num
  have : (2:Nat) ^ 64 = 18446744073709551616 := by norm_num
  have h4 : (2:Nat) ^ 4 = 16 := by norm_num
  rw [h4]
  omega

theorem filc_ptr_table_array_create_eq (capacity : Nat) (h : 16 * capacity + 48 < 2 ^ 64) :
    filc_ptr_table_array_create capacity =
      some { num_entries := 0, capacity := capacity, ptrs := fun _ => filc_ptr_forge_null } := by
  have h64 : (2:Nat) ^ 64 = 18446744073709551616 := by norm_num
  unfold filc_ptr_table_array_create pas_add_uintptr_overflow filc_ptr_table_array_ptrs_offset
    FILC_SPECIAL_OBJECT_SIZE
  rw [if_neg (by omega)]
  rw [if_pos (by omega)]
  dsimp only
  rw [if_pos (by omega)]

theorem copy_ptr_table_entries_spec (old_ptrs : Nat → filc_ptr) :
    ∀ (index : Nat) (new_ptrs : Nat → filc_ptr) (i : Nat),
      copy_ptr_table_entries old_ptrs index new_ptrs i =
        if i < index then old_ptrs i else new_ptrs i := by
  intro index
  induction index with
  | zero => intro new_ptrs i; simp [copy_ptr_table_entries]
  | succ n ih =>
    intro new_ptrs i
    rw [copy_ptr_table_entries, ih]
    by_cases h1 : i < n
    · rw [if_pos h1, if_pos (by omega)]
    · rw [if_neg h1]
      by_cases h2 : i = n
      · rw [if_pos h2, if_pos (by omega), h2]
      · rw [if_neg h2, if_neg (by omega)]

theorem filc_ptr_table_create_wf (t : filc_ptr_table) (ht : filc_ptr_table_create = some t) :
    ptr_table_wf t := by
  unfold filc_ptr_table_create at ht
  rw [filc_ptr_table_array_create_eq 10 (by norm_num)] at ht
  simp only [Option.some.injEq] at ht
  subst ht
  refine ⟨?_, ?_, ?_, ?_, ?_, ?_, ?_, ?_, ?_, ?_, ?_⟩
  · intro k v hkv; simp at hkv
  · simp
  · intro i hi; simp at hi
  · intro i hi; simp at hi
  · intro i hi; rfl
  · intro i hi; simp at hi
  · simp
  · simp
  · exact ⟨0, by simp⟩
  · show 16 * 10 + 48 < 2 ^ 64
    norm_num
  · simp

theorem ptr_table_take_index_wf (t t1 : filc_ptr_table) (r : Nat) (hwf : ptr_table_wf t)
    (ht : ptr_table_take_index t = some (r, t1)) :
    ptr_table_wf t1 ∧ r < t1.array.num_entries ∧ r < t1.array.capacity ∧
      t1.array.ptrs r = filc_ptr_forge_null ∧ r ∉ t1.free_indices ∧
      t1.encode_map = t.encode_map := by
  have h64 : (2:Nat) ^ 64 = 18446744073709551616 := by norm_num
  obtain ⟨hms, hmk, hsm, hsn, hsb, hfs, hfn, hel, ⟨k, hk⟩, hcl, hfc⟩ := hwf
  unfold ptr_table_take_index at ht
  cases hf : t.free_indices with
  | cons i rest =>
    rw [hf] at ht
    simp only [Option.some.injEq, Prod.mk.injEq] at ht
    obtain ⟨hr, ht1⟩ := ht
    subst hr; subst ht1
    rw [hf] at hfs hfn hfc
    have hi := hfs i (List.mem_cons_self _ _)
    simp only [List.nodup_cons] at hfn
    refine ⟨⟨hms, hmk, hsm, hsn, hsb, ?_, hfn.2, hel, ⟨k, hk⟩, hcl, ?_⟩, hi.1,
      lt_of_lt_of_le hi.1 hel, hi.2, hfn.1, rfl⟩
    · intro j hj
      exact hfs j (List.mem_cons_of_mem _ hj)
    · simp only [List.length_cons] at hfc
      exact ⟨Nat.le_of_succ_le hfc.1, hfc.2.1, hfc.2.2⟩
  | nil =>
    rw [hf] at ht hfs hfn hfc
    dsimp only at ht
    by_cases hfull : t.array.num_entries ≥ t.array.capacity
    · rw [if_pos hfull, if_neg (by omega)] at ht
      have hcap : 0 < t.array.capacity := by
        have := Nat.pos_pow_of_pos k (show 0 < 2 by norm_num)
        omega
      have hshift : (t.array.capacity <<< 1) % 2 ^ 64 = 2 * t.array.capacity := by
        rw [Nat.shiftLeft_eq]
        omega
      rw [hshift, if_neg (by omega)] at ht
      by_cases hbig : 16 * (2 * t.array.capacity) + 48 < 2 ^ 64
      · rw [filc_ptr_table_array_create_eq _ hbig] at ht
        dsimp only at ht
        rw [if_neg (by omega)] at ht
        simp only [Option.some.injEq, Prod.mk.injEq] at ht
        obtain ⟨hr, ht1⟩ := ht
        subst hr; subst ht1
        dsimp only
        have hcopy := copy_ptr_table_entries_spec t.array.ptrs t.array.num_entries
          (fun _ => filc_ptr_forge_null)
        refine ⟨⟨?_, hmk, ?_, ?_, ?_, ?_, hfn, ?_, ⟨k + 1, ?_⟩, hbig, ?_⟩, by omega, by omega,
          ?_, by simp, rfl⟩
        · intro k1 v hkv
          have := hms k1 v hkv
          dsimp only
          rw [hcopy, if_pos this.1]
          exact ⟨by omega, this.2⟩
        · intro i hi
          dsimp only at hi ⊢
          rw [hcopy]
          by_cases h1 : i < t.array.num_entries
          · rw [if_pos h1]
            exact hsm i h1
          · rw [if_neg h1]
            intro hc
            exact absurd rfl hc
        · intro i hi
          dsimp only at hi ⊢
          rw [hcopy]
          by_cases h1 : i < t.array.num_entries
          · rw [if_pos h1]
            exact hsn i h1
          · rw [if_neg h1]
            intro _
            rfl
        · intro i hi
          dsimp only at hi ⊢
          rw [hcopy, if_neg (by omega)]
        · intro i hi
          simp at hi
        · dsimp only
          omega
        · dsimp only
          rw [hk]
          ring
        · dsimp only
          simp only [List.length_nil] at hfc ⊢
          omega
        · rw [hcopy, if_neg (by omega)]
      · unfold filc_ptr_table_array_create at ht
        by_cases h0 : 16 * (2 * t.array.capacity) < 2 ^ 64
        · rw [if_neg (not_not.mpr h0)] at ht
          unfold pas_add_uintptr_overflow filc_ptr_table_array_ptrs_offset
            FILC_SPECIAL_OBJECT_SIZE at ht
          by_cases h1 : 16 + 16 * (2 * t.array.capacity) < 2 ^ 64
          · rw [if_pos h1] at ht
            dsimp only at ht
            rw [if_neg (by omega)] at ht
            simp at ht
          · rw [if_neg h1] at ht
            simp at ht
        · rw [if_pos h0] at ht
          simp at ht
    · rw [if_neg hfull] at ht
      dsimp only at ht
      rw [if_neg (by omega)] at ht
      simp only [Option.some.injEq, Prod.mk.injEq] at ht
      obtain ⟨hr, ht1⟩ := ht
      subst hr; subst ht1
      dsimp only
      refine ⟨⟨?_, hmk, ?_, ?_, ?_, ?_, hfn, ?_, ⟨k, hk⟩, hcl, hfc⟩, by omega, by omega,
        hsb _ (le_refl _), by simp, rfl⟩
      · intro k1 v hkv
        have := hms k1 v hkv
        exact ⟨by dsimp only; omega, this.2⟩
      · intro i hi hne
        dsimp only at hi hne ⊢
        by_cases h1 : i < t.array.num_entries
        · exact hsm i h1 hne
        · rw [hsb i (by omega)] at hne
          exact absurd rfl hne
      · intro i hi hz
        dsimp only at hi hz ⊢
        by_cases h1 : i < t.array.num_entries
        · exact hsn i h1 hz
        · exact hsb i (by omega)
      · intro i hi
        dsimp only at hi ⊢
        exact hsb i (by omega)
      · intro i hi
        simp at hi
      · dsimp only
        omega

theorem nodup_length_le (l : List Nat) (n : Nat) (hn : l.Nodup) (hl : ∀ x ∈ l, x < n) :
    l.length ≤ n := by
  have hs : l ⊆ List.range n := fun x hx => List.mem_range.mpr (hl x hx)
  have := (List.subperm_of_subset hn hs).length_le
  simpa using this

theorem ptr_table_purge_slot_spec (h : filc_heap) (t : filc_ptr_table) (j : Nat)
    (hj : j < t.array.num_entries)
    (hobj : (t.array.ptrs j).ptr ≠ 0 → (t.array.ptrs j).object ≠ none)
    (hfn : t.free_indices.Nodup)
    (hfs : ∀ x, x ∈ t.free_indices →
      x < t.array.num_entries ∧ t.array.ptrs x = filc_ptr_forge_null)
    (hel : t.array.num_entries ≤ t.array.capacity)
    (hcl : 16 * t.array.capacity + 48 < 2 ^ 64)
    (hfc : t.free_indices.length ≤ t.free_indices_capacity ∧
      0 < t.free_indices_capacity ∧ t.free_indices_capacity ≤ 2 * t.array.capacity) :
    ∃ t1, ptr_table_purge_slot h t j = some t1 ∧
      t1.encode_map = t.encode_map ∧
      t1.array.num_entries = t.array.num_entries ∧
      t1.array.capacity = t.array.capacity ∧
      t1.free_indices =
        (if ptr_table_slot_is_freed h t j then [j] else []) ++ t.free_indices ∧
      (∀ i, t1.array.ptrs i =
        if i = j ∧ ptr_table_slot_is_freed h t j then filc_ptr_forge_null
        else t.array.ptrs i) ∧
      (t1.free_indices.length ≤ t1.free_indices_capacity ∧
        0 < t1.free_indices_capacity ∧ t1.free_indices_capacity ≤ 2 * t.array.capacity) := by
  have h64 : (2:Nat) ^ 64 = 18446744073709551616 := by norm_num
  unfold ptr_table_purge_slot
  dsimp only
  by_cases hz : (t.array.ptrs j).ptr = 0
  · rw [if_pos hz]
    have hfr : ptr_table_slot_is_freed h t j = false := by
      simp [ptr_table_slot_is_freed, hz]
    refine ⟨t, rfl, rfl, rfl, rfl, ?_, ?_, hfc⟩
    · rw [hfr]; rfl
    · intro i; rw [hfr]; simp
  · rw [if_neg hz]
    have ho := hobj hz
    cases hoj : (t.array.ptrs j).object with
    | none => exact absurd hoj ho
    | some o =>
      have hpf : ptr_object_is_free h (t.array.ptrs j) =
          some (decide ((h.objects o).flags &&& FILC_OBJECT_FLAG_FREE ≠ 0)) := by
        simp only [ptr_object_is_free, hoj]
      by_cases hfree : (h.objects o).flags &&& FILC_OBJECT_FLAG_FREE ≠ 0
      · have hpt : ptr_object_is_free h (t.array.ptrs j) = some true := by
          rw [hpf]; simp [hfree]
        have hfr : ptr_table_slot_is_freed h t j = true := by
          simp [ptr_table_slot_is_freed, hz, hpt]
        rw [hpt]
        dsimp only
        have hjn : j ∉ t.free_indices := by
          intro hm
          have := (hfs j hm).2
          rw [this] at hz
          exact hz rfl
        have hlen : t.free_indices.length + 1 ≤ t.array.num_entries := by
          have := nodup_length_le (j :: t.free_indices) t.array.num_entries
            (List.nodup_cons.mpr ⟨hjn, hfn⟩)
            (by
              intro x hx
              rcases List.mem_cons.mp hx with hx | hx
              · rw [hx]; exact hj
              · exact (hfs x hx).1)
          simpa using this
        by_cases hg : t.free_indices.length ≥ t.free_indices_capacity
        · rw [if_pos hg, if_neg (by omega)]
          have hshift : (t.free_indices_capacity <<< 1) % 2 ^ 64 =
              2 * t.free_indices_capacity := by
            rw [Nat.shiftLeft_eq]
            omega
          rw [hshift, if_neg (by omega)]
          dsimp only
          rw [if_neg (by omega)]
          refine ⟨_, rfl, rfl, rfl, rfl, ?_, ?_, ?_⟩
          · rw [hfr]; rfl
          · intro i
            rw [hfr]
            by_cases hi : i = j
            · simp [hi]
            · simp [hi]
          · dsimp only
            simp only [List.length_cons]
            omega
        · rw [if_neg hg]
          dsimp only
          rw [if_neg (by omega)]
          refine ⟨_, rfl, rfl, rfl, rfl, ?_, ?_, ?_⟩
          · rw [hfr]; rfl
          · intro i
            rw [hfr]
            by_cases hi : i = j
            · simp [hi]
            · simp [hi]
          · dsimp only
            simp only [List.length_cons]
            omega
      · have hpt : ptr_object_is_free h (t.array.ptrs j) = some false := by
          rw [hpf]; simp [hfree]
        have hfr : ptr_table_slot_is_freed h t j = false := by
          simp [ptr_table_slot_is_freed, hpt]
        rw [hpt]
        refine ⟨t, rfl, rfl, rfl, rfl, ?_, ?_, hfc⟩
        · rw [hfr]; rfl
        · intro i; rw [hfr]; simp

theorem ptr_table_purge_loop_spec (h : filc_heap) :
    ∀ (j : Nat) (t : filc_ptr_table), j ≤ t.array.num_entries →
      (∀ i, i < j → (t.array.ptrs i).ptr ≠ 0 → (t.array.ptrs i).object ≠ none) →
      t.free_indices.Nodup →
      (∀ x, x ∈ t.free_indices →
        x < t.array.num_entries ∧ t.array.ptrs x = filc_ptr_forge_null) →
      t.array.num_entries ≤ t.array.capacity →
      16 * t.array.capacity + 48 < 2 ^ 64 →
      (t.free_indices.length ≤ t.free_indices_capacity ∧
        0 < t.free_indices_capacity ∧ t.free_indices_capacity ≤ 2 * t.array.capacity) →
      ∃ t1, ptr_table_purge_loop h j t = some t1 ∧
        t1.encode_map = t.encode_map ∧
        t1.array.num_entries = t.array.num_entries ∧
        t1.array.capacity = t.array.capacity ∧
        t1.free_indices =
          (List.range j).filter (ptr_table_slot_is_freed h t) ++ t.free_indices ∧
        (∀ i, t1.array.ptrs i =
          if i < j ∧ ptr_table_slot_is_freed h t i then filc_ptr_forge_null
          else t.array.ptrs i) ∧
        (t1.free_indices.length ≤ t1.free_indices_capacity ∧
          0 < t1.free_indices_capacity ∧
          t1.free_indices_capacity ≤ 2 * t.array.capacity) := by
  intro j
  induction j with
  | zero =>
    intro t _ _ _ _ _ _ hfc
    refine ⟨t, rfl, rfl, rfl, rfl, ?_, ?_, hfc⟩
    · simp
    · intro i; simp
  | succ j ih =>
    intro t hj hobj hfn hfs hel hcl hfc
    obtain ⟨t1, hs, hm1, hn1, hc1, hf1, hp1, hfc1⟩ :=
      ptr_table_purge_slot_spec h t j (by omega) (hobj j (by omega)) hfn hfs hel hcl hfc
    have hslot : ∀ i, i ≠ j → t1.array.ptrs i = t.array.ptrs i := by
      intro i hi
      rw [hp1 i, if_neg (fun hc => hi hc.1)]
    have hfreed : ∀ i, i ≠ j →
        ptr_table_slot_is_freed h t1 i = ptr_table_slot_is_freed h t i := by
      intro i hi
      unfold ptr_table_slot_is_freed
      rw [hslot i hi]
    have hfs1 : ∀ x, x ∈ t1.free_indices →
        x < t1.array.num_entries ∧ t1.array.ptrs x = filc_ptr_forge_null := by
      intro x hx
      rw [hn1]
      rw [hf1] at hx
      by_cases hfr : ptr_table_slot_is_freed h t j = true
      · rw [if_pos hfr] at hx
        rcases List.mem_append.mp hx with hx | hx
        · have hxj : x = j := by simpa using hx
          refine ⟨by omega, ?_⟩
          rw [hp1 x, if_pos ⟨hxj, hfr⟩]
        · have := hfs x hx
          refine ⟨this.1, ?_⟩
          rw [hp1 x]
          split_ifs
          · rfl
          · exact this.2
      · rw [if_neg hfr] at hx
        have hx : x ∈ t.free_indices := by simpa using hx
        have := hfs x hx
        refine ⟨this.1, ?_⟩
        rw [hp1 x, if_neg (fun hc => hfr hc.2)]
        exact this.2
    have hfn1 : t1.free_indices.Nodup := by
      rw [hf1]
      by_cases hfr : ptr_table_slot_is_freed h t j = true
      · rw [if_pos hfr]
        refine List.nodup_cons.mpr ⟨?_, hfn⟩
        intro hm
        have hnull := (hfs j hm).2
        have : (t.array.ptrs j).ptr ≠ 0 := by
          unfold ptr_table_slot_is_freed at hfr
          simp only [Bool.and_eq_true, decide_eq_true_eq] at hfr
          exact hfr.1
        rw [hnull] at this
        exact this rfl
      · rw [if_neg hfr]
        simpa using hfn
    obtain ⟨t2, hl, hm2, hn2, hc2, hf2, hp2, hfc2⟩ :=
      ih t1 (by rw [hn1]; omega)
        (by
          intro i hi
          rw [hslot i (by omega)]
          exact hobj i (by omega))
        hfn1 hfs1 (by rw [hn1, hc1]; exact hel) (by rw [hc1]; exact hcl)
        (by rw [hc1]; exact hfc1)
    have hfilter : (List.range j).filter (ptr_table_slot_is_freed h t1) =
        (List.range j).filter (ptr_table_slot_is_freed h t) := by
      apply List.filter_congr
      intro x hx
      have := List.mem_range.mp hx
      exact hfreed x (by omega)
    refine ⟨t2, ?_, by rw [hm2, hm1], by rw [hn2, hn1], by rw [hc2, hc1], ?_, ?_, ?_⟩
    · rw [ptr_table_purge_loop, hs]
      exact hl
    · rw [hf2, hf1, hfilter, List.range_succ, List.filter_append]
      by_cases hfr : ptr_table_slot_is_freed h t j = true
      · simp [hfr]
      · simp [hfr]
    · intro i
      rw [hp2 i]
      by_cases hi : i < j
      · rw [hfreed i (by omega), hslot i (by omega)]
        by_cases hfr : ptr_table_slot_is_freed h t i = true
        · rw [if_pos ⟨hi, hfr⟩, if_pos ⟨by omega, hfr⟩]
        · rw [if_neg (fun hc => hfr hc.2), if_neg (fun hc => hfr hc.2)]
      · rw [if_neg (fun hc => hi hc.1), hp1 i]
        by_cases hij : i = j
        · by_cases hfr : ptr_table_slot_is_freed h t j = true
          · rw [if_pos ⟨hij, hfr⟩, if_pos ⟨by omega, by rw [hij]; exact hfr⟩]
          · rw [if_neg (fun hc => hfr hc.2), if_neg (fun hc => hfr (by rw [← hij]; exact hc.2))]
        · rw [if_neg (fun hc => hij hc.1), if_neg (fun hc => by omega)]
    · rw [hc1] at hfc2
      exact hfc2

theorem ptr_table_rehash_eq (h : filc_heap) :
    ∀ l : List (filc_ptr × Nat), (∀ k v, (k, v) ∈ l → k.object ≠ none) →
      ptr_table_rehash h l =
        some (l.filter fun entry => decide (ptr_object_is_free h entry.1 = some false)) := by
  intro l
  induction l with
  | nil => intro _; rfl
  | cons e rest ih =>
    intro hl
    obtain ⟨k, v⟩ := e
    have hk := hl k v (List.mem_cons_self _ _)
    have hrest := ih (fun k1 v1 h1 => hl k1 v1 (List.mem_cons_of_mem _ h1))
    rw [ptr_table_rehash, hrest]
    cases hko : k.object with
    | none => exact absurd hko hk
    | some o =>
      have hpf : ptr_object_is_free h k =
          some (decide ((h.objects o).flags &&& FILC_OBJECT_FLAG_FREE ≠ 0)) := by
        simp only [ptr_object_is_free, hko]
      by_cases hfree : (h.objects o).flags &&& FILC_OBJECT_FLAG_FREE ≠ 0
      · have hpt : ptr_object_is_free h k = some true := by rw [hpf]; simp [hfree]
        simp [hpt]
      · have hpt : ptr_object_is_free h k = some false := by rw [hpf]; simp [hfree]
        simp [hpt]

theorem ptr_object_is_free_cases (h : filc_heap) (p : filc_ptr) (hp : p.object ≠ none) :
    ptr_object_is_free h p = some true ∨ ptr_object_is_free h p = some false := by
  cases hpo : p.object with
  | none => exact absurd hpo hp
  | some o =>
    simp only [ptr_object_is_free, hpo]
    by_cases hfree : (h.objects o).flags &&& FILC_OBJECT_FLAG_FREE ≠ 0
    · left; simp [hfree]
    · right; simp [hfree]

theorem filc_ptr_table_mark_outgoing_ptrs_spec (h : filc_heap) (t : filc_ptr_table)
    (hwf : ptr_table_wf t) :
    ∃ t1, filc_ptr_table_mark_outgoing_ptrs h t = some t1 ∧ ptr_table_wf t1 ∧
      t1.encode_map =
        t.encode_map.filter (fun entry => decide (ptr_object_is_free h entry.1 = some false)) ∧
      t1.array.num_entries = t.array.num_entries ∧
      t1.array.capacity = t.array.capacity ∧
      t1.free_indices =
        (List.range t.array.num_entries).filter (ptr_table_slot_is_freed h t) ++
          t.free_indices ∧
      (∀ i, t1.array.ptrs i =
        if i < t.array.num_entries ∧ ptr_table_slot_is_freed h t i then filc_ptr_forge_null
        else t.array.ptrs i) := by
  obtain ⟨hms, hmk, hsm, hsn, hsb, hfs, hfn, hel, hk, hcl, hfc⟩ := hwf
  have hre := ptr_table_rehash_eq h t.encode_map (fun k v hkv => (hms k v hkv).2.2.2)
  obtain ⟨t1, hl, hm1, hn1, hc1, hf1, hp1, hfc1⟩ :=
    ptr_table_purge_loop_spec h t.array.num_entries
      { t with encode_map :=
          t.encode_map.filter (fun entry => decide (ptr_object_is_free h entry.1 = some false)) }
      (le_refl _)
      (by
        intro i hi hne
        exact (hms _ _ (hsm i hi hne)).2.2.2)
      hfn hfs hel hcl hfc
  have hfreed_eq : ∀ i, ptr_table_slot_is_freed h
      { t with encode_map :=
          t.encode_map.filter (fun entry => decide (ptr_object_is_free h entry.1 = some false)) }
      i = ptr_table_slot_is_freed h t i := fun _ => rfl
  have hfilter : (List.range t.array.num_entries).filter (ptr_table_slot_is_freed h
      { t with encode_map :=
          t.encode_map.filter (fun entry => decide (ptr_object_is_free h entry.1 = some false)) })
      = (List.range t.array.num_entries).filter (ptr_table_slot_is_freed h t) := rfl
  dsimp only at hm1 hn1 hc1 hf1 hp1 hfc1
  rw [hfilter] at hf1
  have hfreed : ∀ i, ptr_table_slot_is_freed h t i = true →
      (t.array.ptrs i).ptr ≠ 0 ∧ ptr_object_is_free h (t.array.ptrs i) = some true := by
    intro i hi
    unfold ptr_table_slot_is_freed at hi
    simpa using hi
  have hp1k : ∀ i, ptr_table_slot_is_freed h t i ≠ true → t1.array.ptrs i = t.array.ptrs i := by
    intro i hi
    rw [hp1 i]
    exact if_neg (fun hc => hi hc.2)
  refine ⟨t1, ?_, ⟨?_, ?_, ?_, ?_, ?_, ?_, ?_, ?_, ?_, ?_, ?_⟩, hm1, hn1, hc1, hf1, hp1⟩
  · unfold filc_ptr_table_mark_outgoing_ptrs
    rw [hre]
    exact hl
  · intro k v hkv
    rw [hm1] at hkv
    have hmem := List.mem_filter.mp hkv
    have hold := hms k v hmem.1
    have hnf : ptr_object_is_free h k = some false := by simpa using hmem.2
    rw [hn1]
    refine ⟨hold.1, ?_, hold.2.2⟩
    rw [hp1k v]
    · exact hold.2.1
    · intro hc
      have := (hfreed v hc).2
      rw [hold.2.1, hnf] at this
      simp at this
  · rw [hm1]
    exact hmk.sublist ((List.filter_sublist _).map _)
  · intro i hi hne
    rw [hn1] at hi
    have hnfr : ptr_table_slot_is_freed h t i ≠ true := by
      intro hc
      rw [hp1 i, if_pos ⟨hi, hc⟩] at hne
      exact hne rfl
    rw [hp1k i hnfr] at hne ⊢
    have hin := hsm i hi hne
    rw [hm1]
    refine List.mem_filter.mpr ⟨hin, ?_⟩
    have hobj := (hms _ _ hin).2.2.2
    rcases ptr_object_is_free_cases h _ hobj with hc | hc
    · exfalso
      apply hnfr
      unfold ptr_table_slot_is_freed
      simp [hne, hc]
    · simp [hc]
  · intro i hi hz
    rw [hn1] at hi
    rw [hp1 i] at hz ⊢
    split_ifs at hz ⊢
    · rfl
    · exact hsn i hi hz
  · intro i hi
    rw [hn1] at hi
    rw [hp1 i, if_neg (fun hc => by omega)]
    exact hsb i hi
  · intro x hx
    rw [hn1]
    rw [hf1] at hx
    rcases List.mem_append.mp hx with hx | hx
    · have hm := List.mem_filter.mp hx
      have hlt := List.mem_range.mp hm.1
      refine ⟨hlt, ?_⟩
      rw [hp1 x, if_pos ⟨hlt, hm.2⟩]
    · have := hfs x hx
      refine ⟨this.1, ?_⟩
      rw [hp1 x]
      split_ifs
      · rfl
      · exact this.2
  · rw [hf1]
    refine List.Nodup.append ((List.nodup_range _).filter _) hfn ?_
    intro x hx1 hx2
    have hm := List.mem_filter.mp hx1
    have h1 := (hfreed x hm.2).1
    rw [(hfs x hx2).2] at h1
    exact h1 rfl
  · rw [hn1, hc1]
    exact hel
  · rw [hc1]
    exact hk
  · rw [hc1]
    exact hcl
  · rw [hc1]
    exact hfc1

theorem ptr_is_live_iff (h : filc_heap) (p : filc_ptr) :
    ptr_is_live h p ↔
      ¬ (p.ptr = 0 ∨ p.object = none ∨ ptr_object_is_free h p = some true) := by
  unfold ptr_is_live ptr_object_is_free
  cases hpo : p.object with
  | none => simp
  | some o =>
    by_cases hz : p.ptr = 0
    · simp [hz]
    · simp [hz]

theorem ptr_is_live_of_free_persists (h h1 : filc_heap) (p : filc_ptr)
    (hp : free_persists h h1) (hl : ptr_is_live h1 p) : ptr_is_live h p := by
  obtain ⟨hz, o, ho, hf⟩ := hl
  refine ⟨hz, o, ho, ?_⟩
  by_contra hc
  exact hp o hc hf

theorem filc_ptr_table_encode_not_live (h : filc_heap) (t : filc_ptr_table) (p : filc_ptr)
    (hp : ¬ ptr_is_live h p) : filc_ptr_table_encode h t p = some (0, t) := by
  unfold filc_ptr_table_encode
  rw [if_pos]
  by_contra hc
  exact hp ((ptr_is_live_iff h p).mpr hc)

theorem filc_ptr_table_encode_live (h : filc_heap) (t : filc_ptr_table) (p : filc_ptr)
    (hp : ptr_is_live h p) :
    filc_ptr_table_encode h t p = ptr_table_encode_holding_lock t p := by
  unfold filc_ptr_table_encode
  rw [if_neg ((ptr_is_live_iff h p).mp hp)]

theorem ptr_table_encode_holding_lock_known (t : filc_ptr_table) (p : filc_ptr) (v : Nat)
    (hwf : ptr_table_wf t) (hv : (p, v) ∈ t.encode_map) :
    ptr_table_encode_holding_lock t p = some (ptr_table_code v, t) := by
  unfold ptr_table_encode_holding_lock
  rw [lookup_of_mem_nodup p v t.encode_map hwf.map_keys hv]
  have h1 := (hwf.map_slot p v hv).1
  have h2 := hwf.entries_le
  dsimp only
  rw [if_neg (not_not.mpr h1), if_neg (not_not.mpr (by omega))]

theorem ptr_table_insert_wf (t1 : filc_ptr_table) (p : filc_ptr) (r : Nat)
    (hwf : ptr_table_wf t1) (hr : r < t1.array.num_entries)
    (hnull : t1.array.ptrs r = filc_ptr_forge_null) (hfree : r ∉ t1.free_indices)
    (hnew : ∀ v, (p, v) ∉ t1.encode_map) (hz : p.ptr ≠ 0) (ho : p.object ≠ none) :
    ptr_table_wf
      { t1 with
        encode_map := (p, r) :: t1.encode_map
        array := { t1.array with
                   ptrs := fun i => if i = r then p else t1.array.ptrs i } } := by
  obtain ⟨hms, hmk, hsm, hsn, hsb, hfs, hfn, hel, hk, hcl, hfc⟩ := hwf
  refine ⟨?_, ?_, ?_, ?_, ?_, ?_, hfn, hel, hk, hcl, hfc⟩
  · intro k v hkv
    dsimp only at hkv ⊢
    rcases List.mem_cons.mp hkv with he | hm
    · injection he with h1 h2
      subst h1; subst h2
      exact ⟨hr, by simp, hz, ho⟩
    · have hold := hms k v hm
      have hvr : v ≠ r := by
        intro hc
        rw [hc, hnull] at hold
        exact hold.2.2.1 (by rw [← hold.2.1]; rfl)
      refine ⟨hold.1, ?_, hold.2.2⟩
      rw [if_neg hvr]
      exact hold.2.1
  · dsimp only
    rw [List.map_cons, List.nodup_cons]
    refine ⟨?_, hmk⟩
    intro hm
    obtain ⟨e, he, hep⟩ := List.mem_map.mp hm
    obtain ⟨k, v⟩ := e
    dsimp only at hep
    subst hep
    exact hnew v he
  · intro i hi hne
    dsimp only at hi hne ⊢
    by_cases hir : i = r
    · rw [if_pos hir, hir]
      exact List.mem_cons_self _ _
    · rw [if_neg hir] at hne ⊢
      exact List.mem_cons_of_mem _ (hsm i hi hne)
  · intro i hi hzero
    dsimp only at hi hzero ⊢
    by_cases hir : i = r
    · rw [if_pos hir] at hzero
      exact absurd hzero hz
    · rw [if_neg hir] at hzero ⊢
      exact hsn i hi hzero
  · intro i hi
    dsimp only at hi ⊢
    rw [if_neg (by omega)]
    exact hsb i hi
  · intro x hx
    dsimp only at hx ⊢
    have := hfs x hx
    refine ⟨this.1, ?_⟩
    rw [if_neg (fun hc => hfree (by rw [← hc]; exact hx))]
    exact this.2

theorem ptr_table_encode_holding_lock_new (t t1 : filc_ptr_table) (p : filc_ptr) (r : Nat)
    (hwf : ptr_table_wf t) (hnew : ∀ v, (p, v) ∉ t.encode_map)
    (ht : ptr_table_take_index t = some (r, t1)) :
    ptr_table_encode_holding_lock t p =
      some (ptr_table_code r,
        { t1 with
          encode_map := (p, r) :: t1.encode_map
          array := { t1.array with
                     ptrs := fun i => if i = r then p else t1.array.ptrs i } }) := by
  have hlook : t.encode_map.lookup p = none := by
    cases hl : t.encode_map.lookup p with
    | none => rfl
    | some v => exact absurd (lookup_some_mem p v _ hl) (hnew v)
  obtain ⟨_, h1, h2, _⟩ := ptr_table_take_index_wf t t1 r hwf ht
  unfold ptr_table_encode_holding_lock
  rw [hlook]
  dsimp only
  rw [ht]
  dsimp only
  rw [if_neg (not_not.mpr h1), if_neg (not_not.mpr h2)]

theorem ptr_table_encode_holding_lock_wf (t t1 : filc_ptr_table) (p : filc_ptr) (c : Nat)
    (hwf : ptr_table_wf t) (hz : p.ptr ≠ 0) (ho : p.object ≠ none)
    (he : ptr_table_encode_holding_lock t p = some (c, t1)) :
    ptr_table_wf t1 ∧ (∃ v, (p, v) ∈ t1.encode_map ∧ c = ptr_table_code v) ∧
      (∀ k v, (k, v) ∈ t.encode_map → (k, v) ∈ t1.encode_map) := by
  cases hl : t.encode_map.lookup p with
  | some v =>
    have hm := lookup_some_mem p v _ hl
    rw [ptr_table_encode_holding_lock_known t p v hwf hm] at he
    simp only [Option.some.injEq, Prod.mk.injEq] at he
    obtain ⟨hc, ht⟩ := he
    subst hc; subst ht
    exact ⟨hwf, ⟨v, hm, rfl⟩, fun _ _ hkv => hkv⟩
  | none =>
    have hnew := lookup_none_not_mem p _ hl
    cases hti : ptr_table_take_index t with
    | none =>
      unfold ptr_table_encode_holding_lock at he
      rw [hl] at he
      dsimp only at he
      rw [hti] at he
      simp at he
    | some rt =>
      obtain ⟨r, t2⟩ := rt
      rw [ptr_table_encode_holding_lock_new t t2 p r hwf hnew hti] at he
      obtain ⟨hwf2, hr, _, hnull, hfree, hmap⟩ := ptr_table_take_index_wf t t2 r hwf hti
      simp only [Option.some.injEq, Prod.mk.injEq] at he
      obtain ⟨hc, ht⟩ := he
      subst hc; subst ht
      refine ⟨ptr_table_insert_wf t2 p r hwf2 hr hnull hfree (by rw [hmap]; exact hnew) hz ho,
        ⟨r, List.mem_cons_self _ _, rfl⟩, ?_⟩
      intro k v hkv
      dsimp only
      rw [hmap]
      exact List.mem_cons_of_mem _ hkv

theorem ptr_table_wf_index_le (t : filc_ptr_table) (hwf : ptr_table_wf t) (v : Nat)
    (hv : v < t.array.num_entries) : v ≤ 10 * 2 ^ 56 := by
  obtain ⟨k, hk⟩ := hwf.capacity_eq
  have := ptr_table_capacity_le _ k hk hwf.capacity_lt
  have := hwf.entries_le
  omega

theorem filc_ptr_table_decode_of_entry (h : filc_heap) (t : filc_ptr_table) (p : filc_ptr)
    (v : Nat) (hwf : ptr_table_wf t) (hv : (p, v) ∈ t.encode_map) (hl : ptr_is_live h p) :
    filc_ptr_table_decode_with_manual_tracking h t (ptr_table_code v) = some p := by
  obtain ⟨hlt, hslot, hz, ho⟩ := hwf.map_slot p v hv
  unfold filc_ptr_table_decode_with_manual_tracking
  dsimp only
  rw [ptr_table_index_of_code v (ptr_table_wf_index_le t hwf v hlt), if_neg (by omega), hslot,
    if_neg hz]
  have hnf : ptr_object_is_free h p = some false := by
    rcases ptr_object_is_free_cases h p ho with hc | hc
    · exact absurd (Or.inr (Or.inr hc)) ((ptr_is_live_iff h p).mp hl)
    · exact hc
  rw [hnf]

theorem ptr_table_knows_of_free_persists (h h1 : filc_heap) (t : filc_ptr_table)
    (encoded : List (filc_ptr × Nat)) (hp : free_persists h h1)
    (hk : ptr_table_knows h t encoded) : ptr_table_knows h1 t encoded := by
  intro p c hpc hl
  exact hk p c hpc (ptr_is_live_of_free_persists h h1 p hp hl)

theorem filc_ptr_table_op_run_keeps (h : filc_heap) (t t1 : filc_ptr_table)
    (op : filc_ptr_table_op) (encoded encoded1 : List (filc_ptr × Nat))
    (hwf : ptr_table_wf t) (hk : ptr_table_knows h t encoded)
    (hrun : op.run h t = some (t1, encoded1)) :
    ptr_table_wf t1 ∧ ptr_table_knows h t1 (encoded ++ encoded1) := by
  cases op with
  | encode q =>
    unfold filc_ptr_table_op.run at hrun
    dsimp only at hrun
    cases he : filc_ptr_table_encode h t q with
    | none => rw [he] at hrun; simp at hrun
    | some r =>
      obtain ⟨c, t2⟩ := r
      rw [he] at hrun
      simp only [Option.some.injEq, Prod.mk.injEq] at hrun
      obtain ⟨ht, hen⟩ := hrun
      subst ht; subst hen
      by_cases hq : ptr_is_live h q
      · rw [filc_ptr_table_encode_live h t q hq] at he
        obtain ⟨o, ho, _⟩ := hq.2
        obtain ⟨hwf2, hin, hsub⟩ := ptr_table_encode_holding_lock_wf t t2 q c hwf hq.1
          (by rw [ho]; simp) he
        refine ⟨hwf2, ?_⟩
        intro p c1 hpc hl
        rcases List.mem_append.mp hpc with hpc | hpc
        · obtain ⟨v, hv, hc⟩ := hk p c1 hpc hl
          exact ⟨v, hsub p v hv, hc⟩
        · simp only [List.mem_singleton, Prod.mk.injEq] at hpc
          obtain ⟨hp1, hc1⟩ := hpc
          subst hp1; subst hc1
          exact hin
      · rw [filc_ptr_table_encode_not_live h t q hq] at he
        simp only [Option.some.injEq, Prod.mk.injEq] at he
        obtain ⟨hc, ht⟩ := he
        subst hc; subst ht
        refine ⟨hwf, ?_⟩
        intro p c1 hpc hl
        rcases List.mem_append.mp hpc with hpc | hpc
        · exact hk p c1 hpc hl
        · simp only [List.mem_singleton, Prod.mk.injEq] at hpc
          obtain ⟨hp1, hc1⟩ := hpc
          subst hp1
          exact absurd hl hq
  | mark_outgoing_ptrs =>
    unfold filc_ptr_table_op.run at hrun
    dsimp only at hrun
    obtain ⟨t2, hm, hwf2, hmap, _⟩ := filc_ptr_table_mark_outgoing_ptrs_spec h t hwf
    rw [hm] at hrun
    simp only [Option.some.injEq, Prod.mk.injEq] at hrun
    obtain ⟨ht, hen⟩ := hrun
    subst ht; subst hen
    refine ⟨hwf2, ?_⟩
    intro p c1 hpc hl
    rw [List.append_nil] at hpc
    obtain ⟨v, hv, hc⟩ := hk p c1 hpc hl
    refine ⟨v, ?_, hc⟩
    rw [hmap]
    refine List.mem_filter.mpr ⟨hv, ?_⟩
    have ho := (hwf.map_slot p v hv).2.2.2
    rcases ptr_object_is_free_cases h p ho with hc | hc
    · exact absurd (Or.inr (Or.inr hc)) ((ptr_is_live_iff h p).mp hl)
    · simp [hc]

theorem run_ptr_table_ops_keeps :
    ∀ (ops : List (filc_heap × filc_ptr_table_op)) (t t1 : filc_ptr_table)
      (encoded encoded1 : List (filc_ptr × Nat)) (h0 h : filc_heap),
      ptr_table_wf t → ptr_table_knows h0 t encoded →
      List.Chain free_persists h0 (ops.map Prod.fst ++ [h]) →
      run_ptr_table_ops t ops = some (t1, encoded1) →
      ptr_table_wf t1 ∧ ptr_table_knows h t1 (encoded ++ encoded1) := by
  intro ops
  induction ops with
  | nil =>
    intro t t1 encoded encoded1 h0 h hwf hk hc hrun
    simp only [run_ptr_table_ops, Option.some.injEq, Prod.mk.injEq] at hrun
    obtain ⟨ht, he⟩ := hrun
    subst ht; subst he
    simp only [List.map_nil, List.nil_append, List.chain_cons, List.Chain.nil, and_true] at hc
    rw [List.append_nil]
    exact ⟨hwf, ptr_table_knows_of_free_persists h0 h t encoded hc hk⟩
  | cons x rest ih =>
    intro t t1 encoded encoded1 h0 h hwf hk hc hrun
    obtain ⟨h1, op⟩ := x
    simp only [List.map_cons, List.cons_append, List.chain_cons] at hc
    rw [run_ptr_table_ops] at hrun
    cases hs : op.run h1 t with
    | none => rw [hs] at hrun; simp at hrun
    | some r =>
      obtain ⟨t2, e2⟩ := r
      rw [hs] at hrun
      dsimp only at hrun
      cases hr : run_ptr_table_ops t2 rest with
      | none => rw [hr] at hrun; simp at hrun
      | some r3 =>
        obtain ⟨t3, e3⟩ := r3
        rw [hr] at hrun
        simp only [Option.some.injEq, Prod.mk.injEq] at hrun
        obtain ⟨ht, he⟩ := hrun
        subst ht; subst he
        obtain ⟨hwf2, hk2⟩ := filc_ptr_table_op_run_keeps h1 t t2 op encoded e2 hwf
          (ptr_table_knows_of_free_persists h0 h1 t encoded hc.1 hk) hs
        have := ih t2 t3 (encoded ++ e2) e3 h1 h hwf2 hk2 hc.2 hr
        rw [List.append_assoc] at this
        exact this

theorem ptr_table_after_keeps (ops : List (filc_heap × filc_ptr_table_op))
    (t : filc_ptr_table) (encoded : List (filc_ptr × Nat)) (h : filc_heap)
    (hrun : ptr_table_after ops = some (t, encoded))
    (hfree : List.Chain' free_persists (ops.map Prod.fst ++ [h])) :
    ptr_table_wf t ∧ ptr_table_knows h t encoded := by
  unfold ptr_table_after at hrun
  cases hc : filc_ptr_table_create with
  | none => rw [hc] at hrun; simp at hrun
  | some t0 =>
    rw [hc] at hrun
    dsimp only at hrun
    have hwf0 := filc_ptr_table_create_wf t0 hc
    have hchain : List.Chain free_persists h (ops.map Prod.fst ++ [h]) ∨
        ∃ h0, List.Chain free_persists h0 (ops.map Prod.fst ++ [h]) := by
      cases ops with
      | nil => left; simp [free_persists]
      | cons x rest =>
        right
        refine ⟨x.1, ?_⟩
        simp only [List.map_cons, List.cons_append, List.chain_cons]
        simp only [List.map_cons, List.cons_append, List.Chain'] at hfree
        exact ⟨fun o ho => ho, hfree⟩
    have hk0 : ∀ h0, ptr_table_knows h0 t0 [] := by
      intro h0 p c hpc
      simp at hpc
    rcases hchain with hch | ⟨h0, hch⟩
    · have := run_ptr_table_ops_keeps ops t0 t [] encoded h h hwf0 (hk0 h) hch hrun
      simpa using this
    · have := run_ptr_table_ops_keeps ops t0 t [] encoded h0 h hwf0 (hk0 h0) hch hrun
      simpa using this

theorem free_persists_freed_heap (h : filc_heap) (o : Nat) :
    free_persists h (freed_heap h o) := by
  intro x hx
  obtain ⟨_, _, sf, _, so, _⟩ := freed_heap_spec h o
  by_cases hxo : x = o
  · subst hxo
    rw [sf]
    exact or_free_and_free _
  · rw [so x hxo]
    exact hx

/-- Claim C11: in every table state a history of encode calls and marking
passes leads to from a new table, while freed objects stay freed, a
capability `p` that was encoded with code `c` and is still live decodes from
`c` to `p` itself, encoding it again returns `c` and leaves the table as it
is, `c` is not zero, and no other live capability was encoded with `c`. -/
theorem ptr_table_bijection (ops : List (filc_heap × filc_ptr_table_op))
    (t : filc_ptr_table) (encoded : List (filc_ptr × Nat)) (h : filc_heap)
    (p : filc_ptr) (c : Nat)
    (hrun : ptr_table_after ops = some (t, encoded))
    (hfree : List.Chain' free_persists (ops.map Prod.fst ++ [h]))
    (hp : (p, c) ∈ encoded) (hlive : ptr_is_live h p) :
    filc_ptr_table_decode_with_manual_tracking h t c = some p ∧
      filc_ptr_table_encode h t p = some (c, t) ∧
      c ≠ 0 ∧
      ∀ q, (q, c) ∈ encoded → ptr_is_live h q → q = p := by
  obtain ⟨hwf, hk⟩ := ptr_table_after_keeps ops t encoded h hrun hfree
  obtain ⟨v, hv, hc⟩ := hk p c hp hlive
  have hvn := (hwf.map_slot p v hv).1
  have hvle := ptr_table_wf_index_le t hwf v hvn
  have hcv : c = (v + 66666) * 16 := by rw [hc, ptr_table_code_eq v hvle]
  refine ⟨?_, ?_, ?_, ?_⟩
  · rw [hc]
    exact filc_ptr_table_decode_of_entry h t p v hwf hv hlive
  · rw [filc_ptr_table_encode_live h t p hlive, hc]
    exact ptr_table_encode_holding_lock_known t p v hwf hv
  · omega
  · intro q hq hql
    obtain ⟨w, hw, hcw⟩ := hk q c hq hql
    have hwn := (hwf.map_slot q w hw).1
    rw [ptr_table_code_eq w (ptr_table_wf_index_le t hwf w hwn)] at hcw
    have hvw : v = w := by omega
    rw [← hvw] at hw
    rw [← (hwf.map_slot q v hw).2.1, ← (hwf.map_slot p v hv).2.1]

theorem ptr_table_bijection_witness :
    filc_ptr_table_decode_with_manual_tracking (freed_heap sample_heap 3) sample_ptr_table.1
        1066672 = some { object := some 4, ptr := 4104 } ∧
      filc_ptr_table_encode (freed_heap sample_heap 3) sample_ptr_table.1
        { object := some 4, ptr := 4104 } = some (1066672, sample_ptr_table.1) ∧
      1066672 ≠ 0 ∧
      ∀ q, (q, 1066672) ∈ sample_ptr_table.2 → ptr_is_live (freed_heap sample_heap 3) q →
        q = { object := some 4, ptr := 4104 } :=
  ptr_table_bijection sample_ptr_table_ops sample_ptr_table.1 sample_ptr_table.2
    (freed_heap sample_heap 3) { object := some 4, ptr := 4104 } 1066672 rfl
    (by
      simp only [sample_ptr_table_ops, List.map_cons, List.map_nil, List.cons_append,
        List.nil_append, List.chain'_cons, List.chain'_singleton, and_true]
      exact ⟨fun o ho => ho, free_persists_freed_heap sample_heap 3, fun o ho => ho⟩)
    (by decide)
    ⟨by decide, 4, rfl, by decide⟩

theorem run_ptr_table_ops_wf :
    ∀ (ops : List (filc_heap × filc_ptr_table_op)) (t t1 : filc_ptr_table)
      (encoded1 : List (filc_ptr × Nat)),
      ptr_table_wf t → run_ptr_table_ops t ops = some (t1, encoded1) → ptr_table_wf t1 := by
  intro ops
  induction ops with
  | nil =>
    intro t t1 encoded1 hwf hrun
    simp only [run_ptr_table_ops, Option.some.injEq, Prod.mk.injEq] at hrun
    rw [← hrun.1]
    exact hwf
  | cons x rest ih =>
    intro t t1 encoded1 hwf hrun
    obtain ⟨h1, op⟩ := x
    rw [run_ptr_table_ops] at hrun
    cases hs : op.run h1 t with
    | none => rw [hs] at hrun; simp at hrun
    | some r =>
      obtain ⟨t2, e2⟩ := r
      rw [hs] at hrun
      dsimp only at hrun
      cases hr : run_ptr_table_ops t2 rest with
      | none => rw [hr] at hrun; simp at hrun
      | some r3 =>
        obtain ⟨t3, e3⟩ := r3
        rw [hr] at hrun
        simp only [Option.some.injEq, Prod.mk.injEq] at hrun
        rw [← hrun.1]
        have hk0 : ptr_table_knows h1 t [] := by
          intro p c hpc
          simp at hpc
        exact ih t2 t3 e3 (filc_ptr_table_op_run_keeps h1 t t2 op [] e2 hwf hk0 hs).1 hr

theorem ptr_table_after_wf (ops : List (filc_heap × filc_ptr_table_op))
    (t : filc_ptr_table) (encoded : List (filc_ptr × Nat))
    (hrun : ptr_table_after ops = some (t, encoded)) : ptr_table_wf t := by
  unfold ptr_table_after at hrun
  cases hc : filc_ptr_table_create with
  | none => rw [hc] at hrun; simp at hrun
  | some t0 =>
    rw [hc] at hrun
    exact run_ptr_table_ops_wf ops t0 t encoded (filc_ptr_table_create_wf t0 hc) hrun

theorem ptr_table_take_index_eq (t t1 : filc_ptr_table) (r : Nat) (hwf : ptr_table_wf t)
    (ht : ptr_table_take_index t = some (r, t1)) :
    r = (match t.free_indices with
        | index :: _ => index
        | [] => t.array.num_entries) ∧
      t1.free_indices = t.free_indices.tail ∧
      t1.array.capacity =
        (if t.free_indices = [] ∧ t.array.num_entries = t.array.capacity
          then 2 * t.array.capacity else t.array.capacity) ∧
      (∀ i, i < t.array.num_entries → t1.array.ptrs i = t.array.ptrs i) := by
  have h64 : (2:Nat) ^ 64 = 18446744073709551616 := by norm_num
  obtain ⟨hms, hmk, hsm, hsn, hsb, hfs, hfn, hel, ⟨k, hk⟩, hcl, hfc⟩ := hwf
  unfold ptr_table_take_index at ht
  cases hf : t.free_indices with
  | cons i rest =>
    rw [hf] at ht
    simp only [Option.some.injEq, Prod.mk.injEq] at ht
    obtain ⟨hr, ht1⟩ := ht
    subst hr; subst ht1
    refine ⟨rfl, rfl, ?_, fun _ _ => rfl⟩
    rw [if_neg (fun hc => by simp at hc)]
  | nil =>
    rw [hf] at ht
    dsimp only at ht
    by_cases hfull : t.array.num_entries ≥ t.array.capacity
    · rw [if_pos hfull, if_neg (by omega)] at ht
      have hcap : 0 < t.array.capacity := by
        have := Nat.pos_pow_of_pos k (show 0 < 2 by norm_num)
        omega
      have hshift : (t.array.capacity <<< 1) % 2 ^ 64 = 2 * t.array.capacity := by
        rw [Nat.shiftLeft_eq]
        omega
      rw [hshift, if_neg (by omega)] at ht
      cases hc : filc_ptr_table_array_create (2 * t.array.capacity) with
      | none => rw [hc] at ht; simp at ht
      | some new_array =>
        rw [hc] at ht
        dsimp only at ht
        have hnc : new_array.capacity = 2 * t.array.capacity := by
          unfold filc_ptr_table_array_create at hc
          split_ifs at hc
          split at hc
          · simp at hc
          · split at hc
            · simp at hc
            · simp only [Option.some.injEq] at hc
              rw [← hc]
        split_ifs at ht with hlt
        simp only [Option.some.injEq, Prod.mk.injEq] at ht
        obtain ⟨hr, ht1⟩ := ht
        subst hr; subst ht1
        dsimp only
        refine ⟨rfl, rfl, ?_, ?_⟩
        · rw [if_pos ⟨rfl, by omega⟩, hnc]
        · intro i hi
          rw [copy_ptr_table_entries_spec, if_pos hi]
    · rw [if_neg hfull] at ht
      dsimp only at ht
      rw [if_neg (by omega)] at ht
      simp only [Option.some.injEq, Prod.mk.injEq] at ht
      obtain ⟨hr, ht1⟩ := ht
      subst hr; subst ht1
      refine ⟨rfl, rfl, ?_, fun _ _ => rfl⟩
      rw [if_neg (fun hc => by omega)]

theorem ptr_table_take_index_some (t : filc_ptr_table) (hwf : ptr_table_wf t)
    (hsmall : t.array.num_entries < 2 ^ 58) :
    ∃ r t1, ptr_table_take_index t = some (r, t1) := by
  have h64 : (2:Nat) ^ 64 = 18446744073709551616 := by norm_num
  have h58 : (2:Nat) ^ 58 = 288230376151711744 := by norm_num
  obtain ⟨hms, hmk, hsm, hsn, hsb, hfs, hfn, hel, ⟨k, hk⟩, hcl, hfc⟩ := hwf
  unfold ptr_table_take_index
  cases hf : t.free_indices with
  | cons i rest => exact ⟨_, _, rfl⟩
  | nil =>
    dsimp only
    by_cases hfull : t.array.num_entries ≥ t.array.capacity
    · rw [if_pos hfull, if_neg (by omega)]
      have hcap : 0 < t.array.capacity := by
        have := Nat.pos_pow_of_pos k (show 0 < 2 by norm_num)
        omega
      have hshift : (t.array.capacity <<< 1) % 2 ^ 64 = 2 * t.array.capacity := by
        rw [Nat.shiftLeft_eq]
        omega
      rw [hshift, if_neg (by omega),
        filc_ptr_table_array_create_eq (2 * t.array.capacity) (by omega)]
      dsimp only
      rw [if_neg (by omega)]
      exact ⟨_, _, rfl⟩
    · rw [if_neg hfull]
      dsimp only
      rw [if_neg (by omega)]
      exact ⟨_, _, rfl⟩

theorem ptr_table_code_ne_zero (t : filc_ptr_table) (hwf : ptr_table_wf t) (v : Nat)
    (hv : v < t.array.num_entries) : ptr_table_code v ≠ 0 := by
  rw [ptr_table_code_eq v (ptr_table_wf_index_le t hwf v hv)]
  omega

theorem filc_ptr_table_decode_total (h : filc_heap) (t : filc_ptr_table)
    (hwf : ptr_table_wf t) (code : Nat) :
    filc_ptr_table_decode_with_manual_tracking h t code =
      some
        (if code = 0 ∨
            t.array.num_entries ≤
              ((code >>> FILC_PTR_TABLE_SHIFT) + 2 ^ 64 - FILC_PTR_TABLE_OFFSET) % 2 ^ 64 ∨
            t.array.ptrs
              (((code >>> FILC_PTR_TABLE_SHIFT) + 2 ^ 64 - FILC_PTR_TABLE_OFFSET) % 2 ^ 64) =
              filc_ptr_forge_null ∨
            ptr_object_is_free h (t.array.ptrs
              (((code >>> FILC_PTR_TABLE_SHIFT) + 2 ^ 64 - FILC_PTR_TABLE_OFFSET) % 2 ^ 64)) =
              some true
          then filc_ptr_forge_null
          else t.array.ptrs
            (((code >>> FILC_PTR_TABLE_SHIFT) + 2 ^ 64 - FILC_PTR_TABLE_OFFSET) % 2 ^ 64)) := by
  have h64 : (2:Nat) ^ 64 = 18446744073709551616 := by norm_num
  have h56 : (2:Nat) ^ 56 = 72057594037927936 := by norm_num
  unfold filc_ptr_table_decode_with_manual_tracking
  dsimp only
  generalize hidx :
    ((code >>> FILC_PTR_TABLE_SHIFT) + 2 ^ 64 - FILC_PTR_TABLE_OFFSET) % 2 ^ 64 = idx
  have hzero : code = 0 → t.array.num_entries ≤ idx := by
    intro hc
    have hn : t.array.num_entries ≤ 10 * 2 ^ 56 := by
      obtain ⟨k, hk⟩ := hwf.capacity_eq
      have := ptr_table_capacity_le _ k hk hwf.capacity_lt
      have := hwf.entries_le
      omega
    rw [← hidx, hc]
    unfold FILC_PTR_TABLE_OFFSET FILC_PTR_TABLE_SHIFT
    simp only [Nat.zero_shiftRight]
    omega
  by_cases hout : idx ≥ t.array.num_entries
  · rw [if_pos hout, if_pos (Or.inr (Or.inl hout))]
  · rw [if_neg hout]
    by_cases hz : (t.array.ptrs idx).ptr = 0
    · rw [if_pos hz, if_pos (Or.inr (Or.inr (Or.inl (hwf.slot_null idx (by omega) hz))))]
    · rw [if_neg hz]
      have hin := hwf.slot_map idx (by omega) hz
      have ho := (hwf.map_slot _ _ hin).2.2.2
      rcases ptr_object_is_free_cases h _ ho with hc | hc
      · rw [hc, if_pos (Or.inr (Or.inr (Or.inr rfl)))]
      · rw [hc, if_neg]
        intro hor
        rcases hor with h1 | h1 | h1 | h1
        · exact hout (hzero h1)
        · exact hout h1
        · rw [h1] at hz
          exact hz rfl
        · simp at h1

/-- Claim C12: in every table state a history of encode calls and marking
passes leads to from a new table, `filc_ptr_table_encode` returns zero and
leaves the table as it is for a pointer with a null address, a null object
or a free object; for every other pointer it returns a code that is not
zero (while the table has fewer than 2^58 entries, so that doubling the
array stays within the size assertions); and decoding any code
returns: the null pointer for the code zero, for an index outside the
array, for an empty slot and for a slot whose object is free, and the
capability in the slot otherwise. -/
theorem ptr_table_null_handling (ops : List (filc_heap × filc_ptr_table_op))
    (t : filc_ptr_table) (encoded : List (filc_ptr × Nat)) (h : filc_heap)
    (hrun : ptr_table_after ops = some (t, encoded))
    (hsmall : t.array.num_entries < 2 ^ 58) :
    (∀ p : filc_ptr,
      (p.ptr = 0 ∨ p.object = none ∨
        ∃ o, p.object = some o ∧ (h.objects o).flags &&& FILC_OBJECT_FLAG_FREE ≠ 0) →
      filc_ptr_table_encode h t p = some (0, t)) ∧
    (∀ p : filc_ptr,
      ¬ (p.ptr = 0 ∨ p.object = none ∨
        ∃ o, p.object = some o ∧ (h.objects o).flags &&& FILC_OBJECT_FLAG_FREE ≠ 0) →
      ∃ c t1, filc_ptr_table_encode h t p = some (c, t1) ∧ c ≠ 0) ∧
    (∀ code,
      filc_ptr_table_decode_with_manual_tracking h t code =
        some
          (if code = 0 ∨
              t.array.num_entries ≤
                ((code >>> FILC_PTR_TABLE_SHIFT) + 2 ^ 64 - FILC_PTR_TABLE_OFFSET) % 2 ^ 64 ∨
              t.array.ptrs
                (((code >>> FILC_PTR_TABLE_SHIFT) + 2 ^ 64 - FILC_PTR_TABLE_OFFSET) % 2 ^ 64) =
                filc_ptr_forge_null ∨
              ptr_object_is_free h (t.array.ptrs
                (((code >>> FILC_PTR_TABLE_SHIFT) + 2 ^ 64 - FILC_PTR_TABLE_OFFSET) % 2 ^ 64)) =
                some true
            then filc_ptr_forge_null
            else t.array.ptrs
              (((code >>> FILC_PTR_TABLE_SHIFT) + 2 ^ 64 - FILC_PTR_TABLE_OFFSET) % 2 ^ 64))) := by
  have hwf := ptr_table_after_wf ops t encoded hrun
  refine ⟨?_, ?_, fun code => filc_ptr_table_decode_total h t hwf code⟩
  · intro p hp
    apply filc_ptr_table_encode_not_live
    intro hl
    obtain ⟨hz, o, ho, hf⟩ := hl
    rcases hp with h1 | h1 | ⟨o1, ho1, hf1⟩
    · exact hz h1
    · rw [ho] at h1; simp at h1
    · rw [ho] at ho1
      injection ho1 with ho1
      subst ho1
      exact hf1 hf
  · intro p hp
    have hl : ptr_is_live h p := by
      refine ⟨fun hc => hp (Or.inl hc), ?_⟩
      cases hpo : p.object with
      | none => exact absurd (Or.inr (Or.inl hpo)) hp
      | some o =>
        refine ⟨o, rfl, ?_⟩
        by_contra hc
        exact hp (Or.inr (Or.inr ⟨o, hpo, hc⟩))
    rw [filc_ptr_table_encode_live h t p hl]
    cases hlook : t.encode_map.lookup p with
    | some v =>
      have hm := lookup_some_mem p v _ hlook
      exact ⟨_, _, ptr_table_encode_holding_lock_known t p v hwf hm,
        ptr_table_code_ne_zero t hwf v (hwf.map_slot p v hm).1⟩
    | none =>
      have hnew := lookup_none_not_mem p _ hlook
      obtain ⟨r, t1, ht⟩ := ptr_table_take_index_some t hwf hsmall
      obtain ⟨hwf1, hr, _⟩ := ptr_table_take_index_wf t t1 r hwf ht
      exact ⟨_, _, ptr_table_encode_holding_lock_new t t1 p r hwf hnew ht,
        ptr_table_code_ne_zero t1 hwf1 r hr⟩

theorem ptr_table_null_handling_witness :
    filc_ptr_table_encode (freed_heap sample_heap 3) sample_ptr_table.1
        { object := some 3, ptr := 4100 } = some (0, sample_ptr_table.1) ∧
      (∃ c t1, filc_ptr_table_encode (freed_heap sample_heap 3) sample_ptr_table.1
        { object := some 5, ptr := 4100 } = some (c, t1) ∧ c ≠ 0) ∧
      filc_ptr_table_decode_with_manual_tracking (freed_heap sample_heap 3)
        sample_ptr_table.1 0 = some filc_ptr_forge_null :=
  have hw := ptr_table_null_handling sample_ptr_table_ops sample_ptr_table.1
    sample_ptr_table.2 (freed_heap sample_heap 3) rfl (by decide)
  ⟨hw.1 _ (Or.inr (Or.inr ⟨3, rfl, by decide⟩)),
    hw.2.1 { object := some 5, ptr := 4100 } (by decide),
    by
      have := hw.2.2 0
      rw [if_pos (Or.inl rfl)] at this
      exact this⟩

/-- Claim C13: a capability `p` was encoded with code `c` and is live; its
object is then freed (heap `h1`) and one marking pass runs.  The pass
returns a table in which `c` decodes to null in every heap, the map has no
entry for `p`, the slot of `c` is null and its index is on the free list
once; the free list is the purged indices, the one purged last on top (the
pass walks the slots downwards), over the old list.  The next encode of a
live capability that is not in the map takes the top of that list as its
index and leaves the capacity of the array as it is.  In every reachable
table an encode of a new live capability doubles the capacity exactly when
the free list is empty and the array is full, and keeps every other slot. -/
theorem ptr_table_purge_and_reuse (ops : List (filc_heap × filc_ptr_table_op))
    (t : filc_ptr_table) (encoded : List (filc_ptr × Nat)) (h h1 : filc_heap)
    (p : filc_ptr) (c : Nat)
    (hrun : ptr_table_after ops = some (t, encoded))
    (hfree : List.Chain' free_persists (ops.map Prod.fst ++ [h]))
    (hp : (p, c) ∈ encoded) (hlive : ptr_is_live h p)
    (hfreed : ∃ o, p.object = some o ∧ (h1.objects o).flags &&& FILC_OBJECT_FLAG_FREE ≠ 0) :
    (∃ t1 v, filc_ptr_table_mark_outgoing_ptrs h1 t = some t1 ∧
      c = ptr_table_code v ∧ v < t.array.num_entries ∧ t.array.ptrs v = p ∧
      (∀ h2, filc_ptr_table_decode_with_manual_tracking h2 t1 c = some filc_ptr_forge_null) ∧
      (∀ w, (p, w) ∉ t1.encode_map) ∧
      t1.array.ptrs v = filc_ptr_forge_null ∧
      t1.free_indices.count v = 1 ∧
      t1.free_indices =
        (List.range t.array.num_entries).filter (ptr_table_slot_is_freed h1 t) ++
          t.free_indices ∧
      (∀ (h2 : filc_heap) (q : filc_ptr), ptr_is_live h2 q → (∀ w, (q, w) ∉ t1.encode_map) →
        ∃ index rest t2, t1.free_indices = index :: rest ∧
          filc_ptr_table_encode h2 t1 q = some (ptr_table_code index, t2) ∧
          t2.free_indices = rest ∧ t2.array.ptrs index = q ∧
          t2.array.capacity = t1.array.capacity)) ∧
    (∀ (h2 : filc_heap) (q : filc_ptr) (c2 : Nat) (t2 : filc_ptr_table),
      ptr_is_live h2 q → (∀ w, (q, w) ∉ t.encode_map) →
      filc_ptr_table_encode h2 t q = some (c2, t2) →
      t2.array.capacity =
        (if t.free_indices = [] ∧ t.array.num_entries = t.array.capacity
          then 2 * t.array.capacity else t.array.capacity) ∧
      ∀ i, i < t.array.num_entries → ptr_table_code i ≠ c2 →
        t2.array.ptrs i = t.array.ptrs i) := by
  obtain ⟨hwf, hk⟩ := ptr_table_after_keeps ops t encoded h hrun hfree
  obtain ⟨v, hv, hc⟩ := hk p c hp hlive
  obtain ⟨hvn, hslot, hz, ho⟩ := hwf.map_slot p v hv
  obtain ⟨t1, hm, hwf1, hmap, hn1, hc1, hf1, hp1⟩ :=
    filc_ptr_table_mark_outgoing_ptrs_spec h1 t hwf
  have hpfree : ptr_object_is_free h1 p = some true := by
    obtain ⟨o, hpo, hfl⟩ := hfreed
    simp [ptr_object_is_free, hpo, hfl]
  have hvfreed : ptr_table_slot_is_freed h1 t v = true := by
    unfold ptr_table_slot_is_freed
    rw [hslot]
    simp [hz, hpfree]
  have hnull : t1.array.ptrs v = filc_ptr_forge_null := by
    rw [hp1 v, if_pos ⟨hvn, hvfreed⟩]
  have hmem : v ∈ t1.free_indices := by
    rw [hf1]
    exact List.mem_append_left _ (List.mem_filter.mpr ⟨List.mem_range.mpr hvn, hvfreed⟩)
  refine ⟨⟨t1, v, hm, hc, hvn, hslot, ?_, ?_, hnull, ?_, hf1, ?_⟩, ?_⟩
  · intro h2
    unfold filc_ptr_table_decode_with_manual_tracking
    dsimp only
    rw [hc, ptr_table_index_of_code v (ptr_table_wf_index_le t hwf v hvn), hn1,
      if_neg (by omega), hnull]
    rfl
  · intro w hw
    rw [hmap] at hw
    have := (List.mem_filter.mp hw).2
    rw [hpfree] at this
    simp at this
  · exact List.count_eq_one_of_mem hwf1.free_nodup hmem
  · intro h2 q hq hnew
    cases hfl : t1.free_indices with
    | nil => rw [hfl] at hmem; simp at hmem
    | cons index rest =>
      have hti : ptr_table_take_index t1 =
          some (index, { t1 with free_indices := rest }) := by
        unfold ptr_table_take_index
        rw [hfl]
      refine ⟨index, rest,
        { encode_map := (q, index) :: t1.encode_map
          free_indices := rest
          free_indices_capacity := t1.free_indices_capacity
          array := { t1.array with
                     ptrs := fun i => if i = index then q else t1.array.ptrs i } },
        rfl, ?_, rfl, ?_, rfl⟩
      · rw [filc_ptr_table_encode_live h2 t1 q hq]
        exact ptr_table_encode_holding_lock_new t1 _ q index hwf1 hnew hti
      · simp
  · intro h2 q c2 t2 hq hnew he
    rw [filc_ptr_table_encode_live h2 t q hq] at he
    cases hti : ptr_table_take_index t with
    | none =>
      have hlook : t.encode_map.lookup q = none := by
        cases hl : t.encode_map.lookup q with
        | none => rfl
        | some w => exact absurd (lookup_some_mem q w _ hl) (hnew w)
      unfold ptr_table_encode_holding_lock at he
      rw [hlook] at he
      dsimp only at he
      rw [hti] at he
      simp at he
    | some rt =>
      obtain ⟨r, t3⟩ := rt
      rw [ptr_table_encode_holding_lock_new t t3 q r hwf hnew hti] at he
      simp only [Option.some.injEq, Prod.mk.injEq] at he
      obtain ⟨hc2, ht2⟩ := he
      obtain ⟨_, _, hcap, hptrs⟩ := ptr_table_take_index_eq t t3 r hwf hti
      rw [← ht2]
      refine ⟨hcap, ?_⟩
      intro i hi hne
      dsimp only
      rw [if_neg (fun hir => hne (by rw [hir, hc2])), hptrs i hi]

theorem ptr_table_purge_and_reuse_witness :
    ∃ t1 v, filc_ptr_table_mark_outgoing_ptrs (freed_heap sample_heap 3)
        sample_encoded_ptr_table.1 = some t1 ∧
      1066656 = ptr_table_code v ∧
      (∀ h2, filc_ptr_table_decode_with_manual_tracking h2 t1 1066656 =
        some filc_ptr_forge_null) ∧
      t1.array.ptrs v = filc_ptr_forge_null ∧
      t1.free_indices.count v = 1 := by
  obtain ⟨⟨t1, v, hm, hc, _, _, hd, _, hnull, hcount, _⟩, _⟩ :=
    ptr_table_purge_and_reuse sample_ptr_table_encodes sample_encoded_ptr_table.1
      sample_encoded_ptr_table.2 sample_heap (freed_heap sample_heap 3)
      { object := some 3, ptr := 4100 } 1066656 rfl
      (by
        simp only [sample_ptr_table_encodes, List.map_cons, List.map_nil, List.cons_append,
          List.nil_append, List.chain'_cons, List.chain'_singleton, and_true]
        exact ⟨fun o ho => ho, fun o ho => ho⟩)
      (by decide)
      ⟨by decide, 3, rfl, by decide⟩
      ⟨3, rfl, by decide⟩
  exact ⟨t1, v, hm, hc, hd, hnull, hcount⟩

/-! ## Facts about exact pointer tables -/

theorem exact_ptr_table_rehash_eq (h : filc_heap) :
    ∀ l : List (Nat × filc_ptr), (∀ k v, (k, v) ∈ l → v.object ≠ none) →
      exact_ptr_table_rehash h l =
        some (l.filter fun entry => decide (ptr_object_is_free h entry.2 = some false)) := by
  intro l
  induction l with
  | nil => intro _; rfl
  | cons e rest ih =>
    intro hl
    obtain ⟨k, v⟩ := e
    have hv := hl k v (List.mem_cons_self _ _)
    have hrest := ih (fun k1 v1 h1 => hl k1 v1 (List.mem_cons_of_mem _ h1))
    rw [exact_ptr_table_rehash, hrest]
    rcases ptr_object_is_free_cases h v hv with hc | hc
    · simp [hc]
    · simp [hc]

theorem filc_exact_ptr_table_encode_fst (h : filc_heap) (t : filc_exact_ptr_table)
    (p : filc_ptr) : (filc_exact_ptr_table_encode h t p).1 = p.ptr := by
  unfold filc_exact_ptr_table_encode
  split_ifs <;> rfl

theorem filc_exact_ptr_table_encode_live (h : filc_heap) (t : filc_exact_ptr_table)
    (p : filc_ptr) (o : Nat) (ho : p.object = some o)
    (hl : (h.objects o).flags &&& FILC_OBJECT_FLAG_FREE = 0) :
    (filc_exact_ptr_table_encode h t p).2 =
      { decode_map := (p.ptr, p) :: t.decode_map.filter fun entry => entry.1 ≠ p.ptr } := by
  unfold filc_exact_ptr_table_encode
  rw [if_neg]
  intro hc
  rcases hc with hc | hc
  · rw [ho] at hc; simp at hc
  · simp [ptr_object_is_free, ho, hl] at hc

theorem filc_exact_ptr_table_decode_head (l : List (Nat × filc_ptr)) (p : filc_ptr)
    (ho : p.object ≠ none) :
    filc_exact_ptr_table_decode_with_manual_tracking { decode_map := (p.ptr, p) :: l } p.ptr =
      some p := by
  unfold filc_exact_ptr_table_decode_with_manual_tracking
  dsimp only
  rw [if_neg (by simp)]
  have hlook : ((p.ptr, p) :: l).lookup p.ptr = some p := by simp [List.lookup]
  rw [hlook]
  have hnull : filc_ptr_is_totally_null p = false := by
    simp [filc_ptr_is_totally_null, ho]
  simp [hnull]

theorem filc_exact_ptr_table_decode_of_wf (ops : List (filc_heap × filc_exact_ptr_table_op))
    (t : filc_exact_ptr_table) (hwf : exact_ptr_table_wf ops t) (a : Nat) :
    (∃ q, filc_exact_ptr_table_decode_with_manual_tracking t a = some q ∧ q.ptr = a) ∧
    ((∀ h p, (h, filc_exact_ptr_table_op.encode p) ∈ ops → p.ptr ≠ a) →
      filc_exact_ptr_table_decode_with_manual_tracking t a =
        some (filc_ptr_forge_invalid a)) := by
  unfold filc_exact_ptr_table_decode_with_manual_tracking
  dsimp only
  by_cases hlen : t.decode_map.length = 0
  · rw [if_pos hlen]
    exact ⟨⟨_, rfl, rfl⟩, fun _ => rfl⟩
  · rw [if_neg hlen]
    cases hlook : t.decode_map.lookup a with
    | none =>
      have hnull : filc_ptr_is_totally_null (Option.getD none filc_ptr_forge_null) = true := by
        simp [filc_ptr_is_totally_null, filc_ptr_forge_null]
      rw [hnull]
      exact ⟨⟨_, rfl, rfl⟩, fun _ => rfl⟩
    | some v =>
      obtain ⟨hptr, hobj, h1, hin⟩ := hwf a v (lookup_some_mem a v _ hlook)
      have hnull : filc_ptr_is_totally_null (Option.getD (some v) filc_ptr_forge_null) =
          false := by
        simp [filc_ptr_is_totally_null, hobj]
      rw [hnull]
      simp only [Bool.false_eq_true, if_false, Option.getD_some]
      rw [if_neg (not_not.mpr hptr)]
      exact ⟨⟨v, rfl, hptr⟩, fun hnever => absurd hptr (hnever h1 v hin)⟩

theorem filc_exact_ptr_table_op_run_wf (ops : List (filc_heap × filc_exact_ptr_table_op))
    (h : filc_heap) (t : filc_exact_ptr_table) (op : filc_exact_ptr_table_op)
    (hwf : exact_ptr_table_wf ops t) :
    ∃ t1, op.run h t = some t1 ∧ exact_ptr_table_wf (ops ++ [(h, op)]) t1 := by
  have hmono : ∀ k v, (k, v) ∈ t.decode_map →
      v.ptr = k ∧ v.object ≠ none ∧
        ∃ h1, (h1, filc_exact_ptr_table_op.encode v) ∈ ops ++ [(h, op)] := by
    intro k v hkv
    obtain ⟨h1, h2, h3, h4⟩ := hwf k v hkv
    exact ⟨h1, h2, h3, List.mem_append_left _ h4⟩
  cases op with
  | encode p =>
    refine ⟨_, rfl, ?_⟩
    unfold filc_exact_ptr_table_encode
    split_ifs with hc
    · exact hmono
    · intro k v hkv
      dsimp only at hkv
      rcases List.mem_cons.mp hkv with he | hm
      · injection he with hk1 hv1
        subst hk1; subst hv1
        exact ⟨rfl, fun hn => hc (Or.inl hn), h, by simp⟩
      · exact hmono k v (List.mem_filter.mp hm).1
  | mark_outgoing_ptrs =>
    have hre := exact_ptr_table_rehash_eq h t.decode_map (fun k v hkv => (hwf k v hkv).2.1)
    refine ⟨⟨t.decode_map.filter
        (fun entry => decide (ptr_object_is_free h entry.2 = some false))⟩, ?_, ?_⟩
    · show filc_exact_ptr_table_mark_outgoing_ptrs h t = _
      unfold filc_exact_ptr_table_mark_outgoing_ptrs
      rw [hre]
    · intro k v hkv
      exact hmono k v (List.mem_filter.mp hkv).1

theorem run_exact_ptr_table_ops_wf :
    ∀ (ops done : List (filc_heap × filc_exact_ptr_table_op)) (t : filc_exact_ptr_table),
      exact_ptr_table_wf done t →
      ∃ t1, run_exact_ptr_table_ops t ops = some t1 ∧ exact_ptr_table_wf (done ++ ops) t1 := by
  intro ops
  induction ops with
  | nil =>
    intro done t hwf
    exact ⟨t, rfl, by rw [List.append_nil]; exact hwf⟩
  | cons x rest ih =>
    intro done t hwf
    obtain ⟨h, op⟩ := x
    obtain ⟨t1, hr, hwf1⟩ := filc_exact_ptr_table_op_run_wf done h t op hwf
    obtain ⟨t2, hr2, hwf2⟩ := ih (done ++ [(h, op)]) t1 hwf1
    refine ⟨t2, ?_, ?_⟩
    · rw [run_exact_ptr_table_ops, hr]
      exact hr2
    · rw [List.append_assoc] at hwf2
      exact hwf2

theorem exact_ptr_table_after_wf (ops : List (filc_heap × filc_exact_ptr_table_op)) :
    ∃ t, exact_ptr_table_after ops = some t ∧ exact_ptr_table_wf ops t := by
  have := run_exact_ptr_table_ops_wf ops [] filc_exact_ptr_table_create
    (by intro k v hkv; simp [filc_exact_ptr_table_create] at hkv)
  simpa [exact_ptr_table_after] using this

/-- Claim C14: every history of encode calls and marking passes leads from
a new exact pointer table to a table, and in it: encoding any pointer, in
any heap, returns the address of the pointer; decoding any integer returns
a pointer with that address, which has no capability when no pointer with
that address was ever encoded; and a pointer with a live object, decoded
right after it was encoded, comes back as itself, with its capability. -/
theorem exact_ptr_table_round_trip (ops : List (filc_heap × filc_exact_ptr_table_op)) :
    ∃ t, exact_ptr_table_after ops = some t ∧
      (∀ (h : filc_heap) (p : filc_ptr), (filc_exact_ptr_table_encode h t p).1 = p.ptr) ∧
      (∀ a, ∃ q, filc_exact_ptr_table_decode_with_manual_tracking t a = some q ∧ q.ptr = a) ∧
      (∀ a, (∀ h p, (h, filc_exact_ptr_table_op.encode p) ∈ ops → p.ptr ≠ a) →
        filc_exact_ptr_table_decode_with_manual_tracking t a =
          some (filc_ptr_forge_invalid a)) ∧
      (∀ (h : filc_heap) (p : filc_ptr) (o : Nat), p.object = some o →
        (h.objects o).flags &&& FILC_OBJECT_FLAG_FREE = 0 →
        filc_exact_ptr_table_decode_with_manual_tracking
          (filc_exact_ptr_table_encode h t p).2 (filc_exact_ptr_table_encode h t p).1 =
          some p) := by
  obtain ⟨t, hrun, hwf⟩ := exact_ptr_table_after_wf ops
  refine ⟨t, hrun, fun h p => filc_exact_ptr_table_encode_fst h t p,
    fun a => (filc_exact_ptr_table_decode_of_wf ops t hwf a).1,
    fun a => (filc_exact_ptr_table_decode_of_wf ops t hwf a).2, ?_⟩
  intro h p o ho hl
  rw [filc_exact_ptr_table_encode_fst, filc_exact_ptr_table_encode_live h t p o ho hl]
  exact filc_exact_ptr_table_decode_head _ p (by rw [ho]; simp)

/-- Claim C15: a pointer with a live object is encoded into an exact pointer
table and its object is then freed.  Decoding its address returns the
pointer itself, with the freed object as its capability and not a null
one, for as long as no marking pass has run: the decode does not look at
the heap.  After a marking pass in a heap in which the object is free, the
decode returns a pointer with the same address and no capability. -/
theorem exact_ptr_table_decode_after_free (h h1 : filc_heap) (t : filc_exact_ptr_table)
    (p : filc_ptr) (o : Nat) (ho : p.object = some o)
    (hl : (h.objects o).flags &&& FILC_OBJECT_FLAG_FREE = 0)
    (hwf : ∀ k v, (k, v) ∈ t.decode_map → v.object ≠ none)
    (hfreed : (h1.objects o).flags &&& FILC_OBJECT_FLAG_FREE ≠ 0) :
    filc_exact_ptr_table_decode_with_manual_tracking
        (filc_exact_ptr_table_encode h t p).2 p.ptr = some p ∧
      ∃ t2, filc_exact_ptr_table_mark_outgoing_ptrs h1 (filc_exact_ptr_table_encode h t p).2 =
          some t2 ∧
        filc_exact_ptr_table_decode_with_manual_tracking t2 p.ptr =
          some (filc_ptr_forge_invalid p.ptr) := by
  rw [filc_exact_ptr_table_encode_live h t p o ho hl]
  refine ⟨filc_exact_ptr_table_decode_head _ p (by rw [ho]; simp), ?_⟩
  have hpo : p.object ≠ none := by rw [ho]; simp
  have hre := exact_ptr_table_rehash_eq h1
    ((p.ptr, p) :: t.decode_map.filter fun entry => entry.1 ≠ p.ptr)
    (by
      intro k v hkv
      rcases List.mem_cons.mp hkv with he | hm
      · injection he with hk1 hv1
        rw [hv1]; exact hpo
      · exact hwf k v (List.mem_filter.mp hm).1)
  refine ⟨⟨((p.ptr, p) :: t.decode_map.filter (fun entry => entry.1 ≠ p.ptr)).filter
        (fun entry => decide (ptr_object_is_free h1 entry.2 = some false))⟩,
    by unfold filc_exact_ptr_table_mark_outgoing_ptrs; rw [hre], ?_⟩
  have hpf : ptr_object_is_free h1 p = some true := by
    simp [ptr_object_is_free, ho, hfreed]
  have hlook : (((p.ptr, p) :: t.decode_map.filter fun entry => entry.1 ≠ p.ptr).filter
      fun entry => decide (ptr_object_is_free h1 entry.2 = some false)).lookup p.ptr = none := by
    apply lookup_none_of_not_mem
    intro v hv
    have hm := List.mem_filter.mp hv
    rcases List.mem_cons.mp hm.1 with he | hm1
    · injection he with hk1 hv1
      have := hm.2
      rw [hv1, hpf] at this
      simp at this
    · have := (List.mem_filter.mp hm1).2
      simp at this
  unfold filc_exact_ptr_table_decode_with_manual_tracking
  dsimp only
  rw [hlook]
  have hnull : filc_ptr_is_totally_null (Option.getD none filc_ptr_forge_null) = true := by
    simp [filc_ptr_is_totally_null, filc_ptr_forge_null]
  rw [hnull]
  simp

theorem exact_ptr_table_decode_after_free_witness :
    filc_exact_ptr_table_decode_with_manual_tracking
        (filc_exact_ptr_table_encode sample_heap filc_exact_ptr_table_create
          { object := some 3, ptr := 4100 }).2 4100 = some { object := some 3, ptr := 4100 } ∧
      ∃ t2, filc_exact_ptr_table_mark_outgoing_ptrs (freed_heap sample_heap 3)
          (filc_exact_ptr_table_encode sample_heap filc_exact_ptr_table_create
            { object := some 3, ptr := 4100 }).2 = some t2 ∧
        filc_exact_ptr_table_decode_with_manual_tracking t2 4100 =
          some (filc_ptr_forge_invalid 4100) :=
  exact_ptr_table_decode_after_free sample_heap (freed_heap sample_heap 3)
    filc_exact_ptr_table_create { object := some 3, ptr := 4100 } 3 rfl (by decide)
    (by intro k v hkv; simp [filc_exact_ptr_table_create] at hkv) (by decide)
/-! ## Facts about the edges of the bulk operations -/

theorem check_int_done_spec (h : filc_heap) (ptr : filc_ptr) (bytes o : Nat)
    (ho : ptr.object = some o) (ha : (h.objects o).addressable)
    (hlo : (h.objects o).lower ≤ ptr.ptr) (hb : 1 ≤ bytes)
    (hhi : ptr.ptr + bytes ≤ (h.objects o).upper)
    (hok : ∀ i, (ptr.ptr - (h.objects o).lower) / 16 ≤ i →
      i ≤ (ptr.ptr - (h.objects o).lower + bytes - 1) / 16 →
      (h.objects o).word_types i = FILC_WORD_TYPE_UNSET ∨
        (h.objects o).word_types i = FILC_WORD_TYPE_INT) :
    ∃ h1, check_int h ptr bytes = .done () h1 ∧ h1.memory = h.memory ∧
      (∀ x, x ≠ o → h1.objects x = h.objects x) ∧
      (h1.objects o).lower = (h.objects o).lower ∧
      (h1.objects o).upper = (h.objects o).upper ∧
      (h1.objects o).flags = (h.objects o).flags ∧
      ∀ i, (h1.objects o).word_types i =
        if (ptr.ptr - (h.objects o).lower) / 16 ≤ i ∧
            i ≤ (ptr.ptr - (h.objects o).lower + bytes - 1) / 16
          then FILC_WORD_TYPE_INT else (h.objects o).word_types i := by
  rw [check_int_eq_loop h ptr bytes o ho ha hlo hb hhi]
  obtain ⟨sm, sx, sl, su, sf, st, sok, sint, _⟩ := check_int_loop_spec o
    ((ptr.ptr - (h.objects o).lower + bytes - 1) / 16 + 1
      - (ptr.ptr - (h.objects o).lower) / 16)
    ((ptr.ptr - (h.objects o).lower) / 16) h
  have hs := sok.mpr (fun i h1 h2 => hok i h1 (by omega))
  obtain ⟨u, h1, hd⟩ := filc_result.eq_done_of_succeeded _ hs
  rw [hd] at sm sx sl su sf st sint
  refine ⟨h1, by rw [hd], sm, sx, sl, su, sf, ?_⟩
  intro i
  by_cases hi : (ptr.ptr - (h.objects o).lower) / 16 ≤ i ∧
      i ≤ (ptr.ptr - (h.objects o).lower + bytes - 1) / 16
  · rw [if_pos hi]
    exact sint rfl i hi.1 (by omega)
  · rw [if_neg hi]
    rcases st i with h2 | h2
    · exact h2
    · exfalso
      apply hi
      exact ⟨h2.2.2.1, by omega⟩

theorem check_int_loop_all_int (o : Nat) : ∀ (n idx : Nat) (h : filc_heap),
    (∀ i, idx ≤ i → i < idx + n → (h.objects o).word_types i = FILC_WORD_TYPE_INT) →
    check_int_loop o n idx h = .done () h := by
  intro n
  induction n with
  | zero => intro idx h _; rfl
  | succ n ih =>
    intro idx h hall
    have h0 := hall idx (le_refl _) (by omega)
    have hw : check_int_word h o idx = .done () h := by
      unfold check_int_word
      dsimp only
      rw [h0, if_neg (by decide), if_pos rfl]
    rw [check_int_loop, hw]
    exact ih (idx + 1) h (fun i h1 h2 => hall i (by omega) (by omega))

theorem check_int_all_int (h : filc_heap) (ptr : filc_ptr) (bytes o : Nat)
    (ho : ptr.object = some o) (ha : (h.objects o).addressable)
    (hlo : (h.objects o).lower ≤ ptr.ptr) (hb : 1 ≤ bytes)
    (hhi : ptr.ptr + bytes ≤ (h.objects o).upper)
    (hall : ∀ i, (ptr.ptr - (h.objects o).lower) / 16 ≤ i →
      i ≤ (ptr.ptr - (h.objects o).lower + bytes - 1) / 16 →
      (h.objects o).word_types i = FILC_WORD_TYPE_INT) :
    check_int h ptr bytes = .done () h := by
  rw [check_int_eq_loop h ptr bytes o ho ha hlo hb hhi]
  exact check_int_loop_all_int o _ _ h (fun i h1 h2 => hall i h1 (by omega))

theorem check_int_fails_of_non_int (h : filc_heap) (ptr : filc_ptr) (bytes o i : Nat)
    (ho : ptr.object = some o) (ha : (h.objects o).addressable)
    (hlo : (h.objects o).lower ≤ ptr.ptr) (hb : 1 ≤ bytes)
    (hhi : ptr.ptr + bytes ≤ (h.objects o).upper)
    (h1 : (ptr.ptr - (h.objects o).lower) / 16 ≤ i)
    (h2 : i ≤ (ptr.ptr - (h.objects o).lower + bytes - 1) / 16)
    (hne : (h.objects o).word_types i ≠ FILC_WORD_TYPE_UNSET)
    (hni : (h.objects o).word_types i ≠ FILC_WORD_TYPE_INT) :
    (check_int h ptr bytes).succeeded = false ∧
      (check_int h ptr bytes).why = some .span_contains_non_ints := by
  rw [check_int_eq_loop h ptr bytes o ho ha hlo hb hhi]
  obtain ⟨_, _, _, _, _, _, sok, _, sbad⟩ := check_int_loop_spec o
    ((ptr.ptr - (h.objects o).lower + bytes - 1) / 16 + 1
      - (ptr.ptr - (h.objects o).lower) / 16)
    ((ptr.ptr - (h.objects o).lower) / 16) h
  have hf : (check_int_loop o
      ((ptr.ptr - (h.objects o).lower + bytes - 1) / 16 + 1
        - (ptr.ptr - (h.objects o).lower) / 16)
      ((ptr.ptr - (h.objects o).lower) / 16) h).succeeded = false := by
    cases hs : (check_int_loop o
      ((ptr.ptr - (h.objects o).lower + bytes - 1) / 16 + 1
        - (ptr.ptr - (h.objects o).lower) / 16)
      ((ptr.ptr - (h.objects o).lower) / 16) h).succeeded with
    | false => rfl
    | true =>
      rcases sok.mp hs i h1 (by omega) with hc | hc
      · exact absurd hc hne
      · exact absurd hc hni
  exact ⟨hf, sbad hf⟩

theorem check_accessible_eq_done (h : filc_heap) (ptr : filc_ptr) (o : Nat)
    (ho : ptr.object = some o)
    (hfree : (h.objects o).flags &&& FILC_OBJECT_FLAG_FREE = 0)
    (hspecial : (h.objects o).flags &&& FILC_OBJECT_FLAG_SPECIAL = 0) :
    check_accessible h ptr = .done () h := by
  unfold check_accessible
  rw [ho]
  dsimp only
  rw [if_neg (not_not.mpr (and_or_eq_zero _ _ _ hfree hspecial))]

theorem add_64_and (f b : Nat) (hb : 63 &&& b = b) : (f + 64) &&& b = f &&& b := by
  have h1 : ∀ x : Nat, x &&& 63 = x % 64 := fun x => Nat.and_pow_two_sub_one_eq_mod x 6
  calc (f + 64) &&& b = (f + 64) &&& (63 &&& b) := by rw [hb]
    _ = ((f + 64) &&& 63) &&& b := by rw [Nat.and_assoc]
    _ = (f &&& 63) &&& b := by rw [h1, h1]; congr 1; omega
    _ = f &&& (63 &&& b) := by rw [Nat.and_assoc]
    _ = f &&& b := by rw [hb]

theorem filc_pin_unpin_spec (h : filc_heap) (o : Nat) (m : Nat → Nat)
    (hfree : (h.objects o).flags &&& FILC_OBJECT_FLAG_FREE = 0)
    (hpin : (h.objects o).flags &&& FILC_OBJECT_FLAG_GLOBAL ≠ 0 ∨
      ((h.objects o).flags &&& FILC_OBJECT_FLAG_RETURN_BUFFER = 0 ∧
        (h.objects o).flags + 64 < 2 ^ 16)) :
    ∃ h1 h2, filc_pin h (some o) = .done () h1 ∧ h1.memory = h.memory ∧
      filc_unpin (h1.set_memory m) (some o) = .done () h2 ∧
      h2.memory = m ∧ ∀ x, h2.objects x = h.objects x := by
  have h16 : (2:Nat) ^ 16 = 65536 := by norm_num
  by_cases hg : (h.objects o).flags &&& FILC_OBJECT_FLAG_GLOBAL ≠ 0
  · refine ⟨h, h.set_memory m, ?_, rfl, ?_, rfl, fun _ => rfl⟩
    · unfold filc_pin
      dsimp only
      rw [if_pos hg]
    · unfold filc_unpin
      dsimp only
      rw [if_pos (show ((h.set_memory m).objects o).flags &&& FILC_OBJECT_FLAG_GLOBAL ≠ 0
        from hg)]
  · rcases hpin with hc | ⟨hrb, hlt⟩
    · exact absurd hc hg
    · have hshift : (1 <<< FILC_OBJECT_FLAGS_PIN_SHIFT) = 64 := by decide
      have hmod : ((h.objects o).flags + 64) % 2 ^ 16 = (h.objects o).flags + 64 :=
        Nat.mod_eq_of_lt hlt
      have hsr : ((h.objects o).flags + 64) >>> FILC_OBJECT_FLAGS_PIN_SHIFT ≠ 0 := by
        unfold FILC_OBJECT_FLAGS_PIN_SHIFT
        rw [Nat.shiftRight_eq_div_pow]
        have : (2:Nat) ^ 6 = 64 := by norm_num
        rw [this]
        omega
      have hpin1 : filc_pin h (some o) = .done ()
          (h.set_object o { h.objects o with flags := (h.objects o).flags + 64 }) := by
        unfold filc_pin
        dsimp only
        rw [if_neg hg, if_neg (not_not.mpr hfree), if_neg (not_not.mpr hrb), hshift, hmod,
          if_neg hsr]
      refine ⟨_, ((h.set_object o
          { h.objects o with flags := (h.objects o).flags + 64 }).set_memory m).set_object o
          { h.objects o with flags := (h.objects o).flags + 64 - 64 }, hpin1, rfl, ?_, rfl, ?_⟩
      · unfold filc_unpin
        dsimp only
        have hfl : (((h.set_object o
            { h.objects o with flags := (h.objects o).flags + 64 }).set_memory m).objects
              o).flags = (h.objects o).flags + 64 := by
          simp [filc_heap.set_memory]
        have hob : ((h.set_object o
            { h.objects o with flags := (h.objects o).flags + 64 }).set_memory m).objects o =
            { h.objects o with flags := (h.objects o).flags + 64 } := by
          simp [filc_heap.set_memory]
        rw [hfl, hob, hshift]
        have e1 : ((h.objects o).flags + 64) &&& FILC_OBJECT_FLAG_GLOBAL =
            (h.objects o).flags &&& FILC_OBJECT_FLAG_GLOBAL := add_64_and _ _ (by decide)
        have e2 : ((h.objects o).flags + 64) &&& FILC_OBJECT_FLAG_FREE =
            (h.objects o).flags &&& FILC_OBJECT_FLAG_FREE := add_64_and _ _ (by decide)
        have e3 : ((h.objects o).flags + 64) &&& FILC_OBJECT_FLAG_RETURN_BUFFER =
            (h.objects o).flags &&& FILC_OBJECT_FLAG_RETURN_BUFFER := add_64_and _ _ (by decide)
        rw [e1, e2, e3, if_neg hg, if_neg (not_not.mpr hfree), if_neg hsr,
          if_neg (not_not.mpr hrb), if_neg (by omega)]
      · intro x
        by_cases hx : x = o
        · subst hx
          simp only [filc_heap.set_object_same, Nat.add_sub_cancel]
        · rw [filc_heap.set_object_other _ _ _ _ hx]
          show (h.set_object o _).objects x = _
          rw [filc_heap.set_object_other _ _ _ _ hx]

theorem filc_low_level_ptr_safe_bzero_with_exit_spec (max_bytes : Nat) (h : filc_heap)
    (o raw_ptr bytes : Nat) (hbytes : bytes % 16 = 0)
    (hfree : (h.objects o).flags &&& FILC_OBJECT_FLAG_FREE = 0)
    (hpin : bytes ≤ max_bytes ∨ (h.objects o).flags &&& FILC_OBJECT_FLAG_GLOBAL ≠ 0 ∨
      ((h.objects o).flags &&& FILC_OBJECT_FLAG_RETURN_BUFFER = 0 ∧
        (h.objects o).flags + 64 < 2 ^ 16)) :
    ∃ h1, filc_low_level_ptr_safe_bzero_with_exit max_bytes h (some o) raw_ptr bytes =
        .done () h1 ∧
      (∀ x, h1.memory x = if raw_ptr ≤ x ∧ x < raw_ptr + bytes then 0 else h.memory x) ∧
      ∀ x, h1.objects x = h.objects x := by
  have hmem : ∀ (m : Nat → Nat) (x : Nat),
      memset m raw_ptr 0 (bytes / FILC_WORD_SIZE * FILC_WORD_SIZE) x =
        if raw_ptr ≤ x ∧ x < raw_ptr + bytes then 0 else m x := by
    intro m x
    unfold memset FILC_WORD_SIZE
    have : bytes / 16 * 16 = bytes := by omega
    rw [this]
  have hbz : ∀ h0 : filc_heap, filc_low_level_ptr_safe_bzero h0 raw_ptr bytes =
      .done () (h0.set_memory
        (memset h0.memory raw_ptr 0 (bytes / FILC_WORD_SIZE * FILC_WORD_SIZE))) := by
    intro h0
    unfold filc_low_level_ptr_safe_bzero
    rw [if_neg (not_not.mpr (by unfold FILC_WORD_SIZE; exact hbytes))]
  unfold filc_low_level_ptr_safe_bzero_with_exit
  by_cases hle : bytes ≤ max_bytes
  · rw [if_pos hle, hbz]
    exact ⟨_, rfl, fun x => hmem _ x, fun _ => rfl⟩
  · rw [if_neg hle]
    have hpin2 := hpin.resolve_left hle
    obtain ⟨h1, h2, hp, hm1, hu, hm2, ho2⟩ := filc_pin_unpin_spec h o
      (memset h.memory raw_ptr 0 (bytes / FILC_WORD_SIZE * FILC_WORD_SIZE)) hfree hpin2
    refine ⟨h2, ?_, ?_, ho2⟩
    · rw [hp]
      simp only [filc_result.and_then]
      rw [hbz h1]
      simp only [filc_result.and_then]
      rw [hm1]
      exact hu
    · intro x
      rw [hm2]
      exact hmem _ x
theorem and_then_done {α β : Type} (a : α) (h : filc_heap)
    (k : α → filc_heap → filc_result β) : (filc_result.done a h).and_then k = k a h := rfl

/-- The success half of the zero memset: `filc_memset(ptr, 0, count)` with
`count ≥ 1` on a writable object that is neither free nor special, with a
word-aligned lower bound and the range in bounds, whose partly covered
words at the two ends of the range are `UNSET` or `INT`, and which can be
pinned when more than `max_bytes` bytes of whole words are cleared.  The
call succeeds; every byte of the range is zero afterwards and no other byte
changed; the partly covered words have tag `INT` and every other tag is
unchanged; the bounds and the flags of the object and all other objects are
unchanged. -/
theorem filc_memset_zero_done (max_bytes : Nat) (h : filc_heap) (ptr : filc_ptr)
    (count o : Nat) (ho : ptr.object = some o) (ha : (h.objects o).addressable)
    (hal : (h.objects o).lower % 16 = 0)
    (hfree : (h.objects o).flags &&& FILC_OBJECT_FLAG_FREE = 0)
    (hspecial : (h.objects o).flags &&& FILC_OBJECT_FLAG_SPECIAL = 0)
    (hro : (h.objects o).flags &&& FILC_OBJECT_FLAG_READONLY = 0)
    (hlo : (h.objects o).lower ≤ ptr.ptr) (hb : 1 ≤ count)
    (hhi : ptr.ptr + count ≤ (h.objects o).upper)
    (hedge : ∀ i, word_partly_covered (h.objects o).lower ptr.ptr count i →
      (h.objects o).word_types i = FILC_WORD_TYPE_UNSET ∨
        (h.objects o).word_types i = FILC_WORD_TYPE_INT)
    (hpin : (ptr.ptr + count) / 16 * 16 - (ptr.ptr + 15) / 16 * 16 ≤ max_bytes ∨
      (h.objects o).flags &&& FILC_OBJECT_FLAG_GLOBAL ≠ 0 ∨
      ((h.objects o).flags &&& FILC_OBJECT_FLAG_RETURN_BUFFER = 0 ∧
        (h.objects o).flags + 64 < 2 ^ 16)) :
    ∃ h1, filc_memset max_bytes h ptr 0 count = .done () h1 ∧
      (∀ x, h1.memory x = if ptr.ptr ≤ x ∧ x < ptr.ptr + count then 0 else h.memory x) ∧
      (∀ x, x ≠ o → h1.objects x = h.objects x) ∧
      (h1.objects o).lower = (h.objects o).lower ∧
      (h1.objects o).upper = (h.objects o).upper ∧
      (h1.objects o).flags = (h.objects o).flags ∧
      ∀ i, (h1.objects o).word_types i =
        if word_partly_covered (h.objects o).lower ptr.ptr count i then FILC_WORD_TYPE_INT
        else (h.objects o).word_types i := by
  have h64 : (2:Nat) ^ 64 = 18446744073709551616 := by norm_num
  have ha1 := ha
  unfold filc_object.addressable at ha1
  have hcommon : filc_check_access_common h ptr count filc_write_access = .done () h := by
    apply filc_check_access_common_eq_done
    rw [filc_check_access_common_succeeded_iff h ptr count o _ ho ha]
    exact ⟨hlo, by omega, hhi, fun hc => hc.2 hro⟩
  have hA : pas_round_up_to_power_of_2 ptr.ptr FILC_WORD_SIZE = (ptr.ptr + 15) / 16 * 16 := by
    unfold pas_round_up_to_power_of_2 FILC_WORD_SIZE
    have : (ptr.ptr + 16 - 1) % 2 ^ 64 = ptr.ptr + 15 := by omega
    rw [this]
  have hB : pas_round_down_to_power_of_2 (ptr.ptr + count) FILC_WORD_SIZE =
      (ptr.ptr + count) / 16 * 16 := rfl
  unfold filc_memset
  rw [if_neg (by omega), hcommon, and_then_done, if_pos rfl]
  dsimp only
  rw [hA, hB]
  by_cases hsmall : (ptr.ptr + 15) / 16 * 16 > ptr.ptr + count ∨
      (ptr.ptr + count) / 16 * 16 < ptr.ptr
  · rw [if_pos hsmall]
    obtain ⟨h2, hc, hm, hx, hl, hu, hf, ht⟩ := check_int_done_spec h ptr count o ho ha hlo hb hhi
      (fun i h1 h2 => hedge i (by unfold word_partly_covered word_fully_covered; omega))
    rw [hc, and_then_done]
    refine ⟨_, rfl, ?_, hx, hl, hu, hf, ?_⟩
    · intro x
      show memset h2.memory ptr.ptr 0 count x = _
      rw [hm]
      rfl
    · intro i
      show (h2.objects o).word_types i = _
      rw [ht i]
      by_cases hi : word_partly_covered (h.objects o).lower ptr.ptr count i
      · rw [if_pos hi, if_pos (by unfold word_partly_covered word_fully_covered at hi; omega)]
      · rw [if_neg hi, if_neg (by unfold word_partly_covered word_fully_covered at hi; omega)]
  · rw [if_neg hsmall]
    -- the bytes below the first whole word
    obtain ⟨h3, e3, hm3, hx3, hl3, hu3, hf3, ht3⟩ : ∃ h3,
        (if (ptr.ptr + 15) / 16 * 16 > ptr.ptr then
          (check_int h ptr ((ptr.ptr + 15) / 16 * 16 - ptr.ptr)).and_then fun x h2 =>
            filc_result.done ()
              (h2.set_memory (memset h2.memory ptr.ptr 0 ((ptr.ptr + 15) / 16 * 16 - ptr.ptr)))
          else filc_result.done () h) = .done () h3 ∧
        (∀ x, h3.memory x =
          if ptr.ptr ≤ x ∧ x < (ptr.ptr + 15) / 16 * 16 then 0 else h.memory x) ∧
        (∀ x, x ≠ o → h3.objects x = h.objects x) ∧
        (h3.objects o).lower = (h.objects o).lower ∧
        (h3.objects o).upper = (h.objects o).upper ∧
        (h3.objects o).flags = (h.objects o).flags ∧
        ∀ i, (h3.objects o).word_types i =
          if (ptr.ptr + 15) / 16 * 16 > ptr.ptr ∧ i = (ptr.ptr - (h.objects o).lower) / 16
            then FILC_WORD_TYPE_INT else (h.objects o).word_types i := by
      by_cases h1 : (ptr.ptr + 15) / 16 * 16 > ptr.ptr
      · rw [if_pos h1]
        obtain ⟨h2, hc, hm, hx, hl, hu, hf, ht⟩ := check_int_done_spec h ptr
          ((ptr.ptr + 15) / 16 * 16 - ptr.ptr) o ho ha hlo (by omega) (by omega)
          (fun i h1 h2 => hedge i (by unfold word_partly_covered word_fully_covered; omega))
        rw [hc, and_then_done]
        refine ⟨_, rfl, ?_, hx, hl, hu, hf, ?_⟩
        · intro x
          show memset h2.memory ptr.ptr 0 ((ptr.ptr + 15) / 16 * 16 - ptr.ptr) x = _
          rw [hm]
          unfold memset
          by_cases hxr : ptr.ptr ≤ x ∧ x < (ptr.ptr + 15) / 16 * 16
          · rw [if_pos hxr, if_pos (by omega)]
          · rw [if_neg hxr, if_neg (by omega)]
        · intro i
          show (h2.objects o).word_types i = _
          rw [ht i]
          split_ifs <;> first | rfl | (exfalso; omega)
      · rw [if_neg h1]
        refine ⟨h, rfl, ?_, fun _ _ => rfl, rfl, rfl, rfl, ?_⟩
        · intro x
          rw [if_neg (by omega)]
        · intro i
          rw [if_neg (fun hc => h1 hc.1)]
    rw [e3, and_then_done]
    rw [check_accessible_eq_done h3 ptr o ho (by rw [hf3]; exact hfree)
      (by rw [hf3]; exact hspecial), and_then_done, ho]
    obtain ⟨h5, e5, hm5, ho5⟩ := filc_low_level_ptr_safe_bzero_with_exit_spec max_bytes h3 o
      ((ptr.ptr + 15) / 16 * 16) ((ptr.ptr + count) / 16 * 16 - (ptr.ptr + 15) / 16 * 16)
      (by omega) (by rw [hf3]; exact hfree) (by rw [hf3]; exact hpin)
    rw [e5, and_then_done]
    by_cases h3c : ptr.ptr + count > (ptr.ptr + count) / 16 * 16
    · rw [if_pos h3c]
      obtain ⟨h6, hc, hm, hx, hl, hu, hf, ht⟩ := check_int_done_spec h5
        (filc_ptr_with_ptr ptr ((ptr.ptr + count) / 16 * 16))
        (ptr.ptr + count - (ptr.ptr + count) / 16 * 16) o ho
        (by unfold filc_object.addressable; rw [ho5, hu3]; exact ha1)
        (by rw [ho5, hl3]; show (h.objects o).lower ≤ (ptr.ptr + count) / 16 * 16; omega)
        (by omega)
        (by rw [ho5, hu3]; show (ptr.ptr + count) / 16 * 16 + _ ≤ _; omega)
        (by
          intro i h1 h2
          rw [ho5, hl3] at h1 h2
          rw [ho5, ht3 i]
          have h1' : ((ptr.ptr + count) / 16 * 16 - (h.objects o).lower) / 16 ≤ i := h1
          have h2' : i ≤ ((ptr.ptr + count) / 16 * 16 - (h.objects o).lower +
            (ptr.ptr + count - (ptr.ptr + count) / 16 * 16) - 1) / 16 := h2
          split_ifs
          · right; rfl
          · exact hedge i (by unfold word_partly_covered word_fully_covered; omega))
      rw [hc, and_then_done]
      rw [ho5, hl3] at ht
      have ht' : ∀ i, (h6.objects o).word_types i =
          if ((ptr.ptr + count) / 16 * 16 - (h.objects o).lower) / 16 ≤ i ∧
              i ≤ ((ptr.ptr + count) / 16 * 16 - (h.objects o).lower +
                (ptr.ptr + count - (ptr.ptr + count) / 16 * 16) - 1) / 16
            then FILC_WORD_TYPE_INT else (h3.objects o).word_types i := ht
      refine ⟨_, rfl, ?_, ?_, ?_, ?_, ?_, ?_⟩
      · intro x
        show memset h6.memory ((ptr.ptr + count) / 16 * 16) 0
          (ptr.ptr + count - (ptr.ptr + count) / 16 * 16) x = _
        rw [hm]
        unfold memset
        by_cases hx1 : (ptr.ptr + count) / 16 * 16 ≤ x ∧
            x < (ptr.ptr + count) / 16 * 16 + (ptr.ptr + count - (ptr.ptr + count) / 16 * 16)
        · rw [if_pos hx1, if_pos (by omega)]
        · rw [if_neg hx1, hm5 x]
          by_cases hx2 : (ptr.ptr + 15) / 16 * 16 ≤ x ∧
              x < (ptr.ptr + 15) / 16 * 16 +
                ((ptr.ptr + count) / 16 * 16 - (ptr.ptr + 15) / 16 * 16)
          · rw [if_pos hx2, if_pos (by omega)]
          · rw [if_neg hx2, hm3 x]
            by_cases hx3 : ptr.ptr ≤ x ∧ x < (ptr.ptr + 15) / 16 * 16
            · rw [if_pos hx3, if_pos (by omega)]
            · rw [if_neg hx3, if_neg (by omega)]
      · intro x hxo
        show h6.objects x = _
        rw [hx x hxo, ho5, hx3 x hxo]
      · show (h6.objects o).lower = _
        rw [hl, ho5, hl3]
      · show (h6.objects o).upper = _
        rw [hu, ho5, hu3]
      · show (h6.objects o).flags = _
        rw [hf, ho5, hf3]
      · intro i
        show (h6.objects o).word_types i = _
        rw [ht' i, ht3 i]
        by_cases hi : word_partly_covered (h.objects o).lower ptr.ptr count i
        · rw [if_pos hi]
          unfold word_partly_covered word_fully_covered at hi
          split_ifs <;> first | rfl | (exfalso; omega)
        · rw [if_neg hi]
          unfold word_partly_covered word_fully_covered at hi
          split_ifs <;> first | rfl | (exfalso; omega)
    · rw [if_neg h3c]
      refine ⟨_, rfl, ?_, ?_, ?_, ?_, ?_, ?_⟩
      · intro x
        rw [hm5 x]
        by_cases hx2 : (ptr.ptr + 15) / 16 * 16 ≤ x ∧
            x < (ptr.ptr + 15) / 16 * 16 +
              ((ptr.ptr + count) / 16 * 16 - (ptr.ptr + 15) / 16 * 16)
        · rw [if_pos hx2, if_pos (by omega)]
        · rw [if_neg hx2, hm3 x]
          by_cases hx3 : ptr.ptr ≤ x ∧ x < (ptr.ptr + 15) / 16 * 16
          · rw [if_pos hx3, if_pos (by omega)]
          · rw [if_neg hx3, if_neg (by omega)]
      · intro x hxo
        rw [ho5, hx3 x hxo]
      · rw [ho5, hl3]
      · rw [ho5, hu3]
      · rw [ho5, hf3]
      · intro i
        rw [ho5, ht3 i]
        by_cases hi : word_partly_covered (h.objects o).lower ptr.ptr count i
        · rw [if_pos hi]
          unfold word_partly_covered word_fully_covered at hi
          split_ifs <;> first | rfl | (exfalso; omega)
        · rw [if_neg hi]
          unfold word_partly_covered word_fully_covered at hi
          split_ifs <;> first | rfl | (exfalso; omega)

/-- Claim C16 as stated fails: a writable object that is neither free nor
special, with 1023 pins, is not cleared by a zero memset of 2048 in-bounds
bytes when at most 1000 bytes may be written between pollchecks: the
memset pins the object first and the pin count overflows. -/
theorem filc_memset_zero_spec_counterexample :
    (pinned_heap.objects 0).flags &&&
        (FILC_OBJECT_FLAG_FREE ||| FILC_OBJECT_FLAG_SPECIAL ||| FILC_OBJECT_FLAG_READONLY) = 0 ∧
      (pinned_heap.objects 0).lower ≤ 4096 ∧ 4096 + 2048 ≤ (pinned_heap.objects 0).upper ∧
      (filc_memset 1000 pinned_heap { object := some 0, ptr := 4096 } 0 2048).succeeded = false ∧
      (filc_memset 1000 pinned_heap { object := some 0, ptr := 4096 } 0 2048).why =
        some .pin_count_overflow := by
  decide

/-! ## The word loop of memmove -/

theorem uint128_is_zero_iff (m : Nat → Nat) (a : Nat) :
    uint128_is_zero (load_uint128 m a) = true ↔ word_is_zero m a :=
  uint128_is_zero_load m a

theorem store_zero_uint128 (m : Nat → Nat) (dst src x : Nat) (hz : word_is_zero m src) :
    store_uint128 m dst (List.replicate 16 0) x =
      if dst ≤ x ∧ x < dst + 16 then m (src + (x - dst)) else m x := by
  unfold store_uint128
  by_cases hx : dst ≤ x ∧ x < dst + 16
  · rw [if_pos hx, if_pos hx, hz (x - dst) (by omega)]
    have hk : x - dst < 16 := by omega
    generalize x - dst = k at hk
    interval_cases k <;> rfl
  · rw [if_neg hx, if_neg hx]

theorem memmove_word_of_ok (h : filc_heap) (dst_object src_object : Nat) (b : Bool)
    (cur_dst cur_src id is : Nat)
    (hok : memmove_word_ok h dst_object src_object b cur_src id is) :
    ∃ h1, memmove_word h dst_object src_object b cur_dst cur_src id is = .done () h1 ∧
      (∀ x, h1.memory x =
        if cur_dst ≤ x ∧ x < cur_dst + 16 then h.memory (cur_src + (x - cur_dst))
        else h.memory x) ∧
      (∀ x, x ≠ dst_object → h1.objects x = h.objects x) ∧
      (h1.objects dst_object).lower = (h.objects dst_object).lower ∧
      (h1.objects dst_object).upper = (h.objects dst_object).upper ∧
      (h1.objects dst_object).flags = (h.objects dst_object).flags ∧
      ∀ i, (h1.objects dst_object).word_types i =
        if i = id then memmove_dst_word_type h dst_object src_object b cur_src id is
        else (h.objects dst_object).word_types i := by
  unfold memmove_word
  have hts : (if b = true then (h.objects src_object).word_types is else FILC_WORD_TYPE_INT) =
      memmove_src_word_type h src_object b is := rfl
  rw [hts]
  dsimp only
  unfold memmove_dst_word_type
  by_cases hz : word_is_zero h.memory cur_src
  · rw [if_pos ((uint128_is_zero_iff _ _).mpr hz)]
    refine ⟨_, rfl, fun x => store_zero_uint128 _ _ _ _ hz, fun _ _ => rfl, rfl, rfl, rfl, ?_⟩
    intro i
    by_cases hi : i = id
    · rw [if_pos hi, if_neg (fun hc => hc.2 hz), hi]
      rfl
    · rw [if_neg hi]
      rfl
  · rw [if_neg (fun hc => hz ((uint128_is_zero_iff _ _).mp hc))]
    rcases hok with hc | ⟨hsrc, hdst⟩
    · exact absurd hc hz
    · have hnu : memmove_src_word_type h src_object b is ≠ FILC_WORD_TYPE_UNSET := by
        rcases hsrc with e | e <;> rw [e] <;> decide
      rw [if_neg hnu, if_neg (not_not.mpr hsrc)]
      by_cases hu : (h.objects dst_object).word_types id = FILC_WORD_TYPE_UNSET
      · rw [if_pos hu]
        refine ⟨_, rfl, fun x => store_load_uint128 _ _ _ _, ?_, ?_, ?_, ?_, ?_⟩
        · intro x hx
          show (h.set_object dst_object _).objects x = _
          rw [filc_heap.set_object_other _ _ _ _ hx]
        · show ((h.set_object dst_object _).objects dst_object).lower = _
          rw [filc_heap.set_object_same]; rfl
        · show ((h.set_object dst_object _).objects dst_object).upper = _
          rw [filc_heap.set_object_same]; rfl
        · show ((h.set_object dst_object _).objects dst_object).flags = _
          rw [filc_heap.set_object_same]; rfl
        · intro i
          show ((h.set_object dst_object _).objects dst_object).word_types i = _
          rw [filc_heap.set_object_same]
          by_cases hi : i = id
          · rw [if_pos hi, if_pos ⟨hu, hz⟩]
            simp [filc_object.set_word_type, hi]
          · rw [if_neg hi]
            simp [filc_object.set_word_type, hi]
      · rw [if_neg hu]
        have heq : memmove_src_word_type h src_object b is =
            (h.objects dst_object).word_types id := by
          rcases hdst with e | e
          · exact absurd e hu
          · exact e.symm
        rw [if_neg (not_not.mpr heq)]
        refine ⟨_, rfl, fun x => store_load_uint128 _ _ _ _, fun _ _ => rfl, rfl, rfl, rfl, ?_⟩
        intro i
        by_cases hi : i = id
        · rw [if_pos hi, if_neg (fun hc => hu hc.1), hi]
          rfl
        · rw [if_neg hi]
          rfl

theorem memmove_loop_spec (dst src : filc_ptr) (dst_object src_object : Nat)
    (b is_up pollchecked : Bool) (pollcheck : Nat → Bool)
    (hdo : dst.object = some dst_object) (hso : src.object = some src_object) :
    ∀ (n : Nat) (da sa di si : Nat → Nat) (cd cs id is : Nat) (h : filc_heap),
      (0 < n → cd = da 0 ∧ cs = sa 0 ∧ id = di 0 ∧ is = si 0) →
      (∀ j, j + 1 < n →
        da (j + 1) = (if is_up then da j + 16 else da j - 16) ∧
        sa (j + 1) = (if is_up then sa j + 16 else sa j - 16) ∧
        di (j + 1) = (if is_up then di j + 1 else di j - 1) ∧
        si (j + 1) = (if is_up then si j + 1 else si j - 1)) →
      (∀ j j', j < n → j' < n → j ≠ j' →
        (da j + 16 ≤ da j' ∨ da j' + 16 ≤ da j) ∧ di j ≠ di j') →
      (∀ j j', j' < j → j < n → da j' + 16 ≤ sa j ∨ sa j + 16 ≤ da j') →
      (∀ j j', j' < j → j < n → b = true → dst_object = src_object → di j' = si j →
        (h.objects dst_object).word_types (di j') ≠ FILC_WORD_TYPE_UNSET) →
      (h.objects dst_object).flags &&& FILC_OBJECT_FLAG_FREE = 0 →
      (h.objects dst_object).flags &&& FILC_OBJECT_FLAG_SPECIAL = 0 →
      (h.objects src_object).flags &&& FILC_OBJECT_FLAG_FREE = 0 →
      (h.objects src_object).flags &&& FILC_OBJECT_FLAG_SPECIAL = 0 →
      (∀ j, j < n → memmove_word_ok h dst_object src_object b (sa j) (di j) (si j)) →
      ∃ h1, memmove_loop dst src dst_object src_object b is_up pollchecked pollcheck
          n cd cs id is h = .done () h1 ∧
        (∀ j, j < n → ∀ t, t < 16 → h1.memory (da j + t) = h.memory (sa j + t)) ∧
        (∀ x, (∀ j, j < n → x < da j ∨ da j + 16 ≤ x) → h1.memory x = h.memory x) ∧
        (∀ x, x ≠ dst_object → h1.objects x = h.objects x) ∧
        (h1.objects dst_object).lower = (h.objects dst_object).lower ∧
        (h1.objects dst_object).upper = (h.objects dst_object).upper ∧
        (h1.objects dst_object).flags = (h.objects dst_object).flags ∧
        (∀ j, j < n → (h1.objects dst_object).word_types (di j) =
          memmove_dst_word_type h dst_object src_object b (sa j) (di j) (si j)) ∧
        (∀ i, (∀ j, j < n → i ≠ di j) →
          (h1.objects dst_object).word_types i = (h.objects dst_object).word_types i) := by
  intro n
  induction n with
  | zero =>
    intro da sa di si cd cs id is h _ _ _ _ _ _ _ _ _ _
    refine ⟨h, rfl, ?_, fun _ _ => rfl, fun _ _ => rfl, rfl, rfl, rfl, ?_, fun _ _ => rfl⟩
    · intro j hj; omega
    · intro j hj; omega
  | succ n ih =>
    intro da sa di si cd cs id is h hcur hstep hdist hclob hH hdf hds hsf hss hok
    obtain ⟨e1, e2, e3, e4⟩ := hcur (Nat.succ_pos n)
    subst e1; subst e2; subst e3; subst e4
    obtain ⟨h1, hw, hm1, hx1, hl1, hu1, hf1, ht1⟩ :=
      memmove_word_of_ok h dst_object src_object b (da 0) (sa 0) (di 0) (si 0)
        (hok 0 (Nat.succ_pos n))
    have hsflags : (h1.objects src_object).flags = (h.objects src_object).flags := by
      by_cases hsd : src_object = dst_object
      · rw [hsd]; exact hf1
      · rw [hx1 src_object hsd]
    -- what the first word leaves of the words still to copy
    have hmemT : ∀ j, 0 < j → j < n + 1 → ∀ t, t < 16 →
        h1.memory (sa j + t) = h.memory (sa j + t) := by
      intro j hj0 hj t ht
      rw [hm1]
      have := hclob j 0 hj0 hj
      rw [if_neg (by omega)]
    have hzT : ∀ j, 0 < j → j < n + 1 →
        (word_is_zero h1.memory (sa j) ↔ word_is_zero h.memory (sa j)) := by
      intro j hj0 hj
      unfold word_is_zero
      constructor
      · intro hz k hk
        rw [← hmemT j hj0 hj k hk]
        exact hz k hk
      · intro hz k hk
        rw [hmemT j hj0 hj k hk]
        exact hz k hk
    have htdT : ∀ j, 0 < j → j < n + 1 →
        (h1.objects dst_object).word_types (di j) =
          (h.objects dst_object).word_types (di j) := by
      intro j hj0 hj
      rw [ht1, if_neg (hdist j 0 hj (Nat.succ_pos n) (by omega)).2]
    have htsT : ∀ j, 0 < j → j < n + 1 →
        memmove_src_word_type h1 src_object b (si j) =
          memmove_src_word_type h src_object b (si j) := by
      intro j hj0 hj
      unfold memmove_src_word_type
      cases b with
      | false => rfl
      | true =>
        simp only [if_true]
        by_cases hsd : src_object = dst_object
        · rw [hsd, ht1]
          by_cases hi : si j = di 0
          · rw [if_pos hi]
            have hne := hH j 0 hj0 hj rfl hsd.symm hi.symm
            unfold memmove_dst_word_type
            rw [if_neg (fun hc => hne hc.1), hi]
          · rw [if_neg hi]
        · rw [hx1 src_object hsd]
    have hokT : ∀ j, 0 < j → j < n + 1 →
        (memmove_word_ok h1 dst_object src_object b (sa j) (di j) (si j) ↔
          memmove_word_ok h dst_object src_object b (sa j) (di j) (si j)) := by
      intro j hj0 hj
      unfold memmove_word_ok
      rw [hzT j hj0 hj, htsT j hj0 hj, htdT j hj0 hj]
    have hdwT : ∀ j, 0 < j → j < n + 1 →
        memmove_dst_word_type h1 dst_object src_object b (sa j) (di j) (si j) =
          memmove_dst_word_type h dst_object src_object b (sa j) (di j) (si j) := by
      intro j hj0 hj
      unfold memmove_dst_word_type
      rw [htsT j hj0 hj, htdT j hj0 hj]
      by_cases hz : word_is_zero h.memory (sa j)
      · rw [if_neg (fun hc => hc.2 ((hzT j hj0 hj).mpr hz)), if_neg (fun hc => hc.2 hz)]
      · by_cases hu : (h.objects dst_object).word_types (di j) = FILC_WORD_TYPE_UNSET
        · rw [if_pos ⟨hu, fun hc => hz ((hzT j hj0 hj).mp hc)⟩, if_pos ⟨hu, hz⟩]
        · rw [if_neg (fun hc => hu hc.1), if_neg (fun hc => hu hc.1)]
    obtain ⟨h2, hl, hmj, hmf, hx2, hl2, hu2, hf2, htj, htf⟩ :=
      ih (fun j => da (j + 1)) (fun j => sa (j + 1)) (fun j => di (j + 1))
        (fun j => si (j + 1))
        (if is_up then da 0 + 16 else da 0 - 16) (if is_up then sa 0 + 16 else sa 0 - 16)
        (if is_up then di 0 + 1 else di 0 - 1) (if is_up then si 0 + 1 else si 0 - 1) h1
        (fun hn => by
          have := hstep 0 (by omega)
          exact ⟨this.1.symm, this.2.1.symm, this.2.2.1.symm, this.2.2.2.symm⟩)
        (fun j hj => hstep (j + 1) (by omega))
        (fun j j' hj hj' hne => hdist (j + 1) (j' + 1) (by omega) (by omega) (by omega))
        (fun j j' hlt hj => hclob (j + 1) (j' + 1) (by omega) (by omega))
        (fun j j' hlt hj hb hsd hi => by
          rw [htdT (j' + 1) (by omega) (by omega)]
          exact hH (j + 1) (j' + 1) (by omega) (by omega) hb hsd hi)
        (by rw [hf1]; exact hdf) (by rw [hf1]; exact hds)
        (by rw [hsflags]; exact hsf) (by rw [hsflags]; exact hss)
        (fun j hj => (hokT (j + 1) (by omega) (by omega)).mpr (hok (j + 1) (by omega)))
    have hloop : memmove_loop dst src dst_object src_object b is_up pollchecked pollcheck
        (n + 1) (da 0) (sa 0) (di 0) (si 0) h = .done () h2 := by
      rw [memmove_loop, hw]
      dsimp only
      by_cases hp : (pollchecked && pollcheck n) = true
      · rw [if_pos hp,
          check_accessible_eq_done h1 dst dst_object hdo (by rw [hf1]; exact hdf)
            (by rw [hf1]; exact hds)]
        dsimp only
        rw [check_accessible_eq_done h1 src src_object hso (by rw [hsflags]; exact hsf)
            (by rw [hsflags]; exact hss)]
        exact hl
      · rw [if_neg hp]
        exact hl
    refine ⟨h2, hloop, ?_, ?_, ?_, ?_, ?_, ?_, ?_, ?_⟩
    · intro j hj t ht
      cases j with
      | zero =>
        rw [hmf (da 0 + t), hm1, if_pos (by omega)]
        · congr 1; omega
        · intro j hj
          have := (hdist 0 (j + 1) (by omega) (by omega) (by omega)).1
          omega
      | succ j =>
        have := hmj j (by omega) t ht
        rw [this, hmemT (j + 1) (by omega) hj t ht]
    · intro x hx
      rw [hmf x (fun j hj => hx (j + 1) (by omega)), hm1]
      have := hx 0 (by omega)
      rw [if_neg (by omega)]
    · intro x hxo
      rw [hx2 x hxo, hx1 x hxo]
    · rw [hl2, hl1]
    · rw [hu2, hu1]
    · rw [hf2, hf1]
    · intro j hj
      cases j with
      | zero =>
        rw [htf (di 0), ht1, if_pos rfl]
        intro j hj
        exact (hdist 0 (j + 1) (by omega) (by omega) (by omega)).2
      | succ j =>
        have := htj j (by omega)
        rw [this, hdwT (j + 1) (by omega) hj]
    · intro i hi
      rw [htf i (fun j hj => hi (j + 1) (by omega)), ht1, if_neg (hi 0 (by omega))]

theorem memmove_word_of_not_ok (h : filc_heap) (dst_object src_object : Nat) (b : Bool)
    (cur_dst cur_src id is : Nat)
    (hnok : ¬ memmove_word_ok h dst_object src_object b cur_src id is)
    (hnospin : ¬ (¬ word_is_zero h.memory cur_src ∧
      memmove_src_word_type h src_object b is = FILC_WORD_TYPE_UNSET)) :
    ∃ e, memmove_word h dst_object src_object b cur_dst cur_src id is = .panic e h ∧
      (e = .cannot_copy_non_int_non_ptr ∨ e = .type_mismatch_while_copying) := by
  unfold memmove_word
  have hts : (if b = true then (h.objects src_object).word_types is else FILC_WORD_TYPE_INT) =
      memmove_src_word_type h src_object b is := rfl
  rw [hts]
  dsimp only
  unfold memmove_word_ok at hnok
  have hz : ¬ word_is_zero h.memory cur_src := fun hc => hnok (Or.inl hc)
  rw [if_neg (fun hc => hz ((uint128_is_zero_iff _ _).mp hc)),
    if_neg (fun hc => hnospin ⟨hz, hc⟩)]
  by_cases hsrc : memmove_src_word_type h src_object b is = FILC_WORD_TYPE_INT ∨
      memmove_src_word_type h src_object b is = FILC_WORD_TYPE_PTR
  · rw [if_neg (not_not.mpr hsrc)]
    have hu : (h.objects dst_object).word_types id ≠ FILC_WORD_TYPE_UNSET :=
      fun hc => hnok (Or.inr ⟨hsrc, Or.inl hc⟩)
    have hne : ¬ memmove_src_word_type h src_object b is =
        (h.objects dst_object).word_types id :=
      fun hc => hnok (Or.inr ⟨hsrc, Or.inr hc.symm⟩)
    rw [if_neg hu, if_pos hne]
    exact ⟨_, rfl, Or.inr rfl⟩
  · rw [if_pos hsrc]
    exact ⟨_, rfl, Or.inl rfl⟩

theorem memmove_word_keeps (h h1 : filc_heap) (dst_object src_object : Nat) (b : Bool)
    (d0 s0 i0 is0 sj dj sij : Nat)
    (hm1 : ∀ x, h1.memory x =
      if d0 ≤ x ∧ x < d0 + 16 then h.memory (s0 + (x - d0)) else h.memory x)
    (hx1 : ∀ x, x ≠ dst_object → h1.objects x = h.objects x)
    (ht1 : ∀ i, (h1.objects dst_object).word_types i =
      if i = i0 then memmove_dst_word_type h dst_object src_object b s0 i0 is0
      else (h.objects dst_object).word_types i)
    (hclob : d0 + 16 ≤ sj ∨ sj + 16 ≤ d0) (hdist : dj ≠ i0)
    (hH : b = true → dst_object = src_object → i0 = sij →
      (h.objects dst_object).word_types i0 ≠ FILC_WORD_TYPE_UNSET) :
    (word_is_zero h1.memory sj ↔ word_is_zero h.memory sj) ∧
      memmove_src_word_type h1 src_object b sij = memmove_src_word_type h src_object b sij ∧
      (h1.objects dst_object).word_types dj = (h.objects dst_object).word_types dj := by
  have hmemT : ∀ t, t < 16 → h1.memory (sj + t) = h.memory (sj + t) := by
    intro t ht
    rw [hm1, if_neg (by omega)]
  refine ⟨?_, ?_, ?_⟩
  · unfold word_is_zero
    constructor
    · intro hz k hk
      rw [← hmemT k hk]
      exact hz k hk
    · intro hz k hk
      rw [hmemT k hk]
      exact hz k hk
  · unfold memmove_src_word_type
    cases b with
    | false => rfl
    | true =>
      simp only [if_true]
      by_cases hsd : src_object = dst_object
      · rw [hsd, ht1]
        by_cases hi : sij = i0
        · rw [if_pos hi]
          have hne := hH rfl hsd.symm hi.symm
          unfold memmove_dst_word_type
          rw [if_neg (fun hc => hne hc.1), hi]
        · rw [if_neg hi]
      · rw [hx1 src_object hsd]
  · rw [ht1, if_neg hdist]

theorem memmove_loop_fails (dst src : filc_ptr) (dst_object src_object : Nat)
    (b is_up pollchecked : Bool) (pollcheck : Nat → Bool)
    (hdo : dst.object = some dst_object) (hso : src.object = some src_object) :
    ∀ (n : Nat) (da sa di si : Nat → Nat) (cd cs id is : Nat) (h : filc_heap),
      (0 < n → cd = da 0 ∧ cs = sa 0 ∧ id = di 0 ∧ is = si 0) →
      (∀ j, j + 1 < n →
        da (j + 1) = (if is_up then da j + 16 else da j - 16) ∧
        sa (j + 1) = (if is_up then sa j + 16 else sa j - 16) ∧
        di (j + 1) = (if is_up then di j + 1 else di j - 1) ∧
        si (j + 1) = (if is_up then si j + 1 else si j - 1)) →
      (∀ j j', j < n → j' < n → j ≠ j' →
        (da j + 16 ≤ da j' ∨ da j' + 16 ≤ da j) ∧ di j ≠ di j') →
      (∀ j j', j' < j → j < n → da j' + 16 ≤ sa j ∨ sa j + 16 ≤ da j') →
      (∀ j j', j' < j → j < n → b = true → dst_object = src_object → di j' = si j →
        (h.objects dst_object).word_types (di j') ≠ FILC_WORD_TYPE_UNSET) →
      (h.objects dst_object).flags &&& FILC_OBJECT_FLAG_FREE = 0 →
      (h.objects dst_object).flags &&& FILC_OBJECT_FLAG_SPECIAL = 0 →
      (h.objects src_object).flags &&& FILC_OBJECT_FLAG_FREE = 0 →
      (h.objects src_object).flags &&& FILC_OBJECT_FLAG_SPECIAL = 0 →
      (∀ j, j < n → ¬ (¬ word_is_zero h.memory (sa j) ∧
        memmove_src_word_type h src_object b (si j) = FILC_WORD_TYPE_UNSET)) →
      (∃ j, j < n ∧ ¬ memmove_word_ok h dst_object src_object b (sa j) (di j) (si j)) →
      ∃ e h1, memmove_loop dst src dst_object src_object b is_up pollchecked pollcheck
          n cd cs id is h = .panic e h1 ∧
        (e = .cannot_copy_non_int_non_ptr ∨ e = .type_mismatch_while_copying) := by
  intro n
  induction n with
  | zero =>
    intro da sa di si cd cs id is h _ _ _ _ _ _ _ _ _ _ hbad
    obtain ⟨j, hj, _⟩ := hbad
    omega
  | succ n ih =>
    intro da sa di si cd cs id is h hcur hstep hdist hclob hH hdf hds hsf hss hnospin hbad
    obtain ⟨e1, e2, e3, e4⟩ := hcur (Nat.succ_pos n)
    subst e1; subst e2; subst e3; subst e4
    by_cases hok0 : memmove_word_ok h dst_object src_object b (sa 0) (di 0) (si 0)
    · obtain ⟨h1, hw, hm1, hx1, hl1, hu1, hf1, ht1⟩ :=
        memmove_word_of_ok h dst_object src_object b (da 0) (sa 0) (di 0) (si 0) hok0
      have hsflags : (h1.objects src_object).flags = (h.objects src_object).flags := by
        by_cases hsd : src_object = dst_object
        · rw [hsd]; exact hf1
        · rw [hx1 src_object hsd]
      have hkeep : ∀ j j', 0 < j → j < n + 1 → 0 < j' → j' < n + 1 →
          (word_is_zero h1.memory (sa j) ↔ word_is_zero h.memory (sa j)) ∧
          memmove_src_word_type h1 src_object b (si j) =
            memmove_src_word_type h src_object b (si j) ∧
          (h1.objects dst_object).word_types (di j') =
            (h.objects dst_object).word_types (di j') := by
        intro j j' hj0 hj hj0' hj'
        exact memmove_word_keeps h h1 dst_object src_object b (da 0) (sa 0) (di 0) (si 0)
          (sa j) (di j') (si j) hm1 hx1 ht1 (hclob j 0 hj0 hj)
          (hdist j' 0 hj' (Nat.succ_pos n) (by omega)).2
          (fun hb hsd hi => hH j 0 hj0 hj hb hsd hi)
      obtain ⟨jb, hjb, hnok⟩ := hbad
      have hjb0 : 0 < jb := by
        rcases Nat.eq_zero_or_pos jb with hz | hp
        · rw [hz] at hnok
          exact absurd hok0 hnok
        · exact hp
      obtain ⟨e, h2, hl, he⟩ :=
        ih (fun j => da (j + 1)) (fun j => sa (j + 1)) (fun j => di (j + 1))
          (fun j => si (j + 1))
          (if is_up then da 0 + 16 else da 0 - 16) (if is_up then sa 0 + 16 else sa 0 - 16)
          (if is_up then di 0 + 1 else di 0 - 1) (if is_up then si 0 + 1 else si 0 - 1) h1
          (fun hn => by
            have := hstep 0 (by omega)
            exact ⟨this.1.symm, this.2.1.symm, this.2.2.1.symm, this.2.2.2.symm⟩)
          (fun j hj => hstep (j + 1) (by omega))
          (fun j j' hj hj' hne => hdist (j + 1) (j' + 1) (by omega) (by omega) (by omega))
          (fun j j' hlt hj => hclob (j + 1) (j' + 1) (by omega) (by omega))
          (fun j j' hlt hj hb hsd hi => by
            rw [(hkeep (j + 1) (j' + 1) (by omega) (by omega) (by omega) (by omega)).2.2]
            exact hH (j + 1) (j' + 1) (by omega) (by omega) hb hsd hi)
          (by rw [hf1]; exact hdf) (by rw [hf1]; exact hds)
          (by rw [hsflags]; exact hsf) (by rw [hsflags]; exact hss)
          (fun j hj => by
            obtain ⟨k1, k2, _⟩ := hkeep (j + 1) (j + 1) (by omega) (by omega) (by omega)
              (by omega)
            dsimp only
            rw [k1, k2]
            exact hnospin (j + 1) (by omega))
          ⟨jb - 1, by omega, by
            obtain ⟨k1, k2, k3⟩ := hkeep jb jb hjb0 hjb hjb0 hjb
            have hjj : jb - 1 + 1 = jb := by omega
            dsimp only
            rw [hjj]
            unfold memmove_word_ok at hnok ⊢
            rw [k1, k2, k3]
            exact hnok⟩
      refine ⟨e, h2, ?_, he⟩
      rw [memmove_loop, hw]
      dsimp only
      by_cases hp : (pollchecked && pollcheck n) = true
      · rw [if_pos hp,
          check_accessible_eq_done h1 dst dst_object hdo (by rw [hf1]; exact hdf)
            (by rw [hf1]; exact hds)]
        dsimp only
        rw [check_accessible_eq_done h1 src src_object hso (by rw [hsflags]; exact hsf)
            (by rw [hsflags]; exact hss)]
        exact hl
      · rw [if_neg hp]
        exact hl
    · obtain ⟨e, hw, he⟩ :=
        memmove_word_of_not_ok h dst_object src_object b (da 0) (sa 0) (di 0) (si 0) hok0
          (hnospin 0 (Nat.succ_pos n))
      refine ⟨e, h, ?_, he⟩
      rw [memmove_loop, hw]

theorem memmove_loop_words (dst src : filc_ptr) (dst_object src_object : Nat)
    (b is_up pollchecked : Bool) (pollcheck : Nat → Bool)
    (hdo : dst.object = some dst_object) (hso : src.object = some src_object)
    (n A S iD iS : Nat) (h : filc_heap)
    (hdir : if is_up then A ≤ S ∨ S + 16 * n ≤ A else S ≤ A ∨ A + 16 * n ≤ S)
    (hH : ∀ k k', k < n → k' < n → (is_up = true → k' < k) → (is_up = false → k < k') →
      b = true → dst_object = src_object → iD + k' = iS + k →
      (h.objects dst_object).word_types (iD + k') ≠ FILC_WORD_TYPE_UNSET)
    (hdf : (h.objects dst_object).flags &&& FILC_OBJECT_FLAG_FREE = 0)
    (hds : (h.objects dst_object).flags &&& FILC_OBJECT_FLAG_SPECIAL = 0)
    (hsf : (h.objects src_object).flags &&& FILC_OBJECT_FLAG_FREE = 0)
    (hss : (h.objects src_object).flags &&& FILC_OBJECT_FLAG_SPECIAL = 0)
    (hok : ∀ k, k < n →
      memmove_word_ok h dst_object src_object b (S + 16 * k) (iD + k) (iS + k)) :
    ∃ h1, memmove_loop dst src dst_object src_object b is_up pollchecked pollcheck n
        (A + 16 * (if is_up then 0 else n - 1)) (S + 16 * (if is_up then 0 else n - 1))
        (iD + (if is_up then 0 else n - 1)) (iS + (if is_up then 0 else n - 1)) h =
          .done () h1 ∧
      (∀ x, h1.memory x =
        if A ≤ x ∧ x < A + 16 * n then h.memory (S + (x - A)) else h.memory x) ∧
      (∀ x, x ≠ dst_object → h1.objects x = h.objects x) ∧
      (h1.objects dst_object).lower = (h.objects dst_object).lower ∧
      (h1.objects dst_object).upper = (h.objects dst_object).upper ∧
      (h1.objects dst_object).flags = (h.objects dst_object).flags ∧
      (∀ k, k < n → (h1.objects dst_object).word_types (iD + k) =
        memmove_dst_word_type h dst_object src_object b (S + 16 * k) (iD + k) (iS + k)) ∧
      (∀ i, (i < iD ∨ iD + n ≤ i) →
        (h1.objects dst_object).word_types i = (h.objects dst_object).word_types i) := by
  cases is_up with
  | true =>
    simp only [if_true] at hdir ⊢
    obtain ⟨h1, hl, hmj, hmf, hx, hlw, hup, hfl, htj, htf⟩ :=
      memmove_loop_spec dst src dst_object src_object b true pollchecked pollcheck hdo hso n
        (fun j => A + 16 * j) (fun j => S + 16 * j) (fun j => iD + j) (fun j => iS + j)
        (A + 16 * 0) (S + 16 * 0) (iD + 0) (iS + 0) h
        (fun _ => ⟨rfl, rfl, rfl, rfl⟩)
        (fun j _ => by simp only [if_true]; exact ⟨by omega, by omega, by omega, by omega⟩)
        (fun j j' _ _ hne => ⟨by dsimp only; omega, by dsimp only; omega⟩)
        (fun j j' hlt hj => by dsimp only; omega)
        (fun j j' hlt hj hb hsd hi =>
          hH j j' hj (by omega) (fun _ => hlt) (fun c => by cases c) hb hsd hi)
        hdf hds hsf hss hok
    refine ⟨h1, hl, ?_, hx, hlw, hup, hfl, htj, ?_⟩
    · intro x
      by_cases hx1 : A ≤ x ∧ x < A + 16 * n
      · rw [if_pos hx1]
        have := hmj ((x - A) / 16) (by omega) ((x - A) % 16) (Nat.mod_lt _ (by norm_num))
        have e1 : A + 16 * ((x - A) / 16) + (x - A) % 16 = x := by omega
        have e2 : S + 16 * ((x - A) / 16) + (x - A) % 16 = S + (x - A) := by omega
        rw [e1, e2] at this
        exact this
      · rw [if_neg hx1]
        apply hmf
        intro j hj
        dsimp only
        omega
    · intro i hi
      apply htf
      intro j hj
      dsimp only
      omega
  | false =>
    simp only [Bool.false_eq_true, if_false] at hdir ⊢
    obtain ⟨h1, hl, hmj, hmf, hx, hlw, hup, hfl, htj, htf⟩ :=
      memmove_loop_spec dst src dst_object src_object b false pollchecked pollcheck hdo hso n
        (fun j => A + 16 * (n - 1 - j)) (fun j => S + 16 * (n - 1 - j))
        (fun j => iD + (n - 1 - j)) (fun j => iS + (n - 1 - j))
        (A + 16 * (n - 1)) (S + 16 * (n - 1)) (iD + (n - 1)) (iS + (n - 1)) h
        (fun _ => ⟨rfl, rfl, rfl, rfl⟩)
        (fun j _ => by
          simp only [Bool.false_eq_true, if_false]
          exact ⟨by omega, by omega, by omega, by omega⟩)
        (fun j j' _ _ hne => ⟨by dsimp only; omega, by dsimp only; omega⟩)
        (fun j j' hlt hj => by dsimp only; omega)
        (fun j j' hlt hj hb hsd hi =>
          hH (n - 1 - j) (n - 1 - j') (by omega) (by omega) (fun c => by cases c)
            (fun _ => by omega) hb hsd hi)
        hdf hds hsf hss (fun j hj => hok (n - 1 - j) (by omega))
    refine ⟨h1, hl, ?_, hx, hlw, hup, hfl, ?_, ?_⟩
    · intro x
      by_cases hx1 : A ≤ x ∧ x < A + 16 * n
      · rw [if_pos hx1]
        have := hmj (n - 1 - (x - A) / 16) (by omega) ((x - A) % 16)
          (Nat.mod_lt _ (by norm_num))
        have e1 : A + 16 * (n - 1 - (n - 1 - (x - A) / 16)) + (x - A) % 16 = x := by omega
        have e2 : S + 16 * (n - 1 - (n - 1 - (x - A) / 16)) + (x - A) % 16 = S + (x - A) := by
          omega
        rw [e1, e2] at this
        exact this
      · rw [if_neg hx1]
        apply hmf
        intro j hj
        dsimp only
        omega
    · intro k hk
      have := htj (n - 1 - k) (by omega)
      have e : n - 1 - (n - 1 - k) = k := by omega
      rw [e] at this
      exact this
    · intro i hi
      apply htf
      intro j hj
      dsimp only
      omega

theorem memmove_loop_words_fail (dst src : filc_ptr) (dst_object src_object : Nat)
    (b is_up pollchecked : Bool) (pollcheck : Nat → Bool)
    (hdo : dst.object = some dst_object) (hso : src.object = some src_object)
    (n A S iD iS : Nat) (h : filc_heap)
    (hdir : if is_up then A ≤ S ∨ S + 16 * n ≤ A else S ≤ A ∨ A + 16 * n ≤ S)
    (hH : ∀ k k', k < n → k' < n → (is_up = true → k' < k) → (is_up = false → k < k') →
      b = true → dst_object = src_object → iD + k' = iS + k →
      (h.objects dst_object).word_types (iD + k') ≠ FILC_WORD_TYPE_UNSET)
    (hdf : (h.objects dst_object).flags &&& FILC_OBJECT_FLAG_FREE = 0)
    (hds : (h.objects dst_object).flags &&& FILC_OBJECT_FLAG_SPECIAL = 0)
    (hsf : (h.objects src_object).flags &&& FILC_OBJECT_FLAG_FREE = 0)
    (hss : (h.objects src_object).flags &&& FILC_OBJECT_FLAG_SPECIAL = 0)
    (hnospin : ∀ k, k < n → ¬ (¬ word_is_zero h.memory (S + 16 * k) ∧
      memmove_src_word_type h src_object b (iS + k) = FILC_WORD_TYPE_UNSET))
    (hbad : ∃ k, k < n ∧
      ¬ memmove_word_ok h dst_object src_object b (S + 16 * k) (iD + k) (iS + k)) :
    ∃ e h1, memmove_loop dst src dst_object src_object b is_up pollchecked pollcheck n
        (A + 16 * (if is_up then 0 else n - 1)) (S + 16 * (if is_up then 0 else n - 1))
        (iD + (if is_up then 0 else n - 1)) (iS + (if is_up then 0 else n - 1)) h =
          .panic e h1 ∧
      (e = .cannot_copy_non_int_non_ptr ∨ e = .type_mismatch_while_copying) := by
  obtain ⟨kb, hkb, hnok⟩ := hbad
  cases is_up with
  | true =>
    simp only [if_true] at hdir ⊢
    exact memmove_loop_fails dst src dst_object src_object b true pollchecked pollcheck hdo hso
      n (fun j => A + 16 * j) (fun j => S + 16 * j) (fun j => iD + j) (fun j => iS + j)
      (A + 16 * 0) (S + 16 * 0) (iD + 0) (iS + 0) h
      (fun _ => ⟨rfl, rfl, rfl, rfl⟩)
      (fun j _ => by simp only [if_true]; exact ⟨by omega, by omega, by omega, by omega⟩)
      (fun j j' _ _ hne => ⟨by dsimp only; omega, by dsimp only; omega⟩)
      (fun j j' hlt hj => by dsimp only; omega)
      (fun j j' hlt hj hb hsd hi =>
          hH j j' hj (by omega) (fun _ => hlt) (fun c => by cases c) hb hsd hi)
      hdf hds hsf hss hnospin ⟨kb, hkb, hnok⟩
  | false =>
    simp only [Bool.false_eq_true, if_false] at hdir ⊢
    exact memmove_loop_fails dst src dst_object src_object b false pollchecked pollcheck hdo
      hso n
      (fun j => A + 16 * (n - 1 - j)) (fun j => S + 16 * (n - 1 - j))
      (fun j => iD + (n - 1 - j)) (fun j => iS + (n - 1 - j))
      (A + 16 * (n - 1)) (S + 16 * (n - 1)) (iD + (n - 1)) (iS + (n - 1)) h
      (fun _ => ⟨rfl, rfl, rfl, rfl⟩)
      (fun j _ => by
        simp only [Bool.false_eq_true, if_false]
        exact ⟨by omega, by omega, by omega, by omega⟩)
      (fun j j' _ _ hne => ⟨by dsimp only; omega, by dsimp only; omega⟩)
      (fun j j' hlt hj => by dsimp only; omega)
      (fun j j' hlt hj hb hsd hi =>
        hH (n - 1 - j) (n - 1 - j') (by omega) (by omega) (fun c => by cases c)
            (fun _ => by omega) hb hsd hi)
      hdf hds hsf hss (fun j hj => hnospin (n - 1 - j) (by omega))
      ⟨n - 1 - kb, by omega, by
        have e : n - 1 - (n - 1 - kb) = kb := by omega
        dsimp only
        rw [e]
        exact hnok⟩

theorem filc_object_ext (a b : filc_object) (hl : a.lower = b.lower) (hu : a.upper = b.upper)
    (hf : a.flags = b.flags) (ht : ∀ i, a.word_types i = b.word_types i) : a = b := by
  cases a
  cases b
  simp only [filc_object.mk.injEq]
  exact ⟨hl, hu, hf, funext ht⟩

/-! ## Copies of int data -/

theorem memmove_int_ready_of_objects (h h1 : filc_heap) (dst src : filc_ptr)
    (count dst_object src_object : Nat)
    (hr : memmove_int_ready h dst src count dst_object src_object)
    (ho : ∀ x, h1.objects x = h.objects x) :
    memmove_int_ready h1 dst src count dst_object src_object := by
  obtain ⟨a1, a2, a3, a4, a5, a6, a7, a8, a9, a10, a11, a12, a13, a14, a15⟩ := hr
  exact ⟨a1, a2, by rw [ho]; exact a3, by rw [ho]; exact a4, by rw [ho]; exact a5,
    by rw [ho]; exact a6, by rw [ho]; exact a7, by rw [ho]; exact a8, a9,
    by rw [ho]; exact a10, by rw [ho]; exact a11, by rw [ho]; exact a12,
    by rw [ho]; exact a13, by rw [ho]; exact a14, by rw [ho]; exact a15⟩

theorem memmove_smidgen_int_lower (h : filc_heap) (dst src : filc_ptr)
    (count dst_object src_object : Nat)
    (hr : memmove_int_ready h dst src count dst_object src_object)
    (hsmall : ¬ ((dst.ptr + 15) / 16 * 16 > dst.ptr + count ∨
      (dst.ptr + count) / 16 * 16 < dst.ptr)) :
    ∃ h1, memmove_smidgen memmove_lower_smidgen h dst src dst.ptr ((dst.ptr + 15) / 16 * 16)
        (dst.ptr + count) ((dst.ptr + count) / 16 * 16) src.ptr = .done () h1 ∧
      (∀ x, h1.objects x = h.objects x) ∧
      ∀ x, h1.memory x =
        if dst.ptr ≤ x ∧ x < (dst.ptr + 15) / 16 * 16
          then h.memory (src.ptr + (x - dst.ptr)) else h.memory x := by
  obtain ⟨a1, a2, a3, a4, a5, a6, a7, a8, a9, a10, a11, a12, a13, a14, a15⟩ := hr
  have a3' := a3
  have a4' := a4
  unfold filc_object.addressable at a3' a4'
  unfold memmove_smidgen
  dsimp only
  by_cases hc : (dst.ptr + 15) / 16 * 16 > dst.ptr
  · rw [if_pos hc,
      check_int_all_int h dst ((dst.ptr + 15) / 16 * 16 - dst.ptr) dst_object a1 a3 a5
        (by omega) (by omega) (fun i h1 h2 => a14 i h1 (by omega)),
      and_then_done,
      check_int_all_int h src ((dst.ptr + 15) / 16 * 16 - dst.ptr) src_object a2 a4 a7
        (by omega) (by omega) (fun i h1 h2 => a15 i h1 (by omega)),
      and_then_done]
    refine ⟨_, rfl, fun _ => rfl, ?_⟩
    intro x
    show memmove h.memory dst.ptr src.ptr ((dst.ptr + 15) / 16 * 16 - dst.ptr) x = _
    unfold memmove
    by_cases hx : dst.ptr ≤ x ∧ x < (dst.ptr + 15) / 16 * 16
    · rw [if_pos hx, if_pos (by omega)]
    · rw [if_neg hx, if_neg (by omega)]
  · rw [if_neg hc]
    refine ⟨_, rfl, fun _ => rfl, ?_⟩
    intro x
    rw [if_neg (by omega)]

theorem memmove_smidgen_int_upper (h : filc_heap) (dst src : filc_ptr)
    (count dst_object src_object : Nat)
    (hr : memmove_int_ready h dst src count dst_object src_object)
    (hsmall : ¬ ((dst.ptr + 15) / 16 * 16 > dst.ptr + count ∨
      (dst.ptr + count) / 16 * 16 < dst.ptr)) :
    ∃ h1, memmove_smidgen memmove_upper_smidgen h dst src dst.ptr ((dst.ptr + 15) / 16 * 16)
        (dst.ptr + count) ((dst.ptr + count) / 16 * 16) src.ptr = .done () h1 ∧
      (∀ x, h1.objects x = h.objects x) ∧
      ∀ x, h1.memory x =
        if (dst.ptr + count) / 16 * 16 ≤ x ∧ x < dst.ptr + count
          then h.memory (src.ptr + (x - dst.ptr)) else h.memory x := by
  obtain ⟨a1, a2, a3, a4, a5, a6, a7, a8, a9, a10, a11, a12, a13, a14, a15⟩ := hr
  have a3' := a3
  have a4' := a4
  unfold filc_object.addressable at a3' a4'
  unfold memmove_smidgen
  dsimp only
  by_cases hc : dst.ptr + count > (dst.ptr + count) / 16 * 16
  · rw [if_pos hc,
      check_int_all_int h (filc_ptr_with_ptr dst ((dst.ptr + count) / 16 * 16))
        (dst.ptr + count - (dst.ptr + count) / 16 * 16) dst_object a1 a3
        (by show (h.objects dst_object).lower ≤ (dst.ptr + count) / 16 * 16; omega)
        (by omega)
        (by show (dst.ptr + count) / 16 * 16 + _ ≤ _; omega)
        (fun i h1 h2 => by
          have h1' : ((dst.ptr + count) / 16 * 16 - (h.objects dst_object).lower) / 16 ≤ i :=
            h1
          have h2' : i ≤ ((dst.ptr + count) / 16 * 16 - (h.objects dst_object).lower +
            (dst.ptr + count - (dst.ptr + count) / 16 * 16) - 1) / 16 := h2
          exact a14 i (by omega) (by omega)),
      and_then_done,
      check_int_all_int h (filc_ptr_with_offset src ((dst.ptr + count) / 16 * 16 - dst.ptr))
        (dst.ptr + count - (dst.ptr + count) / 16 * 16) src_object a2 a4
        (by show (h.objects src_object).lower ≤ src.ptr + _; omega)
        (by omega)
        (by show src.ptr + ((dst.ptr + count) / 16 * 16 - dst.ptr) + _ ≤ _; omega)
        (fun i h1 h2 => by
          have h1' : (src.ptr + ((dst.ptr + count) / 16 * 16 - dst.ptr) -
            (h.objects src_object).lower) / 16 ≤ i := h1
          have h2' : i ≤ (src.ptr + ((dst.ptr + count) / 16 * 16 - dst.ptr) -
            (h.objects src_object).lower +
            (dst.ptr + count - (dst.ptr + count) / 16 * 16) - 1) / 16 := h2
          exact a15 i (by omega) (by omega)),
      and_then_done]
    refine ⟨_, rfl, fun _ => rfl, ?_⟩
    intro x
    show memmove h.memory ((dst.ptr + count) / 16 * 16)
      (src.ptr + ((dst.ptr + count) / 16 * 16 - dst.ptr))
      (dst.ptr + count - (dst.ptr + count) / 16 * 16) x = _
    unfold memmove
    by_cases hx : (dst.ptr + count) / 16 * 16 ≤ x ∧ x < dst.ptr + count
    · rw [if_pos hx, if_pos (by omega)]
      congr 1
      omega
    · rw [if_neg hx, if_neg (by omega)]
  · rw [if_neg hc]
    refine ⟨_, rfl, fun _ => rfl, ?_⟩
    intro x
    rw [if_neg (by omega)]

theorem memmove_compose_up (m m1 m2 m3 : Nat → Nat) (dst src count A B n : Nat)
    (hA : dst ≤ A) (hAB : A + 16 * n = B) (hB : B ≤ dst + count) (hlt : dst < src)
    (h1 : ∀ x, m1 x = if dst ≤ x ∧ x < A then m (src + (x - dst)) else m x)
    (h2 : ∀ x, m2 x =
      if A ≤ x ∧ x < A + 16 * n then m1 (src + (A - dst) + (x - A)) else m1 x)
    (h3 : ∀ x, m3 x = if B ≤ x ∧ x < dst + count then m2 (src + (x - dst)) else m2 x) :
    ∀ x, m3 x = if dst ≤ x ∧ x < dst + count then m (src + (x - dst)) else m x := by
  intro x
  rw [h3]
  by_cases c3 : B ≤ x ∧ x < dst + count
  · rw [if_pos c3, if_pos (by omega), h2, if_neg (by omega), h1, if_neg (by omega)]
  · rw [if_neg c3, h2]
    by_cases c2 : A ≤ x ∧ x < A + 16 * n
    · rw [if_pos c2, if_pos (by omega), h1, if_neg (by omega)]
      congr 1
      omega
    · rw [if_neg c2, h1]
      by_cases c1 : dst ≤ x ∧ x < A
      · rw [if_pos c1, if_pos (by omega)]
      · rw [if_neg c1, if_neg (by omega)]

theorem memmove_compose_down (m m1 m2 m3 : Nat → Nat) (dst src count A B n : Nat)
    (hA : dst ≤ A) (hAB : A + 16 * n = B) (hB : B ≤ dst + count) (hge : src ≤ dst)
    (h1 : ∀ x, m1 x = if B ≤ x ∧ x < dst + count then m (src + (x - dst)) else m x)
    (h2 : ∀ x, m2 x =
      if A ≤ x ∧ x < A + 16 * n then m1 (src + (A - dst) + (x - A)) else m1 x)
    (h3 : ∀ x, m3 x = if dst ≤ x ∧ x < A then m2 (src + (x - dst)) else m2 x) :
    ∀ x, m3 x = if dst ≤ x ∧ x < dst + count then m (src + (x - dst)) else m x := by
  intro x
  rw [h3]
  by_cases c3 : dst ≤ x ∧ x < A
  · rw [if_pos c3, if_pos (by omega), h2, if_neg (by omega), h1, if_neg (by omega)]
  · rw [if_neg c3, h2]
    by_cases c2 : A ≤ x ∧ x < A + 16 * n
    · rw [if_pos c2, if_pos (by omega), h1, if_neg (by omega)]
      congr 1
      omega
    · rw [if_neg c2, h1]
      by_cases c1 : B ≤ x ∧ x < dst + count
      · rw [if_pos c1, if_pos (by omega)]
      · rw [if_neg c1, if_neg (by omega)]

theorem memmove_loop_int (h : filc_heap) (dst src : filc_ptr)
    (count dst_object src_object : Nat) (b is_up pollchecked : Bool) (pollcheck : Nat → Bool)
    (hr : memmove_int_ready h dst src count dst_object src_object)
    (hdir : is_up = decide (dst.ptr < src.ptr)) :
    ∃ h1, memmove_loop dst src dst_object src_object b is_up pollchecked pollcheck
        (((dst.ptr + count) / 16 * 16 - (dst.ptr + 15) / 16 * 16) / 16)
        ((dst.ptr + 15) / 16 * 16 + 16 *
          (if is_up then 0
            else ((dst.ptr + count) / 16 * 16 - (dst.ptr + 15) / 16 * 16) / 16 - 1))
        (src.ptr + ((dst.ptr + 15) / 16 * 16 - dst.ptr) + 16 *
          (if is_up then 0
            else ((dst.ptr + count) / 16 * 16 - (dst.ptr + 15) / 16 * 16) / 16 - 1))
        (((dst.ptr + 15) / 16 * 16 - (h.objects dst_object).lower) / 16 +
          (if is_up then 0
            else ((dst.ptr + count) / 16 * 16 - (dst.ptr + 15) / 16 * 16) / 16 - 1))
        ((src.ptr + ((dst.ptr + 15) / 16 * 16 - dst.ptr) - (h.objects src_object).lower) / 16 +
          (if is_up then 0
            else ((dst.ptr + count) / 16 * 16 - (dst.ptr + 15) / 16 * 16) / 16 - 1))
        h = .done () h1 ∧
      (∀ x, h1.objects x = h.objects x) ∧
      ∀ x, h1.memory x =
        if (dst.ptr + 15) / 16 * 16 ≤ x ∧
            x < (dst.ptr + 15) / 16 * 16 +
              16 * (((dst.ptr + count) / 16 * 16 - (dst.ptr + 15) / 16 * 16) / 16)
          then h.memory (src.ptr + ((dst.ptr + 15) / 16 * 16 - dst.ptr) +
            (x - (dst.ptr + 15) / 16 * 16))
          else h.memory x := by
  obtain ⟨a1, a2, a3, a4, a5, a6, a7, a8, a9, a10, a11, a12, a13, a14, a15⟩ := hr
  have a3' := a3
  have a4' := a4
  unfold filc_object.addressable at a3' a4'
  have hsrc : ∀ k, k < ((dst.ptr + count) / 16 * 16 - (dst.ptr + 15) / 16 * 16) / 16 →
      memmove_src_word_type h src_object b
        ((src.ptr + ((dst.ptr + 15) / 16 * 16 - dst.ptr) - (h.objects src_object).lower) / 16
          + k) = FILC_WORD_TYPE_INT := by
    intro k hk
    unfold memmove_src_word_type
    split_ifs
    · exact a15 _ (by omega) (by omega)
    · rfl
  have hdst : ∀ k, k < ((dst.ptr + count) / 16 * 16 - (dst.ptr + 15) / 16 * 16) / 16 →
      (h.objects dst_object).word_types
        (((dst.ptr + 15) / 16 * 16 - (h.objects dst_object).lower) / 16 + k) =
        FILC_WORD_TYPE_INT := by
    intro k hk
    exact a14 _ (by omega) (by omega)
  obtain ⟨h1, hl, hm, hx, hlw, hup, hfl, htj, htf⟩ :=
    memmove_loop_words dst src dst_object src_object b is_up pollchecked pollcheck a1 a2
      (((dst.ptr + count) / 16 * 16 - (dst.ptr + 15) / 16 * 16) / 16)
      ((dst.ptr + 15) / 16 * 16) (src.ptr + ((dst.ptr + 15) / 16 * 16 - dst.ptr))
      (((dst.ptr + 15) / 16 * 16 - (h.objects dst_object).lower) / 16)
      ((src.ptr + ((dst.ptr + 15) / 16 * 16 - dst.ptr) - (h.objects src_object).lower) / 16)
      h
      (by
        rw [hdir]
        by_cases hlt : dst.ptr < src.ptr
        · simp only [hlt, decide_True, if_true]
          left; omega
        · simp only [hlt, decide_False, Bool.false_eq_true, if_false]
          left; omega)
      (fun k k' hk hk' _ _ _ _ _ => by rw [hdst k' hk']; decide)
      a10 a11 a12 a13
      (fun k hk => Or.inr ⟨Or.inl (hsrc k hk), Or.inr (by rw [hsrc k hk, hdst k hk])⟩)
  refine ⟨h1, hl, ?_, hm⟩
  intro x
  by_cases hxo : x = dst_object
  · rw [hxo]
    apply filc_object_ext _ _ hlw hup hfl
    intro i
    by_cases hi : i < ((dst.ptr + 15) / 16 * 16 - (h.objects dst_object).lower) / 16 ∨
        ((dst.ptr + 15) / 16 * 16 - (h.objects dst_object).lower) / 16 +
          ((dst.ptr + count) / 16 * 16 - (dst.ptr + 15) / 16 * 16) / 16 ≤ i
    · exact htf i hi
    · have hk : i - ((dst.ptr + 15) / 16 * 16 - (h.objects dst_object).lower) / 16 <
          ((dst.ptr + count) / 16 * 16 - (dst.ptr + 15) / 16 * 16) / 16 := by omega
      have hik : ((dst.ptr + 15) / 16 * 16 - (h.objects dst_object).lower) / 16 +
          (i - ((dst.ptr + 15) / 16 * 16 - (h.objects dst_object).lower) / 16) = i := by omega
      have := htj _ hk
      rw [hik] at this
      rw [this]
      unfold memmove_dst_word_type
      have hd := hdst _ hk
      rw [hik] at hd
      rw [if_neg (fun hc => by rw [hd] at hc; exact absurd hc.1 (by decide))]
  · exact hx x hxo

theorem filc_memmove_int_copy (h : filc_heap) (dst src : filc_ptr)
    (count dst_object src_object : Nat) (pollcheck : Nat → Bool)
    (hr : memmove_int_ready h dst src count dst_object src_object)
    (hro : (h.objects dst_object).flags &&& FILC_OBJECT_FLAG_READONLY = 0) :
    ∃ h1, filc_memmove h dst src count pollcheck = .done () h1 ∧
      (∀ x, h1.objects x = h.objects x) ∧
      ∀ x, h1.memory x =
        if dst.ptr ≤ x ∧ x < dst.ptr + count then h.memory (src.ptr + (x - dst.ptr))
        else h.memory x := by
  have h64 : (2:Nat) ^ 64 = 18446744073709551616 := by norm_num
  have hr0 := hr
  obtain ⟨a1, a2, a3, a4, a5, a6, a7, a8, a9, a10, a11, a12, a13, a14, a15⟩ := hr
  have a3' := a3
  have a4' := a4
  unfold filc_object.addressable at a3' a4'
  have hc1 : filc_check_access_common h dst count filc_write_access = .done () h := by
    apply filc_check_access_common_eq_done
    rw [filc_check_access_common_succeeded_iff h dst count dst_object _ a1 a3]
    exact ⟨a5, by omega, a6, fun hc => hc.2 hro⟩
  have hc2 : filc_check_access_common h src count filc_read_access = .done () h := by
    apply filc_check_access_common_eq_done
    rw [filc_check_access_common_succeeded_iff h src count src_object _ a2 a4]
    exact ⟨a7, by omega, a8, fun hc => by cases hc.1⟩
  have hA : pas_round_up_to_power_of_2 dst.ptr FILC_WORD_SIZE = (dst.ptr + 15) / 16 * 16 := by
    unfold pas_round_up_to_power_of_2 FILC_WORD_SIZE
    have : (dst.ptr + 16 - 1) % 2 ^ 64 = dst.ptr + 15 := by omega
    rw [this]
  have hB : pas_round_down_to_power_of_2 (dst.ptr + count) FILC_WORD_SIZE =
      (dst.ptr + count) / 16 * 16 := rfl
  unfold filc_memmove
  rw [if_neg (by omega), hc1, and_then_done, hc2, and_then_done]
  unfold memmove_impl
  dsimp only
  rw [hA, hB]
  by_cases hsmall : (dst.ptr + 15) / 16 * 16 > dst.ptr + count ∨
      (dst.ptr + count) / 16 * 16 < dst.ptr
  · rw [if_pos hsmall, check_int_all_int h dst count dst_object a1 a3 a5 a9 a6 a14,
      and_then_done, check_int_all_int h src count src_object a2 a4 a7 a9 a8 a15,
      and_then_done]
    exact ⟨_, rfl, fun _ => rfl, fun _ => rfl⟩
  · rw [if_neg hsmall, a1, a2]
    dsimp only
    unfold FILC_WORD_SIZE
    have hmid : ∀ h2 : filc_heap, (∀ x, h2.objects x = h.objects x) →
        (if decide (dst.ptr % 16 = src.ptr % 16) = true then check_accessible h2 src
          else check_int h2 src count) = .done () h2 := by
      intro h2 ho2
      have hr2 := memmove_int_ready_of_objects h h2 dst src count dst_object src_object hr0 ho2
      split_ifs
      · exact check_accessible_eq_done h2 src src_object a2 hr2.src_free hr2.src_special
      · exact check_int_all_int h2 src count src_object a2 hr2.src_addressable hr2.src_lower
          a9 hr2.src_upper hr2.src_int
    by_cases hup : dst.ptr < src.ptr
    · have hd : decide (dst.ptr < src.ptr) = true := by simp [hup]
      rw [hd]
      simp only [if_true]
      obtain ⟨h1, e1, ho1, hm1⟩ :=
        memmove_smidgen_int_lower h dst src count dst_object src_object hr0 hsmall
      have hr1 := memmove_int_ready_of_objects h h1 dst src count dst_object src_object hr0 ho1
      rw [e1, and_then_done,
        check_accessible_eq_done h1 dst dst_object a1 hr1.dst_free hr1.dst_special,
        and_then_done, hmid h1 ho1, and_then_done]
      obtain ⟨h4, e4, ho4, hm4⟩ := memmove_loop_int h1 dst src count dst_object src_object
        (decide (dst.ptr % 16 = src.ptr % 16)) true true pollcheck hr1 hd.symm
      simp only [if_true] at e4
      rw [e4, and_then_done]
      have ho4' : ∀ x, h4.objects x = h.objects x := fun x => by rw [ho4, ho1]
      have hr4 := memmove_int_ready_of_objects h h4 dst src count dst_object src_object hr0
        ho4'
      obtain ⟨h5, e5, ho5, hm5⟩ :=
        memmove_smidgen_int_upper h4 dst src count dst_object src_object hr4 hsmall
      refine ⟨h5, e5, fun x => by rw [ho5, ho4'], ?_⟩
      exact memmove_compose_up h.memory h1.memory h4.memory h5.memory dst.ptr src.ptr count
        ((dst.ptr + 15) / 16 * 16) ((dst.ptr + count) / 16 * 16)
        (((dst.ptr + count) / 16 * 16 - (dst.ptr + 15) / 16 * 16) / 16)
        (by omega) (by omega) (by omega) hup hm1 hm4 hm5
    · have hd : decide (dst.ptr < src.ptr) = false := by simp [hup]
      rw [hd]
      simp only [Bool.false_eq_true, if_false]
      obtain ⟨h1, e1, ho1, hm1⟩ :=
        memmove_smidgen_int_upper h dst src count dst_object src_object hr0 hsmall
      have hr1 := memmove_int_ready_of_objects h h1 dst src count dst_object src_object hr0 ho1
      rw [e1, and_then_done,
        check_accessible_eq_done h1 dst dst_object a1 hr1.dst_free hr1.dst_special,
        and_then_done, hmid h1 ho1, and_then_done]
      obtain ⟨h4, e4, ho4, hm4⟩ := memmove_loop_int h1 dst src count dst_object src_object
        (decide (dst.ptr % 16 = src.ptr % 16)) false true pollcheck hr1 hd.symm
      simp only [Bool.false_eq_true, if_false] at e4
      rw [e4, and_then_done]
      have ho4' : ∀ x, h4.objects x = h.objects x := fun x => by rw [ho4, ho1]
      have hr4 := memmove_int_ready_of_objects h h4 dst src count dst_object src_object hr0
        ho4'
      obtain ⟨h5, e5, ho5, hm5⟩ :=
        memmove_smidgen_int_lower h4 dst src count dst_object src_object hr4 hsmall
      refine ⟨h5, e5, fun x => by rw [ho5, ho4'], ?_⟩
      exact memmove_compose_down h.memory h1.memory h4.memory h5.memory dst.ptr src.ptr count
        ((dst.ptr + 15) / 16 * 16) ((dst.ptr + count) / 16 * 16)
        (((dst.ptr + count) / 16 * 16 - (dst.ptr + 15) / 16 * 16) / 16)
        (by omega) (by omega) (by omega) (by omega) hm1 hm4 hm5

/-! ## Copies between ranges of equal alignment -/

theorem memmove_edge_spec (h : filc_heap) (dp sp : filc_ptr) (len D S dst_object src_object : Nat)
    (hdo : dp.object = some dst_object) (hso : sp.object = some src_object)
    (had : (h.objects dst_object).addressable) (has : (h.objects src_object).addressable)
    (hdl : (h.objects dst_object).lower ≤ dp.ptr)
    (hdu : dp.ptr + len ≤ (h.objects dst_object).upper)
    (hsl : (h.objects src_object).lower ≤ sp.ptr)
    (hsu : sp.ptr + len ≤ (h.objects src_object).upper)
    (hlen : 1 ≤ len)
    (hdw : (dp.ptr - (h.objects dst_object).lower + len - 1) / 16 =
      (dp.ptr - (h.objects dst_object).lower) / 16)
    (hsw : (sp.ptr - (h.objects src_object).lower + len - 1) / 16 =
      (sp.ptr - (h.objects src_object).lower) / 16)
    (hdt : (h.objects dst_object).word_types ((dp.ptr - (h.objects dst_object).lower) / 16) =
        FILC_WORD_TYPE_UNSET ∨
      (h.objects dst_object).word_types ((dp.ptr - (h.objects dst_object).lower) / 16) =
        FILC_WORD_TYPE_INT)
    (hst : (h.objects src_object).word_types ((sp.ptr - (h.objects src_object).lower) / 16) =
        FILC_WORD_TYPE_UNSET ∨
      (h.objects src_object).word_types ((sp.ptr - (h.objects src_object).lower) / 16) =
        FILC_WORD_TYPE_INT) :
    ∃ h1, ((check_int h dp len).and_then fun _ h1 =>
        (check_int h1 sp len).and_then fun _ h2 =>
          filc_result.done () (h2.set_memory (memmove h2.memory D S len))) = .done () h1 ∧
      h1.memory = memmove h.memory D S len ∧
      (∀ x, (h1.objects x).lower = (h.objects x).lower ∧
        (h1.objects x).upper = (h.objects x).upper ∧
        (h1.objects x).flags = (h.objects x).flags) ∧
      ∀ x i, (h1.objects x).word_types i =
        if (x = dst_object ∧ i = (dp.ptr - (h.objects dst_object).lower) / 16) ∨
            (x = src_object ∧ i = (sp.ptr - (h.objects src_object).lower) / 16)
          then FILC_WORD_TYPE_INT else (h.objects x).word_types i := by
  obtain ⟨h1, e1, hm1, hx1, hl1, hu1, hf1, ht1⟩ := check_int_done_spec h dp len dst_object hdo
    had hdl hlen hdu (fun i c1 c2 => by
      have : i = (dp.ptr - (h.objects dst_object).lower) / 16 := by omega
      rw [this]; exact hdt)
  have hobj1 : ∀ x, (h1.objects x).lower = (h.objects x).lower ∧
      (h1.objects x).upper = (h.objects x).upper ∧
      (h1.objects x).flags = (h.objects x).flags := by
    intro x
    by_cases hx : x = dst_object
    · rw [hx]; exact ⟨hl1, hu1, hf1⟩
    · rw [hx1 x hx]; exact ⟨rfl, rfl, rfl⟩
  have htag1 : ∀ x i, (h1.objects x).word_types i =
      if x = dst_object ∧ i = (dp.ptr - (h.objects dst_object).lower) / 16
        then FILC_WORD_TYPE_INT else (h.objects x).word_types i := by
    intro x i
    by_cases hx : x = dst_object
    · rw [hx, ht1 i]
      by_cases hi : i = (dp.ptr - (h.objects dst_object).lower) / 16
      · rw [if_pos (by omega), if_pos ⟨rfl, hi⟩]
      · rw [if_neg (by omega), if_neg (fun hc => hi hc.2)]
    · rw [hx1 x hx, if_neg (fun hc => hx hc.1)]
  obtain ⟨h2, e2, hm2, hx2, hl2, hu2, hf2, ht2⟩ := check_int_done_spec h1 sp len src_object hso
    (by unfold filc_object.addressable; rw [(hobj1 src_object).2.1]; exact has)
    (by rw [(hobj1 src_object).1]; exact hsl) hlen
    (by rw [(hobj1 src_object).2.1]; exact hsu)
    (fun i c1 c2 => by
      rw [(hobj1 src_object).1] at c1 c2
      have : i = (sp.ptr - (h.objects src_object).lower) / 16 := by omega
      rw [this, htag1]
      split_ifs
      · right; rfl
      · exact hst)
  rw [(hobj1 src_object).1] at ht2
  refine ⟨_, by rw [e1, and_then_done, e2, and_then_done], ?_, ?_, ?_⟩
  · show memmove h2.memory D S len = _
    rw [hm2, hm1]
  · intro x
    show (h2.objects x).lower = _ ∧ (h2.objects x).upper = _ ∧ (h2.objects x).flags = _
    by_cases hx : x = src_object
    · rw [hx, hl2, hu2, hf2]; exact hobj1 src_object
    · rw [hx2 x hx]; exact hobj1 x
  · intro x i
    show (h2.objects x).word_types i = _
    by_cases hx : x = src_object
    · rw [hx, ht2 i, htag1]
      by_cases hi : i = (sp.ptr - (h.objects src_object).lower) / 16
      · rw [if_pos (by omega), if_pos (Or.inr ⟨rfl, hi⟩)]
      · rw [if_neg (by omega)]
        by_cases hd : src_object = dst_object ∧
            i = (dp.ptr - (h.objects dst_object).lower) / 16
        · rw [if_pos hd, if_pos (Or.inl hd)]
        · rw [if_neg hd, if_neg (fun hc => by
            rcases hc with hc | hc
            · exact hd hc
            · exact hi hc.2)]
    · rw [hx2 x hx, htag1]
      by_cases hd : x = dst_object ∧ i = (dp.ptr - (h.objects dst_object).lower) / 16
      · rw [if_pos hd, if_pos (Or.inl hd)]
      · rw [if_neg hd, if_neg (fun hc => by
          rcases hc with hc | hc
          · exact hd hc
          · exact hx hc.1)]

theorem memmove_smidgen_spec (part : memmove_smidgen_part) (h : filc_heap) (dst src : filc_ptr)
    (count dst_object src_object : Nat)
    (hdo : dst.object = some dst_object) (hso : src.object = some src_object)
    (had : (h.objects dst_object).addressable) (has : (h.objects src_object).addressable)
    (hld : (h.objects dst_object).lower % 16 = 0) (hls : (h.objects src_object).lower % 16 = 0)
    (hdl : (h.objects dst_object).lower ≤ dst.ptr)
    (hdu : dst.ptr + count ≤ (h.objects dst_object).upper)
    (hsl : (h.objects src_object).lower ≤ src.ptr)
    (hsu : src.ptr + count ≤ (h.objects src_object).upper)
    (halign : dst.ptr % 16 = src.ptr % 16)
    (hsmall : ¬ ((dst.ptr + 15) / 16 * 16 > dst.ptr + count ∨
      (dst.ptr + count) / 16 * 16 < dst.ptr))
    (hdt : memmove_edge_nonempty part dst.ptr count →
      (h.objects dst_object).word_types
          (memmove_edge_dst_word part (h.objects dst_object).lower dst.ptr count) =
        FILC_WORD_TYPE_UNSET ∨
      (h.objects dst_object).word_types
          (memmove_edge_dst_word part (h.objects dst_object).lower dst.ptr count) =
        FILC_WORD_TYPE_INT)
    (hst : memmove_edge_nonempty part dst.ptr count →
      (h.objects src_object).word_types
          (memmove_edge_src_word part (h.objects src_object).lower dst.ptr src.ptr count) =
        FILC_WORD_TYPE_UNSET ∨
      (h.objects src_object).word_types
          (memmove_edge_src_word part (h.objects src_object).lower dst.ptr src.ptr count) =
        FILC_WORD_TYPE_INT) :
    ∃ h1, memmove_smidgen part h dst src dst.ptr ((dst.ptr + 15) / 16 * 16) (dst.ptr + count)
        ((dst.ptr + count) / 16 * 16) src.ptr = .done () h1 ∧
      (∀ x, h1.memory x =
        if memmove_edge_covers part dst.ptr count x then h.memory (src.ptr + (x - dst.ptr))
        else h.memory x) ∧
      (∀ x, (h1.objects x).lower = (h.objects x).lower ∧
        (h1.objects x).upper = (h.objects x).upper ∧
        (h1.objects x).flags = (h.objects x).flags) ∧
      ∀ x i, (h1.objects x).word_types i =
        if memmove_edge_nonempty part dst.ptr count ∧
            ((x = dst_object ∧
                i = memmove_edge_dst_word part (h.objects dst_object).lower dst.ptr count) ∨
              (x = src_object ∧
                i = memmove_edge_src_word part (h.objects src_object).lower dst.ptr src.ptr
                  count))
          then FILC_WORD_TYPE_INT else (h.objects x).word_types i := by
  have had' := had
  have has' := has
  unfold filc_object.addressable at had' has'
  cases part with
  | memmove_lower_smidgen =>
    unfold memmove_edge_nonempty memmove_edge_dst_word memmove_edge_src_word at *
    unfold memmove_edge_covers
    dsimp only at hdt hst ⊢
    unfold memmove_smidgen
    dsimp only
    by_cases hc : (dst.ptr + 15) / 16 * 16 > dst.ptr
    · rw [if_pos hc]
      obtain ⟨h1, e1, hm1, ho1, ht1⟩ := memmove_edge_spec h dst src
        ((dst.ptr + 15) / 16 * 16 - dst.ptr) dst.ptr src.ptr dst_object src_object hdo hso
        had has hdl (by omega) hsl (by omega) (by omega) (by omega) (by omega) (hdt hc)
        (hst hc)
      refine ⟨h1, e1, ?_, ho1, ?_⟩
      · intro x
        rw [hm1]
        unfold memmove
        by_cases hx : dst.ptr ≤ x ∧ x < (dst.ptr + 15) / 16 * 16
        · rw [if_pos hx, if_pos (by omega)]
        · rw [if_neg hx, if_neg (by omega)]
      · intro x i
        rw [ht1 x i]
        by_cases hp : (x = dst_object ∧ i = (dst.ptr - (h.objects dst_object).lower) / 16) ∨
            (x = src_object ∧ i = (src.ptr - (h.objects src_object).lower) / 16)
        · rw [if_pos hp, if_pos ⟨hc, hp⟩]
        · rw [if_neg hp, if_neg (fun hq => hp hq.2)]
    · rw [if_neg hc]
      refine ⟨h, rfl, ?_, fun _ => ⟨rfl, rfl, rfl⟩, ?_⟩
      · intro x
        rw [if_neg (by omega)]
      · intro x i
        rw [if_neg (fun hq => hc hq.1)]
  | memmove_upper_smidgen =>
    unfold memmove_edge_nonempty memmove_edge_dst_word memmove_edge_src_word at *
    unfold memmove_edge_covers
    dsimp only at hdt hst ⊢
    unfold memmove_smidgen
    dsimp only
    by_cases hc : dst.ptr + count > (dst.ptr + count) / 16 * 16
    · rw [if_pos hc]
      obtain ⟨h1, e1, hm1, ho1, ht1⟩ := memmove_edge_spec h
        (filc_ptr_with_ptr dst ((dst.ptr + count) / 16 * 16))
        (filc_ptr_with_offset src ((dst.ptr + count) / 16 * 16 - dst.ptr))
        (dst.ptr + count - (dst.ptr + count) / 16 * 16) ((dst.ptr + count) / 16 * 16)
        (src.ptr + ((dst.ptr + count) / 16 * 16 - dst.ptr)) dst_object src_object hdo hso
        had has
        (by show (h.objects dst_object).lower ≤ (dst.ptr + count) / 16 * 16; omega)
        (by show (dst.ptr + count) / 16 * 16 + _ ≤ _; omega)
        (by show (h.objects src_object).lower ≤ src.ptr + _; omega)
        (by show src.ptr + ((dst.ptr + count) / 16 * 16 - dst.ptr) + _ ≤ _; omega)
        (by omega)
        (by show ((dst.ptr + count) / 16 * 16 - (h.objects dst_object).lower +
            (dst.ptr + count - (dst.ptr + count) / 16 * 16) - 1) / 16 =
            ((dst.ptr + count) / 16 * 16 - (h.objects dst_object).lower) / 16; omega)
        (by show (src.ptr + ((dst.ptr + count) / 16 * 16 - dst.ptr) -
              (h.objects src_object).lower +
            (dst.ptr + count - (dst.ptr + count) / 16 * 16) - 1) / 16 =
            (src.ptr + ((dst.ptr + count) / 16 * 16 - dst.ptr) -
              (h.objects src_object).lower) / 16; omega)
        (hdt hc) (hst hc)
      refine ⟨h1, e1, ?_, ho1, ?_⟩
      · intro x
        rw [hm1]
        unfold memmove
        by_cases hx : (dst.ptr + count) / 16 * 16 ≤ x ∧ x < dst.ptr + count
        · rw [if_pos hx, if_pos (by omega)]
          congr 1
          omega
        · rw [if_neg hx, if_neg (by omega)]
      · intro x i
        have ht1' : (h1.objects x).word_types i =
            if (x = dst_object ∧
                  i = ((dst.ptr + count) / 16 * 16 - (h.objects dst_object).lower) / 16) ∨
                (x = src_object ∧
                  i = (src.ptr + ((dst.ptr + count) / 16 * 16 - dst.ptr) -
                    (h.objects src_object).lower) / 16)
              then FILC_WORD_TYPE_INT else (h.objects x).word_types i := ht1 x i
        rw [ht1']
        by_cases hp : (x = dst_object ∧
              i = ((dst.ptr + count) / 16 * 16 - (h.objects dst_object).lower) / 16) ∨
            (x = src_object ∧
              i = (src.ptr + ((dst.ptr + count) / 16 * 16 - dst.ptr) -
                (h.objects src_object).lower) / 16)
        · rw [if_pos hp, if_pos ⟨hc, hp⟩]
        · rw [if_neg hp, if_neg (fun hq => hp hq.2)]
    · rw [if_neg hc]
      refine ⟨h, rfl, ?_, fun _ => ⟨rfl, rfl, rfl⟩, ?_⟩
      · intro x
        rw [if_neg (by omega)]
      · intro x i
        rw [if_neg (fun hq => hc hq.1)]

theorem memmove_edge_dst_partly (part : memmove_smidgen_part) (lower d c : Nat)
    (hl : lower % 16 = 0) (hd : lower ≤ d) (hc : 1 ≤ c)
    (hsmall : ¬ ((d + 15) / 16 * 16 > d + c ∨ (d + c) / 16 * 16 < d))
    (hne : memmove_edge_nonempty part d c) :
    word_partly_covered lower d c (memmove_edge_dst_word part lower d c) := by
  cases part <;>
    (unfold memmove_edge_nonempty at hne
     unfold memmove_edge_dst_word word_partly_covered word_fully_covered
     dsimp only at hne ⊢
     omega)

theorem memmove_edge_src_partly (part : memmove_smidgen_part) (lower d s c : Nat)
    (hl : lower % 16 = 0) (hs : lower ≤ s) (hc : 1 ≤ c) (hal : d % 16 = s % 16)
    (hsmall : ¬ ((d + 15) / 16 * 16 > d + c ∨ (d + c) / 16 * 16 < d))
    (hne : memmove_edge_nonempty part d c) :
    word_partly_covered lower s c (memmove_edge_src_word part lower d s c) := by
  cases part <;>
    (unfold memmove_edge_nonempty at hne
     unfold memmove_edge_src_word word_partly_covered word_fully_covered
     dsimp only at hne ⊢
     omega)

theorem memmove_first_edge_keeps (h h1 : filc_heap) (dst src : filc_ptr)
    (count dst_object src_object : Nat) (u : Bool) (p1 p2 : memmove_smidgen_part)
    (hr : memmove_aligned_ready h dst src count dst_object src_object)
    (hparts : (u = true ∧ p1 = memmove_lower_smidgen ∧ p2 = memmove_upper_smidgen ∧
        dst.ptr < src.ptr) ∨
      (u = false ∧ p1 = memmove_upper_smidgen ∧ p2 = memmove_lower_smidgen ∧
        src.ptr ≤ dst.ptr))
    (hsmall : ¬ ((dst.ptr + 15) / 16 * 16 > dst.ptr + count ∨
      (dst.ptr + count) / 16 * 16 < dst.ptr))
    (hm1 : ∀ x, h1.memory x =
      if memmove_edge_covers p1 dst.ptr count x then h.memory (src.ptr + (x - dst.ptr))
      else h.memory x)
    (ht1 : ∀ x i, (h1.objects x).word_types i =
      if memmove_edge_nonempty p1 dst.ptr count ∧
          ((x = dst_object ∧
              i = memmove_edge_dst_word p1 (h.objects dst_object).lower dst.ptr count) ∨
            (x = src_object ∧
              i = memmove_edge_src_word p1 (h.objects src_object).lower dst.ptr src.ptr
                count))
        then FILC_WORD_TYPE_INT else (h.objects x).word_types i)
    (k : Nat) (hk : k < ((dst.ptr + count) / 16 * 16 - (dst.ptr + 15) / 16 * 16) / 16) :
    (word_is_zero h1.memory (src.ptr + ((dst.ptr + 15) / 16 * 16 - dst.ptr) + 16 * k) ↔
      word_is_zero h.memory (src.ptr + ((dst.ptr + 15) / 16 * 16 - dst.ptr) + 16 * k)) ∧
    memmove_src_word_type h1 src_object true
        ((src.ptr + ((dst.ptr + 15) / 16 * 16 - dst.ptr) - (h.objects src_object).lower) / 16
          + k) =
      memmove_src_word_type h src_object true
        ((src.ptr + ((dst.ptr + 15) / 16 * 16 - dst.ptr) - (h.objects src_object).lower) / 16
          + k) ∧
    (h1.objects dst_object).word_types
        (((dst.ptr + 15) / 16 * 16 - (h.objects dst_object).lower) / 16 + k) =
      (h.objects dst_object).word_types
        (((dst.ptr + 15) / 16 * 16 - (h.objects dst_object).lower) / 16 + k) := by
  obtain ⟨a1, a2, a3, a4, ald, als, a5, a6, a7, a8, a9, a10, a11, aro, a12, a13, aal, aap,
    aed, aes⟩ := hr
  have a3' := a3
  have a4' := a4
  unfold filc_object.addressable at a3' a4'
  have hmem : ∀ t, t < 16 →
      h1.memory (src.ptr + ((dst.ptr + 15) / 16 * 16 - dst.ptr) + 16 * k + t) =
        h.memory (src.ptr + ((dst.ptr + 15) / 16 * 16 - dst.ptr) + 16 * k + t) := by
    intro t ht
    rw [hm1, if_neg]
    rcases hparts with ⟨_, hp, _, hlt⟩ | ⟨_, hp, _, hlt⟩
    · rw [hp]; unfold memmove_edge_covers; dsimp only; omega
    · rw [hp]; unfold memmove_edge_covers; dsimp only; omega
  refine ⟨?_, ?_, ?_⟩
  · unfold word_is_zero
    constructor
    · intro hz t ht
      rw [← hmem t ht]
      exact hz t ht
    · intro hz t ht
      rw [hmem t ht]
      exact hz t ht
  · unfold memmove_src_word_type
    simp only [if_true]
    rw [ht1, if_neg]
    intro hc
    obtain ⟨hne, hc⟩ := hc
    rcases hparts with ⟨_, hp, _, hlt⟩ | ⟨_, hp, _, hlt⟩
    · rw [hp] at hc hne
      unfold memmove_edge_dst_word memmove_edge_src_word at hc
      unfold memmove_edge_nonempty at hne
      dsimp only at hc hne
      rcases hc with ⟨hso, hi⟩ | ⟨_, hi⟩
      · rw [hso] at hi als a7
        omega
      · omega
    · rw [hp] at hc hne
      unfold memmove_edge_dst_word memmove_edge_src_word at hc
      unfold memmove_edge_nonempty at hne
      dsimp only at hc hne
      rcases hc with ⟨hso, hi⟩ | ⟨_, hi⟩
      · rw [hso] at hi als a7
        omega
      · omega
  · rw [ht1, if_neg]
    intro hc
    obtain ⟨hne, hc⟩ := hc
    rcases hparts with ⟨_, hp, _, hlt⟩ | ⟨_, hp, _, hlt⟩
    · rw [hp] at hc hne
      unfold memmove_edge_dst_word memmove_edge_src_word at hc
      unfold memmove_edge_nonempty at hne
      dsimp only at hc hne
      rcases hc with ⟨_, hi⟩ | ⟨hso, hi⟩
      · omega
      · have hfc : word_fully_covered (h.objects dst_object).lower dst.ptr count
            (((dst.ptr + 15) / 16 * 16 - (h.objects dst_object).lower) / 16 + k) := by
          unfold word_fully_covered
          omega
        have hq := memmove_edge_src_partly memmove_lower_smidgen (h.objects src_object).lower dst.ptr src.ptr
          count als a7 a9 aal hsmall hne
        unfold memmove_edge_src_word at hq
        dsimp only at hq
        rw [← hi] at hq
        exact aap hso _ hq hfc
    · rw [hp] at hc hne
      unfold memmove_edge_dst_word memmove_edge_src_word at hc
      unfold memmove_edge_nonempty at hne
      dsimp only at hc hne
      rcases hc with ⟨_, hi⟩ | ⟨hso, hi⟩
      · omega
      · have hfc : word_fully_covered (h.objects dst_object).lower dst.ptr count
            (((dst.ptr + 15) / 16 * 16 - (h.objects dst_object).lower) / 16 + k) := by
          unfold word_fully_covered
          omega
        have hq := memmove_edge_src_partly memmove_upper_smidgen (h.objects src_object).lower dst.ptr src.ptr
          count als a7 a9 aal hsmall hne
        unfold memmove_edge_src_word at hq
        dsimp only at hq
        rw [← hi] at hq
        exact aap hso _ hq hfc

theorem word_partly_covered_dst_iff (lower d c i : Nat)
    (hl : lower % 16 = 0) (hd : lower ≤ d) (hc : 1 ≤ c)
    (hsmall : ¬ ((d + 15) / 16 * 16 > d + c ∨ (d + c) / 16 * 16 < d)) :
    word_partly_covered lower d c i ↔
      (memmove_edge_nonempty memmove_lower_smidgen d c ∧
          i = memmove_edge_dst_word memmove_lower_smidgen lower d c) ∨
        (memmove_edge_nonempty memmove_upper_smidgen d c ∧
          i = memmove_edge_dst_word memmove_upper_smidgen lower d c) := by
  unfold memmove_edge_nonempty memmove_edge_dst_word word_partly_covered word_fully_covered
  dsimp only
  omega

theorem word_partly_covered_src_iff (lower d s c i : Nat)
    (hl : lower % 16 = 0) (hs : lower ≤ s) (hc : 1 ≤ c) (hal : d % 16 = s % 16)
    (hsmall : ¬ ((d + 15) / 16 * 16 > d + c ∨ (d + c) / 16 * 16 < d)) :
    word_partly_covered lower s c i ↔
      (memmove_edge_nonempty memmove_lower_smidgen d c ∧
          i = memmove_edge_src_word memmove_lower_smidgen lower d s c) ∨
        (memmove_edge_nonempty memmove_upper_smidgen d c ∧
          i = memmove_edge_src_word memmove_upper_smidgen lower d s c) := by
  unfold memmove_edge_nonempty memmove_edge_src_word word_partly_covered word_fully_covered
  dsimp only
  omega

theorem ite_merge {α : Type} (P1 P2 Q C : Prop) [Decidable P1] [Decidable P2] [Decidable Q]
    [Decidable C] (a b c : α) (hC : C ↔ P1 ∨ P2) (g : Q → ¬ P1) :
    (if P2 then a else if Q then b else if P1 then a else c) =
      (if C then a else if Q then b else c) := by
  by_cases h2 : P2
  · rw [if_pos h2, if_pos (hC.mpr (Or.inr h2))]
  · rw [if_neg h2]
    by_cases hq : Q
    · rw [if_pos hq, if_neg (fun hc => (hC.mp hc).elim (g hq) h2), if_pos hq]
    · rw [if_neg hq]
      by_cases h1 : P1
      · rw [if_pos h1, if_pos (hC.mpr (Or.inl h1))]
      · rw [if_neg h1, if_neg (fun hc => (hC.mp hc).elim h1 h2), if_neg hq]

theorem edges_iff (X1 X2 Nl Dl Sl Nu Du Su : Prop) :
    ((X1 ∧ ((Nl ∧ Dl) ∨ (Nu ∧ Du))) ∨ (X2 ∧ ((Nl ∧ Sl) ∨ (Nu ∧ Su)))) ↔
      ((Nl ∧ ((X1 ∧ Dl) ∨ (X2 ∧ Sl))) ∨ (Nu ∧ ((X1 ∧ Du) ∨ (X2 ∧ Su)))) := by
  tauto

theorem memmove_words_aligned_spec (h : filc_heap) (dst src : filc_ptr)
    (count dst_object src_object : Nat) (pollcheck : Nat → Bool) (u : Bool)
    (hr : memmove_aligned_ready h dst src count dst_object src_object)
    (hu : u = decide (dst.ptr < src.ptr))
    (hsmall : ¬ ((dst.ptr + 15) / 16 * 16 > dst.ptr + count ∨
      (dst.ptr + count) / 16 * 16 < dst.ptr))
    (hok : ∀ i, word_fully_covered (h.objects dst_object).lower dst.ptr count i →
      memmove_word_ok h dst_object src_object true
        (memmove_src_of (h.objects dst_object).lower dst.ptr src.ptr i) i
        (memmove_src_index (h.objects dst_object).lower (h.objects src_object).lower
          dst.ptr src.ptr i)) :
    ∃ h5,
      ((memmove_smidgen (if u = true then memmove_lower_smidgen else memmove_upper_smidgen)
          h dst src dst.ptr ((dst.ptr + 15) / 16 * 16) (dst.ptr + count)
          ((dst.ptr + count) / 16 * 16) src.ptr).and_then fun _ h1 =>
        (check_accessible h1 dst).and_then fun _ h2 =>
          (check_accessible h2 src).and_then fun _ h3 =>
            (memmove_loop dst src dst_object src_object true u true pollcheck
                (((dst.ptr + count) / 16 * 16 - (dst.ptr + 15) / 16 * 16) / 16)
                ((dst.ptr + 15) / 16 * 16 + 16 *
                  if u = true then 0
                  else ((dst.ptr + count) / 16 * 16 - (dst.ptr + 15) / 16 * 16) / 16 - 1)
                (src.ptr + ((dst.ptr + 15) / 16 * 16 - dst.ptr) + 16 *
                  if u = true then 0
                  else ((dst.ptr + count) / 16 * 16 - (dst.ptr + 15) / 16 * 16) / 16 - 1)
                (((dst.ptr + 15) / 16 * 16 - (h3.objects dst_object).lower) / 16 +
                  if u = true then 0
                  else ((dst.ptr + count) / 16 * 16 - (dst.ptr + 15) / 16 * 16) / 16 - 1)
                ((src.ptr + ((dst.ptr + 15) / 16 * 16 - dst.ptr) -
                    (h3.objects src_object).lower) / 16 +
                  if u = true then 0
                  else ((dst.ptr + count) / 16 * 16 - (dst.ptr + 15) / 16 * 16) / 16 - 1)
                h3).and_then fun _ h4 =>
              memmove_smidgen
                (if u = true then memmove_upper_smidgen else memmove_lower_smidgen)
                h4 dst src dst.ptr ((dst.ptr + 15) / 16 * 16) (dst.ptr + count)
                ((dst.ptr + count) / 16 * 16) src.ptr) = .done () h5 ∧
      (∀ x, h5.memory x =
        if dst.ptr ≤ x ∧ x < dst.ptr + count then h.memory (src.ptr + (x - dst.ptr))
        else h.memory x) ∧
      (∀ x, (h5.objects x).lower = (h.objects x).lower ∧
        (h5.objects x).upper = (h.objects x).upper ∧
        (h5.objects x).flags = (h.objects x).flags) ∧
      ∀ x i, (h5.objects x).word_types i =
        if (x = dst_object ∧ word_partly_covered (h.objects dst_object).lower dst.ptr count i) ∨
            (x = src_object ∧
              word_partly_covered (h.objects src_object).lower src.ptr count i)
          then FILC_WORD_TYPE_INT
        else if x = dst_object ∧
            word_fully_covered (h.objects dst_object).lower dst.ptr count i then
          memmove_dst_word_type h dst_object src_object true
            (memmove_src_of (h.objects dst_object).lower dst.ptr src.ptr i) i
            (memmove_src_index (h.objects dst_object).lower (h.objects src_object).lower
              dst.ptr src.ptr i)
        else (h.objects x).word_types i := by
  have hr0 := hr
  obtain ⟨a1, a2, a3, a4, ald, als, a5, a6, a7, a8, a9, a10, a11, aro, a12, a13, aal, aap,
    aed, aes⟩ := hr
  have a3' := a3
  have a4' := a4
  unfold filc_object.addressable at a3' a4'
  obtain ⟨p1, p2, hp1, hp2, hparts⟩ : ∃ p1 p2,
      p1 = (if u = true then memmove_lower_smidgen else memmove_upper_smidgen) ∧
      p2 = (if u = true then memmove_upper_smidgen else memmove_lower_smidgen) ∧
      ((u = true ∧ p1 = memmove_lower_smidgen ∧ p2 = memmove_upper_smidgen ∧
          dst.ptr < src.ptr) ∨
        (u = false ∧ p1 = memmove_upper_smidgen ∧ p2 = memmove_lower_smidgen ∧
          src.ptr ≤ dst.ptr)) := by
    by_cases hlt : dst.ptr < src.ptr
    · have : u = true := by rw [hu]; simp [hlt]
      exact ⟨_, _, rfl, rfl, Or.inl ⟨this, by simp [this], by simp [this], hlt⟩⟩
    · have : u = false := by rw [hu]; simp [hlt]
      exact ⟨_, _, rfl, rfl, Or.inr ⟨this, by simp [this], by simp [this], by omega⟩⟩
  rw [← hp1, ← hp2]
  -- the first edge
  obtain ⟨h1, e1, hm1, ho1, ht1⟩ := memmove_smidgen_spec p1 h dst src count dst_object
    src_object a1 a2 a3 a4 ald als a5 a6 a7 a8 aal hsmall
    (fun hne => aed _ (memmove_edge_dst_partly p1 _ _ _ ald a5 a9 hsmall hne))
    (fun hne => aes _ (memmove_edge_src_partly p1 _ _ _ _ als a7 a9 aal hsmall hne))
  rw [e1, and_then_done,
    check_accessible_eq_done h1 dst dst_object a1 (by rw [(ho1 dst_object).2.2]; exact a10)
      (by rw [(ho1 dst_object).2.2]; exact a11),
    and_then_done,
    check_accessible_eq_done h1 src src_object a2 (by rw [(ho1 src_object).2.2]; exact a12)
      (by rw [(ho1 src_object).2.2]; exact a13),
    and_then_done, (ho1 dst_object).1, (ho1 src_object).1]
  -- the whole words
  have hkeep := memmove_first_edge_keeps h h1 dst src count dst_object src_object u p1 p2 hr0
    hparts hsmall hm1 ht1
  have hsrc_of : ∀ k, k < ((dst.ptr + count) / 16 * 16 - (dst.ptr + 15) / 16 * 16) / 16 →
      memmove_src_of (h.objects dst_object).lower dst.ptr src.ptr
          (((dst.ptr + 15) / 16 * 16 - (h.objects dst_object).lower) / 16 + k) =
        src.ptr + ((dst.ptr + 15) / 16 * 16 - dst.ptr) + 16 * k := by
    intro k hk
    unfold memmove_src_of
    omega
  have hsrc_index : ∀ k, k < ((dst.ptr + count) / 16 * 16 - (dst.ptr + 15) / 16 * 16) / 16 →
      memmove_src_index (h.objects dst_object).lower (h.objects src_object).lower dst.ptr
          src.ptr (((dst.ptr + 15) / 16 * 16 - (h.objects dst_object).lower) / 16 + k) =
        (src.ptr + ((dst.ptr + 15) / 16 * 16 - dst.ptr) - (h.objects src_object).lower) / 16
          + k := by
    intro k hk
    unfold memmove_src_index
    omega
  have hfull : ∀ k, k < ((dst.ptr + count) / 16 * 16 - (dst.ptr + 15) / 16 * 16) / 16 →
      word_fully_covered (h.objects dst_object).lower dst.ptr count
        (((dst.ptr + 15) / 16 * 16 - (h.objects dst_object).lower) / 16 + k) := by
    intro k hk
    unfold word_fully_covered
    omega
  obtain ⟨h4, e4, hm4, hx4, hl4, hu4, hf4, htj4, htf4⟩ :=
    memmove_loop_words dst src dst_object src_object true u true pollcheck a1 a2
      (((dst.ptr + count) / 16 * 16 - (dst.ptr + 15) / 16 * 16) / 16)
      ((dst.ptr + 15) / 16 * 16) (src.ptr + ((dst.ptr + 15) / 16 * 16 - dst.ptr))
      (((dst.ptr + 15) / 16 * 16 - (h.objects dst_object).lower) / 16)
      ((src.ptr + ((dst.ptr + 15) / 16 * 16 - dst.ptr) - (h.objects src_object).lower) / 16)
      h1
      (by
        rcases hparts with ⟨hu1, _, _, hlt⟩ | ⟨hu1, _, _, hlt⟩
        · rw [hu1]; simp only [if_true]; left; omega
        · rw [hu1]; simp only [Bool.false_eq_true, if_false]; left; omega)
      (fun k k' hk hk' hup hdown _ hsd hi => by
        exfalso
        rw [← hsd] at hi als a7
        rcases hparts with ⟨hu1, _, _, hlt⟩ | ⟨hu1, _, _, hlt⟩
        · have := hup hu1
          omega
        · have := hdown hu1
          omega)
      (by rw [(ho1 dst_object).2.2]; exact a10) (by rw [(ho1 dst_object).2.2]; exact a11)
      (by rw [(ho1 src_object).2.2]; exact a12) (by rw [(ho1 src_object).2.2]; exact a13)
      (fun k hk => by
        obtain ⟨k1, k2, k3⟩ := hkeep k hk
        have := hok _ (hfull k hk)
        rw [hsrc_of k hk, hsrc_index k hk] at this
        unfold memmove_word_ok at this ⊢
        rw [k1, k2, k3]
        exact this)
  rw [e4, and_then_done]
  have ho4 : ∀ x, (h4.objects x).lower = (h.objects x).lower ∧
      (h4.objects x).upper = (h.objects x).upper ∧
      (h4.objects x).flags = (h.objects x).flags := by
    intro x
    by_cases hx : x = dst_object
    · rw [hx, hl4, hu4, hf4]; exact ho1 dst_object
    · rw [hx4 x hx]; exact ho1 x
  have ht4 : ∀ x i, (h4.objects x).word_types i =
      if x = dst_object ∧
          word_fully_covered (h.objects dst_object).lower dst.ptr count i then
        memmove_dst_word_type h dst_object src_object true
          (memmove_src_of (h.objects dst_object).lower dst.ptr src.ptr i) i
          (memmove_src_index (h.objects dst_object).lower (h.objects src_object).lower
            dst.ptr src.ptr i)
      else (h1.objects x).word_types i := by
    intro x i
    by_cases hx : x = dst_object
    · rw [hx]
      by_cases hi : word_fully_covered (h.objects dst_object).lower dst.ptr count i
      · rw [if_pos ⟨rfl, hi⟩]
        unfold word_fully_covered at hi
        have hk : i - ((dst.ptr + 15) / 16 * 16 - (h.objects dst_object).lower) / 16 <
            ((dst.ptr + count) / 16 * 16 - (dst.ptr + 15) / 16 * 16) / 16 := by omega
        have hik : ((dst.ptr + 15) / 16 * 16 - (h.objects dst_object).lower) / 16 +
            (i - ((dst.ptr + 15) / 16 * 16 - (h.objects dst_object).lower) / 16) = i := by
          omega
        have h1' := htj4 _ hk
        obtain ⟨k1, k2, k3⟩ := hkeep _ hk
        have e1' := hsrc_of _ hk
        have e2' := hsrc_index _ hk
        rw [hik] at h1' k3 e1' e2'
        rw [h1', e1', e2']
        unfold memmove_dst_word_type
        rw [k2, k3]
        by_cases hz : word_is_zero h.memory
            (src.ptr + ((dst.ptr + 15) / 16 * 16 - dst.ptr) + 16 *
              (i - ((dst.ptr + 15) / 16 * 16 - (h.objects dst_object).lower) / 16))
        · rw [if_neg (fun hc => hc.2 (k1.mpr hz)), if_neg (fun hc => hc.2 hz)]
        · by_cases hun : (h.objects dst_object).word_types i = FILC_WORD_TYPE_UNSET
          · rw [if_pos ⟨hun, fun hc => hz (k1.mp hc)⟩, if_pos ⟨hun, hz⟩]
          · rw [if_neg (fun hc => hun hc.1), if_neg (fun hc => hun hc.1)]
      · rw [if_neg (fun hc => hi hc.2)]
        apply htf4
        unfold word_fully_covered at hi
        omega
    · rw [if_neg (fun hc => hx hc.1), hx4 x hx]
  -- the second edge
  have hnf_d : ∀ part, memmove_edge_nonempty part dst.ptr count →
      ¬ word_fully_covered (h.objects dst_object).lower dst.ptr count
        (memmove_edge_dst_word part (h.objects dst_object).lower dst.ptr count) :=
    fun part hne => (memmove_edge_dst_partly part _ _ _ ald a5 a9 hsmall hne).2.2
  have hnf_s : ∀ part, memmove_edge_nonempty part dst.ptr count →
      src_object = dst_object →
      ¬ word_fully_covered (h.objects dst_object).lower dst.ptr count
        (memmove_edge_src_word part (h.objects src_object).lower dst.ptr src.ptr count) := by
    intro part hne hsd hfc
    have hp := memmove_edge_src_partly part _ _ _ _ als a7 a9 aal hsmall hne
    exact aap hsd.symm _ hp hfc
  obtain ⟨h5, e5, hm5, ho5, ht5⟩ := memmove_smidgen_spec p2 h4 dst src count dst_object
    src_object a1 a2
    (by unfold filc_object.addressable; rw [(ho4 dst_object).2.1]; exact a3')
    (by unfold filc_object.addressable; rw [(ho4 src_object).2.1]; exact a4')
    (by rw [(ho4 dst_object).1]; exact ald) (by rw [(ho4 src_object).1]; exact als)
    (by rw [(ho4 dst_object).1]; exact a5) (by rw [(ho4 dst_object).2.1]; exact a6)
    (by rw [(ho4 src_object).1]; exact a7) (by rw [(ho4 src_object).2.1]; exact a8)
    aal hsmall
    (fun hne => by
      rw [(ho4 dst_object).1, ht4, if_neg (fun hc => hnf_d p2 hne hc.2), ht1]
      split_ifs
      · right; rfl
      · exact aed _ (memmove_edge_dst_partly p2 _ _ _ ald a5 a9 hsmall hne))
    (fun hne => by
      rw [(ho4 src_object).1, ht4, if_neg (fun hc => hnf_s p2 hne hc.1 hc.2), ht1]
      split_ifs
      · right; rfl
      · exact aes _ (memmove_edge_src_partly p2 _ _ _ _ als a7 a9 aal hsmall hne))
  rw [(ho4 dst_object).1, (ho4 src_object).1] at ht5
  refine ⟨h5, e5, ?_, ?_, ?_⟩
  · rcases hparts with ⟨_, hq1, hq2, hlt⟩ | ⟨_, hq1, hq2, hlt⟩
    · rw [hq1] at hm1
      rw [hq2] at hm5
      unfold memmove_edge_covers at hm1 hm5
      exact memmove_compose_up h.memory h1.memory h4.memory h5.memory dst.ptr src.ptr count
        ((dst.ptr + 15) / 16 * 16) ((dst.ptr + count) / 16 * 16)
        (((dst.ptr + count) / 16 * 16 - (dst.ptr + 15) / 16 * 16) / 16)
        (by omega) (by omega) (by omega) hlt hm1 hm4 hm5
    · rw [hq1] at hm1
      rw [hq2] at hm5
      unfold memmove_edge_covers at hm1 hm5
      exact memmove_compose_down h.memory h1.memory h4.memory h5.memory dst.ptr src.ptr count
        ((dst.ptr + 15) / 16 * 16) ((dst.ptr + count) / 16 * 16)
        (((dst.ptr + count) / 16 * 16 - (dst.ptr + 15) / 16 * 16) / 16)
        (by omega) (by omega) (by omega) hlt hm1 hm4 hm5
  · intro x
    obtain ⟨q1, q2, q3⟩ := ho5 x
    obtain ⟨r1, r2, r3⟩ := ho4 x
    exact ⟨q1.trans r1, q2.trans r2, q3.trans r3⟩
  · intro x i
    have hC := (or_congr
      (and_congr_right (fun (_ : x = dst_object) =>
        word_partly_covered_dst_iff (h.objects dst_object).lower dst.ptr count i ald a5 a9
          hsmall))
      (and_congr_right (fun (_ : x = src_object) =>
        word_partly_covered_src_iff (h.objects src_object).lower dst.ptr src.ptr count i als
          a7 a9 aal hsmall))).trans (edges_iff _ _ _ _ _ _ _ _)
    rw [ht5, ht4, ht1]
    rcases hparts with ⟨_, hq1, hq2, _⟩ | ⟨_, hq1, hq2, _⟩
    · rw [hq1, hq2]
      refine ite_merge _ _ _ _ _ _ _ hC ?_
      intro hq hp
      rcases hp.2 with hd | hs
      · rw [hd.2] at hq
        exact hnf_d _ hp.1 hq.2
      · rw [hs.2] at hq
        exact hnf_s _ hp.1 (hs.1.symm.trans hq.1) hq.2
    · rw [hq1, hq2]
      refine ite_merge _ _ _ _ _ _ _ (hC.trans Or.comm) ?_
      intro hq hp
      rcases hp.2 with hd | hs
      · rw [hd.2] at hq
        exact hnf_d _ hp.1 hq.2
      · rw [hs.2] at hq
        exact hnf_s _ hp.1 (hs.1.symm.trans hq.1) hq.2
theorem and_then_panic {α β : Type} (e : filc_panic) (h : filc_heap)
    (k : α → filc_heap → filc_result β) :
    (filc_result.panic e h : filc_result α).and_then k = .panic e h := rfl

theorem memmove_words_aligned_fails (h : filc_heap) (dst src : filc_ptr)
    (count dst_object src_object : Nat) (pollcheck : Nat → Bool) (u : Bool)
    (hr : memmove_aligned_ready h dst src count dst_object src_object)
    (hu : u = decide (dst.ptr < src.ptr))
    (hsmall : ¬ ((dst.ptr + 15) / 16 * 16 > dst.ptr + count ∨
      (dst.ptr + count) / 16 * 16 < dst.ptr))
    (hnospin : ∀ i, word_fully_covered (h.objects dst_object).lower dst.ptr count i →
      ¬ (¬ word_is_zero h.memory
            (memmove_src_of (h.objects dst_object).lower dst.ptr src.ptr i) ∧
        memmove_src_word_type h src_object true
          (memmove_src_index (h.objects dst_object).lower (h.objects src_object).lower
            dst.ptr src.ptr i) = FILC_WORD_TYPE_UNSET))
    (hbad : ∃ i, word_fully_covered (h.objects dst_object).lower dst.ptr count i ∧
      ¬ memmove_word_ok h dst_object src_object true
        (memmove_src_of (h.objects dst_object).lower dst.ptr src.ptr i) i
        (memmove_src_index (h.objects dst_object).lower (h.objects src_object).lower
          dst.ptr src.ptr i)) :
    ∃ e h5,
      ((memmove_smidgen (if u = true then memmove_lower_smidgen else memmove_upper_smidgen)
          h dst src dst.ptr ((dst.ptr + 15) / 16 * 16) (dst.ptr + count)
          ((dst.ptr + count) / 16 * 16) src.ptr).and_then fun _ h1 =>
        (check_accessible h1 dst).and_then fun _ h2 =>
          (check_accessible h2 src).and_then fun _ h3 =>
            (memmove_loop dst src dst_object src_object true u true pollcheck
                (((dst.ptr + count) / 16 * 16 - (dst.ptr + 15) / 16 * 16) / 16)
                ((dst.ptr + 15) / 16 * 16 + 16 *
                  if u = true then 0
                  else ((dst.ptr + count) / 16 * 16 - (dst.ptr + 15) / 16 * 16) / 16 - 1)
                (src.ptr + ((dst.ptr + 15) / 16 * 16 - dst.ptr) + 16 *
                  if u = true then 0
                  else ((dst.ptr + count) / 16 * 16 - (dst.ptr + 15) / 16 * 16) / 16 - 1)
                (((dst.ptr + 15) / 16 * 16 - (h3.objects dst_object).lower) / 16 +
                  if u = true then 0
                  else ((dst.ptr + count) / 16 * 16 - (dst.ptr + 15) / 16 * 16) / 16 - 1)
                ((src.ptr + ((dst.ptr + 15) / 16 * 16 - dst.ptr) -
                    (h3.objects src_object).lower) / 16 +
                  if u = true then 0
                  else ((dst.ptr + count) / 16 * 16 - (dst.ptr + 15) / 16 * 16) / 16 - 1)
                h3).and_then fun _ h4 =>
              memmove_smidgen
                (if u = true then memmove_upper_smidgen else memmove_lower_smidgen)
                h4 dst src dst.ptr ((dst.ptr + 15) / 16 * 16) (dst.ptr + count)
                ((dst.ptr + count) / 16 * 16) src.ptr) = .panic e h5 ∧
      (e = .cannot_copy_non_int_non_ptr ∨ e = .type_mismatch_while_copying) := by
  have hr0 := hr
  obtain ⟨a1, a2, a3, a4, ald, als, a5, a6, a7, a8, a9, a10, a11, aro, a12, a13, aal, aap,
    aed, aes⟩ := hr
  have a3' := a3
  have a4' := a4
  unfold filc_object.addressable at a3' a4'
  obtain ⟨p1, p2, hp1, hp2, hparts⟩ : ∃ p1 p2,
      p1 = (if u = true then memmove_lower_smidgen else memmove_upper_smidgen) ∧
      p2 = (if u = true then memmove_upper_smidgen else memmove_lower_smidgen) ∧
      ((u = true ∧ p1 = memmove_lower_smidgen ∧ p2 = memmove_upper_smidgen ∧
          dst.ptr < src.ptr) ∨
        (u = false ∧ p1 = memmove_upper_smidgen ∧ p2 = memmove_lower_smidgen ∧
          src.ptr ≤ dst.ptr)) := by
    by_cases hlt : dst.ptr < src.ptr
    · have : u = true := by rw [hu]; simp [hlt]
      exact ⟨_, _, rfl, rfl, Or.inl ⟨this, by simp [this], by simp [this], hlt⟩⟩
    · have : u = false := by rw [hu]; simp [hlt]
      exact ⟨_, _, rfl, rfl, Or.inr ⟨this, by simp [this], by simp [this], by omega⟩⟩
  rw [← hp1, ← hp2]
  obtain ⟨h1, e1, hm1, ho1, ht1⟩ := memmove_smidgen_spec p1 h dst src count dst_object
    src_object a1 a2 a3 a4 ald als a5 a6 a7 a8 aal hsmall
    (fun hne => aed _ (memmove_edge_dst_partly p1 _ _ _ ald a5 a9 hsmall hne))
    (fun hne => aes _ (memmove_edge_src_partly p1 _ _ _ _ als a7 a9 aal hsmall hne))
  rw [e1, and_then_done,
    check_accessible_eq_done h1 dst dst_object a1 (by rw [(ho1 dst_object).2.2]; exact a10)
      (by rw [(ho1 dst_object).2.2]; exact a11),
    and_then_done,
    check_accessible_eq_done h1 src src_object a2 (by rw [(ho1 src_object).2.2]; exact a12)
      (by rw [(ho1 src_object).2.2]; exact a13),
    and_then_done, (ho1 dst_object).1, (ho1 src_object).1]
  have hkeep := memmove_first_edge_keeps h h1 dst src count dst_object src_object u p1 p2 hr0
    hparts hsmall hm1 ht1
  have hsrc_of : ∀ k, k < ((dst.ptr + count) / 16 * 16 - (dst.ptr + 15) / 16 * 16) / 16 →
      memmove_src_of (h.objects dst_object).lower dst.ptr src.ptr
          (((dst.ptr + 15) / 16 * 16 - (h.objects dst_object).lower) / 16 + k) =
        src.ptr + ((dst.ptr + 15) / 16 * 16 - dst.ptr) + 16 * k := by
    intro k hk
    unfold memmove_src_of
    omega
  have hsrc_index : ∀ k, k < ((dst.ptr + count) / 16 * 16 - (dst.ptr + 15) / 16 * 16) / 16 →
      memmove_src_index (h.objects dst_object).lower (h.objects src_object).lower dst.ptr
          src.ptr (((dst.ptr + 15) / 16 * 16 - (h.objects dst_object).lower) / 16 + k) =
        (src.ptr + ((dst.ptr + 15) / 16 * 16 - dst.ptr) - (h.objects src_object).lower) / 16
          + k := by
    intro k hk
    unfold memmove_src_index
    omega
  have hfull : ∀ k, k < ((dst.ptr + count) / 16 * 16 - (dst.ptr + 15) / 16 * 16) / 16 →
      word_fully_covered (h.objects dst_object).lower dst.ptr count
        (((dst.ptr + 15) / 16 * 16 - (h.objects dst_object).lower) / 16 + k) := by
    intro k hk
    unfold word_fully_covered
    omega
  obtain ⟨ib, hib, hnok⟩ := hbad
  have hkb : ib - ((dst.ptr + 15) / 16 * 16 - (h.objects dst_object).lower) / 16 <
      ((dst.ptr + count) / 16 * 16 - (dst.ptr + 15) / 16 * 16) / 16 := by
    unfold word_fully_covered at hib
    omega
  have hikb : ((dst.ptr + 15) / 16 * 16 - (h.objects dst_object).lower) / 16 +
      (ib - ((dst.ptr + 15) / 16 * 16 - (h.objects dst_object).lower) / 16) = ib := by
    unfold word_fully_covered at hib
    omega
  obtain ⟨e, h4, e4, he⟩ :=
    memmove_loop_words_fail dst src dst_object src_object true u true pollcheck a1 a2
      (((dst.ptr + count) / 16 * 16 - (dst.ptr + 15) / 16 * 16) / 16)
      ((dst.ptr + 15) / 16 * 16) (src.ptr + ((dst.ptr + 15) / 16 * 16 - dst.ptr))
      (((dst.ptr + 15) / 16 * 16 - (h.objects dst_object).lower) / 16)
      ((src.ptr + ((dst.ptr + 15) / 16 * 16 - dst.ptr) - (h.objects src_object).lower) / 16)
      h1
      (by
        rcases hparts with ⟨hu1, _, _, hlt⟩ | ⟨hu1, _, _, hlt⟩
        · rw [hu1]; simp only [if_true]; left; omega
        · rw [hu1]; simp only [Bool.false_eq_true, if_false]; left; omega)
      (fun k k' hk hk' hup hdown _ hsd hi => by
        exfalso
        rw [← hsd] at hi als a7
        rcases hparts with ⟨hu1, _, _, hlt⟩ | ⟨hu1, _, _, hlt⟩
        · have := hup hu1
          omega
        · have := hdown hu1
          omega)
      (by rw [(ho1 dst_object).2.2]; exact a10) (by rw [(ho1 dst_object).2.2]; exact a11)
      (by rw [(ho1 src_object).2.2]; exact a12) (by rw [(ho1 src_object).2.2]; exact a13)
      (fun k hk => by
        obtain ⟨k1, k2, k3⟩ := hkeep k hk
        have := hnospin _ (hfull k hk)
        rw [hsrc_of k hk, hsrc_index k hk] at this
        rw [k1, k2]
        exact this)
      ⟨_, hkb, by
        obtain ⟨k1, k2, k3⟩ := hkeep _ hkb
        have e1' := hsrc_of _ hkb
        have e2' := hsrc_index _ hkb
        rw [hikb] at e1' e2'
        rw [e1', e2'] at hnok
        unfold memmove_word_ok at hnok ⊢
        rw [k1, k2, k3, hikb]
        exact hnok⟩
  rw [e4, and_then_panic]
  exact ⟨e, h4, rfl, he⟩

theorem filc_memmove_aligned_eq (h : filc_heap) (dst src : filc_ptr)
    (count dst_object src_object : Nat) (pollcheck : Nat → Bool)
    (hr : memmove_aligned_ready h dst src count dst_object src_object) :
    filc_memmove h dst src count pollcheck =
      if (dst.ptr + 15) / 16 * 16 > dst.ptr + count ∨ (dst.ptr + count) / 16 * 16 < dst.ptr then
        (check_int h dst count).and_then fun _ h1 =>
          (check_int h1 src count).and_then fun _ h2 =>
            .done () (h2.set_memory (memmove h2.memory dst.ptr src.ptr count))
      else
        (memmove_smidgen
            (if decide (dst.ptr < src.ptr) = true then memmove_lower_smidgen
              else memmove_upper_smidgen)
            h dst src dst.ptr ((dst.ptr + 15) / 16 * 16) (dst.ptr + count)
            ((dst.ptr + count) / 16 * 16) src.ptr).and_then fun _ h1 =>
          (check_accessible h1 dst).and_then fun _ h2 =>
            (check_accessible h2 src).and_then fun _ h3 =>
              (memmove_loop dst src dst_object src_object true (decide (dst.ptr < src.ptr))
                  true pollcheck
                  (((dst.ptr + count) / 16 * 16 - (dst.ptr + 15) / 16 * 16) / 16)
                  ((dst.ptr + 15) / 16 * 16 + 16 *
                    if decide (dst.ptr < src.ptr) = true then 0
                    else ((dst.ptr + count) / 16 * 16 - (dst.ptr + 15) / 16 * 16) / 16 - 1)
                  (src.ptr + ((dst.ptr + 15) / 16 * 16 - dst.ptr) + 16 *
                    if decide (dst.ptr < src.ptr) = true then 0
                    else ((dst.ptr + count) / 16 * 16 - (dst.ptr + 15) / 16 * 16) / 16 - 1)
                  (((dst.ptr + 15) / 16 * 16 - (h3.objects dst_object).lower) / 16 +
                    if decide (dst.ptr < src.ptr) = true then 0
                    else ((dst.ptr + count) / 16 * 16 - (dst.ptr + 15) / 16 * 16) / 16 - 1)
                  ((src.ptr + ((dst.ptr + 15) / 16 * 16 - dst.ptr) -
                      (h3.objects src_object).lower) / 16 +
                    if decide (dst.ptr < src.ptr) = true then 0
                    else ((dst.ptr + count) / 16 * 16 - (dst.ptr + 15) / 16 * 16) / 16 - 1)
                  h3).and_then fun _ h4 =>
                memmove_smidgen
                  (if decide (dst.ptr < src.ptr) = true then memmove_upper_smidgen
                    else memmove_lower_smidgen)
                  h4 dst src dst.ptr ((dst.ptr + 15) / 16 * 16) (dst.ptr + count)
                  ((dst.ptr + count) / 16 * 16) src.ptr := by
  have h64 : (2:Nat) ^ 64 = 18446744073709551616 := by norm_num
  obtain ⟨a1, a2, a3, a4, ald, als, a5, a6, a7, a8, a9, a10, a11, aro, a12, a13, aal, aap,
    aed, aes⟩ := hr
  have a3' := a3
  have a4' := a4
  unfold filc_object.addressable at a3' a4'
  have hc1 : filc_check_access_common h dst count filc_write_access = .done () h := by
    apply filc_check_access_common_eq_done
    rw [filc_check_access_common_succeeded_iff h dst count dst_object _ a1 a3]
    exact ⟨a5, by omega, a6, fun hc => hc.2 aro⟩
  have hc2 : filc_check_access_common h src count filc_read_access = .done () h := by
    apply filc_check_access_common_eq_done
    rw [filc_check_access_common_succeeded_iff h src count src_object _ a2 a4]
    exact ⟨a7, by omega, a8, fun hc => by cases hc.1⟩
  have hA : pas_round_up_to_power_of_2 dst.ptr FILC_WORD_SIZE = (dst.ptr + 15) / 16 * 16 := by
    unfold pas_round_up_to_power_of_2 FILC_WORD_SIZE
    have : (dst.ptr + 16 - 1) % 2 ^ 64 = dst.ptr + 15 := by omega
    rw [this]
  have hB : pas_round_down_to_power_of_2 (dst.ptr + count) FILC_WORD_SIZE =
      (dst.ptr + count) / 16 * 16 := rfl
  have hsame : decide (dst.ptr % 16 = src.ptr % 16) = true := by simp [aal]
  unfold filc_memmove
  rw [if_neg (by omega), hc1, and_then_done, hc2, and_then_done]
  unfold memmove_impl
  dsimp only
  rw [hA, hB]
  by_cases hsmall : (dst.ptr + 15) / 16 * 16 > dst.ptr + count ∨
      (dst.ptr + count) / 16 * 16 < dst.ptr
  · rw [if_pos hsmall, if_pos hsmall]
  · rw [if_neg hsmall, if_neg hsmall, a1, a2]
    dsimp only
    unfold FILC_WORD_SIZE
    rw [hsame]
    simp only [if_true]

theorem filc_memmove_aligned_spec (h : filc_heap) (dst src : filc_ptr)
    (count dst_object src_object : Nat) (pollcheck : Nat → Bool)
    (hr : memmove_aligned_ready h dst src count dst_object src_object)
    (hok : ∀ i, word_fully_covered (h.objects dst_object).lower dst.ptr count i →
      memmove_word_ok h dst_object src_object true
        (memmove_src_of (h.objects dst_object).lower dst.ptr src.ptr i) i
        (memmove_src_index (h.objects dst_object).lower (h.objects src_object).lower
          dst.ptr src.ptr i)) :
    ∃ h5, filc_memmove h dst src count pollcheck = .done () h5 ∧
      (∀ x, h5.memory x =
        if dst.ptr ≤ x ∧ x < dst.ptr + count then h.memory (src.ptr + (x - dst.ptr))
        else h.memory x) ∧
      (∀ x, (h5.objects x).lower = (h.objects x).lower ∧
        (h5.objects x).upper = (h.objects x).upper ∧
        (h5.objects x).flags = (h.objects x).flags) ∧
      ∀ x i, (h5.objects x).word_types i =
        if (x = dst_object ∧
              word_partly_covered (h.objects dst_object).lower dst.ptr count i) ∨
            (x = src_object ∧
              word_partly_covered (h.objects src_object).lower src.ptr count i) then
          FILC_WORD_TYPE_INT
        else if x = dst_object ∧
            word_fully_covered (h.objects dst_object).lower dst.ptr count i then
          memmove_dst_word_type h dst_object src_object true
            (memmove_src_of (h.objects dst_object).lower dst.ptr src.ptr i) i
            (memmove_src_index (h.objects dst_object).lower (h.objects src_object).lower
              dst.ptr src.ptr i)
        else (h.objects x).word_types i := by
  rw [filc_memmove_aligned_eq h dst src count dst_object src_object pollcheck hr]
  by_cases hsmall : (dst.ptr + 15) / 16 * 16 > dst.ptr + count ∨
      (dst.ptr + count) / 16 * 16 < dst.ptr
  · rw [if_pos hsmall]
    obtain ⟨a1, a2, a3, a4, ald, als, a5, a6, a7, a8, a9, a10, a11, aro, a12, a13, aal, aap,
      aed, aes⟩ := hr
    have a3' := a3
    have a4' := a4
    unfold filc_object.addressable at a3' a4'
    have hpd : word_partly_covered (h.objects dst_object).lower dst.ptr count
        ((dst.ptr - (h.objects dst_object).lower) / 16) := by
      unfold word_partly_covered word_fully_covered
      omega
    have hps : word_partly_covered (h.objects src_object).lower src.ptr count
        ((src.ptr - (h.objects src_object).lower) / 16) := by
      unfold word_partly_covered word_fully_covered
      omega
    obtain ⟨h1, e1, hm1, ho1, ht1⟩ := memmove_edge_spec h dst src count dst.ptr src.ptr
      dst_object src_object a1 a2 a3 a4 a5 a6 a7 a8 a9 (by omega) (by omega)
      (aed _ hpd) (aes _ hps)
    refine ⟨h1, e1, fun x => by rw [hm1]; rfl, ho1, fun x i => ?_⟩
    rw [ht1 x i]
    have hnf : ∀ j, ¬ word_fully_covered (h.objects dst_object).lower dst.ptr count j := by
      intro j hj
      unfold word_fully_covered at hj
      omega
    have hd : ∀ j, word_partly_covered (h.objects dst_object).lower dst.ptr count j ↔
        j = (dst.ptr - (h.objects dst_object).lower) / 16 := by
      intro j
      unfold word_partly_covered word_fully_covered
      constructor
      · intro hj; omega
      · intro hj; omega
    have hs : ∀ j, word_partly_covered (h.objects src_object).lower src.ptr count j ↔
        j = (src.ptr - (h.objects src_object).lower) / 16 := by
      intro j
      unfold word_partly_covered word_fully_covered
      constructor
      · intro hj; omega
      · intro hj; omega
    by_cases hc : (x = dst_object ∧ i = (dst.ptr - (h.objects dst_object).lower) / 16) ∨
        (x = src_object ∧ i = (src.ptr - (h.objects src_object).lower) / 16)
    · rw [if_pos hc, if_pos]
      rcases hc with ⟨c1, c2⟩ | ⟨c1, c2⟩
      · exact Or.inl ⟨c1, (hd i).2 c2⟩
      · exact Or.inr ⟨c1, (hs i).2 c2⟩
    · rw [if_neg hc, if_neg, if_neg]
      · exact fun hx => hnf i hx.2
      · rintro (⟨c1, c2⟩ | ⟨c1, c2⟩)
        · exact hc (Or.inl ⟨c1, (hd i).1 c2⟩)
        · exact hc (Or.inr ⟨c1, (hs i).1 c2⟩)
  · rw [if_neg hsmall]
    exact memmove_words_aligned_spec h dst src count dst_object src_object pollcheck
      (decide (dst.ptr < src.ptr)) hr rfl hsmall hok

theorem filc_memmove_aligned_fails (h : filc_heap) (dst src : filc_ptr)
    (count dst_object src_object : Nat) (pollcheck : Nat → Bool)
    (hr : memmove_aligned_ready h dst src count dst_object src_object)
    (hnospin : ∀ i, word_fully_covered (h.objects dst_object).lower dst.ptr count i →
      ¬ (¬ word_is_zero h.memory
            (memmove_src_of (h.objects dst_object).lower dst.ptr src.ptr i) ∧
        memmove_src_word_type h src_object true
          (memmove_src_index (h.objects dst_object).lower (h.objects src_object).lower
            dst.ptr src.ptr i) = FILC_WORD_TYPE_UNSET))
    (hbad : ∃ i, word_fully_covered (h.objects dst_object).lower dst.ptr count i ∧
      ¬ memmove_word_ok h dst_object src_object true
        (memmove_src_of (h.objects dst_object).lower dst.ptr src.ptr i) i
        (memmove_src_index (h.objects dst_object).lower (h.objects src_object).lower
          dst.ptr src.ptr i)) :
    ∃ e h5, filc_memmove h dst src count pollcheck = .panic e h5 ∧
      (e = .cannot_copy_non_int_non_ptr ∨ e = .type_mismatch_while_copying) := by
  rw [filc_memmove_aligned_eq h dst src count dst_object src_object pollcheck hr]
  by_cases hsmall : (dst.ptr + 15) / 16 * 16 > dst.ptr + count ∨
      (dst.ptr + count) / 16 * 16 < dst.ptr
  · exfalso
    obtain ⟨i, hi, _⟩ := hbad
    have ald := hr.dst_aligned
    have a5 := hr.dst_lower
    unfold word_fully_covered at hi
    omega
  · rw [if_neg hsmall]
    exact memmove_words_aligned_fails h dst src count dst_object src_object pollcheck
      (decide (dst.ptr < src.ptr)) hr rfl hsmall hnospin hbad

/-! ## The per-word type rule of memmove -/

/-- Claim C17 (amended): the per-word type rule of `filc_memmove` for a copy
whose source and destination are equal modulo 16, in which no word that the
source range covers only partly is a word that the destination range covers
fully; the ranges may overlap.  Both ranges are in bounds of live, ordinary
objects, the destination is writable, and the partly covered words at the
ends are `UNSET` or `INT`.  Tags and contents are those at the call; word
`i` of the destination object is covered by the source word at
`memmove_src_of`, of index `memmove_src_index` in the source object.  When
every fully covered destination word passes the rule (`memmove_word_ok`:
the source content is all zero, or the source tag is `INT` or `PTR` and the
destination tag is `UNSET` or equal to it) the copy returns, every fully
covered word holds the source content, keeps its tag when that content is
all zero, and otherwise takes the source tag when it was `UNSET` and keeps
its tag, equal to the source tag, when it was not.  When some fully covered
word breaks the rule, and no non-zero source word is still `UNSET`, the
copy fails with a type violation. -/
theorem filc_memmove_word_rule (h : filc_heap) (dst src : filc_ptr)
    (count dst_object src_object : Nat) (pollcheck : Nat → Bool)
    (hr : memmove_aligned_ready h dst src count dst_object src_object) :
    ((∀ i, word_fully_covered (h.objects dst_object).lower dst.ptr count i →
        memmove_word_ok h dst_object src_object true
          (memmove_src_of (h.objects dst_object).lower dst.ptr src.ptr i) i
          (memmove_src_index (h.objects dst_object).lower (h.objects src_object).lower
            dst.ptr src.ptr i)) →
      ∃ h1, filc_memmove h dst src count pollcheck = .done () h1 ∧
        ∀ i, word_fully_covered (h.objects dst_object).lower dst.ptr count i →
          (∀ k, k < 16 → h1.memory ((h.objects dst_object).lower + 16 * i + k) =
            h.memory (memmove_src_of (h.objects dst_object).lower dst.ptr src.ptr i + k)) ∧
          (word_is_zero h.memory
              (memmove_src_of (h.objects dst_object).lower dst.ptr src.ptr i) →
            (h1.objects dst_object).word_types i = (h.objects dst_object).word_types i) ∧
          (¬ word_is_zero h.memory
              (memmove_src_of (h.objects dst_object).lower dst.ptr src.ptr i) →
            (h1.objects dst_object).word_types i =
                (h.objects src_object).word_types
                  (memmove_src_index (h.objects dst_object).lower
                    (h.objects src_object).lower dst.ptr src.ptr i) ∧
              ((h.objects dst_object).word_types i ≠ FILC_WORD_TYPE_UNSET →
                (h1.objects dst_object).word_types i =
                  (h.objects dst_object).word_types i))) ∧
    ((∀ i, word_fully_covered (h.objects dst_object).lower dst.ptr count i →
        ¬ (¬ word_is_zero h.memory
              (memmove_src_of (h.objects dst_object).lower dst.ptr src.ptr i) ∧
          (h.objects src_object).word_types
              (memmove_src_index (h.objects dst_object).lower (h.objects src_object).lower
                dst.ptr src.ptr i) = FILC_WORD_TYPE_UNSET)) →
      (∃ i, word_fully_covered (h.objects dst_object).lower dst.ptr count i ∧
        ¬ memmove_word_ok h dst_object src_object true
          (memmove_src_of (h.objects dst_object).lower dst.ptr src.ptr i) i
          (memmove_src_index (h.objects dst_object).lower (h.objects src_object).lower
            dst.ptr src.ptr i)) →
      ∃ e h1, filc_memmove h dst src count pollcheck = .panic e h1 ∧
        e.is_type_violation = true) := by
  constructor
  · intro hok
    obtain ⟨h1, e1, hm1, ho1, ht1⟩ :=
      filc_memmove_aligned_spec h dst src count dst_object src_object pollcheck hr hok
    refine ⟨h1, e1, fun i hi => ?_⟩
    have hi' := hi
    unfold word_fully_covered at hi'
    have htag : (h1.objects dst_object).word_types i =
        memmove_dst_word_type h dst_object src_object true
          (memmove_src_of (h.objects dst_object).lower dst.ptr src.ptr i) i
          (memmove_src_index (h.objects dst_object).lower (h.objects src_object).lower
            dst.ptr src.ptr i) := by
      rw [ht1 dst_object i, if_neg, if_pos ⟨rfl, hi⟩]
      rintro (⟨_, c⟩ | ⟨c1, c2⟩)
      · exact c.2.2 hi
      · exact hr.edges_apart c1 i c2 hi
    refine ⟨fun k hk => ?_, fun hz => ?_, fun hz => ⟨?_, fun hne => ?_⟩⟩
    · rw [hm1, if_pos (by omega)]
      unfold memmove_src_of
      congr 1
      omega
    · rw [htag]
      unfold memmove_dst_word_type
      rw [if_neg (fun c => c.2 hz)]
    · rw [htag]
      unfold memmove_dst_word_type
      by_cases hu : (h.objects dst_object).word_types i = FILC_WORD_TYPE_UNSET
      · rw [if_pos ⟨hu, hz⟩]
        rfl
      · rw [if_neg (fun c => hu c.1)]
        rcases hok i hi with c | ⟨_, c | c⟩
        · exact absurd c hz
        · exact absurd c hu
        · exact c
    · rw [htag]
      unfold memmove_dst_word_type
      rw [if_neg (fun c => hne c.1)]
  · intro hnospin hbad
    obtain ⟨e, h1, e1, he⟩ :=
      filc_memmove_aligned_fails h dst src count dst_object src_object pollcheck hr hnospin hbad
    refine ⟨e, h1, e1, ?_⟩
    rcases he with he | he <;> rw [he] <;> rfl

/-- Claim C17 as stated fails for a copy within one object.  In
`overlap_heap` the copy of 40 bytes from 4120 to 4104 (equal modulo 16)
fully covers destination words 1 and 2, and both pass the rule as read at
the call: word 1 is `UNSET` and its source, word 2, is a non-zero word
tagged `PTR`; the source of word 2 is all zero.  Word 1 does not become
`PTR`: word 1 is also the word that the source range covers only partly,
the lower edge of the copy int-checks it first, the word loop then meets
the tag `INT`, and the copy fails with a type mismatch. -/
theorem filc_memmove_word_rule_counterexample :
    (4104 % 16 = 4120 % 16) ∧
    (∀ i, word_fully_covered (overlap_heap.objects 0).lower 4104 40 i →
      memmove_word_ok overlap_heap 0 0 true
        (memmove_src_of (overlap_heap.objects 0).lower 4104 4120 i) i
        (memmove_src_index (overlap_heap.objects 0).lower (overlap_heap.objects 0).lower
          4104 4120 i)) ∧
    word_fully_covered (overlap_heap.objects 0).lower 4104 40 1 ∧
    word_partly_covered (overlap_heap.objects 0).lower 4120 40 1 ∧
    (overlap_heap.objects 0).word_types 1 = FILC_WORD_TYPE_UNSET ∧
    (overlap_heap.objects 0).word_types
        (memmove_src_index (overlap_heap.objects 0).lower (overlap_heap.objects 0).lower
          4104 4120 1) = FILC_WORD_TYPE_PTR ∧
    ¬ word_is_zero overlap_heap.memory
        (memmove_src_of (overlap_heap.objects 0).lower 4104 4120 1) ∧
    (filc_memmove overlap_heap { object := some 0, ptr := 4104 }
        { object := some 0, ptr := 4120 } 40 (fun _ => false)).why =
      some .type_mismatch_while_copying ∧
    (((filc_memmove overlap_heap { object := some 0, ptr := 4104 }
        { object := some 0, ptr := 4120 } 40 (fun _ => false)).heap.objects 0).word_types 1 =
      FILC_WORD_TYPE_INT) := by
  refine ⟨by decide, ?_, by decide, by decide, by decide, by decide, by decide, by decide,
    by decide⟩
  intro i hi
  have hi' : word_fully_covered 4096 4104 40 i := hi
  unfold word_fully_covered at hi'
  have hc : i = 1 ∨ i = 2 := by omega
  rcases hc with rfl | rfl
  · unfold memmove_word_ok
    decide
  · unfold memmove_word_ok
    decide

/-- A copy within one object whose ranges overlap: in `overlap_heap` the
40 bytes from 4104 are copied to 4120.  Destination word 3 takes the tag
`PTR` and the bytes of source word 2, and destination word 2, whose source
word 1 is all zero, keeps its tag `PTR` and ends zero. -/
theorem filc_memmove_word_rule_witness :
    ∃ h1, filc_memmove overlap_heap { object := some 0, ptr := 4120 }
        { object := some 0, ptr := 4104 } 40 (fun _ => false) = .done () h1 ∧
      (∀ k, k < 16 → h1.memory (4096 + 16 * 3 + k) = overlap_heap.memory (4096 + 16 * 2 + k)) ∧
      (∀ k, k < 16 → h1.memory (4096 + 16 * 2 + k) = 0) ∧
      (h1.objects 0).word_types 3 = FILC_WORD_TYPE_PTR ∧
      (h1.objects 0).word_types 2 = FILC_WORD_TYPE_PTR := by
  have hr : memmove_aligned_ready overlap_heap { object := some 0, ptr := 4120 }
      { object := some 0, ptr := 4104 } 40 0 0 :=
    ⟨rfl, rfl, by decide, by decide, by decide, by decide, by decide, by decide, by decide,
      by decide, by decide, by decide, by decide, by decide, by decide, by decide, by decide,
      fun _ i hi hfc => by
        have hi' : word_partly_covered 4096 4104 40 i := hi
        have hfc' : word_fully_covered 4096 4120 40 i := hfc
        unfold word_partly_covered word_fully_covered at hi'
        unfold word_fully_covered at hfc'
        omega,
      fun i hi => by
        have hi' : word_partly_covered 4096 4120 40 i := hi
        unfold word_partly_covered word_fully_covered at hi'
        have hc : i = 1 := by omega
        rw [hc]
        exact Or.inl (by decide),
      fun i hi => by
        have hi' : word_partly_covered 4096 4104 40 i := hi
        unfold word_partly_covered word_fully_covered at hi'
        have hc : i = 0 := by omega
        rw [hc]
        exact Or.inl (by decide)⟩
  obtain ⟨h1, e1, hw⟩ := (filc_memmove_word_rule overlap_heap { object := some 0, ptr := 4120 }
      { object := some 0, ptr := 4104 } 40 0 0 (fun _ => false) hr).1 (by
    intro i hi
    have hi' : word_fully_covered 4096 4120 40 i := hi
    unfold word_fully_covered at hi'
    have hc : i = 2 ∨ i = 3 := by omega
    rcases hc with rfl | rfl <;> unfold memmove_word_ok <;> decide)
  have w2 := hw 2 (by decide)
  have w3 := hw 3 (by decide)
  refine ⟨h1, e1, w3.1, ?_, ?_, ?_⟩
  · intro k hk
    refine (w2.1 k hk).trans ?_
    interval_cases k <;> decide
  · rw [(w3.2.2 (by decide)).1]
    decide
  · rw [w2.2.1 (by decide)]
    decide


/-! ## Overlapping int copies -/

/-- Claim C18: `filc_memmove` is a correct overlapping copy of int data.
For `count ≥ 1` bytes with both ranges in bounds of live, ordinary objects,
the destination writable, and every word either range touches tagged
`INT` (`memmove_int_ready`), whatever the order and the alignment of the
two addresses and whether or not the ranges overlap, the copy returns,
every byte of `[dst, dst + count)` then holds what the byte at the same
offset of `[src, src + count)` held at the call, and no byte outside
`[dst, dst + count)` has changed. -/
theorem filc_memmove_overlapping_copy (h : filc_heap) (dst src : filc_ptr)
    (count dst_object src_object : Nat) (pollcheck : Nat → Bool)
    (hr : memmove_int_ready h dst src count dst_object src_object)
    (hro : (h.objects dst_object).flags &&& FILC_OBJECT_FLAG_READONLY = 0) :
    ∃ h1, filc_memmove h dst src count pollcheck = .done () h1 ∧
      (∀ k, k < count → h1.memory (dst.ptr + k) = h.memory (src.ptr + k)) ∧
      (∀ x, ¬ (dst.ptr ≤ x ∧ x < dst.ptr + count) → h1.memory x = h.memory x) := by
  obtain ⟨h1, e1, _, hm1⟩ :=
    filc_memmove_int_copy h dst src count dst_object src_object pollcheck hr hro
  refine ⟨h1, e1, fun k hk => ?_, fun x hx => ?_⟩
  · rw [hm1, if_pos (by omega)]
    congr 1
    omega
  · rw [hm1, if_neg hx]

theorem filc_memmove_overlapping_copy_witness :
    ∃ h1, filc_memmove int_heap { object := some 0, ptr := 4099 }
        { object := some 0, ptr := 4110 } 50 (fun _ => true) = .done () h1 ∧
      (∀ k, k < 50 → h1.memory (4099 + k) = int_heap.memory (4110 + k)) ∧
      (∀ x, ¬ (4099 ≤ x ∧ x < 4099 + 50) → h1.memory x = int_heap.memory x) :=
  filc_memmove_overlapping_copy int_heap { object := some 0, ptr := 4099 }
    { object := some 0, ptr := 4110 } 50 0 0 (fun _ => true)
    ⟨rfl, rfl, by decide, by decide, by decide, by decide, by decide, by decide, by decide,
      by decide, by decide, by decide, by decide, fun _ _ _ => rfl, fun _ _ _ => rfl⟩
    (by decide)

/-! ## The round trip of a typed region -/

theorem word_partly_covered_whole (lower start n i : Nat) (hl : lower % 16 = 0)
    (hs : start % 16 = 0) : ¬ word_partly_covered lower start (16 * n) i := by
  unfold word_partly_covered word_fully_covered
  omega

theorem word_fully_covered_whole (start n i : Nat) :
    word_fully_covered start start (16 * n) i ↔ i < n := by
  unfold word_fully_covered
  omega

theorem word_is_zero_congr (m m1 : Nat → Nat) (a b : Nat)
    (hm : ∀ k, k < 16 → m1 (a + k) = m (b + k)) :
    word_is_zero m1 a ↔ word_is_zero m b := by
  unfold word_is_zero
  constructor
  · intro hz k hk
    rw [← hm k hk]
    exact hz k hk
  · intro hz k hk
    rw [hm k hk]
    exact hz k hk

theorem filc_memmove_whole_words (h : filc_heap) (dst src : filc_ptr)
    (n dst_object src_object : Nat) (pollcheck : Nat → Bool)
    (hdo : dst.object = some dst_object) (hso : src.object = some src_object)
    (hn : 1 ≤ n)
    (had : (h.objects dst_object).addressable) (has : (h.objects src_object).addressable)
    (hsa : (h.objects src_object).lower % 16 = 0) (hsp : src.ptr % 16 = 0)
    (hsl : (h.objects src_object).lower ≤ src.ptr)
    (hsu : src.ptr + 16 * n ≤ (h.objects src_object).upper)
    (hdl : (h.objects dst_object).lower = dst.ptr)
    (hdu : (h.objects dst_object).upper = dst.ptr + 16 * n)
    (hdp : dst.ptr % 16 = 0)
    (hsf : (h.objects src_object).flags &&& FILC_OBJECT_FLAG_FREE = 0 ∧
      (h.objects src_object).flags &&& FILC_OBJECT_FLAG_SPECIAL = 0)
    (hdf : (h.objects dst_object).flags &&& FILC_OBJECT_FLAG_FREE = 0 ∧
      (h.objects dst_object).flags &&& FILC_OBJECT_FLAG_SPECIAL = 0 ∧
      (h.objects dst_object).flags &&& FILC_OBJECT_FLAG_READONLY = 0)
    (hne : dst_object ≠ src_object)
    (hdst : ∀ i, (h.objects dst_object).word_types i = FILC_WORD_TYPE_UNSET)
    (hsrc : ∀ i, i < n → word_is_zero h.memory (src.ptr + 16 * i) ∨
      (h.objects src_object).word_types ((src.ptr - (h.objects src_object).lower) / 16 + i) =
        FILC_WORD_TYPE_INT ∨
      (h.objects src_object).word_types ((src.ptr - (h.objects src_object).lower) / 16 + i) =
        FILC_WORD_TYPE_PTR) :
    ∃ h1, filc_memmove h dst src (16 * n) pollcheck = .done () h1 ∧
      (∀ x, h1.memory x =
        if dst.ptr ≤ x ∧ x < dst.ptr + 16 * n then h.memory (src.ptr + (x - dst.ptr))
        else h.memory x) ∧
      (∀ x, (h1.objects x).lower = (h.objects x).lower ∧
        (h1.objects x).upper = (h.objects x).upper ∧
        (h1.objects x).flags = (h.objects x).flags) ∧
      (∀ i, i < n → (h1.objects dst_object).word_types i =
        if word_is_zero h.memory (src.ptr + 16 * i) then FILC_WORD_TYPE_UNSET
        else (h.objects src_object).word_types
          ((src.ptr - (h.objects src_object).lower) / 16 + i)) ∧
      (∀ i, n ≤ i → (h1.objects dst_object).word_types i = FILC_WORD_TYPE_UNSET) ∧
      ∀ x, x ≠ dst_object → ∀ i, (h1.objects x).word_types i = (h.objects x).word_types i := by
  have hsof : ∀ i, i < n →
      memmove_src_of (h.objects dst_object).lower dst.ptr src.ptr i = src.ptr + 16 * i := by
    intro i _
    unfold memmove_src_of
    omega
  have hsix : ∀ i, i < n →
      memmove_src_index (h.objects dst_object).lower (h.objects src_object).lower dst.ptr
          src.ptr i = (src.ptr - (h.objects src_object).lower) / 16 + i := by
    intro i _
    unfold memmove_src_index
    omega
  have hfull : ∀ i, word_fully_covered (h.objects dst_object).lower dst.ptr (16 * n) i ↔
      i < n := by
    intro i
    rw [hdl]
    exact word_fully_covered_whole _ _ _
  have hr : memmove_aligned_ready h dst src (16 * n) dst_object src_object :=
    ⟨hdo, hso, had, has, by omega, hsa, by omega, by omega, hsl, hsu, by omega, hdf.1,
      hdf.2.1, hdf.2.2, hsf.1, hsf.2, by omega, fun hsd => absurd hsd hne,
      fun i hi => absurd hi (word_partly_covered_whole _ _ _ _ (by omega) hdp),
      fun i hi => absurd hi (word_partly_covered_whole _ _ _ _ hsa hsp)⟩
  obtain ⟨h1, e1, hm1, ho1, ht1⟩ :=
    filc_memmove_aligned_spec h dst src (16 * n) dst_object src_object pollcheck hr (by
      intro i hi
      have hi' := (hfull i).1 hi
      unfold memmove_word_ok
      rw [hsof i hi', hsix i hi']
      rcases hsrc i hi' with c | c
      · exact Or.inl c
      · exact Or.inr ⟨c, Or.inl (hdst i)⟩)
  refine ⟨h1, e1, hm1, ho1, fun i hi => ?_, fun i hi => ?_, fun x hx i => ?_⟩
  · rw [ht1 dst_object i, if_neg, if_pos ⟨rfl, (hfull i).2 hi⟩]
    · unfold memmove_dst_word_type
      rw [hsof i hi, hsix i hi]
      by_cases hz : word_is_zero h.memory (src.ptr + 16 * i)
      · rw [if_neg (fun c => c.2 hz), if_pos hz]
        exact hdst i
      · rw [if_pos ⟨hdst i, hz⟩, if_neg hz]
        rfl
    · rintro (⟨_, c⟩ | ⟨_, c⟩)
      · exact word_partly_covered_whole _ _ _ _ (by omega) hdp c
      · exact word_partly_covered_whole _ _ _ _ hsa hsp c
  · rw [ht1 dst_object i, if_neg, if_neg]
    · exact hdst i
    · intro c
      have := (hfull i).1 c.2
      omega
    · rintro (⟨_, c⟩ | ⟨_, c⟩)
      · exact word_partly_covered_whole _ _ _ _ (by omega) hdp c
      · exact word_partly_covered_whole _ _ _ _ hsa hsp c
  · rw [ht1 x i, if_neg, if_neg]
    · exact fun c => hx c.1
    · rintro (⟨c, _⟩ | ⟨_, c⟩)
      · exact hx c
      · exact word_partly_covered_whole _ _ _ _ hsa hsp c

/-- Claim C19 (amended): the round trip of `filc_memmove`.  For a region of
`n ≥ 1` whole words whose tags are all `INT` or `PTR`, and two fresh
destinations of the same size whose tags are all `UNSET`
(`memmove_round_trip_ready`), copying the region into the first
destination and the first destination into the second succeeds both times,
the payload of the second destination is byte for byte the payload the
region had at the start, and each word of the second destination has the
tag of the region's word when that word is not all zero, while a word of
the region whose sixteen bytes are all zero leaves it `UNSET`. -/
theorem filc_memmove_round_trip (h : filc_heap) (src dst1 dst2 : filc_ptr)
    (n src_object dst1_object dst2_object : Nat) (pollcheck1 pollcheck2 : Nat → Bool)
    (hr : memmove_round_trip_ready h src dst1 dst2 n src_object dst1_object dst2_object) :
    ∃ h1 h2, filc_memmove h dst1 src (16 * n) pollcheck1 = .done () h1 ∧
      filc_memmove h1 dst2 dst1 (16 * n) pollcheck2 = .done () h2 ∧
      (∀ k, k < 16 * n → h2.memory (dst2.ptr + k) = h.memory (src.ptr + k)) ∧
      ∀ i, i < n → (h2.objects dst2_object).word_types i =
        if word_is_zero h.memory (src.ptr + 16 * i) then FILC_WORD_TYPE_UNSET
        else (h.objects src_object).word_types
          ((src.ptr - (h.objects src_object).lower) / 16 + i) := by
  obtain ⟨b1, b2, b3, bn, c1, c2, c3, sa, sp, sl, su, l1, u1, p1, l2, u2, p2, fs, f1, f2,
    n1, n2, ts, t1, t2⟩ := hr
  obtain ⟨h1, e1, hm1, ho1, ht1, _, hx1⟩ :=
    filc_memmove_whole_words h dst1 src n dst1_object src_object pollcheck1 b2 b1 bn c2 c1 sa
      sp sl su l1 u1 p1 fs f1 n1 t1 (fun i hi => Or.inr (ts i hi))
  have hl1 : (h1.objects dst1_object).lower = dst1.ptr := by rw [(ho1 _).1]; exact l1
  have hu1 : (h1.objects dst1_object).upper = dst1.ptr + 16 * n := by rw [(ho1 _).2.1]; exact u1
  have hzero : ∀ i, i < n → (word_is_zero h1.memory (dst1.ptr + 16 * i) ↔
      word_is_zero h.memory (src.ptr + 16 * i)) := by
    intro i hi
    apply word_is_zero_congr
    intro k hk
    rw [hm1, if_pos (by omega)]
    congr 1
    omega
  have hidx : ∀ i, (dst1.ptr - (h1.objects dst1_object).lower) / 16 + i = i := by
    intro i
    rw [hl1]
    omega
  obtain ⟨h2, e2, hm2, _, ht2, _, _⟩ :=
    filc_memmove_whole_words h1 dst2 dst1 n dst2_object dst1_object pollcheck2 b3 b2 bn
      (by unfold filc_object.addressable at c3 ⊢; rw [(ho1 _).2.1]; exact c3)
      (by unfold filc_object.addressable at c2 ⊢; rw [(ho1 _).2.1]; exact c2)
      (by rw [hl1]; exact p1) p1 (by rw [hl1]) (by rw [hu1])
      (by rw [(ho1 _).1]; exact l2) (by rw [(ho1 _).2.1]; exact u2) p2
      (by rw [(ho1 _).2.2]; exact ⟨f1.1, f1.2.1⟩) (by rw [(ho1 _).2.2]; exact f2) n2
      (fun i => by rw [hx1 dst2_object n2 i]; exact t2 i)
      (fun i hi => by
        rw [hidx i]
        by_cases hz : word_is_zero h.memory (src.ptr + 16 * i)
        · exact Or.inl ((hzero i hi).2 hz)
        · rw [ht1 i hi, if_neg hz]
          exact Or.inr (ts i hi))
  refine ⟨h1, h2, e1, e2, fun k hk => ?_, fun i hi => ?_⟩
  · rw [hm2, if_pos (by omega), hm1, if_pos (by omega)]
    congr 1
    omega
  · rw [ht2 i hi, hidx i, ht1 i hi]
    by_cases hz : word_is_zero h.memory (src.ptr + 16 * i)
    · rw [if_pos ((hzero i hi).2 hz), if_pos hz]
    · rw [if_neg (fun c => hz ((hzero i hi).1 c)), if_neg hz]

/-- Claim C19 as stated fails for a region with a zero word.  In
`typed_heap` the region of object 0 has tags `INT`, `PTR`, `INT`, the
destinations of objects 1 and 2 are all `UNSET`, and both copies succeed,
but the third word of the region is the integer zero: it is copied without
any tag and the third word of the second destination is `UNSET`, not
`INT`. -/
theorem filc_memmove_round_trip_counterexample :
    (∀ i, i < 3 → (typed_heap.objects 0).word_types i = FILC_WORD_TYPE_INT ∨
      (typed_heap.objects 0).word_types i = FILC_WORD_TYPE_PTR) ∧
    (∀ i, i < 3 → (typed_heap.objects 1).word_types i = FILC_WORD_TYPE_UNSET ∧
      (typed_heap.objects 2).word_types i = FILC_WORD_TYPE_UNSET) ∧
    ((filc_memmove typed_heap { object := some 1, ptr := 8192 }
        { object := some 0, ptr := 4096 } 48 (fun _ => false)).and_then fun _ h1 =>
      filc_memmove h1 { object := some 2, ptr := 12288 }
        { object := some 1, ptr := 8192 } 48 (fun _ => false)).succeeded = true ∧
    (typed_heap.objects 0).word_types 2 = FILC_WORD_TYPE_INT ∧
    ((((filc_memmove typed_heap { object := some 1, ptr := 8192 }
        { object := some 0, ptr := 4096 } 48 (fun _ => false)).and_then fun _ h1 =>
      filc_memmove h1 { object := some 2, ptr := 12288 }
        { object := some 1, ptr := 8192 } 48 (fun _ => false)).heap.objects 2).word_types 2 =
      FILC_WORD_TYPE_UNSET) := by
  decide

theorem filc_memmove_round_trip_witness :
    ∃ h1 h2, filc_memmove typed_heap { object := some 1, ptr := 8192 }
        { object := some 0, ptr := 4096 } (16 * 3) (fun _ => false) = .done () h1 ∧
      filc_memmove h1 { object := some 2, ptr := 12288 }
        { object := some 1, ptr := 8192 } (16 * 3) (fun _ => true) = .done () h2 ∧
      (∀ k, k < 16 * 3 → h2.memory (12288 + k) = typed_heap.memory (4096 + k)) ∧
      ∀ i, i < 3 → (h2.objects 2).word_types i =
        if word_is_zero typed_heap.memory (4096 + 16 * i) then FILC_WORD_TYPE_UNSET
        else (typed_heap.objects 0).word_types
          ((4096 - (typed_heap.objects 0).lower) / 16 + i) :=
  filc_memmove_round_trip typed_heap { object := some 0, ptr := 4096 }
    { object := some 1, ptr := 8192 } { object := some 2, ptr := 12288 } 3 0 1 2
    (fun _ => false) (fun _ => true)
    { src_is := rfl, dst1_is := rfl, dst2_is := rfl, words_pos := by decide,
      src_addressable := by decide, dst1_addressable := by decide,
      dst2_addressable := by decide, src_aligned := by decide, src_ptr_aligned := by decide,
      src_lower := by decide, src_upper := by decide, dst1_lower := by decide,
      dst1_upper := by decide, dst1_aligned := by decide, dst2_lower := by decide,
      dst2_upper := by decide, dst2_aligned := by decide, src_flags := by decide,
      dst1_flags := by decide, dst2_flags := by decide, dst1_apart := by decide,
      dst2_apart := by decide, src_typed := by decide, dst1_fresh := fun _ => rfl,
      dst2_fresh := fun _ => rfl }

/-! ## Copies between addresses of different alignment -/

theorem and_then_fails_of {α β : Type} (r : filc_result α)
    (k : α → filc_heap → filc_result β)
    (hk : ∀ a h1, r = .done a h1 → (k a h1).succeeded = false) :
    (r.and_then k).succeeded = false := by
  cases r with
  | done a h1 => exact hk a h1 rfl
  | panic e h1 => rfl

theorem and_then_fails_of_failed {α β : Type} (r : filc_result α)
    (k : α → filc_heap → filc_result β) (hr : r.succeeded = false) :
    (r.and_then k).succeeded = false := by
  cases r with
  | done a h1 => cases hr
  | panic e h1 => rfl

theorem heap_of_done {α : Type} (r : filc_result α) (a : α) (h1 : filc_heap)
    (e : r = .done a h1) : r.heap = h1 := by
  rw [e]
  rfl

theorem check_int_fails_after_non_int (h h1 : filc_heap) (ptr : filc_ptr) (bytes o i : Nat)
    (adv : tags_advance h h1)
    (ho : ptr.object = some o) (hb : 1 ≤ bytes)
    (ha : (h.objects o).addressable)
    (hlo : (h.objects o).lower ≤ ptr.ptr)
    (hhi : ptr.ptr + bytes ≤ (h.objects o).upper)
    (hi1 : (ptr.ptr - (h.objects o).lower) / 16 ≤ i)
    (hi2 : i ≤ (ptr.ptr - (h.objects o).lower + bytes - 1) / 16)
    (hne : (h.objects o).word_types i ≠ FILC_WORD_TYPE_UNSET)
    (hni : (h.objects o).word_types i ≠ FILC_WORD_TYPE_INT) :
    (check_int h1 ptr bytes).succeeded = false := by
  obtain ⟨el, eu, _, et⟩ := adv o
  have htag : (h1.objects o).word_types i = (h.objects o).word_types i := by
    rcases et i with c | ⟨c, _⟩
    · exact c
    · exact absurd c hne
  exact (check_int_fails_of_non_int h1 ptr bytes o i ho
    (by unfold filc_object.addressable at ha ⊢; rw [eu]; exact ha)
    (by rw [el]; exact hlo) hb (by rw [eu]; exact hhi) (by rw [el]; exact hi1)
    (by rw [el]; exact hi2) (by rw [htag]; exact hne) (by rw [htag]; exact hni)).1

theorem filc_memset_zero_fails (max_bytes : Nat) (h : filc_heap) (ptr : filc_ptr)
    (count o i : Nat) (ho : ptr.object = some o) (ha : (h.objects o).addressable)
    (hal : (h.objects o).lower % 16 = 0)
    (hlo : (h.objects o).lower ≤ ptr.ptr) (hb : 1 ≤ count)
    (hhi : ptr.ptr + count ≤ (h.objects o).upper)
    (hi : word_partly_covered (h.objects o).lower ptr.ptr count i)
    (hne : (h.objects o).word_types i ≠ FILC_WORD_TYPE_UNSET)
    (hni : (h.objects o).word_types i ≠ FILC_WORD_TYPE_INT) :
    (filc_memset max_bytes h ptr 0 count).succeeded = false := by
  have ha1 := ha
  unfold filc_object.addressable at ha1
  have hA : pas_round_up_to_power_of_2 ptr.ptr FILC_WORD_SIZE = (ptr.ptr + 15) / 16 * 16 := by
    unfold pas_round_up_to_power_of_2 FILC_WORD_SIZE
    have : (ptr.ptr + 16 - 1) % 2 ^ 64 = ptr.ptr + 15 := by omega
    rw [this]
  have hB : pas_round_down_to_power_of_2 (ptr.ptr + count) FILC_WORD_SIZE =
      (ptr.ptr + count) / 16 * 16 := rfl
  unfold word_partly_covered word_fully_covered at hi
  unfold filc_memset
  rw [if_neg (by omega)]
  apply and_then_fails_of
  intro _ h1 e1
  have := heap_of_done _ _ _ e1
  rw [filc_check_access_common_heap] at this
  subst this
  rw [if_pos rfl]
  dsimp only
  rw [hA, hB]
  by_cases hsmall : (ptr.ptr + 15) / 16 * 16 > ptr.ptr + count ∨
      (ptr.ptr + count) / 16 * 16 < ptr.ptr
  · rw [if_pos hsmall]
    apply and_then_fails_of_failed
    exact (check_int_fails_of_non_int h ptr count o i ho ha hlo hb hhi (by omega) (by omega)
      hne hni).1
  · rw [if_neg hsmall]
    by_cases hlow : (h.objects o).lower + 16 * i < ptr.ptr
    · -- the word at the start of the range
      apply and_then_fails_of_failed
      rw [if_pos (by omega)]
      apply and_then_fails_of_failed
      exact (check_int_fails_of_non_int h ptr ((ptr.ptr + 15) / 16 * 16 - ptr.ptr) o i ho ha hlo
        (by omega) (by omega) (by omega) (by omega) hne hni).1
    · -- the word at the end of the range
      apply and_then_fails_of
      intro _ h3 e3
      have adv3 : tags_advance h h3 := by
        rw [← heap_of_done _ _ _ e3]
        split_ifs
        · exact tags_advance_and_then h _ _ (tags_advance_check_int h ptr _)
            (fun _ h2 => tags_advance_set_memory h2 _)
        · exact tags_advance_refl h
      apply and_then_fails_of
      intro _ h4 e4
      have := heap_of_done _ _ _ e4
      rw [check_accessible_heap] at this
      subst this
      apply and_then_fails_of
      intro _ h5 e5
      have adv5 : tags_advance h h5 := by
        rw [← heap_of_done _ _ _ e5]
        exact tags_advance_trans h h3 _ adv3 (tags_advance_bzero_with_exit _ _ _ _ _)
      rw [if_pos (by omega)]
      apply and_then_fails_of_failed
      exact check_int_fails_after_non_int h h5
        (filc_ptr_with_ptr ptr ((ptr.ptr + count) / 16 * 16))
        (ptr.ptr + count - (ptr.ptr + count) / 16 * 16) o i adv5 ho (by omega) ha
        (by show (h.objects o).lower ≤ (ptr.ptr + count) / 16 * 16; omega)
        (by show (ptr.ptr + count) / 16 * 16 + _ ≤ _; omega)
        (by show ((ptr.ptr + count) / 16 * 16 - (h.objects o).lower) / 16 ≤ i; omega)
        (by
          show i ≤ ((ptr.ptr + count) / 16 * 16 - (h.objects o).lower +
            (ptr.ptr + count - (ptr.ptr + count) / 16 * 16) - 1) / 16
          omega)
        hne hni

/-- Claim C16, amended: `filc_memset(ptr, 0, count)` with `count ≥ 1` on a
writable object that is neither free nor special, with a word-aligned lower
bound and the range in bounds, which can be pinned when more than
`max_bytes` bytes of whole words are cleared (it is global, or it is not a
return buffer and its pin count is below the maximum).  The call succeeds
exactly when the words only partly covered at the two ends of the range
pass the int check, that is, are `UNSET` or `INT`: a partly covered word
with any other tag makes it fail.  When it succeeds, every byte of the
range is zero afterwards and no other byte changed; the partly covered
words have tag `INT` and every other tag, in particular that of a word
entirely inside the range, whatever it is, is unchanged; the bounds and the
flags of the object and all other objects are unchanged. -/
theorem filc_memset_zero_spec (max_bytes : Nat) (h : filc_heap) (ptr : filc_ptr)
    (count o : Nat) (ho : ptr.object = some o) (ha : (h.objects o).addressable)
    (hal : (h.objects o).lower % 16 = 0)
    (hfree : (h.objects o).flags &&& FILC_OBJECT_FLAG_FREE = 0)
    (hspecial : (h.objects o).flags &&& FILC_OBJECT_FLAG_SPECIAL = 0)
    (hro : (h.objects o).flags &&& FILC_OBJECT_FLAG_READONLY = 0)
    (hlo : (h.objects o).lower ≤ ptr.ptr) (hb : 1 ≤ count)
    (hhi : ptr.ptr + count ≤ (h.objects o).upper)
    (hpin : (ptr.ptr + count) / 16 * 16 - (ptr.ptr + 15) / 16 * 16 ≤ max_bytes ∨
      (h.objects o).flags &&& FILC_OBJECT_FLAG_GLOBAL ≠ 0 ∨
      ((h.objects o).flags &&& FILC_OBJECT_FLAG_RETURN_BUFFER = 0 ∧
        (h.objects o).flags + 64 < 2 ^ 16)) :
    ((filc_memset max_bytes h ptr 0 count).succeeded = true ↔
      ∀ i, word_partly_covered (h.objects o).lower ptr.ptr count i →
        (h.objects o).word_types i = FILC_WORD_TYPE_UNSET ∨
          (h.objects o).word_types i = FILC_WORD_TYPE_INT) ∧
    ∀ h1, filc_memset max_bytes h ptr 0 count = .done () h1 →
      (∀ x, h1.memory x = if ptr.ptr ≤ x ∧ x < ptr.ptr + count then 0 else h.memory x) ∧
      (∀ x, x ≠ o → h1.objects x = h.objects x) ∧
      (h1.objects o).lower = (h.objects o).lower ∧
      (h1.objects o).upper = (h.objects o).upper ∧
      (h1.objects o).flags = (h.objects o).flags ∧
      ∀ i, (h1.objects o).word_types i =
        if word_partly_covered (h.objects o).lower ptr.ptr count i then FILC_WORD_TYPE_INT
        else (h.objects o).word_types i := by
  have hiff : (filc_memset max_bytes h ptr 0 count).succeeded = true ↔
      ∀ i, word_partly_covered (h.objects o).lower ptr.ptr count i →
        (h.objects o).word_types i = FILC_WORD_TYPE_UNSET ∨
          (h.objects o).word_types i = FILC_WORD_TYPE_INT := by
    constructor
    · intro hs i hi
      by_contra hc
      have hf := filc_memset_zero_fails max_bytes h ptr count o i ho ha hal hlo hb hhi hi
        (fun c => hc (Or.inl c)) (fun c => hc (Or.inr c))
      rw [hs] at hf
      cases hf
    · intro hedge
      obtain ⟨h1, e1, _⟩ := filc_memset_zero_done max_bytes h ptr count o ho ha hal hfree
        hspecial hro hlo hb hhi hedge hpin
      rw [e1]
      rfl
  refine ⟨hiff, fun h1 hd => ?_⟩
  have hs : (filc_memset max_bytes h ptr 0 count).succeeded = true := by rw [hd]; rfl
  obtain ⟨h2, e2, hspec⟩ := filc_memset_zero_done max_bytes h ptr count o ho ha hal hfree
    hspecial hro hlo hb hhi (hiff.1 hs) hpin
  rw [hd] at e2
  injection e2 with _ e3
  rw [e3]
  exact hspec

/-- In `typed_heap`, whose object 0 has the words `INT`, `PTR`, `INT`: the
zero memset of the 28 bytes from 4100 succeeds, the partly covered word 0
ends `INT` and the fully covered word 1 stays `PTR` with zero content;
the zero memset of the 16 bytes from 4120, which covers the `PTR` word 1
only partly, fails. -/
theorem filc_memset_zero_spec_witness :
    (filc_memset 1000 typed_heap { object := some 0, ptr := 4100 } 0 28).succeeded = true ∧
    ((∀ x, (filc_memset 1000 typed_heap { object := some 0, ptr := 4100 } 0 28).heap.memory x =
        if 4100 ≤ x ∧ x < 4100 + 28 then 0 else typed_heap.memory x) ∧
      ((filc_memset 1000 typed_heap { object := some 0, ptr := 4100 } 0 28).heap.objects
        0).word_types 0 = FILC_WORD_TYPE_INT ∧
      ((filc_memset 1000 typed_heap { object := some 0, ptr := 4100 } 0 28).heap.objects
        0).word_types 1 = FILC_WORD_TYPE_PTR) ∧
    (filc_memset 1000 typed_heap { object := some 0, ptr := 4120 } 0 16).succeeded = false := by
  have hc := filc_memset_zero_spec 1000 typed_heap { object := some 0, ptr := 4100 } 28 0 rfl
    (by decide) (by decide) (by decide) (by decide) (by decide) (by decide) (by decide)
    (by decide) (Or.inl (by decide))
  have hs : (filc_memset 1000 typed_heap { object := some 0, ptr := 4100 } 0 28).succeeded =
      true := by decide
  obtain ⟨_, h1, hd⟩ := filc_result.eq_done_of_succeeded _ hs
  obtain ⟨hm, _, _, _, _, ht⟩ := hc.2 h1 hd
  refine ⟨hs, ⟨?_, ?_, ?_⟩, by decide⟩
  · rw [hd]; exact hm
  · rw [hd]; exact (ht 0).trans (by decide)
  · rw [hd]; exact (ht 1).trans (by decide)

/-! ## Pin count arithmetic -/

theorem pin_count_add (f : Nat) (hlt : f / 64 < 1023) :
    (f + 64) % 65536 = f + 64 ∧ (f + 64) / 64 = f / 64 + 1 ∧ (f + 64) % 64 = f % 64 := by
  omega

theorem pin_count_wraps (f : Nat) (hw : f < 65536) (hmax : f / 64 = 1023) :
    (f + 64) % 65536 / 64 = 0 := by
  omega

/-- Claim C21 (amended): pin count arithmetic on the 16-bit flags word of an
object.  Pin and unpin do nothing on a null object and on a `GLOBAL`
object.  On an object that is not `GLOBAL`: `filc_pin` fails on a free
object; `filc_free_yolo` and `filc_free` fail whenever the pin count is not
zero; and on an object that is neither free nor a return buffer `filc_pin`
fails with a pin count overflow, leaving the heap as it was, when the
count is at its maximum of 1023, and otherwise adds exactly one to the pin
count, leaves the six low flag bits, the other fields and the other
objects unchanged, and a `filc_unpin` after it restores the object
exactly. -/
theorem filc_pin_count_arithmetic (h : filc_heap) (o : Nat)
    (hw : (h.objects o).flags < 2 ^ 16) :
    (filc_pin h none = .done () h ∧ filc_unpin h none = .done () h) ∧
    ((h.objects o).flags &&& FILC_OBJECT_FLAG_GLOBAL ≠ 0 →
      filc_pin h (some o) = .done () h ∧ filc_unpin h (some o) = .done () h) ∧
    ((h.objects o).flags &&& FILC_OBJECT_FLAG_GLOBAL = 0 →
      (h.objects o).flags &&& FILC_OBJECT_FLAG_FREE ≠ 0 →
      filc_pin h (some o) = .panic .pin_free_object h) ∧
    (filc_object_pin_count (h.objects o).flags ≠ 0 →
      (filc_free_yolo h o).succeeded = false ∧ (filc_free h o).succeeded = false) ∧
    ((h.objects o).flags &&& FILC_OBJECT_FLAG_GLOBAL = 0 →
      (h.objects o).flags &&& FILC_OBJECT_FLAG_FREE = 0 →
      (h.objects o).flags &&& FILC_OBJECT_FLAG_RETURN_BUFFER = 0 →
      (filc_object_pin_count (h.objects o).flags = 1023 →
        filc_pin h (some o) = .panic .pin_count_overflow h) ∧
      (filc_object_pin_count (h.objects o).flags < 1023 →
        ∃ h1, filc_pin h (some o) = .done () h1 ∧
          filc_object_pin_count (h1.objects o).flags =
            filc_object_pin_count (h.objects o).flags + 1 ∧
          filc_object_low_flags (h1.objects o).flags =
            filc_object_low_flags (h.objects o).flags ∧
          (h1.objects o).flags < 2 ^ 16 ∧
          (h1.objects o).lower = (h.objects o).lower ∧
          (h1.objects o).upper = (h.objects o).upper ∧
          (h1.objects o).word_types = (h.objects o).word_types ∧
          (∀ x, x ≠ o → h1.objects x = h.objects x) ∧ h1.memory = h.memory ∧
          ∃ h2, filc_unpin h1 (some o) = .done () h2 ∧
            (∀ x, h2.objects x = h.objects x) ∧ h2.memory = h.memory)) := by
  have h16 : (2:Nat) ^ 16 = 65536 := by norm_num
  have h6 : (2:Nat) ^ 6 = 64 := by norm_num
  have hshift : (1 <<< FILC_OBJECT_FLAGS_PIN_SHIFT) = 64 := by decide
  have hcount : ∀ f : Nat, filc_object_pin_count f = f / 64 := by
    intro f
    unfold filc_object_pin_count FILC_OBJECT_FLAGS_PIN_SHIFT
    rw [Nat.shiftRight_eq_div_pow, h6]
  have hsr : ∀ f : Nat, f >>> FILC_OBJECT_FLAGS_PIN_SHIFT = f / 64 := hcount
  have hlow : ∀ f : Nat, filc_object_low_flags f = f % 64 := by
    intro f
    unfold filc_object_low_flags FILC_OBJECT_FLAGS_PIN_SHIFT
    rw [h6]
  rw [h16] at hw
  refine ⟨⟨rfl, rfl⟩, ?_, ?_, ?_, ?_⟩
  · intro hg
    constructor
    · unfold filc_pin
      dsimp only
      rw [if_pos hg]
    · unfold filc_unpin
      dsimp only
      rw [if_pos hg]
  · intro hg hf
    unfold filc_pin
    dsimp only
    rw [if_neg (not_not.mpr hg), if_pos hf]
  · intro hp
    rw [hcount] at hp
    have hy : (filc_free_yolo h o).succeeded = false := by
      unfold filc_free_yolo
      dsimp only
      split_ifs with c1 c2
      · rfl
      · rfl
      · exact absurd (by rw [hsr]; exact hp) c2
    refine ⟨hy, ?_⟩
    unfold filc_free
    split_ifs
    · rfl
    · rfl
    · rfl
    · exact hy
  · intro hg hf hrb
    constructor
    · intro hmax
      rw [hcount] at hmax
      unfold filc_pin
      dsimp only
      rw [if_neg (not_not.mpr hg), if_neg (not_not.mpr hf), if_neg (not_not.mpr hrb), hshift,
        h16, if_pos (by rw [hsr]; exact pin_count_wraps _ hw hmax)]
    · intro hlt
      rw [hcount] at hlt
      obtain ⟨a1, a2, a3⟩ := pin_count_add _ hlt
      have hpin1 : filc_pin h (some o) = .done ()
          (h.set_object o { h.objects o with flags := (h.objects o).flags + 64 }) := by
        unfold filc_pin
        dsimp only
        rw [if_neg (not_not.mpr hg), if_neg (not_not.mpr hf), if_neg (not_not.mpr hrb), hshift,
          h16, a1, if_neg (by rw [hsr, a2]; omega)]
      refine ⟨_, hpin1, ?_, ?_, ?_, ?_, ?_, ?_, ?_, rfl, ?_⟩
      · rw [filc_heap.set_object_same, hcount, hcount]
        exact a2
      · rw [filc_heap.set_object_same, hlow, hlow]
        exact a3
      · rw [filc_heap.set_object_same, h16]
        show (h.objects o).flags + 64 < 65536
        omega
      · rw [filc_heap.set_object_same]
      · rw [filc_heap.set_object_same]
      · rw [filc_heap.set_object_same]
      · intro x hx
        exact filc_heap.set_object_other _ _ _ _ hx
      · have hb : ∀ b : Nat, 63 &&& b = b →
            ((h.objects o).flags + 64) &&& b = (h.objects o).flags &&& b :=
          fun b hb => add_64_and _ b hb
        have hg1 : ((h.objects o).flags + 64) &&& FILC_OBJECT_FLAG_GLOBAL = 0 := by
          rw [hb _ (by decide)]; exact hg
        have hf1 : ((h.objects o).flags + 64) &&& FILC_OBJECT_FLAG_FREE = 0 := by
          rw [hb _ (by decide)]; exact hf
        have hr1 : ((h.objects o).flags + 64) &&& FILC_OBJECT_FLAG_RETURN_BUFFER = 0 := by
          rw [hb _ (by decide)]; exact hrb
        refine ⟨(h.set_object o { h.objects o with flags := (h.objects o).flags + 64 }).set_object
          o (h.objects o), ?_, ?_, rfl⟩
        · unfold filc_unpin
          dsimp only
          rw [filc_heap.set_object_same]
          dsimp only
          rw [if_neg (not_not.mpr hg1), if_neg (not_not.mpr hf1),
            if_neg (by rw [hsr, a2]; omega), if_neg (not_not.mpr hr1), hshift,
            if_neg (by omega)]
          congr 2
        · intro x
          by_cases hx : x = o
          · rw [hx, filc_heap.set_object_same]
          · rw [filc_heap.set_object_other _ _ _ _ hx, filc_heap.set_object_other _ _ _ _ hx]

/-- Claim C21 as stated fails for a return buffer: the objects of
`return_buffer_heap` are not null, not `GLOBAL` and not free, and their pin
count is zero, yet `filc_pin` does not add a pin: it stops at the assertion
that the object is no return buffer. -/
theorem filc_pin_count_arithmetic_counterexample :
    (return_buffer_heap.objects 0).flags &&& FILC_OBJECT_FLAG_GLOBAL = 0 ∧
    (return_buffer_heap.objects 0).flags &&& FILC_OBJECT_FLAG_FREE = 0 ∧
    filc_object_pin_count (return_buffer_heap.objects 0).flags = 0 ∧
    (filc_pin return_buffer_heap (some 0)).succeeded = false ∧
    (filc_pin return_buffer_heap (some 0)).why = some .assertion ∧
    filc_object_pin_count ((filc_pin return_buffer_heap (some 0)).heap.objects 0).flags = 0 := by
  decide

theorem filc_pin_count_arithmetic_witness :
    ∃ h1, filc_pin sample_heap (some 0) = .done () h1 ∧
      filc_object_pin_count (h1.objects 0).flags = 1 ∧
      filc_object_low_flags (h1.objects 0).flags = 0 ∧
      ∃ h2, filc_unpin h1 (some 0) = .done () h2 ∧
        ∀ x, h2.objects x = sample_heap.objects x := by
  obtain ⟨h1, e1, c1, c2, _, _, _, _, _, _, h2, e2, c3, _⟩ :=
    ((filc_pin_count_arithmetic sample_heap 0 (by decide)).2.2.2.2 (by decide) (by decide)
      (by decide)).2 (by decide)
  exact ⟨h1, e1, c1, c2, h2, e2, c3⟩

/-! ## The checked string read -/

theorem strnlen_le (m : Nat → Nat) (n : Nat) : ∀ s, strnlen m s n ≤ n := by
  induction n with
  | zero => intro s; exact Nat.le_refl 0
  | succ n ih =>
    intro s
    unfold strnlen
    split_ifs
    · omega
    · have := ih (s + 1)
      omega

theorem strnlen_nonzero (m : Nat → Nat) (n : Nat) :
    ∀ s k, k < strnlen m s n → m (s + k) ≠ 0 := by
  induction n with
  | zero =>
    intro s k hk
    unfold strnlen at hk
    omega
  | succ n ih =>
    intro s k hk
    unfold strnlen at hk
    split_ifs at hk with hz
    · omega
    · cases k with
      | zero => exact hz
      | succ k =>
        have := ih (s + 1) k (by omega)
        rw [show s + (k + 1) = s + 1 + k by omega]
        exact this

theorem strnlen_zero (m : Nat → Nat) (n : Nat) :
    ∀ s, strnlen m s n < n → m (s + strnlen m s n) = 0 := by
  induction n with
  | zero =>
    intro s hk
    omega
  | succ n ih =>
    intro s hk
    unfold strnlen at hk ⊢
    split_ifs at hk ⊢ with hz
    · exact hz
    · have := ih (s + 1) (by omega)
      rw [show s + (strnlen m (s + 1) n + 1) = s + 1 + strnlen m (s + 1) n by omega]
      exact this

theorem strnlen_lt_iff (m : Nat → Nat) (s n : Nat) :
    strnlen m s n < n ↔ ∃ a, s ≤ a ∧ a < s + n ∧ m a = 0 := by
  constructor
  · intro hlt
    exact ⟨s + strnlen m s n, by omega, by omega, strnlen_zero m n s hlt⟩
  · rintro ⟨a, h1, h2, h3⟩
    by_contra hc
    have hle := strnlen_le m n s
    have := strnlen_nonzero m n s (a - s) (by omega)
    rw [show s + (a - s) = a by omega] at this
    exact this h3

theorem strlen_map_range (m : Nat → Nat) (n : Nat) :
    ∀ s, (∀ k, k < n → m (s + k) ≠ 0) → m (s + n) = 0 →
      strlen ((List.range (n + 1)).map fun k => m (s + k)) = n := by
  induction n with
  | zero =>
    intro s _ hz
    show strlen [m (s + 0)] = 0
    unfold strlen
    rw [if_pos hz]
  | succ n ih =>
    intro s hnz hz
    rw [List.range_succ_eq_map, List.map_cons, List.map_map]
    unfold strlen
    rw [if_neg (hnz 0 (by omega))]
    have := ih (s + 1) (fun k hk => by
      rw [show s + 1 + k = s + (k + 1) by omega]
      exact hnz (k + 1) (by omega)) (by
      rw [show s + 1 + n = s + (n + 1) by omega]
      exact hz)
    have he : ((fun k => m (s + k)) ∘ Nat.succ) = fun k => m (s + 1 + k) := by
      funext k
      show m (s + (k + 1)) = m (s + 1 + k)
      rw [show s + (k + 1) = s + 1 + k by omega]
    rw [he, this]

theorem finish_check_and_get_new_str_done (h : filc_heap) (base length : Nat)
    (hz : h.memory (base + length) = 0) :
    finish_check_and_get_new_str h base length =
      .done ((List.range (length + 1)).map fun k => h.memory (base + k)) h := by
  unfold finish_check_and_get_new_str
  dsimp only
  rw [if_neg]
  rw [not_not]
  simp [List.getD_eq_getElem?_getD, List.getElem?_range, hz]

theorem filc_check_and_get_new_str_done (h : filc_heap) (str : filc_ptr) (o : Nat)
    (ho : str.object = some o) (ha : (h.objects o).addressable)
    (hc : (filc_check_access_common h str 1 filc_read_access).succeeded = true)
    (hlt : strnlen h.memory str.ptr ((h.objects o).upper - str.ptr) <
      (h.objects o).upper - str.ptr)
    (hok : ∀ i, (str.ptr - (h.objects o).lower) / 16 ≤ i →
      i ≤ (str.ptr - (h.objects o).lower +
        strnlen h.memory str.ptr ((h.objects o).upper - str.ptr)) / 16 →
      (h.objects o).word_types i = FILC_WORD_TYPE_UNSET ∨
        (h.objects o).word_types i = FILC_WORD_TYPE_INT) :
    ∃ h1, filc_check_and_get_new_str h str =
        .done ((List.range (strnlen h.memory str.ptr ((h.objects o).upper - str.ptr) + 1)).map
          fun k => h.memory (str.ptr + k)) h1 ∧
      h1.memory = h.memory ∧
      ∀ i, (h1.objects o).word_types i =
        if (str.ptr - (h.objects o).lower) / 16 ≤ i ∧
            i ≤ (str.ptr - (h.objects o).lower +
              strnlen h.memory str.ptr ((h.objects o).upper - str.ptr)) / 16
          then FILC_WORD_TYPE_INT else (h.objects o).word_types i := by
  have hb := (filc_check_access_common_succeeded_iff h str 1 o _ ho ha).1 hc
  obtain ⟨b1, b2, b3, _⟩ := hb
  have hav := filc_ptr_available_eq h str o ho ha b2
  obtain ⟨h1, e1, hm1, _, _, _, _, ht1⟩ := check_int_done_spec h str
    (strnlen h.memory str.ptr ((h.objects o).upper - str.ptr) + 1) o ho ha b1 (by omega)
    (by omega) (fun i c1 c2 => hok i c1 (by
      rw [show str.ptr - (h.objects o).lower +
        (strnlen h.memory str.ptr ((h.objects o).upper - str.ptr) + 1) - 1 =
        str.ptr - (h.objects o).lower +
          strnlen h.memory str.ptr ((h.objects o).upper - str.ptr) by omega] at c2
      exact c2))
  refine ⟨h1, ?_, hm1, fun i => ?_⟩
  · unfold filc_check_and_get_new_str
    rw [filc_check_access_common_eq_done h str 1 _ hc, and_then_done]
    dsimp only
    rw [hav, if_neg (not_not.mpr hlt), if_neg (not_not.mpr (by omega)), e1, and_then_done,
      finish_check_and_get_new_str_done h1 _ _ (by
        rw [hm1]; exact strnlen_zero h.memory _ str.ptr hlt), hm1]
  · rw [ht1 i]
    rw [show str.ptr - (h.objects o).lower +
        (strnlen h.memory str.ptr ((h.objects o).upper - str.ptr) + 1) - 1 =
        str.ptr - (h.objects o).lower +
          strnlen h.memory str.ptr ((h.objects o).upper - str.ptr) by omega]

theorem filc_check_and_get_new_str_fails (h : filc_heap) (str : filc_ptr) (o : Nat)
    (ho : str.object = some o) (ha : (h.objects o).addressable)
    (hbad : ¬ ((filc_check_access_common h str 1 filc_read_access).succeeded = true ∧
      strnlen h.memory str.ptr ((h.objects o).upper - str.ptr) <
        (h.objects o).upper - str.ptr ∧
      ∀ i, (str.ptr - (h.objects o).lower) / 16 ≤ i →
        i ≤ (str.ptr - (h.objects o).lower +
          strnlen h.memory str.ptr ((h.objects o).upper - str.ptr)) / 16 →
        (h.objects o).word_types i = FILC_WORD_TYPE_UNSET ∨
          (h.objects o).word_types i = FILC_WORD_TYPE_INT)) :
    (filc_check_and_get_new_str h str).succeeded = false := by
  unfold filc_check_and_get_new_str
  by_cases hc : (filc_check_access_common h str 1 filc_read_access).succeeded = true
  swap
  · exact and_then_fails_of_failed _ _ (by simpa using hc)
  have hb := (filc_check_access_common_succeeded_iff h str 1 o _ ho ha).1 hc
  obtain ⟨b1, b2, b3, _⟩ := hb
  have hav := filc_ptr_available_eq h str o ho ha b2
  rw [filc_check_access_common_eq_done h str 1 _ hc, and_then_done]
  dsimp only
  rw [hav]
  by_cases hlt : strnlen h.memory str.ptr ((h.objects o).upper - str.ptr) <
      (h.objects o).upper - str.ptr
  swap
  · rw [if_pos hlt]
    rfl
  rw [if_neg (not_not.mpr hlt), if_neg (not_not.mpr (by omega))]
  have hnok : ¬ ∀ i, (str.ptr - (h.objects o).lower) / 16 ≤ i →
      i ≤ (str.ptr - (h.objects o).lower +
        strnlen h.memory str.ptr ((h.objects o).upper - str.ptr)) / 16 →
      (h.objects o).word_types i = FILC_WORD_TYPE_UNSET ∨
        (h.objects o).word_types i = FILC_WORD_TYPE_INT := fun c => hbad ⟨hc, hlt, c⟩
  push_neg at hnok
  obtain ⟨i, i1, i2, i3, i4⟩ := hnok
  apply and_then_fails_of_failed
  exact (check_int_fails_of_non_int h str _ o i ho ha b1 (by omega) (by omega) i1 (by omega)
    i3 i4).1

/-- Claim C22: the checked string read.  For a pointer with an object,
`filc_check_and_get_new_str` succeeds exactly when check-common passes for
one byte, some byte of `[address, upper)` is zero, and every word from the
word of the address to the word of the first zero byte is `UNSET` or
`INT`.  When it succeeds the string returned is the bytes from the address
up to and including the first zero byte, none of them read at or above
`upper`, `zstrlen` returns the number of bytes before that zero byte, the
memory is unchanged and those words are `INT`.  When no byte of
`[address, upper)` is zero it fails. -/
theorem filc_check_and_get_new_str_spec (h : filc_heap) (str : filc_ptr) (o : Nat)
    (ho : str.object = some o) (ha : (h.objects o).addressable) :
    ((filc_check_and_get_new_str h str).succeeded = true ↔
      ((filc_check_access_common h str 1 filc_read_access).succeeded = true ∧
        (∃ a, str.ptr ≤ a ∧ a < (h.objects o).upper ∧ h.memory a = 0) ∧
        ∀ i, (str.ptr - (h.objects o).lower) / 16 ≤ i →
          i ≤ (str.ptr - (h.objects o).lower +
            strnlen h.memory str.ptr ((h.objects o).upper - str.ptr)) / 16 →
          (h.objects o).word_types i = FILC_WORD_TYPE_UNSET ∨
            (h.objects o).word_types i = FILC_WORD_TYPE_INT)) ∧
    (∀ s h1, filc_check_and_get_new_str h str = .done s h1 →
      s = ((List.range (strnlen h.memory str.ptr ((h.objects o).upper - str.ptr) + 1)).map
        fun k => h.memory (str.ptr + k)) ∧
      str.ptr + strnlen h.memory str.ptr ((h.objects o).upper - str.ptr) <
        (h.objects o).upper ∧
      (∀ k, k < strnlen h.memory str.ptr ((h.objects o).upper - str.ptr) →
        h.memory (str.ptr + k) ≠ 0) ∧
      h.memory (str.ptr + strnlen h.memory str.ptr ((h.objects o).upper - str.ptr)) = 0 ∧
      filc_native_zstrlen h str =
        .done (strnlen h.memory str.ptr ((h.objects o).upper - str.ptr)) h1 ∧
      h1.memory = h.memory ∧
      ∀ i, (str.ptr - (h.objects o).lower) / 16 ≤ i →
        i ≤ (str.ptr - (h.objects o).lower +
          strnlen h.memory str.ptr ((h.objects o).upper - str.ptr)) / 16 →
        (h1.objects o).word_types i = FILC_WORD_TYPE_INT) ∧
    ((∀ a, str.ptr ≤ a → a < (h.objects o).upper → h.memory a ≠ 0) →
      (filc_check_and_get_new_str h str).succeeded = false) := by
  have hnul : ∀ (hc : (filc_check_access_common h str 1 filc_read_access).succeeded = true),
      (strnlen h.memory str.ptr ((h.objects o).upper - str.ptr) <
          (h.objects o).upper - str.ptr ↔
        ∃ a, str.ptr ≤ a ∧ a < (h.objects o).upper ∧ h.memory a = 0) := by
    intro hc
    obtain ⟨b1, b2, b3, _⟩ := (filc_check_access_common_succeeded_iff h str 1 o _ ho ha).1 hc
    rw [strnlen_lt_iff]
    constructor
    · rintro ⟨a, a1, a2, a3⟩
      exact ⟨a, a1, by omega, a3⟩
    · rintro ⟨a, a1, a2, a3⟩
      exact ⟨a, a1, by omega, a3⟩
  have hiff : (filc_check_and_get_new_str h str).succeeded = true ↔
      ((filc_check_access_common h str 1 filc_read_access).succeeded = true ∧
        strnlen h.memory str.ptr ((h.objects o).upper - str.ptr) <
          (h.objects o).upper - str.ptr ∧
        ∀ i, (str.ptr - (h.objects o).lower) / 16 ≤ i →
          i ≤ (str.ptr - (h.objects o).lower +
            strnlen h.memory str.ptr ((h.objects o).upper - str.ptr)) / 16 →
          (h.objects o).word_types i = FILC_WORD_TYPE_UNSET ∨
            (h.objects o).word_types i = FILC_WORD_TYPE_INT) := by
    constructor
    · intro hs
      by_contra hbad
      rw [filc_check_and_get_new_str_fails h str o ho ha hbad] at hs
      cases hs
    · rintro ⟨c1, c2, c3⟩
      obtain ⟨h1, e1, _⟩ := filc_check_and_get_new_str_done h str o ho ha c1 c2 c3
      rw [e1]
      rfl
  refine ⟨?_, ?_, ?_⟩
  · rw [hiff]
    constructor
    · rintro ⟨c1, c2, c3⟩
      exact ⟨c1, (hnul c1).1 c2, c3⟩
    · rintro ⟨c1, c2, c3⟩
      exact ⟨c1, (hnul c1).2 c2, c3⟩
  · intro s h1 hd
    have hs : (filc_check_and_get_new_str h str).succeeded = true := by rw [hd]; rfl
    obtain ⟨c1, c2, c3⟩ := hiff.1 hs
    obtain ⟨h1', e1, hm1, ht1⟩ := filc_check_and_get_new_str_done h str o ho ha c1 c2 c3
    rw [e1] at hd
    injection hd with hs1 hh1
    subst hh1
    have hnz := strnlen_nonzero h.memory ((h.objects o).upper - str.ptr) str.ptr
    have hz := strnlen_zero h.memory ((h.objects o).upper - str.ptr) str.ptr c2
    refine ⟨hs1.symm, by omega, hnz, hz, ?_, hm1, fun i i1 i2 => ?_⟩
    · unfold filc_native_zstrlen filc_check_and_get_tmp_str
      rw [e1, and_then_done, strlen_map_range h.memory _ str.ptr hnz hz]
    · rw [ht1 i, if_pos ⟨i1, i2⟩]
  · intro hno
    by_contra hs
    have hs' : (filc_check_and_get_new_str h str).succeeded = true := by simpa using hs
    obtain ⟨c1, c2, _⟩ := hiff.1 hs'
    obtain ⟨a, a1, a2, a3⟩ := (hnul c1).1 c2
    exact hno a a1 a2 a3

theorem filc_check_and_get_new_str_spec_witness :
    (filc_check_and_get_new_str string_heap { object := some 0, ptr := 4100 }).succeeded =
        true ∧
      ∃ h1, filc_native_zstrlen string_heap { object := some 0, ptr := 4100 } = .done 3 h1 ∧
        (h1.objects 0).word_types 0 = FILC_WORD_TYPE_INT := by
  have hs := (filc_check_and_get_new_str_spec string_heap { object := some 0, ptr := 4100 } 0
    rfl (by decide)).1.2
      ⟨by decide, ⟨4103, by decide, by decide, by decide⟩, fun i _ _ => Or.inl rfl⟩
  obtain ⟨s, h1, hd⟩ := filc_result.eq_done_of_succeeded _ hs
  have hspec := (filc_check_and_get_new_str_spec string_heap { object := some 0, ptr := 4100 }
    0 rfl (by decide)).2.1 s h1 hd
  have e : strnlen string_heap.memory 4100 ((string_heap.objects 0).upper - 4100) = 3 := by
    decide
  refine ⟨hs, h1, ?_, hspec.2.2.2.2.2.2 0 (by decide) (by decide)⟩
  rw [← e]
  exact hspec.2.2.2.2.1

/-! ## Thread ids -/

theorem tid_world_initial_wf :
    tid_world_wf { state := tid_state_initial, live := [] } :=
  ⟨List.nodup_nil, List.nodup_nil, fun _ h => absurd h (List.not_mem_nil _),
    fun _ h => absurd h (List.not_mem_nil _), fun _ h => absurd h (List.not_mem_nil _),
    Nat.le_refl 1, by decide⟩

theorem allocate_tid_cases (s : tid_state) :
    (∃ tid next, s.first_free_tid = tid :: next ∧
      allocate_tid s = some (tid, { s with first_free_tid := next })) ∨
    (s.first_free_tid = [] ∧ s.next_fresh_tid + 1 < 2 ^ 32 ∧
      allocate_tid s = some (s.next_fresh_tid,
        { s with next_fresh_tid := s.next_fresh_tid + 1 })) ∨
    (s.first_free_tid = [] ∧ ¬ s.next_fresh_tid + 1 < 2 ^ 32 ∧ allocate_tid s = none) := by
  unfold allocate_tid
  cases hf : s.first_free_tid with
  | cons tid next => exact Or.inl ⟨tid, next, rfl, rfl⟩
  | nil =>
    right
    dsimp only
    unfold pas_add_uint32_overflow
    by_cases hlt : s.next_fresh_tid + 1 < 2 ^ 32
    · left
      rw [if_pos hlt]
      exact ⟨rfl, hlt, rfl⟩
    · right
      rw [if_neg hlt]
      exact ⟨rfl, hlt, rfl⟩

theorem tid_op_run_wf (op : tid_op) (w w1 : tid_world) (hw : tid_world_wf w)
    (hrun : op.run w = some w1) : tid_world_wf w1 := by
  obtain ⟨ln, fn, ap, lr, fr, fp, ff⟩ := hw
  cases op with
  | allocate =>
    unfold tid_op.run at hrun
    dsimp only at hrun
    rcases allocate_tid_cases w.state with ⟨tid, next, hf, ha⟩ | ⟨hf, hlt, ha⟩ | ⟨hf, hlt, ha⟩
    · rw [ha] at hrun
      injection hrun with hrun
      subst hrun
      rw [hf] at fn ap fr
      have htn : tid ∉ next := (List.nodup_cons.1 fn).1
      have hnn : next.Nodup := (List.nodup_cons.1 fn).2
      refine ⟨?_, hnn, ?_, ?_, ?_, fp, ff⟩
      · refine List.nodup_cons.2 ⟨fun hm => ap tid hm (List.mem_cons_self _ _), ln⟩
      · intro t ht
        rcases List.mem_cons.1 ht with e | hm
        · rw [e]; exact htn
        · exact fun c => ap t hm (List.mem_cons_of_mem _ c)
      · intro t ht
        rcases List.mem_cons.1 ht with e | hm
        · rw [e]; exact fr tid (List.mem_cons_self _ _)
        · exact lr t hm
      · intro t ht
        exact fr t (List.mem_cons_of_mem _ ht)
    · rw [ha] at hrun
      injection hrun with hrun
      subst hrun
      refine ⟨?_, fn, ?_, ?_, ?_, ?_, hlt⟩
      · refine List.nodup_cons.2 ⟨fun hm => ?_, ln⟩
        have := (lr _ hm).2
        omega
      · intro t ht
        rcases List.mem_cons.1 ht with e | hm
        · intro c
          have := (fr t c).2
          omega
        · exact ap t hm
      · intro t ht
        show 1 ≤ t ∧ t < w.state.next_fresh_tid + 1
        rcases List.mem_cons.1 ht with e | hm
        · omega
        · have := lr t hm
          omega
      · intro t ht
        show 1 ≤ t ∧ t < w.state.next_fresh_tid + 1
        have := fr t ht
        omega
      · show 1 ≤ w.state.next_fresh_tid + 1
        omega
    · rw [ha] at hrun
      cases hrun
  | deallocate tid =>
    unfold tid_op.run at hrun
    dsimp only at hrun
    by_cases hm : tid ∈ w.live
    · rw [if_pos hm] at hrun
      injection hrun with hrun
      subst hrun
      refine ⟨ln.erase _, ?_, ?_, ?_, ?_, fp, ff⟩
      · exact List.nodup_cons.2 ⟨ap tid hm, fn⟩
      · intro t ht c
        have h1 := (List.Nodup.mem_erase_iff ln).1 ht
        rcases List.mem_cons.1 c with e | c'
        · exact h1.1 e
        · exact ap t h1.2 c'
      · intro t ht
        exact lr t (List.mem_of_mem_erase ht)
      · intro t ht
        rcases List.mem_cons.1 ht with e | c'
        · rw [e]; exact lr tid hm
        · exact fr t c'
    · rw [if_neg hm] at hrun
      cases hrun

theorem run_tid_ops_wf (ops : List tid_op) :
    ∀ w w1, tid_world_wf w → run_tid_ops ops w = some w1 → tid_world_wf w1 := by
  induction ops with
  | nil =>
    intro w w1 hw hrun
    unfold run_tid_ops at hrun
    injection hrun with hrun
    rw [← hrun]
    exact hw
  | cons op rest ih =>
    intro w w1 hw hrun
    unfold run_tid_ops at hrun
    cases hop : op.run w with
    | none => rw [hop] at hrun; cases hrun
    | some w2 =>
      rw [hop] at hrun
      exact ih w2 w1 (tid_op_run_wf op w w2 hw hop) hrun

theorem tid_world_after_wf (ops : List tid_op) (w : tid_world)
    (hw : tid_world_after ops = some w) : tid_world_wf w :=
  run_tid_ops_wf ops _ w tid_world_initial_wf hw

/-- Claim C27: thread ids are unique among live threads.  After any
sequence of `allocate_tid` and `deallocate_tid` calls in which only live
ids are deallocated, an id returned by the next `allocate_tid` is not zero
and is none of the live ids; no id of the free list is live; every live id
is below `next_fresh_tid`, which still fits in 32 bits after the call; and
the allocation fails its assertion, instead of wrapping, exactly when the
free list is empty and `next_fresh_tid` is `2^32 - 1`. -/
theorem allocate_tid_unique (ops : List tid_op) (w : tid_world)
    (hw : tid_world_after ops = some w) :
    (∀ tid s, allocate_tid w.state = some (tid, s) →
      tid ≠ 0 ∧ tid ∉ w.live ∧ tid < s.next_fresh_tid ∧ s.next_fresh_tid < 2 ^ 32) ∧
    (∀ t, t ∈ w.state.first_free_tid → t ∉ w.live) ∧
    (∀ t, t ∈ w.live → t ≠ 0 ∧ t < w.state.next_fresh_tid) ∧
    (allocate_tid w.state = none ↔
      w.state.first_free_tid = [] ∧ w.state.next_fresh_tid = 2 ^ 32 - 1) := by
  obtain ⟨ln, fn, ap, lr, fr, fp, ff⟩ := tid_world_after_wf ops w hw
  refine ⟨?_, fun t ht c => ap t c ht, fun t ht => ?_, ?_⟩
  · intro tid s ha
    rcases allocate_tid_cases w.state with ⟨tid', next, hf, ha'⟩ | ⟨hf, hlt, ha'⟩ | ⟨hf, hlt, ha'⟩
    · rw [ha'] at ha
      injection ha with ha
      injection ha with e1 e2
      subst e1
      subst e2
      have hr := fr tid' (by rw [hf]; exact List.mem_cons_self _ _)
      refine ⟨by omega, fun c => ap tid' c (by rw [hf]; exact List.mem_cons_self _ _), hr.2, ff⟩
    · rw [ha'] at ha
      injection ha with ha
      injection ha with e1 e2
      subst e1
      subst e2
      refine ⟨by omega, fun c => ?_, ?_, hlt⟩
      · have := (lr _ c).2
        omega
      · show w.state.next_fresh_tid < w.state.next_fresh_tid + 1
        omega
    · rw [ha'] at ha
      cases ha
  · have := lr t ht
    omega
  · rcases allocate_tid_cases w.state with ⟨tid', next, hf, ha'⟩ | ⟨hf, hlt, ha'⟩ | ⟨hf, hlt, ha'⟩
    · rw [ha', hf]
      constructor
      · intro c; cases c
      · intro c; cases c.1
    · rw [ha']
      constructor
      · intro c; cases c
      · intro c
        have := c.2
        omega
    · rw [ha']
      constructor
      · intro _
        exact ⟨hf, by omega⟩
      · intro _
        rfl

/-- After two allocations and the deallocation of id 1, the id 2 is live,
and the next `allocate_tid` returns 1, which is not zero and not live. -/
theorem allocate_tid_unique_witness :
    tid_world_after [.allocate, .allocate, .deallocate 1] =
      some { state := { first_free_tid := [1], next_fresh_tid := 3 }, live := [2] } ∧
    allocate_tid { first_free_tid := [1], next_fresh_tid := 3 } =
      some (1, { first_free_tid := [], next_fresh_tid := 3 }) ∧
    (1 ≠ 0 ∧ 1 ∉ [2] ∧ 1 < 3 ∧ 3 < 2 ^ 32) :=
  ⟨rfl, rfl,
    (allocate_tid_unique [.allocate, .allocate, .deallocate 1]
      { state := { first_free_tid := [1], next_fresh_tid := 3 }, live := [2] } rfl).1 1
      { first_free_tid := [], next_fresh_tid := 3 } rfl⟩

/-- Claim C28 (amended): freed thread ids are recycled, the most recently
freed one first: right after `deallocate_tid (t)` the next `allocate_tid`
returns `t` and leaves the statics as they were before the
deallocation. -/
theorem allocate_tid_after_deallocate (s : tid_state) (t : Nat) :
    allocate_tid (deallocate_tid s t) = some (t, s) := rfl

/-- Claim C28 as stated fails: from the initial statics, the first
`allocate_tid` returns 1, and after `deallocate_tid (1)` the very next
`allocate_tid` returns 1 again. -/
theorem allocate_tid_after_deallocate_counterexample :
    (allocate_tid tid_state_initial).map Prod.fst = some 1 ∧
    ((allocate_tid tid_state_initial).bind fun r =>
      (allocate_tid (deallocate_tid r.2 1)).map Prod.fst) = some 1 := by
  decide

/-! ## The fd side table -/

theorem fd_table_backer_beyond (table : Option (List Nat)) (i : Nat)
    (hi : fd_table_length table ≤ i) : fd_table_backer table i = 0 := by
  cases table with
  | none => rfl
  | some holders =>
    show holders.getD i 0 = 0
    rw [List.getD_eq_getElem?_getD, List.getElem?_eq_none hi]
    rfl

theorem get_locked_fd_holder_spec (table : Option (List Nat)) (fd : Int) (hfd : 0 ≤ fd) :
    ∃ holders, get_locked_fd_holder table fd = some holders ∧ fd.toNat < holders.length ∧
      (∀ i, fd_table_backer (some holders) i = fd_table_backer table i) ∧
      holders.length =
        if table = none ∨ fd.toNat ≥ fd_table_length table then (fd.toNat + 1) * 2
        else fd_table_length table := by
  unfold get_locked_fd_holder
  rw [if_neg (not_not.mpr hfd)]
  by_cases hg : table = none ∨ fd.toNat ≥ fd_table_length table
  · rw [if_pos hg, if_pos hg]
    have hlen : fd_table_length table ≤ fd.toNat := by
      rcases hg with hg | hg
      · rw [hg]; exact Nat.zero_le _
      · exact hg
    refine ⟨_, rfl, ?_, fun i => ?_, ?_⟩
    · rw [List.length_map, List.length_range]
      omega
    · show List.getD _ i 0 = _
      rw [List.getD_eq_getElem?_getD]
      by_cases hi : i < (fd.toNat + 1) * 2
      · rw [List.getElem?_map, List.getElem?_range hi]
        show (if i < fd_table_length table then fd_table_backer table i else 0) = _
        by_cases hl : i < fd_table_length table
        · rw [if_pos hl]
        · rw [if_neg hl, fd_table_backer_beyond table i (by omega)]
      · rw [List.getElem?_eq_none (by rw [List.length_map, List.length_range]; omega)]
        rw [fd_table_backer_beyond table i (by omega)]
        rfl
    · rw [List.length_map, List.length_range]
  · rw [if_neg hg, if_neg hg]
    push_neg at hg
    cases table with
    | none => exact absurd rfl hg.1
    | some holders =>
      exact ⟨holders, rfl, hg.2, fun _ => rfl, rfl⟩

theorem get_fd_backer_spec (table : Option (List Nat)) (fd : Int) (hfd : 0 ≤ fd) :
    ∃ holders, get_fd_backer table fd = some (fd_table_backer table fd.toNat, holders) ∧
      fd.toNat < holders.length ∧
      (∀ i, fd_table_backer (some holders) i = fd_table_backer table i) ∧
      fd_table_length table ≤ holders.length := by
  obtain ⟨holders, e, hl, hb, hlen⟩ := get_locked_fd_holder_spec table fd hfd
  refine ⟨holders, ?_, hl, hb, ?_⟩
  · unfold get_fd_backer
    rw [e]
    show some (fd_table_backer (some holders) fd.toNat, holders) = _
    rw [hb]
  · rw [hlen]
    split_ifs with hg
    · rcases hg with hg | hg
      · rw [hg]; exact Nat.zero_le _
      · omega
    · exact Nat.le_refl _

theorem set_fd_backer_spec (table : Option (List Nat)) (fd : Int) (backer : Nat)
    (hfd : 0 ≤ fd) :
    ∃ holders, set_fd_backer table fd backer = some holders ∧ fd.toNat < holders.length ∧
      (∀ i, fd_table_backer (some holders) i =
        if i = fd.toNat then backer else fd_table_backer table i) ∧
      fd_table_length table ≤ holders.length ∧
      holders.length =
        if table = none ∨ fd.toNat ≥ fd_table_length table then (fd.toNat + 1) * 2
        else fd_table_length table := by
  obtain ⟨holders, e, hl, hb, hlen⟩ := get_locked_fd_holder_spec table fd hfd
  refine ⟨holders.set fd.toNat backer, ?_, ?_, fun i => ?_, ?_, ?_⟩
  · unfold set_fd_backer
    rw [e]
  · rw [List.length_set]
    exact hl
  · show (holders.set fd.toNat backer).getD i 0 = _
    rw [List.getD_eq_getElem?_getD, List.getElem?_set]
    by_cases hi : i = fd.toNat
    · rw [if_pos hi, if_pos hi.symm, if_pos hl]
      rfl
    · rw [if_neg hi, if_neg (fun c => hi c.symm), ← List.getD_eq_getElem?_getD]
      exact hb i
  · rw [List.length_set, hlen]
    split_ifs with hg
    · rcases hg with hg | hg
      · rw [hg]; exact Nat.zero_le _
      · omega
    · exact Nat.le_refl _
  · rw [List.length_set]
    exact hlen

theorem set_fd_backers_keeps (sets : List (Int × Nat)) (k : Nat) :
    ∀ table, (∀ s, s ∈ sets → 0 ≤ s.1 ∧ s.1.toNat ≠ k) →
      ∃ table1, set_fd_backers sets table = some table1 ∧
        fd_table_backer table1 k = fd_table_backer table k ∧
        fd_table_length table ≤ fd_table_length table1 := by
  induction sets with
  | nil =>
    intro table _
    exact ⟨table, rfl, rfl, Nat.le_refl _⟩
  | cons s rest ih =>
    intro table hs
    obtain ⟨fd, backer⟩ := s
    have h0 := hs (fd, backer) (List.mem_cons_self _ _)
    obtain ⟨holders, e, _, hb, hlen, _⟩ := set_fd_backer_spec table fd backer h0.1
    obtain ⟨table1, e1, hb1, hl1⟩ := ih (some holders)
      (fun s hm => hs s (List.mem_cons_of_mem _ hm))
    refine ⟨table1, ?_, ?_, ?_⟩
    · unfold set_fd_backers
      rw [e]
      exact e1
    · rw [hb1, hb k, if_neg (fun c => h0.2 c.symm)]
    · exact Nat.le_trans hlen hl1

theorem dup_result_spec (holders : List Nat) (backer : Nat) (table : Option (List Nat))
    (result : Int)
    (hb : ∀ i, fd_table_backer (some holders) i = fd_table_backer table i) :
    ∃ table1,
      (if result ≥ 0 then
        match set_fd_backer (some holders) result backer with
        | none => none
        | some holders1 => some (result, some holders1)
      else some (result, some holders)) = some (result, table1) ∧
      ∀ i, fd_table_backer table1 i =
        if 0 ≤ result ∧ i = result.toNat then backer else fd_table_backer table i := by
  by_cases hr : result ≥ 0
  · rw [if_pos hr]
    obtain ⟨holders1, e, _, hb1, _, _⟩ := set_fd_backer_spec (some holders) result backer hr
    rw [e]
    refine ⟨some holders1, rfl, fun i => ?_⟩
    rw [hb1 i, hb i]
    by_cases hi : i = result.toNat
    · rw [if_pos hi, if_pos ⟨hr, hi⟩]
    · rw [if_neg hi, if_neg (fun c => hi c.2)]
  · rw [if_neg hr]
    refine ⟨some holders, rfl, fun i => ?_⟩
    rw [hb i, if_neg (fun c => hr c.1)]

theorem zsys_dup_spec (zsys_dup_impl : Int → Int) (table : Option (List Nat)) (fd : Int)
    (hfd : 0 ≤ fd) :
    ∃ table1, zsys_dup zsys_dup_impl table fd = some (zsys_dup_impl fd, table1) ∧
      ∀ i, fd_table_backer table1 i =
        if 0 ≤ zsys_dup_impl fd ∧ i = (zsys_dup_impl fd).toNat then
          fd_table_backer table fd.toNat
        else fd_table_backer table i := by
  obtain ⟨holders, e, _, hb, _⟩ := get_fd_backer_spec table fd hfd
  unfold zsys_dup
  rw [e]
  exact dup_result_spec holders _ table _ hb

theorem zsys_dup2_spec (zsys_dup2_impl : Int → Int → Int) (table : Option (List Nat))
    (oldfd newfd : Int) (hfd : 0 ≤ oldfd) :
    ∃ table1, zsys_dup2 zsys_dup2_impl table oldfd newfd =
        some (zsys_dup2_impl oldfd newfd, table1) ∧
      ∀ i, fd_table_backer table1 i =
        if 0 ≤ zsys_dup2_impl oldfd newfd ∧ i = (zsys_dup2_impl oldfd newfd).toNat then
          fd_table_backer table oldfd.toNat
        else fd_table_backer table i := by
  obtain ⟨holders, e, _, hb, _⟩ := get_fd_backer_spec table oldfd hfd
  unfold zsys_dup2
  rw [e]
  exact dup_result_spec holders _ table _ hb

theorem zsys_fcntl_spec (zsys_fcntl_impl : Int → Int → Int) (table : Option (List Nat))
    (fd cmd : Int) (hfd : 0 ≤ fd) (hcmd : cmd = 0 ∨ cmd = 1030) :
    ∃ table1, zsys_fcntl zsys_fcntl_impl table fd cmd =
        some (zsys_fcntl_impl fd cmd, table1) ∧
      ∀ i, fd_table_backer table1 i =
        if 0 ≤ zsys_fcntl_impl fd cmd ∧ i = (zsys_fcntl_impl fd cmd).toNat then
          fd_table_backer table fd.toNat
        else fd_table_backer table i := by
  obtain ⟨holders, e, _, hb, _⟩ := get_fd_backer_spec table fd hfd
  unfold zsys_fcntl
  rw [if_pos hcmd, e]
  exact dup_result_spec holders _ table _ hb

theorem zsys_close_spec (zsys_close_impl : Int → Int) (table : Option (List Nat)) (fd : Int)
    (hfd : 0 ≤ fd) :
    ∃ table1, zsys_close zsys_close_impl table fd = some (zsys_close_impl fd, table1) ∧
      ∀ i, fd_table_backer table1 i =
        if zsys_close_impl fd = 0 ∧ i = fd.toNat then 0 else fd_table_backer table i := by
  obtain ⟨holders, e, hl, hb, _⟩ := get_locked_fd_holder_spec table fd hfd
  unfold zsys_close
  rw [if_pos hfd, e]
  dsimp only
  by_cases hr : zsys_close_impl fd = 0
  · rw [if_pos hr]
    refine ⟨_, by rw [hr], fun i => ?_⟩
    show (holders.set fd.toNat 0).getD i 0 = _
    rw [List.getD_eq_getElem?_getD, List.getElem?_set]
    by_cases hi : i = fd.toNat
    · rw [if_pos hi.symm, if_pos hl, if_pos ⟨hr, hi⟩]
      rfl
    · rw [if_neg (fun c => hi c.symm), if_neg (fun c => hi c.2), ← List.getD_eq_getElem?_getD]
      exact hb i
  · rw [if_neg hr]
    refine ⟨_, rfl, fun i => ?_⟩
    rw [hb i, if_neg (fun c => hr c.1)]

theorem get_fd_backer_of_backer (table : Option (List Nat)) (fd : Int) (b : Nat)
    (hfd : 0 ≤ fd) (hb : fd_table_backer table fd.toNat = b) :
    ∃ holders, get_fd_backer table fd = some (b, holders) ∧
      ∀ i, fd_table_backer (some holders) i = fd_table_backer table i := by
  obtain ⟨holders, e, _, hk, _⟩ := get_fd_backer_spec table fd hfd
  rw [hb] at e
  exact ⟨holders, e, hk⟩

theorem epoll_wait_after_dup (zsys_dup_impl : Int → Int) (result : Int) (h : filc_heap)
    (w : fd_world) (epfd : Int) (p : filc_ptr) (o : Nat) (hfd : 0 ≤ epfd)
    (hb : fd_table_backer w.fd_table epfd.toNat ≠ 0) (ho : p.object = some o)
    (hl : (h.objects o).flags &&& FILC_OBJECT_FLAG_FREE = 0)
    (hdup : 0 ≤ zsys_dup_impl epfd) :
    ∃ w1 table2 w3, zsys_epoll_ctl result h w epfd (some p) = some (result, w1) ∧
      zsys_dup zsys_dup_impl w1.fd_table epfd = some (zsys_dup_impl epfd, table2) ∧
      zsys_epoll_wait 1 [p.ptr] { w1 with fd_table := table2 } (zsys_dup_impl epfd) =
        some (1, [p], w3) := by
  obtain ⟨holders, e, hk⟩ := get_fd_backer_of_backer w.fd_table epfd _ hfd rfl
  obtain ⟨table2, e2, hk2⟩ := zsys_dup_spec zsys_dup_impl (some holders) epfd hfd
  have hb2 : fd_table_backer table2 (zsys_dup_impl epfd).toNat =
      fd_table_backer w.fd_table epfd.toNat := by
    rw [hk2, if_pos ⟨hdup, rfl⟩, hk]
  obtain ⟨holders3, e3, _⟩ := get_fd_backer_of_backer table2 (zsys_dup_impl epfd) _ hdup hb2
  obtain ⟨w1, ew1, hf1, ht1⟩ : ∃ w1 : fd_world,
      zsys_epoll_ctl result h w epfd (some p) = some (result, w1) ∧
      w1.fd_table = some holders ∧
      w1.epoll_table (fd_table_backer w.fd_table epfd.toNat) =
        (filc_exact_ptr_table_encode h
          (w.epoll_table (fd_table_backer w.fd_table epfd.toNat)) p).2 := by
    refine ⟨{ fd_table := some holders
              epoll_table := fun b =>
                if b = fd_table_backer w.fd_table epfd.toNat then
                  (filc_exact_ptr_table_encode h
                    (w.epoll_table (fd_table_backer w.fd_table epfd.toNat)) p).2
                else w.epoll_table b }, ?_, rfl, ?_⟩
    · unfold zsys_epoll_ctl
      dsimp only
      rw [e]
      dsimp only
      rw [if_pos hb]
    · dsimp only
      rw [if_pos rfl]
  have hdec : filc_exact_ptr_table_decode_with_manual_tracking
      (w1.epoll_table (fd_table_backer w.fd_table epfd.toNat)) p.ptr = some p := by
    rw [ht1, filc_exact_ptr_table_encode_live h _ p o ho hl]
    exact filc_exact_ptr_table_decode_head _ p (by rw [ho]; exact fun c => by cases c)
  have hloop : fix_events_loop (w1.epoll_table (fd_table_backer w.fd_table epfd.toNat))
      (1 : Int).toNat ([p.ptr].map filc_ptr_forge_invalid) = some [p] := by
    show fix_events_loop _ 1 [filc_ptr_forge_invalid p.ptr] = some [p]
    unfold fix_events_loop
    show (match filc_exact_ptr_table_decode_with_manual_tracking _ p.ptr,
      fix_events_loop _ 0 [] with
      | some decoded, some fixed => some (decoded :: fixed)
      | _, _ => none) = some [p]
    rw [hdec]
    rfl
  refine ⟨w1, table2, { fd_table := some holders3, epoll_table := w1.epoll_table }, ew1,
    by rw [hf1]; exact e2, ?_⟩
  unfold zsys_epoll_wait fix_events
  dsimp only
  rw [e3]
  dsimp only
  rw [if_neg hb, hloop]

/-- Claim C29: the fd side table keeps epoll state across dup.  For every
table, `fd ≥ 0` and backer `b`, `set_fd_backer (fd, b)` returns and
afterwards: `get_fd_backer (fd)` returns `b`, also after any further
`set_fd_backer` calls on other fds; a call for an `fd'` at or beyond the
length of the table regrows it to `(fd' + 1) * 2` holders and keeps every
other backer; after `zsys_dup`, `zsys_dup2` or `zsys_fcntl` with `F_DUPFD`
or `F_DUPFD_CLOEXEC` returned a new fd `≥ 0`, `get_fd_backer` of the new fd
returns `b`; `zsys_close (fd)` leaves the backer of `fd` null when the
underlying close returned 0 and leaves it `b` otherwise; and when `b` is
not null and a pointer `p` with a live object was registered through
`zsys_epoll_ctl` on `fd`, a `zsys_epoll_wait` on a duplicate of `fd` to
which the kernel reports the address of `p` returns `p` itself, with its
capability. -/
theorem fd_table_keeps_backers (table : Option (List Nat)) (fd : Int) (b : Nat)
    (hfd : 0 ≤ fd) :
    ∃ holders, set_fd_backer table fd b = some holders ∧
      (∃ holders1, get_fd_backer (some holders) fd = some (b, holders1)) ∧
      (∀ sets : List (Int × Nat), (∀ s, s ∈ sets → 0 ≤ s.1 ∧ s.1 ≠ fd) →
        ∃ table1, set_fd_backers sets (some holders) = some table1 ∧
          ∃ holders1, get_fd_backer table1 fd = some (b, holders1)) ∧
      (∀ (fd' : Int) (b' : Nat), 0 ≤ fd' → fd'.toNat ≥ holders.length →
        ∃ holders1, set_fd_backer (some holders) fd' b' = some holders1 ∧
          holders1.length = (fd'.toNat + 1) * 2 ∧
          ∀ i, i ≠ fd'.toNat →
            fd_table_backer (some holders1) i = fd_table_backer (some holders) i) ∧
      (∀ zsys_dup_impl : Int → Int, 0 ≤ zsys_dup_impl fd →
        ∃ table1, zsys_dup zsys_dup_impl (some holders) fd =
            some (zsys_dup_impl fd, table1) ∧
          ∃ holders1, get_fd_backer table1 (zsys_dup_impl fd) = some (b, holders1)) ∧
      (∀ (zsys_dup2_impl : Int → Int → Int) (newfd : Int), 0 ≤ zsys_dup2_impl fd newfd →
        ∃ table1, zsys_dup2 zsys_dup2_impl (some holders) fd newfd =
            some (zsys_dup2_impl fd newfd, table1) ∧
          ∃ holders1, get_fd_backer table1 (zsys_dup2_impl fd newfd) = some (b, holders1)) ∧
      (∀ (zsys_fcntl_impl : Int → Int → Int) (cmd : Int), cmd = 0 ∨ cmd = 1030 →
        0 ≤ zsys_fcntl_impl fd cmd →
        ∃ table1, zsys_fcntl zsys_fcntl_impl (some holders) fd cmd =
            some (zsys_fcntl_impl fd cmd, table1) ∧
          ∃ holders1, get_fd_backer table1 (zsys_fcntl_impl fd cmd) = some (b, holders1)) ∧
      (∀ zsys_close_impl : Int → Int,
        ∃ table1, zsys_close zsys_close_impl (some holders) fd =
            some (zsys_close_impl fd, table1) ∧
          fd_table_backer table1 fd.toNat = if zsys_close_impl fd = 0 then 0 else b) ∧
      (∀ (zsys_dup_impl : Int → Int) (result : Int) (h : filc_heap)
          (epoll_table : Nat → filc_exact_ptr_table) (p : filc_ptr) (o : Nat),
        b ≠ 0 → p.object = some o → (h.objects o).flags &&& FILC_OBJECT_FLAG_FREE = 0 →
        0 ≤ zsys_dup_impl fd →
        ∃ w1 table2 w3,
          zsys_epoll_ctl result h { fd_table := some holders, epoll_table := epoll_table } fd
            (some p) = some (result, w1) ∧
          zsys_dup zsys_dup_impl w1.fd_table fd = some (zsys_dup_impl fd, table2) ∧
          zsys_epoll_wait 1 [p.ptr] { w1 with fd_table := table2 } (zsys_dup_impl fd) =
            some (1, [p], w3)) := by
  obtain ⟨holders, e, hl, hb, _, _⟩ := set_fd_backer_spec table fd b hfd
  have hbfd : fd_table_backer (some holders) fd.toNat = b := by rw [hb, if_pos rfl]
  have hget : ∀ table1, fd_table_backer table1 fd.toNat = b →
      ∃ holders1, get_fd_backer table1 fd = some (b, holders1) := by
    intro table1 h1
    obtain ⟨holders1, e1, _⟩ := get_fd_backer_of_backer table1 fd b hfd h1
    exact ⟨holders1, e1⟩
  refine ⟨holders, e, hget _ hbfd, ?_, ?_, ?_, ?_, ?_, ?_, ?_⟩
  · intro sets hs
    obtain ⟨table1, e1, hk1, _⟩ := set_fd_backers_keeps sets fd.toNat (some holders)
      (fun s hm => ⟨(hs s hm).1, by have := hs s hm; omega⟩)
    exact ⟨table1, e1, hget table1 (by rw [hk1]; exact hbfd)⟩
  · intro fd' b' hfd' hge
    obtain ⟨holders1, e1, _, hb1, _, hlen1⟩ := set_fd_backer_spec (some holders) fd' b' hfd'
    refine ⟨holders1, e1, ?_, fun i hi => ?_⟩
    · rw [hlen1]
      exact if_pos (Or.inr hge)
    · rw [hb1 i, if_neg hi]
  · intro impl hr
    obtain ⟨table1, e1, hk1⟩ := zsys_dup_spec impl (some holders) fd hfd
    obtain ⟨holders1, e2, _⟩ := get_fd_backer_of_backer table1 (impl fd) b hr
      (by rw [hk1, if_pos ⟨hr, rfl⟩]; exact hbfd)
    exact ⟨table1, e1, holders1, e2⟩
  · intro impl newfd hr
    obtain ⟨table1, e1, hk1⟩ := zsys_dup2_spec impl (some holders) fd newfd hfd
    obtain ⟨holders1, e2, _⟩ := get_fd_backer_of_backer table1 (impl fd newfd) b hr
      (by rw [hk1, if_pos ⟨hr, rfl⟩]; exact hbfd)
    exact ⟨table1, e1, holders1, e2⟩
  · intro impl cmd hcmd hr
    obtain ⟨table1, e1, hk1⟩ := zsys_fcntl_spec impl (some holders) fd cmd hfd hcmd
    obtain ⟨holders1, e2, _⟩ := get_fd_backer_of_backer table1 (impl fd cmd) b hr
      (by rw [hk1, if_pos ⟨hr, rfl⟩]; exact hbfd)
    exact ⟨table1, e1, holders1, e2⟩
  · intro impl
    obtain ⟨table1, e1, hk1⟩ := zsys_close_spec impl (some holders) fd hfd
    refine ⟨table1, e1, ?_⟩
    rw [hk1]
    by_cases hr : impl fd = 0
    · rw [if_pos ⟨hr, rfl⟩, if_pos hr]
    · rw [if_neg (fun c => hr c.1), if_neg hr]
      exact hbfd
  · intro impl result h epoll_table p o hb0 ho hlive hr
    exact epoll_wait_after_dup impl result h
      { fd_table := some holders, epoll_table := epoll_table } fd p o hfd
      (by show fd_table_backer (some holders) fd.toNat ≠ 0; rw [hbfd]; exact hb0) ho hlive hr

theorem fd_table_keeps_backers_witness :
    ∃ holders, set_fd_backer none 3 77 = some holders ∧
      (∃ holders1, get_fd_backer (some holders) 3 = some (77, holders1)) ∧
      (∃ table1, zsys_dup (fun _ => 9) (some holders) 3 = some (9, table1) ∧
        ∃ holders1, get_fd_backer table1 9 = some (77, holders1)) ∧
      (∃ table1, zsys_close (fun _ => 0) (some holders) 3 = some (0, table1) ∧
        fd_table_backer table1 3 = 0) := by
  obtain ⟨holders, e, c1, _, _, c4, _, _, c7, _⟩ :=
    fd_table_keeps_backers none 3 77 (by decide)
  exact ⟨holders, e, c1, c4 (fun _ => 9) (by decide), c7 (fun _ => 0)⟩

/-! ## mmap and munmap -/

theorem prepare_allocate_object_size (length : Nat) (hlen : length < 2 ^ 64)
    (size num_words base_object_size : Nat)
    (hp : prepare_allocate_object length = some (size, num_words, base_object_size)) :
    size = (length + 15) / 16 * 16 := by
  unfold prepare_allocate_object at hp
  dsimp only at hp
  split_ifs at hp with hge
  cases hadd : pas_add_uintptr_overflow filc_object_word_types_offset
    (filc_object_num_words_for_size (pas_round_up_to_power_of_2 length FILC_WORD_SIZE)) with
  | none => rw [hadd] at hp; cases hp
  | some b =>
    rw [hadd] at hp
    injection hp with hp
    injection hp with e1 e2
    rw [← e1]
    unfold pas_round_up_to_power_of_2 FILC_WORD_SIZE at hge ⊢
    have h64 : (2:Nat) ^ 64 = 18446744073709551616 := by norm_num
    rw [h64] at hge hlen ⊢
    omega

theorem filc_allocate_with_existing_data_spec (verse_heap_allocate : Nat → Nat)
    (h h1 : filc_heap) (data length object_flags object : Nat) (t : filc_word_type)
    (hlen : length < 2 ^ 64)
    (hd : filc_allocate_with_existing_data verse_heap_allocate h data length object_flags t =
      .done object h1) :
    (h1.objects object).lower = data ∧
    (h1.objects object).upper = data + (length + 15) / 16 * 16 ∧
    (h1.objects object).flags = object_flags ∧
    h1.memory = h.memory := by
  unfold filc_allocate_with_existing_data at hd
  split_ifs at hd
  cases hp : prepare_allocate_object length with
  | none => rw [hp] at hd; cases hd
  | some plan =>
    obtain ⟨size, num_words, base_object_size⟩ := plan
    rw [hp] at hd
    dsimp only at hd
    injection hd with e1 e2
    have hs := prepare_allocate_object_size length hlen size num_words base_object_size hp
    rw [← e2, ← e1]
    unfold initialize_object_with_existing_data
    dsimp only
    rw [filc_heap.set_object_same]
    obtain ⟨fl, fu, ff, _⟩ := fill_word_types_spec t num_words
      ((h.set_object (verse_heap_allocate base_object_size)
        { h.objects (verse_heap_allocate base_object_size) with
          lower := data, upper := data + size, flags := object_flags }).objects
        (verse_heap_allocate base_object_size))
    rw [fl, fu, ff, filc_heap.set_object_same, hs]
    exact ⟨rfl, rfl, rfl, rfl⟩

theorem mmap_object_of_allocation (verse_heap_allocate : Nat → Nat) (raw_result : Nat)
    (h h1 : filc_heap) (p : filc_ptr) (length o : Nat) (wt : filc_word_type)
    (hlen : length < 2 ^ 64)
    (hd : ((filc_allocate_with_existing_data verse_heap_allocate h raw_result length
        FILC_OBJECT_FLAG_MMAP wt).and_then fun object h1 =>
      if ¬ ((h1.objects object).lower = raw_result) then .panic .assertion h1
      else .done (filc_ptr_create_with_manual_tracking h1 object) h1) = .done p h1)
    (ho : p.object = some o) :
    p.ptr = raw_result ∧ (h1.objects o).lower = raw_result ∧
    (h1.objects o).upper = raw_result + (length + 15) / 16 * 16 ∧
    (h1.objects o).flags = FILC_OBJECT_FLAG_MMAP := by
  cases ha : filc_allocate_with_existing_data verse_heap_allocate h raw_result length
      FILC_OBJECT_FLAG_MMAP wt with
  | panic e hx => rw [ha] at hd; cases hd
  | done object h2 =>
    rw [ha, and_then_done] at hd
    split_ifs at hd with c5
    injection hd with e1 e2
    subst e2
    obtain ⟨sl, su, sf, _⟩ := filc_allocate_with_existing_data_spec verse_heap_allocate h
      h2 raw_result length FILC_OBJECT_FLAG_MMAP object wt hlen ha
    rw [← e1] at ho ⊢
    have : object = o := by
      unfold filc_ptr_create_with_manual_tracking at ho
      injection ho
    subst this
    exact ⟨sl, sl, su, sf⟩

theorem filc_native_zsys_mmap_object (verse_heap_allocate : Nat → Nat) (raw_result : Nat)
    (h h1 : filc_heap) (address p : filc_ptr) (length : Nat) (prot flags : Option Nat)
    (fd offset : Int) (o : Nat) (hlen : length < 2 ^ 64)
    (hd : filc_native_zsys_mmap verse_heap_allocate raw_result h address length prot flags fd
      offset = .done p h1)
    (ho : p.object = some o) :
    p.ptr = raw_result ∧ (h1.objects o).lower = raw_result ∧
    (h1.objects o).upper = raw_result + (length + 15) / 16 * 16 ∧
    (h1.objects o).flags = FILC_OBJECT_FLAG_MMAP := by
  have hne : ∀ hx : filc_heap, filc_result.done mmap_error_result hx = .done p h1 → False := by
    intro hx hc
    injection hc with e1 _
    rw [← e1] at ho
    cases ho
  unfold filc_native_zsys_mmap at hd
  split at hd
  · exact (hne _ hd).elim
  · split at hd
    · exact (hne _ hd).elim
    · exact (hne _ hd).elim
    · split_ifs at hd <;>
        first
        | exact (hne _ hd).elim
        | exact mmap_object_of_allocation verse_heap_allocate raw_result h h1 p length o _ hlen
            hd ho

theorem filc_native_zsys_munmap_iff (result : Int) (h : filc_heap) (address : filc_ptr)
    (length : Nat) (hr : result = 0 ∨ result = -1) :
    (filc_native_zsys_munmap result h address length).succeeded = true ↔
      ∃ o, address.object = some o ∧ address.ptr = (h.objects o).lower ∧
        length = filc_object_size (h.objects o) ∧
        (h.objects o).flags &&& FILC_OBJECT_FLAG_MMAP ≠ 0 ∧
        (h.objects o).flags &&& FILC_OBJECT_FLAG_FREE = 0 ∧
        filc_object_pin_count (h.objects o).flags = 0 := by
  unfold filc_native_zsys_munmap object_for_deallocate
  cases ho : address.object with
  | none =>
    constructor
    · intro hs
      cases hs
    · rintro ⟨o, c, _⟩
      cases c
  | some o =>
    dsimp only
    have hlow : filc_ptr_lower h address = (h.objects o).lower := by
      unfold filc_ptr_lower
      rw [ho]
    rw [hlow]
    by_cases c1 : address.ptr = (h.objects o).lower
    swap
    · rw [if_pos c1]
      constructor
      · intro hs
        cases hs
      · rintro ⟨o', e, c, _⟩
        injection e with e
        rw [← e] at c
        exact absurd c c1
    rw [if_neg (not_not.mpr c1), and_then_done]
    by_cases c2 : filc_object_size (h.objects o) = length
    swap
    · rw [if_pos c2]
      constructor
      · intro hs
        cases hs
      · rintro ⟨o', e, _, c, _⟩
        injection e with e
        rw [← e] at c
        exact absurd c.symm c2
    rw [if_neg (not_not.mpr c2)]
    by_cases c3 : (h.objects o).flags &&& FILC_OBJECT_FLAG_MMAP ≠ 0
    swap
    · rw [if_pos c3]
      constructor
      · intro hs
        cases hs
      · rintro ⟨o', e, _, _, c, _⟩
        injection e with e
        rw [← e] at c
        exact absurd c c3
    rw [if_neg (not_not.mpr c3), filc_free_yolo_eq]
    by_cases c4 : (h.objects o).flags &&& FILC_OBJECT_FLAG_FREE ≠ 0
    · rw [if_pos c4]
      constructor
      · intro hs
        cases hs
      · rintro ⟨o', e, _, _, _, c, _⟩
        injection e with e
        rw [← e] at c
        exact absurd c c4
    rw [if_neg c4]
    by_cases c5 : (h.objects o).flags >>> FILC_OBJECT_FLAGS_PIN_SHIFT ≠ 0
    · rw [if_pos c5]
      constructor
      · intro hs
        cases hs
      · rintro ⟨o', e, _, _, _, _, c⟩
        injection e with e
        rw [← e] at c
        exact absurd c c5
    rw [if_neg c5, and_then_done, if_neg (not_not.mpr hr)]
    constructor
    · intro _
      exact ⟨o, rfl, c1, c2.symm, c3, not_not.mp c4, not_not.mp c5⟩
    · intro _
      rfl

/-- Claim C30: the length check of munmap against the rounded object size.
For a request of `length` bytes, an object that `filc_native_zsys_mmap`
creates lies at the mapped address, has the `MMAP` flag and nothing else,
and its size is `length` rounded up to a multiple of 16.
`filc_native_zsys_munmap (p, n)` passes its checks exactly when `p` has an
object, the address of `p` is the lower bound of the object, `n` is the
size of the object, the object has the `MMAP` flag, and it is neither free
nor pinned.  So unmapping the pointer that mmap returned, with the length
that was given to mmap, is accepted exactly when that length is a multiple
of 16. -/
theorem zsys_munmap_length_check (verse_heap_allocate : Nat → Nat) (raw_result : Nat)
    (h : filc_heap) (address : filc_ptr) (length : Nat) (prot flags : Option Nat)
    (fd offset : Int) (result : Int) (hlen : length < 2 ^ 64)
    (hr : result = 0 ∨ result = -1) :
    (∀ p h1 o,
      filc_native_zsys_mmap verse_heap_allocate raw_result h address length prot flags fd
        offset = .done p h1 →
      p.object = some o →
      p.ptr = (h1.objects o).lower ∧ (h1.objects o).lower = raw_result ∧
      (h1.objects o).flags = FILC_OBJECT_FLAG_MMAP ∧
      filc_object_size (h1.objects o) = (length + 15) / 16 * 16 ∧
      filc_object_size (h1.objects o) % 16 = 0 ∧
      length ≤ filc_object_size (h1.objects o) ∧
      filc_object_size (h1.objects o) < length + 16) ∧
    (∀ (h1 : filc_heap) (p : filc_ptr) (n : Nat),
      (filc_native_zsys_munmap result h1 p n).succeeded = true ↔
        ∃ o, p.object = some o ∧ p.ptr = (h1.objects o).lower ∧
          n = filc_object_size (h1.objects o) ∧
          (h1.objects o).flags &&& FILC_OBJECT_FLAG_MMAP ≠ 0 ∧
          (h1.objects o).flags &&& FILC_OBJECT_FLAG_FREE = 0 ∧
          filc_object_pin_count (h1.objects o).flags = 0) ∧
    (∀ p h1 o,
      filc_native_zsys_mmap verse_heap_allocate raw_result h address length prot flags fd
        offset = .done p h1 →
      p.object = some o →
      ((filc_native_zsys_munmap result h1 p length).succeeded = true ↔ length % 16 = 0)) := by
  have hsize : ∀ p h1 o,
      filc_native_zsys_mmap verse_heap_allocate raw_result h address length prot flags fd
        offset = .done p h1 →
      p.object = some o →
      p.ptr = (h1.objects o).lower ∧ (h1.objects o).lower = raw_result ∧
      (h1.objects o).flags = FILC_OBJECT_FLAG_MMAP ∧
      filc_object_size (h1.objects o) = (length + 15) / 16 * 16 := by
    intro p h1 o hd ho
    obtain ⟨a1, a2, a3, a4⟩ := filc_native_zsys_mmap_object verse_heap_allocate raw_result h h1
      address p length prot flags fd offset o hlen hd ho
    refine ⟨by rw [a1, a2], a2, a4, ?_⟩
    unfold filc_object_size
    rw [a2, a3]
    omega
  refine ⟨fun p h1 o hd ho => ?_, fun h1 p n => filc_native_zsys_munmap_iff result h1 p n hr,
    fun p h1 o hd ho => ?_⟩
  · obtain ⟨a1, a2, a3, a4⟩ := hsize p h1 o hd ho
    refine ⟨a1, a2, a3, a4, ?_, ?_, ?_⟩ <;> rw [a4] <;> omega
  · obtain ⟨a1, a2, a3, a4⟩ := hsize p h1 o hd ho
    rw [filc_native_zsys_munmap_iff result h1 p length hr]
    constructor
    · rintro ⟨o', e, _, c, _⟩
      rw [ho] at e
      injection e with e
      rw [← e, a4] at c
      omega
    · intro hm
      refine ⟨o, ho, a1, by rw [a4]; omega, ?_, ?_, ?_⟩
      · rw [a3]; decide
      · rw [a3]; decide
      · rw [a3]; decide

theorem zsys_munmap_length_check_witness :
    ∃ p h1 o,
      filc_native_zsys_mmap (fun _ => 5) 65536 sample_heap { object := none, ptr := 0 } 100
        (some 3) (some 34) (-1) 0 = .done p h1 ∧
      p.object = some o ∧ filc_object_size (h1.objects o) = 112 ∧
      (filc_native_zsys_munmap 0 h1 p 100).succeeded = false ∧
      (filc_native_zsys_munmap 0 h1 p 112).succeeded = true := by
  have hc := zsys_munmap_length_check (fun _ => 5) 65536 sample_heap
    { object := none, ptr := 0 } 100 (some 3) (some 34) (-1) 0 0 (by decide) (Or.inl rfl)
  obtain ⟨p, h1, hd⟩ : ∃ p h1,
      filc_native_zsys_mmap (fun _ => 5) 65536 sample_heap { object := none, ptr := 0 } 100
        (some 3) (some 34) (-1) 0 = .done p h1 := ⟨_, _, rfl⟩
  have ho : p.object = some 5 := by
    have e : filc_native_zsys_mmap (fun _ => 5) 65536 sample_heap { object := none, ptr := 0 }
        100 (some 3) (some 34) (-1) 0 = .done _ _ := rfl
    rw [e] at hd
    injection hd with e1 _
    rw [← e1]
    rfl
  obtain ⟨a1, a2, a3, a4, _⟩ := hc.1 p h1 5 hd ho
  refine ⟨p, h1, 5, hd, ho, a4, ?_, ?_⟩
  · have := (hc.2.2 p h1 5 hd ho).not
    simpa using this
  · rw [hc.2.1 h1 p 112]
    exact ⟨5, ho, a1, a4.symm, by rw [a3]; decide, by rw [a3]; decide, by rw [a3]; decide⟩

/-! ## Initialization contexts -/

theorem global_initialization_balance_append (ops : List filc_global_initialization_op)
    (op : filc_global_initialization_op) :
    global_initialization_balance (ops ++ [op]) =
      global_initialization_balance ops + global_initialization_balance [op] := by
  induction ops with
  | nil => simp [global_initialization_balance]
  | cons o rest ih =>
    cases o with
    | create =>
      show global_initialization_balance (rest ++ [op]) + 1 = _
      rw [ih]
      show _ = global_initialization_balance rest + 1 + _
      omega
    | destroy =>
      show global_initialization_balance (rest ++ [op]) - 1 = _
      rw [ih]
      show _ = global_initialization_balance rest - 1 + _
      omega
    | add g o =>
      show global_initialization_balance (rest ++ [op]) = _
      rw [ih]
      rfl

theorem global_initialization_commit_spec (h : filc_heap) (map : List (Nat × Nat)) :
    ∀ gptrs : Nat → filc_ptr, (map.map Prod.fst).Nodup →
      (∀ e, e ∈ map →
        global_initialization_commit h map gptrs e.1 =
          filc_ptr_create_with_manual_tracking h e.2) ∧
      (∀ a, a ∉ map.map Prod.fst → global_initialization_commit h map gptrs a = gptrs a) := by
  induction map with
  | nil =>
    intro gptrs _
    exact ⟨fun e he => absurd he (List.not_mem_nil _), fun a _ => rfl⟩
  | cons entry rest ih =>
    intro gptrs hnd
    obtain ⟨g, o⟩ := entry
    rw [List.map_cons, List.nodup_cons] at hnd
    obtain ⟨i1, i2⟩ := ih (fun a => if a = g then filc_ptr_create_with_manual_tracking h o
      else gptrs a) hnd.2
    constructor
    · intro e he
      rcases List.mem_cons.1 he with c | c
      · rw [c]
        show global_initialization_commit h rest _ g = _
        rw [i2 g hnd.1]
        exact if_pos rfl
      · exact i1 e c
    · intro a ha
      rw [List.map_cons, List.mem_cons, not_or] at ha
      show global_initialization_commit h rest _ a = _
      rw [i2 a ha.2]
      exact if_neg ha.1

theorem filc_global_initialization_context_add_spec
    (context context1 : filc_global_initialization_context) (w w1 : filc_global_world)
    (pizlonated_gptr object : Nat) (result : Bool)
    (ha : filc_global_initialization_context_add context w pizlonated_gptr object =
      some (result, context1, w1)) :
    (result = true ↔
      (w.gptrs pizlonated_gptr).ptr = 0 ∧ context.map.lookup pizlonated_gptr = none) ∧
    (result = true →
      context1 = { context with map := (pizlonated_gptr, object) :: context.map } ∧
      w1 = { w with filc_global_variable_roots := w.filc_global_variable_roots ++ [object] }) ∧
    (result = false → context1 = context ∧ w1 = w) ∧
    w.lock_held = true ∧ (w.heap.objects object).flags &&& FILC_OBJECT_FLAG_GLOBAL ≠ 0 := by
  unfold filc_global_initialization_context_add at ha
  dsimp only at ha
  split_ifs at ha with c1 c2 c3 c4 c5
  · injection ha with ha
    injection ha with e1 e2
    injection e2 with e2 e3
    subst e1
    subst e2
    subst e3
    exact ⟨⟨fun c => (by cases c), fun c => absurd c.1 c3⟩, fun c => (by cases c),
      fun _ => ⟨rfl, rfl⟩, c1, c2⟩
  · cases hl : context.map.lookup pizlonated_gptr with
    | some existing =>
      rw [hl] at ha
      dsimp only at ha
      split_ifs at ha with c6
      injection ha with ha
      injection ha with e1 e2
      injection e2 with e2 e3
      subst e1
      subst e2
      subst e3
      exact ⟨⟨fun c => (by cases c), fun c => (by cases c.2)⟩, fun c => (by cases c),
        fun _ => ⟨rfl, rfl⟩, c1, c2⟩
    | none =>
      rw [hl] at ha
      dsimp only at ha
      injection ha with ha
      injection ha with e1 e2
      injection e2 with e2 e3
      subst e1
      subst e2
      subst e3
      exact ⟨⟨fun _ => ⟨not_not.mp c3, rfl⟩, fun _ => rfl⟩, fun _ => ⟨rfl, rfl⟩,
        fun c => (by cases c), c1, c2⟩

theorem global_initialization_added_cons (g o : Nat) (r : Bool) (log : List (Nat × Nat × Bool)) :
    global_initialization_added ((g, o, r) :: log) =
      if r = true then (g, o) :: global_initialization_added log
      else global_initialization_added log := by
  unfold global_initialization_added
  cases r <;> simp [List.filter]

theorem global_initialization_start_wf (w0 : filc_global_world) :
    global_initialization_wf w0 [] (global_initialization_start w0) :=
  { heap_eq := rfl
    roots_eq := by
      show w0.filc_global_variable_roots = w0.filc_global_variable_roots ++ []
      rw [List.append_nil]
    keys_nodup := List.nodup_nil
    slots_null := fun e he => absurd he (List.not_mem_nil _)
    open_context := fun c hc => by
      have : c = { ref_count := 1, map := [] } := by
        injection hc with hc
        exact hc.symm
      rw [this]
      exact ⟨rfl, Nat.le_refl 1, rfl, rfl, rfl⟩
    committed := fun hc => by cases hc }

theorem global_initialization_op_run_wf (w0 : filc_global_world)
    (ops : List filc_global_initialization_op) (op : filc_global_initialization_op)
    (s s1 : filc_global_initialization_state) (hwf : global_initialization_wf w0 ops s)
    (hrun : op.run s = some s1) : global_initialization_wf w0 (ops ++ [op]) s1 := by
  obtain ⟨hh, hroots, hnd, hnull, hopen, hcommitted⟩ := hwf
  rw [show global_initialization_wf w0 (ops ++ [op]) s1 ↔
    global_initialization_wf w0 (ops ++ [op]) s1 from Iff.rfl]
  have hbal := global_initialization_balance_append ops op
  cases hctx : s.context with
  | none =>
    cases op <;> unfold filc_global_initialization_op.run at hrun <;> dsimp only at hrun <;>
      rw [hctx] at hrun <;> cases hrun
  | some c =>
    obtain ⟨b1, b2, b3, b4, b5⟩ := hopen c hctx
    cases op with
    | create =>
      unfold filc_global_initialization_op.run at hrun
      dsimp only at hrun
      rw [hctx] at hrun
      dsimp only at hrun
      injection hrun with hrun
      subst hrun
      refine ⟨hh, hroots, hnd, hnull, fun c1 hc1 => ?_, fun hc1 => by cases hc1⟩
      injection hc1 with hc1
      subst hc1
      refine ⟨?_, ?_, b3, b4, b5⟩
      · rw [hbal]
        show ((c.ref_count + 1 : Nat) : Int) = 1 + (global_initialization_balance ops + (0 + 1))
        omega
      · show 1 ≤ c.ref_count + 1
        omega
    | add g o =>
      unfold filc_global_initialization_op.run at hrun
      dsimp only at hrun
      rw [hctx] at hrun
      dsimp only at hrun
      cases ha : filc_global_initialization_context_add c s.world g o with
      | none => rw [ha] at hrun; cases hrun
      | some res =>
        obtain ⟨r, c1, w1⟩ := res
        rw [ha] at hrun
        dsimp only at hrun
        injection hrun with hrun
        subst hrun
        obtain ⟨a1, a2, a3, a4, a5⟩ :=
          filc_global_initialization_context_add_spec c c1 s.world w1 g o r ha
        have hb0 : global_initialization_balance (ops ++ [.add g o]) =
            global_initialization_balance ops := by
          rw [hbal]
          show _ + 0 = _
          omega
        cases r with
        | false =>
          obtain ⟨e1, e2⟩ := a3 rfl
          rw [e1, e2]
          have hadd : global_initialization_added ((g, o, false) :: s.log) =
              global_initialization_added s.log := by
            rw [global_initialization_added_cons]
            rfl
          refine ⟨hh, ?_, ?_, ?_, fun c1 hc1 => ?_, fun hc1 => by cases hc1⟩
          · show s.world.filc_global_variable_roots = _
            rw [hadd]; exact hroots
          · show ((global_initialization_added ((g, o, false) :: s.log)).map Prod.fst).Nodup
            rw [hadd]; exact hnd
          · intro e he
            exact hnull e (by rw [← hadd]; exact he)
          · injection hc1 with hc1
            rw [← hc1]
            refine ⟨by rw [hb0]; exact b1, b2, ?_, b4, b5⟩
            show c.map = global_initialization_added ((g, o, false) :: s.log)
            rw [hadd]; exact b3
        | true =>
          obtain ⟨e1, e2⟩ := a2 rfl
          subst e1
          subst e2
          obtain ⟨n1, n2⟩ := a1.1 rfl
          have hadd : global_initialization_added ((g, o, true) :: s.log) =
              (g, o) :: global_initialization_added s.log := by
            rw [global_initialization_added_cons]
            rfl
          have hnotin : g ∉ (global_initialization_added s.log).map Prod.fst := by
            intro hm
            obtain ⟨e, he, heq⟩ := List.mem_map.1 hm
            rw [← b3] at he
            have := lookup_none_not_mem g c.map n2 e.2
            apply this
            rw [← heq]
            exact he
          refine ⟨hh, ?_, ?_, ?_, fun c1 hc1 => ?_, fun hc1 => by cases hc1⟩
          · show s.world.filc_global_variable_roots ++ [o] = _
            rw [hadd, hroots, List.reverse_cons, List.map_append, List.append_assoc]
            rfl
          · show ((global_initialization_added ((g, o, true) :: s.log)).map Prod.fst).Nodup
            rw [hadd, List.map_cons, List.nodup_cons]
            exact ⟨hnotin, hnd⟩
          · intro e he
            have he' : e ∈ (g, o) :: global_initialization_added s.log := by
              rw [← hadd]; exact he
            rcases List.mem_cons.1 he' with c' | c'
            · rw [c', ← b4]
              exact n1
            · exact hnull e c'
          · injection hc1 with hc1
            rw [← hc1]
            refine ⟨by rw [hb0]; exact b1, b2, ?_, b4, b5⟩
            show (g, o) :: c.map = global_initialization_added ((g, o, true) :: s.log)
            rw [hadd, b3]
    | destroy =>
      unfold filc_global_initialization_op.run at hrun
      dsimp only at hrun
      rw [hctx] at hrun
      dsimp only at hrun
      unfold filc_global_initialization_context_destroy at hrun
      rw [if_neg (by omega)] at hrun
      have hb0 : global_initialization_balance (ops ++ [.destroy]) =
          global_initialization_balance ops - 1 := by
        rw [hbal]
        show _ + (0 - 1) = _
        omega
      by_cases hz : c.ref_count - 1 ≠ 0
      · rw [if_pos hz] at hrun
        dsimp only at hrun
        injection hrun with hrun
        subst hrun
        refine ⟨hh, hroots, hnd, hnull, fun c1 hc1 => ?_, fun hc1 => by cases hc1⟩
        injection hc1 with hc1
        subst hc1
        refine ⟨?_, ?_, b3, b4, b5⟩
        · rw [hb0]
          show ((c.ref_count - 1 : Nat) : Int) = _
          omega
        · show 1 ≤ c.ref_count - 1
          omega
      · rw [if_neg hz] at hrun
        dsimp only at hrun
        injection hrun with hrun
        subst hrun
        refine ⟨hh, hroots, hnd, hnull, fun c1 hc1 => (by cases hc1), fun _ => ?_⟩
        refine ⟨?_, ?_, rfl⟩
        · rw [hb0]
          omega
        · show global_initialization_commit s.world.heap c.map s.world.gptrs = _
          rw [hh, b3, b4]

theorem run_global_initialization_ops_wf (w0 : filc_global_world)
    (rest : List filc_global_initialization_op) :
    ∀ (ops : List filc_global_initialization_op) (s s1 : filc_global_initialization_state),
      global_initialization_wf w0 ops s → run_global_initialization_ops rest s = some s1 →
      global_initialization_wf w0 (ops ++ rest) s1 := by
  induction rest with
  | nil =>
    intro ops s s1 hwf hrun
    unfold run_global_initialization_ops at hrun
    injection hrun with hrun
    rw [List.append_nil, ← hrun]
    exact hwf
  | cons op rest ih =>
    intro ops s s1 hwf hrun
    unfold run_global_initialization_ops at hrun
    cases hop : op.run s with
    | none => rw [hop] at hrun; cases hrun
    | some s2 =>
      rw [hop] at hrun
      have := ih (ops ++ [op]) s2 s1 (global_initialization_op_run_wf w0 ops op s s2 hwf hop) hrun
      rw [List.append_assoc] at this
      exact this

/-- Claim C26: an initialization context commits exactly when its
reference count reaches zero.  A nested create returns the same context
with one more reference.  After any history of nested create, add and
destroy calls on a context made by `create (NULL)`: while the context is
open its count is at least one, one more than the creates less the
destroys, no global pointer slot was written and every slot added is still
null; the context is committed exactly when the destroys outnumber the
nested creates by one, and then each slot added holds the capability of
its object at the lower bound of the object, and no other slot was
written; no slot was added twice; and the global roots grew by exactly the
objects of the add calls that returned true, in order.  An add returns
true exactly when the slot is null and not in the context, and then it
records the slot and pushes the object onto the roots, while an add that
returns false changes nothing. -/
theorem global_initialization_commits_at_zero (w0 : filc_global_world)
    (ops : List filc_global_initialization_op) (s : filc_global_initialization_state)
    (hrun : run_global_initialization_ops ops (global_initialization_start w0) = some s) :
    (∀ c w, filc_global_initialization_context_create (some c) w =
      ({ c with ref_count := c.ref_count + 1 }, w)) ∧
    (∀ c, s.context = some c →
      1 ≤ c.ref_count ∧ (c.ref_count : Int) = 1 + global_initialization_balance ops ∧
      s.world.gptrs = w0.gptrs ∧
      ∀ e, e ∈ global_initialization_added s.log → (s.world.gptrs e.1).ptr = 0) ∧
    (s.context = none ↔ 1 + global_initialization_balance ops = 0) ∧
    (s.context = none →
      (∀ e, e ∈ global_initialization_added s.log →
        s.world.gptrs e.1 = { object := some e.2, ptr := (w0.heap.objects e.2).lower }) ∧
      ∀ a, a ∉ (global_initialization_added s.log).map Prod.fst →
        s.world.gptrs a = w0.gptrs a) ∧
    ((global_initialization_added s.log).map Prod.fst).Nodup ∧
    s.world.filc_global_variable_roots =
      w0.filc_global_variable_roots ++
        (global_initialization_added s.log).reverse.map Prod.snd ∧
    (∀ c w g o r c1 w1,
      filc_global_initialization_context_add c w g o = some (r, c1, w1) →
      (r = true ↔ (w.gptrs g).ptr = 0 ∧ c.map.lookup g = none) ∧
      (r = true → c1 = { c with map := (g, o) :: c.map } ∧
        w1 = { w with filc_global_variable_roots := w.filc_global_variable_roots ++ [o] }) ∧
      (r = false → c1 = c ∧ w1 = w)) := by
  have hwf := run_global_initialization_ops_wf w0 ops [] _ s
    (global_initialization_start_wf w0) hrun
  rw [List.nil_append] at hwf
  obtain ⟨hh, hroots, hnd, hnull, hopen, hcommitted⟩ := hwf
  refine ⟨fun _ _ => rfl, fun c hc => ?_, ?_, fun hc => ?_, hnd, hroots, ?_⟩
  · obtain ⟨b1, b2, b3, b4, b5⟩ := hopen c hc
    refine ⟨b2, b1, b4, fun e he => ?_⟩
    rw [b4]
    exact hnull e he
  · constructor
    · intro hc
      exact (hcommitted hc).1
    · intro hb
      cases hc : s.context with
      | none => rfl
      | some c =>
        obtain ⟨b1, b2, _⟩ := hopen c hc
        omega
  · obtain ⟨_, b2, _⟩ := hcommitted hc
    obtain ⟨i1, i2⟩ := global_initialization_commit_spec w0.heap
      (global_initialization_added s.log) w0.gptrs hnd
    rw [b2]
    exact ⟨fun e he => i1 e he, i2⟩
  · intro c w g o r c1 w1 ha
    obtain ⟨a1, a2, a3, _⟩ := filc_global_initialization_context_add_spec c c1 w w1 g o r ha
    exact ⟨a1, a2, a3⟩

theorem global_initialization_commits_at_zero_witness :
    ∃ s, run_global_initialization_ops [.add 100 7, .create, .add 100 7, .add 200 8, .destroy,
        .destroy] (global_initialization_start sample_global_world) = some s ∧
      s.context = none ∧
      s.world.gptrs 100 = { object := some 7, ptr := 4096 } ∧
      s.world.gptrs 200 = { object := some 8, ptr := 4096 } ∧
      s.world.gptrs 300 = filc_ptr_forge_null ∧
      s.world.filc_global_variable_roots = [7, 8] := by
  refine ⟨_, rfl, ?_⟩
  have hc := global_initialization_commits_at_zero sample_global_world
    [.add 100 7, .create, .add 100 7, .add 200 8, .destroy, .destroy] _ rfl
  obtain ⟨_, _, c3, c4, _, c6, _⟩ := hc
  have hnone := c3.2 (by decide)
  obtain ⟨d1, d2⟩ := c4 hnone
  exact ⟨hnone, d1 (100, 7) (by decide), d1 (200, 8) (by decide), d2 300 (by decide), c6⟩

/-! ## Entering and exiting -/

set_option maxRecDepth 100000 in
theorem thread_state_clear_check : ∀ old, old < 256 →
    filc_thread_write_keeps (old, old &&& (255 ^^^ FILC_THREAD_STATE_CHECK_REQUESTED)) := by
  unfold filc_thread_write_keeps
  decide

set_option maxRecDepth 100000 in
theorem thread_state_clear_deferred : ∀ old, old < 256 →
    filc_thread_write_keeps (old, old &&& (255 ^^^ FILC_THREAD_STATE_DEFERRED_SIGNAL)) ∧
    (old &&& (255 ^^^ FILC_THREAD_STATE_DEFERRED_SIGNAL)) &&&
      FILC_THREAD_STATE_DEFERRED_SIGNAL = 0 := by
  unfold filc_thread_write_keeps
  decide

set_option maxRecDepth 100000 in
theorem thread_state_set_entered : ∀ old, old < 256 →
    old &&& FILC_THREAD_STATE_DEFERRED_SIGNAL = 0 →
    old &&& FILC_THREAD_STATE_ENTERED = 0 →
    old &&& (FILC_THREAD_STATE_CHECK_REQUESTED ||| FILC_THREAD_STATE_STOP_REQUESTED) = 0 →
    old &&& (FILC_THREAD_STATE_ENTERED ||| FILC_THREAD_STATE_DEFERRED_SIGNAL |||
      FILC_THREAD_STATE_STOP_REQUESTED ||| FILC_THREAD_STATE_CHECK_REQUESTED) = 0 ∧
    (old ||| FILC_THREAD_STATE_ENTERED) &&& FILC_THREAD_STATE_STOP_REQUESTED =
      old &&& FILC_THREAD_STATE_STOP_REQUESTED ∧
    (old ||| FILC_THREAD_STATE_ENTERED) &&& FILC_THREAD_STATE_ENTERED ≠ 0 := by
  decide

set_option maxRecDepth 100000 in
theorem thread_state_clear_entered : ∀ old, old < 256 →
    (old &&& (255 ^^^ FILC_THREAD_STATE_ENTERED)) &&& FILC_THREAD_STATE_STOP_REQUESTED =
      old &&& FILC_THREAD_STATE_STOP_REQUESTED ∧
    (old &&& (255 ^^^ FILC_THREAD_STATE_ENTERED)) &&& FILC_THREAD_STATE_ENTERED = 0 ∧
    (old &&& (255 ^^^ FILC_THREAD_STATE_ENTERED)) &&& FILC_THREAD_STATE_DEFERRED_SIGNAL =
      old &&& FILC_THREAD_STATE_DEFERRED_SIGNAL := by
  decide

set_option maxRecDepth 100000 in
theorem thread_state_deferred_check : ∀ old, old < 256 →
    old &&& FILC_THREAD_STATE_DEFERRED_SIGNAL = 0 →
    old &&& FILC_THREAD_STATE_CHECK_REQUESTED = 0 →
    old &&& (FILC_THREAD_STATE_DEFERRED_SIGNAL ||| FILC_THREAD_STATE_CHECK_REQUESTED) = 0 := by
  decide

theorem filc_thread_load_state_lt (e : filc_thread_env) (r : filc_thread_run) :
    (filc_thread_load e r).thread.state < 256 :=
  Nat.mod_lt _ (by decide)

theorem filc_thread_writes_keep_refl (r : filc_thread_run) : filc_thread_writes_keep r r :=
  ⟨[], rfl, fun _ h => absurd h (List.not_mem_nil _)⟩

theorem filc_thread_writes_keep_trans (r r1 r2 : filc_thread_run)
    (h1 : filc_thread_writes_keep r r1) (h2 : filc_thread_writes_keep r1 r2) :
    filc_thread_writes_keep r r2 := by
  obtain ⟨n1, e1, q1⟩ := h1
  obtain ⟨n2, e2, q2⟩ := h2
  refine ⟨n2 ++ n1, by rw [e2, e1, List.append_assoc], fun w hw => ?_⟩
  rcases List.mem_append.1 hw with c | c
  · exact q2 w c
  · exact q1 w c

theorem filc_thread_writes_keep_load (e : filc_thread_env) (r : filc_thread_run) :
    filc_thread_writes_keep r (filc_thread_load e r) :=
  ⟨[], rfl, fun _ h => absurd h (List.not_mem_nil _)⟩

theorem filc_thread_cas_writes (e : filc_thread_env) (r : filc_thread_run) (old new : Nat) :
    (filc_thread_cas_succeeds e r old = true →
      (filc_thread_cas e r old new).writes = (old, new) :: r.writes ∧
      (filc_thread_cas e r old new).thread.state = new ∧
      (filc_thread_cas e r old new).calls = r.calls ∧
      (filc_thread_cas e r old new).thread.num_deferred_signals =
        r.thread.num_deferred_signals ∧
      (filc_thread_cas e r old new).thread.special_signal_deferral_depth =
        r.thread.special_signal_deferral_depth) ∧
    (filc_thread_cas_succeeds e r old = false →
      filc_thread_cas e r old new = filc_thread_load e r) := by
  unfold filc_thread_cas
  constructor
  · intro hs
    rw [if_pos hs]
    exact ⟨rfl, rfl, rfl, rfl, rfl⟩
  · intro hs
    rw [if_neg (by rw [hs]; decide)]

theorem filc_thread_writes_keep_cas (e : filc_thread_env) (r : filc_thread_run) (old new : Nat)
    (hq : filc_thread_write_keeps (old, new)) :
    filc_thread_writes_keep r (filc_thread_cas e r old new) := by
  cases hs : filc_thread_cas_succeeds e r old with
  | true =>
    refine ⟨[(old, new)], ((filc_thread_cas_writes e r old new).1 hs).1, fun w hw => ?_⟩
    rw [List.mem_singleton] at hw
    rw [hw]
    exact hq
  | false =>
    rw [(filc_thread_cas_writes e r old new).2 hs]
    exact filc_thread_writes_keep_load e r

theorem filc_thread_writes_keep_and_then {α β : Type} (r : filc_thread_run)
    (x : filc_thread_result α) (k : α → filc_thread_run → filc_thread_result β)
    (hx : filc_thread_writes_keep r x.run)
    (hk : ∀ a r1, filc_thread_writes_keep r1 (k a r1).run) :
    filc_thread_writes_keep r (x.and_then k).run := by
  cases x with
  | returned a r1 => exact filc_thread_writes_keep_trans r r1 _ hx (hk a r1)
  | asserted r1 => exact hx
  | out_of_fuel r1 => exact hx

theorem run_pollcheck_callback_loop_keeps (e : filc_thread_env) (fuel : Nat) :
    ∀ r, filc_thread_writes_keep r (run_pollcheck_callback_loop e fuel r).run := by
  induction fuel with
  | zero => intro r; exact filc_thread_writes_keep_refl r
  | succ fuel ih =>
    intro r
    unfold run_pollcheck_callback_loop
    dsimp only
    have hl := filc_thread_writes_keep_load e r
    have hc := filc_thread_writes_keep_cas e (filc_thread_load e r)
      (filc_thread_load e r).thread.state
      ((filc_thread_load e r).thread.state &&& (255 ^^^ FILC_THREAD_STATE_CHECK_REQUESTED))
      (thread_state_clear_check _ (filc_thread_load_state_lt e r))
    split_ifs
    · exact hl
    · exact filc_thread_writes_keep_trans _ _ _ hl hc
    · exact filc_thread_writes_keep_trans _ _ _ hl
        (filc_thread_writes_keep_trans _ _ _ hc (ih _))

theorem run_pollcheck_callback_keeps (e : filc_thread_env) (fuel : Nat) (r : filc_thread_run) :
    filc_thread_writes_keep r (run_pollcheck_callback e fuel r).run := by
  unfold run_pollcheck_callback
  dsimp only
  have hl := filc_thread_writes_keep_load e r
  split_ifs
  · exact hl
  · refine filc_thread_writes_keep_trans _ _ _ hl ?_
    refine filc_thread_writes_keep_and_then _ _ _ (run_pollcheck_callback_loop_keeps e fuel _) ?_
    intro _ r1
    dsimp only
    split_ifs <;> exact filc_thread_writes_keep_load e r1

theorem run_pollcheck_callback_if_necessary_keeps (e : filc_thread_env) (fuel : Nat)
    (r : filc_thread_run) :
    filc_thread_writes_keep r (run_pollcheck_callback_if_necessary e fuel r).run := by
  unfold run_pollcheck_callback_if_necessary
  dsimp only
  have hl := filc_thread_writes_keep_load e r
  split_ifs
  · exact filc_thread_writes_keep_trans _ _ _ hl (run_pollcheck_callback_keeps e fuel _)
  · exact hl

theorem filc_enter_wait_keeps (e : filc_thread_env) (fuel : Nat) :
    ∀ r, filc_thread_writes_keep r (filc_enter_wait e fuel r).run := by
  induction fuel with
  | zero => intro r; exact filc_thread_writes_keep_refl r
  | succ fuel ih =>
    intro r
    unfold filc_enter_wait
    dsimp only
    have hl := filc_thread_writes_keep_load e r
    have hl2 := filc_thread_writes_keep_load e (filc_thread_load e r)
    split_ifs
    · exact hl
    · exact filc_thread_writes_keep_trans _ _ _ hl hl2
    · exact filc_thread_writes_keep_trans _ _ _ hl
        (filc_thread_writes_keep_trans _ _ _ hl2 (ih _))

theorem call_signal_handler_keeps (e : filc_thread_env) (r : filc_thread_run) (signum : Nat) :
    filc_thread_writes_keep r (call_signal_handler e r signum).run := by
  unfold call_signal_handler
  dsimp only
  split_ifs
  · exact filc_thread_writes_keep_refl r
  · exact filc_thread_writes_keep_load e r

theorem call_signal_handler_times_keeps (e : filc_thread_env) (signum n : Nat) :
    ∀ r, filc_thread_writes_keep r (call_signal_handler_times e signum n r).run := by
  induction n with
  | zero => intro r; exact filc_thread_writes_keep_refl r
  | succ n ih =>
    intro r
    unfold call_signal_handler_times
    exact filc_thread_writes_keep_and_then _ _ _ (call_signal_handler_keeps e r signum)
      (fun _ r1 => ih r1)

theorem handle_deferred_signals_deliver_keeps (e : filc_thread_env) (index : Nat) :
    ∀ r, filc_thread_writes_keep r (handle_deferred_signals_deliver e index r).run := by
  induction index with
  | zero => intro r; exact filc_thread_writes_keep_refl r
  | succ index ih =>
    intro r
    unfold handle_deferred_signals_deliver
    dsimp only
    split_ifs
    · exact ih _
    · exact filc_thread_writes_keep_and_then _ _ _
        (call_signal_handler_times_keeps e index _ _) (fun _ r1 => ih r1)
    · exact filc_thread_writes_keep_refl r

theorem handle_deferred_signals_clear_keeps (e : filc_thread_env) (fuel : Nat) :
    ∀ r, filc_thread_writes_keep r (handle_deferred_signals_clear e fuel r).run := by
  induction fuel with
  | zero => intro r; exact filc_thread_writes_keep_refl r
  | succ fuel ih =>
    intro r
    unfold handle_deferred_signals_clear
    dsimp only
    have hl := filc_thread_writes_keep_load e r
    have hc := filc_thread_writes_keep_cas e (filc_thread_load e r)
      (filc_thread_load e r).thread.state
      ((filc_thread_load e r).thread.state &&& (255 ^^^ FILC_THREAD_STATE_DEFERRED_SIGNAL))
      (thread_state_clear_deferred _ (filc_thread_load_state_lt e r)).1
    split_ifs
    · exact hl
    · exact filc_thread_writes_keep_trans _ _ _ hl hc
    · exact filc_thread_writes_keep_trans _ _ _ hl
        (filc_thread_writes_keep_trans _ _ _ hc (ih _))

theorem handle_deferred_signals_keeps (e : filc_thread_env) (fuel : Nat) (r : filc_thread_run) :
    filc_thread_writes_keep r (handle_deferred_signals e fuel r).run := by
  unfold handle_deferred_signals
  dsimp only
  have hl := filc_thread_writes_keep_load e r
  split_ifs
  · exact hl
  · refine filc_thread_writes_keep_trans _ _ _ hl ?_
    refine filc_thread_writes_keep_and_then _ _ _ (handle_deferred_signals_clear_keeps e fuel _)
      ?_
    intro cleared r1
    cases cleared with
    | true => exact handle_deferred_signals_deliver_keeps e _ r1
    | false => exact filc_thread_writes_keep_refl r1

theorem filc_thread_writes_all_of_keep (P : Nat × Nat → Prop)
    (hP : ∀ w, filc_thread_write_keeps w → P w) (r r1 : filc_thread_run)
    (h : filc_thread_writes_keep r r1) : filc_thread_writes_all P r r1 := by
  obtain ⟨n, e1, q⟩ := h
  exact ⟨n, e1, fun w hw => hP w (q w hw)⟩

theorem filc_thread_writes_all_trans (P : Nat × Nat → Prop) (r r1 r2 : filc_thread_run)
    (h1 : filc_thread_writes_all P r r1) (h2 : filc_thread_writes_all P r1 r2) :
    filc_thread_writes_all P r r2 := by
  obtain ⟨n1, e1, q1⟩ := h1
  obtain ⟨n2, e2, q2⟩ := h2
  refine ⟨n2 ++ n1, by rw [e2, e1, List.append_assoc], fun w hw => ?_⟩
  rcases List.mem_append.1 hw with c | c
  · exact q2 w c
  · exact q1 w c

theorem filc_thread_writes_all_cas (P : Nat × Nat → Prop) (e : filc_thread_env)
    (r : filc_thread_run) (old new : Nat) (h : P (old, new)) :
    filc_thread_writes_all P r (filc_thread_cas e r old new) := by
  unfold filc_thread_cas
  split_ifs
  · refine ⟨[(old, new)], rfl, fun w hw => ?_⟩
    rw [List.mem_singleton] at hw
    rw [hw]
    exact h
  · exact ⟨[], rfl, fun _ hw => absurd hw (List.not_mem_nil _)⟩

theorem filc_enter_write_ok_of_keeps (w : Nat × Nat) (h : filc_thread_write_keeps w) :
    filc_enter_write_ok w :=
  ⟨h.2.2, fun c => absurd h.2.1 c⟩

theorem filc_exit_write_ok_of_keeps (w : Nat × Nat) (h : filc_thread_write_keeps w) :
    filc_exit_write_ok w :=
  ⟨h.2.2, fun c => absurd h.2.1 c⟩

theorem filc_enter_loop_writes (e : filc_thread_env) (fuel : Nat) :
    ∀ r, filc_thread_writes_all filc_enter_write_ok r (filc_enter_loop e fuel r).run := by
  induction fuel with
  | zero => intro r; exact ⟨[], rfl, fun _ hw => absurd hw (List.not_mem_nil _)⟩
  | succ fuel ih =>
    intro r
    have hk := fun a b (h : filc_thread_writes_keep a b) =>
      filc_thread_writes_all_of_keep filc_enter_write_ok filc_enter_write_ok_of_keeps a b h
    have hl := hk _ _ (filc_thread_writes_keep_load e r)
    have hl2 := hk _ _ (filc_thread_writes_keep_load e (filc_thread_load e r))
    have hl3 := hk _ _ (filc_thread_writes_keep_load e (filc_thread_load e (filc_thread_load e r)))
    unfold filc_enter_loop
    dsimp only
    by_cases c1 : (filc_thread_load e r).thread.state &&& FILC_THREAD_STATE_DEFERRED_SIGNAL ≠ 0
    · rw [if_pos c1]; exact hl
    rw [if_neg c1]
    by_cases c2 : (filc_thread_load e r).thread.state &&& FILC_THREAD_STATE_ENTERED ≠ 0
    · rw [if_pos c2]; exact hl
    rw [if_neg c2]
    by_cases c3 : (filc_thread_load e r).thread.state &&&
        (FILC_THREAD_STATE_CHECK_REQUESTED ||| FILC_THREAD_STATE_STOP_REQUESTED) ≠ 0
    · rw [if_pos c3]
      have h12 := filc_thread_writes_all_trans _ _ _ _ hl hl2
      have h13 := filc_thread_writes_all_trans _ _ _ _ h12 hl3
      split_ifs
      · exact h12
      · exact h13
      · have hm : filc_thread_writes_keep
            (filc_thread_load e (filc_thread_load e (filc_thread_load e r)))
            ((run_pollcheck_callback_if_necessary e fuel
              (filc_thread_load e (filc_thread_load e (filc_thread_load e r)))).and_then
                fun _ r4 => filc_enter_wait e fuel r4).run :=
          filc_thread_writes_keep_and_then _ _ _
            (run_pollcheck_callback_if_necessary_keeps e fuel _)
            (fun _ r4 => filc_enter_wait_keeps e fuel r4)
        have hm2 := filc_thread_writes_all_trans _ _ _ _ h13 (hk _ _ hm)
        generalize (run_pollcheck_callback_if_necessary e fuel
              (filc_thread_load e (filc_thread_load e (filc_thread_load e r)))).and_then
                (fun _ r4 => filc_enter_wait e fuel r4) = x at hm2 ⊢
        cases x with
        | returned a r5 => exact filc_thread_writes_all_trans _ _ _ _ hm2 (ih r5)
        | asserted r5 => exact hm2
        | out_of_fuel r5 => exact hm2
    rw [if_neg c3]
    have hb := thread_state_set_entered _ (filc_thread_load_state_lt e r)
      (not_not.mp c1) (not_not.mp c2) (not_not.mp c3)
    have hc := filc_thread_writes_all_cas filc_enter_write_ok e (filc_thread_load e r)
      (filc_thread_load e r).thread.state
      ((filc_thread_load e r).thread.state ||| FILC_THREAD_STATE_ENTERED)
      ⟨hb.2.1, fun _ => ⟨hb.1, rfl⟩⟩
    split_ifs
    · exact filc_thread_writes_all_trans _ _ _ _ hl hc
    · exact filc_thread_writes_all_trans _ _ _ _ hl
        (filc_thread_writes_all_trans _ _ _ _ hc (ih _))

theorem filc_thread_writes_all_and_then {α β : Type} (P : Nat × Nat → Prop)
    (r : filc_thread_run) (x : filc_thread_result α)
    (k : α → filc_thread_run → filc_thread_result β)
    (hx : filc_thread_writes_all P r x.run)
    (hk : ∀ a r1, filc_thread_writes_all P r1 (k a r1).run) :
    filc_thread_writes_all P r (x.and_then k).run := by
  cases x with
  | returned a r1 => exact filc_thread_writes_all_trans P r r1 _ hx (hk a r1)
  | asserted r1 => exact hx
  | out_of_fuel r1 => exact hx

theorem filc_enter_writes (e : filc_thread_env) (fuel : Nat) (r : filc_thread_run) :
    filc_thread_writes_all filc_enter_write_ok r (filc_enter e fuel r).run := by
  have hk := fun a b (h : filc_thread_writes_keep a b) =>
    filc_thread_writes_all_of_keep filc_enter_write_ok filc_enter_write_ok_of_keeps a b h
  have hl := hk _ _ (filc_thread_writes_keep_load e r)
  have hl2 := hk _ _ (filc_thread_writes_keep_load e (filc_thread_load e r))
  have h12 := filc_thread_writes_all_trans _ _ _ _ hl hl2
  unfold filc_enter
  dsimp only
  split_ifs
  · exact hl
  · exact h12
  · refine filc_thread_writes_all_trans _ _ _ _ h12 ?_
    refine filc_thread_writes_all_and_then _ _ _ _ (filc_enter_loop_writes e fuel _) ?_
    intro _ r3
    dsimp only
    split_ifs <;> exact hk _ _ (filc_thread_writes_keep_load e r3)

theorem filc_enter_returned (e : filc_thread_env) (fuel : Nat) (r r1 : filc_thread_run)
    (h : filc_enter e fuel r = .returned () r1) :
    r1.thread.state &&& FILC_THREAD_STATE_ENTERED ≠ 0 := by
  unfold filc_enter at h
  dsimp only at h
  split_ifs at h
  generalize filc_enter_loop e fuel (filc_thread_load e (filc_thread_load e r)) = x at h
  cases x with
  | returned a r3 =>
    unfold filc_thread_result.and_then at h
    dsimp only at h
    split_ifs at h with c
    injection h with _ h2
    rw [← h2]
    exact c
  | asserted r3 => cases h
  | out_of_fuel r3 => cases h

theorem filc_exit_loop_writes (e : filc_thread_env) (fuel : Nat) :
    ∀ r, filc_thread_writes_all filc_exit_write_ok r (filc_exit_loop e fuel r).run := by
  induction fuel with
  | zero => intro r; exact ⟨[], rfl, fun _ hw => absurd hw (List.not_mem_nil _)⟩
  | succ fuel ih =>
    intro r
    have hk := fun a b (h : filc_thread_writes_keep a b) =>
      filc_thread_writes_all_of_keep filc_exit_write_ok filc_exit_write_ok_of_keeps a b h
    have hl := hk _ _ (filc_thread_writes_keep_load e r)
    have hl2 := hk _ _ (filc_thread_writes_keep_load e (filc_thread_load e r))
    have h12 := filc_thread_writes_all_trans _ _ _ _ hl hl2
    unfold filc_exit_loop
    dsimp only
    by_cases c1 : (filc_thread_load e r).thread.state &&& FILC_THREAD_STATE_ENTERED = 0
    · rw [if_pos c1]; exact hl
    rw [if_neg c1]
    by_cases c2 : (filc_thread_load e r).thread.state &&& FILC_THREAD_STATE_DEFERRED_SIGNAL ≠ 0
    · rw [if_pos c2]
      have hm := filc_thread_writes_all_trans _ _ _ _ hl
        (hk _ _ (handle_deferred_signals_keeps e fuel (filc_thread_load e r)))
      generalize handle_deferred_signals e fuel (filc_thread_load e r) = x at hm ⊢
      cases x with
      | returned a r2 => exact filc_thread_writes_all_trans _ _ _ _ hm (ih r2)
      | asserted r2 => exact hm
      | out_of_fuel r2 => exact hm
    rw [if_neg c2]
    by_cases c3 : (filc_thread_load e r).thread.state &&& FILC_THREAD_STATE_CHECK_REQUESTED ≠ 0
    · rw [if_pos c3]
      by_cases c4 : (filc_thread_load e (filc_thread_load e r)).thread.state &&&
          FILC_THREAD_STATE_ENTERED = 0
      · rw [if_pos c4]; exact h12
      rw [if_neg c4]
      have hm := filc_thread_writes_all_trans _ _ _ _ h12
        (hk _ _ (run_pollcheck_callback_if_necessary_keeps e fuel
          (filc_thread_load e (filc_thread_load e r))))
      generalize run_pollcheck_callback_if_necessary e fuel
        (filc_thread_load e (filc_thread_load e r)) = x at hm ⊢
      cases x with
      | returned a r3 => exact filc_thread_writes_all_trans _ _ _ _ hm (ih r3)
      | asserted r3 => exact hm
      | out_of_fuel r3 => exact hm
    rw [if_neg c3]
    have hb := thread_state_clear_entered _ (filc_thread_load_state_lt e r)
    have hdc := thread_state_deferred_check _ (filc_thread_load_state_lt e r)
      (not_not.mp c2) (not_not.mp c3)
    have hc := filc_thread_writes_all_cas filc_exit_write_ok e (filc_thread_load e r)
      (filc_thread_load e r).thread.state
      ((filc_thread_load e r).thread.state &&& (255 ^^^ FILC_THREAD_STATE_ENTERED))
      ⟨hb.1, fun _ => ⟨c1, hdc, rfl⟩⟩
    split_ifs
    · exact filc_thread_writes_all_trans _ _ _ _ hl hc
    · exact filc_thread_writes_all_trans _ _ _ _ hl
        (filc_thread_writes_all_trans _ _ _ _ hc (ih _))

theorem filc_exit_writes (e : filc_thread_env) (fuel : Nat) (r : filc_thread_run) :
    filc_thread_writes_all filc_exit_write_ok r (filc_exit e fuel r).run := by
  have hk := fun a b (h : filc_thread_writes_keep a b) =>
    filc_thread_writes_all_of_keep filc_exit_write_ok filc_exit_write_ok_of_keeps a b h
  have hl := hk _ _ (filc_thread_writes_keep_load e r)
  unfold filc_exit
  dsimp only
  split_ifs
  · exact hl
  · refine filc_thread_writes_all_trans _ _ _ _ hl ?_
    refine filc_thread_writes_all_and_then _ _ _ _ (filc_exit_loop_writes e fuel _) ?_
    intro _ r2
    dsimp only
    have h1 := hk _ _ (filc_thread_writes_keep_load e r2)
    have h2 := filc_thread_writes_all_trans _ _ _ _ h1
      (hk _ _ (filc_thread_writes_keep_load e (filc_thread_load e r2)))
    have h3 := filc_thread_writes_all_trans _ _ _ _ h2
      (hk _ _ (filc_thread_writes_keep_load e (filc_thread_load e (filc_thread_load e r2))))
    split_ifs
    · exact h1
    · exact h2
    · exact h3

theorem filc_exit_returned (e : filc_thread_env) (henv : filc_thread_env_respects e)
    (fuel : Nat) (r r1 : filc_thread_run) (h : filc_exit e fuel r = .returned () r1) :
    r1.thread.state &&& FILC_THREAD_STATE_ENTERED = 0 ∧
    r1.thread.state &&& FILC_THREAD_STATE_DEFERRED_SIGNAL = 0 := by
  unfold filc_exit at h
  dsimp only at h
  split_ifs at h
  generalize filc_exit_loop e fuel (filc_thread_load e r) = x at h
  cases x with
  | returned a r2 =>
    unfold filc_thread_result.and_then at h
    dsimp only at h
    split_ifs at h with c1 c2
    injection h with _ h2
    rw [← h2]
    have lt3 := filc_thread_load_state_lt e r2
    have lt4 := filc_thread_load_state_lt e (filc_thread_load e r2)
    have e4 := henv (filc_thread_load e r2).tick (filc_thread_load e r2).thread.state lt3
    have e5 := henv (filc_thread_load e (filc_thread_load e r2)).tick
      (filc_thread_load e (filc_thread_load e r2)).thread.state lt4
    have s4 : (filc_thread_load e (filc_thread_load e r2)).thread.state =
        e.interfere (filc_thread_load e r2).tick (filc_thread_load e r2).thread.state % 256 :=
      rfl
    have s5 : (filc_thread_load e (filc_thread_load e (filc_thread_load e r2))).thread.state =
        e.interfere (filc_thread_load e (filc_thread_load e r2)).tick
          (filc_thread_load e (filc_thread_load e r2)).thread.state % 256 := rfl
    have c1 := not_not.mp c1
    have c2 := not_not.mp c2
    rw [s5]
    have en3 : (filc_thread_load e r2).thread.state &&& FILC_THREAD_STATE_ENTERED = 0 := by
      rw [← e4.1, ← s4]; exact c2
    have d4 : (filc_thread_load e (filc_thread_load e r2)).thread.state &&&
        FILC_THREAD_STATE_DEFERRED_SIGNAL = 0 := by
      rw [s4, e4.2 en3]; exact c1
    exact ⟨by rw [e5.1]; exact c2, by rw [e5.2 c2]; exact d4⟩
  | asserted r2 => cases h
  | out_of_fuel r2 => cases h

theorem filc_thread_env_quiet_respects (signal_table : Nat → Bool) :
    filc_thread_env_respects (filc_thread_env_quiet signal_table) := by
  intro k state hs
  have hm : (filc_thread_env_quiet signal_table).interfere k state % 256 = state :=
    Nat.mod_eq_of_lt hs
  rw [hm]
  exact ⟨rfl, fun _ => rfl⟩

/-- Claim C23: the `ENTERED` bit changes only from clean states.  Whatever
the rest of the program does to the state byte in between, every write of
`filc_enter` leaves `STOP_REQUESTED` as it was and changes `ENTERED` only as
the compare-and-swap from a state with `ENTERED`, `DEFERRED_SIGNAL`,
`STOP_REQUESTED` and `CHECK_REQUESTED` all clear to that state with
`ENTERED` set, and when `filc_enter` returns `ENTERED` is set; every write
of `filc_exit` leaves `STOP_REQUESTED` as it was and changes `ENTERED` only
as the compare-and-swap from a state with `ENTERED` set and
`DEFERRED_SIGNAL` and `CHECK_REQUESTED` clear to that state with `ENTERED`
clear, and when `filc_exit` returns, `ENTERED` and `DEFERRED_SIGNAL` are
clear, the rest of the program leaving `ENTERED` alone and
`DEFERRED_SIGNAL` alone on a thread that is not entered. -/
theorem filc_enter_exit_state_machine (e : filc_thread_env) (fuel : Nat)
    (r : filc_thread_run) :
    filc_thread_writes_all filc_enter_write_ok r (filc_enter e fuel r).run ∧
    (∀ r1, filc_enter e fuel r = .returned () r1 →
      r1.thread.state &&& FILC_THREAD_STATE_ENTERED ≠ 0) ∧
    filc_thread_writes_all filc_exit_write_ok r (filc_exit e fuel r).run ∧
    (filc_thread_env_respects e → ∀ r1, filc_exit e fuel r = .returned () r1 →
      r1.thread.state &&& FILC_THREAD_STATE_ENTERED = 0 ∧
      r1.thread.state &&& FILC_THREAD_STATE_DEFERRED_SIGNAL = 0) :=
  ⟨filc_enter_writes e fuel r, fun r1 h => filc_enter_returned e fuel r r1 h,
    filc_exit_writes e fuel r, fun henv r1 h => filc_exit_returned e henv fuel r r1 h⟩

/-- Left alone, a thread with a pending check enters after the callback ran,
with the writes that clear `CHECK_REQUESTED` and set `ENTERED`, and a thread
that is entered exits with the one write that clears `ENTERED`. -/
theorem filc_enter_exit_state_machine_witness :
    (filc_enter (filc_thread_env_quiet fun _ => false) 2 (sample_thread_run 2)).has_returned =
      true ∧
    (filc_enter (filc_thread_env_quiet fun _ => false) 2 (sample_thread_run 2)).run.writes =
      [(0, 1), (2, 0)] ∧
    (filc_enter (filc_thread_env_quiet fun _ => false) 2
      (sample_thread_run 2)).run.thread.state &&& FILC_THREAD_STATE_ENTERED ≠ 0 ∧
    (filc_exit (filc_thread_env_quiet fun _ => false) 1 (sample_thread_run 1)).has_returned =
      true ∧
    (filc_exit (filc_thread_env_quiet fun _ => false) 1 (sample_thread_run 1)).run.writes =
      [(1, 0)] ∧
    ((filc_exit (filc_thread_env_quiet fun _ => false) 1
      (sample_thread_run 1)).run.thread.state &&& FILC_THREAD_STATE_ENTERED = 0 ∧
    (filc_exit (filc_thread_env_quiet fun _ => false) 1
      (sample_thread_run 1)).run.thread.state &&& FILC_THREAD_STATE_DEFERRED_SIGNAL = 0) :=
  ⟨by decide, by decide,
    (filc_enter_exit_state_machine (filc_thread_env_quiet fun _ => false) 2
      (sample_thread_run 2)).2.1 _ rfl,
    by decide, by decide,
    (filc_enter_exit_state_machine (filc_thread_env_quiet fun _ => false) 1
      (sample_thread_run 1)).2.2.2 (filc_thread_env_quiet_respects _) _ rfl⟩

/-! ## Deferred signals -/

theorem filc_thread_load_quiet (t : Nat → Bool) (r : filc_thread_run)
    (h : r.thread.state < 256) :
    filc_thread_load (filc_thread_env_quiet t) r = { r with tick := r.tick + 1 } := by
  unfold filc_thread_load filc_thread_run.set_state filc_thread_env_quiet
  dsimp only
  rw [Nat.mod_eq_of_lt h]

theorem filc_thread_cas_quiet (t : Nat → Bool) (r : filc_thread_run) (new : Nat)
    (h : r.thread.state < 256) :
    filc_thread_cas_succeeds (filc_thread_env_quiet t) r r.thread.state = true ∧
    filc_thread_cas (filc_thread_env_quiet t) r r.thread.state new =
      { (r.set_state new) with
        tick := r.tick + 1, writes := (r.thread.state, new) :: r.writes } := by
  have hs : filc_thread_cas_succeeds (filc_thread_env_quiet t) r r.thread.state = true := by
    unfold filc_thread_cas_succeeds filc_thread_env_quiet
    dsimp only
    rw [Nat.mod_eq_of_lt h]
    simp
  refine ⟨hs, ?_⟩
  unfold filc_thread_cas
  rw [if_pos hs]

theorem deferred_signal_calls_congr (c1 c2 : Nat → Nat) (index : Nat) :
    (∀ s, s < index → c1 s = c2 s) →
      deferred_signal_calls c1 index = deferred_signal_calls c2 index := by
  induction index with
  | zero => intro _; rfl
  | succ index ih =>
    intro h
    unfold deferred_signal_calls
    rw [h index (Nat.lt_succ_self index), ih (fun s hs => h s (Nat.lt_succ_of_lt hs))]

theorem deferred_signal_calls_count (c : Nat → Nat) (s : Nat) (index : Nat) :
    (deferred_signal_calls c index).count s = if s < index then c s else 0 := by
  induction index with
  | zero => rfl
  | succ index ih =>
    unfold deferred_signal_calls
    rw [List.count_append, ih, List.count_replicate]
    by_cases h1 : s < index
    · have : (index == s) = false := by
        rw [beq_eq_false_iff_ne]; omega
      rw [if_pos h1, if_pos (Nat.lt_succ_of_lt h1), this]
      simp
    · rw [if_neg h1]
      by_cases h2 : s = index
      · have : (index == s) = true := by rw [h2]; exact beq_self_eq_true index
        rw [this, if_pos rfl, if_pos (by omega), h2]
        rfl
      · have : (index == s) = false := by
          rw [beq_eq_false_iff_ne]; exact fun c => h2 c.symm
        rw [this, if_neg Bool.false_ne_true, if_neg (by omega)]

theorem deferred_signal_calls_mem (c : Nat → Nat) (s : Nat) (index : Nat) :
    s ∈ deferred_signal_calls c index ↔ s < index ∧ c s ≠ 0 := by
  rw [← List.count_pos_iff, deferred_signal_calls_count]
  split_ifs with h
  · exact ⟨fun p => ⟨h, by omega⟩, fun p => by omega⟩
  · exact ⟨fun p => by omega, fun p => absurd p.1 h⟩

theorem deferred_signal_calls_succ (c : Nat → Nat) (index : Nat) :
    deferred_signal_calls c (index + 1) =
      List.replicate (c index) index ++ deferred_signal_calls c index := rfl

theorem filc_thread_load_quiet_run (t : Nat → Bool) (thread : filc_thread)
    (tick : Nat) (writes : List (Nat × Nat)) (calls : List Nat) (h : thread.state < 256) :
    filc_thread_load (filc_thread_env_quiet t)
        { thread := thread, tick := tick, writes := writes, calls := calls } =
      { thread := thread, tick := tick + 1, writes := writes, calls := calls } :=
  filc_thread_load_quiet t { thread := thread, tick := tick, writes := writes, calls := calls } h

set_option maxRecDepth 100000 in
theorem thread_state_entered_byte : ∀ old, old < 256 →
    old &&& FILC_THREAD_STATE_DEFERRED_SIGNAL = 0 →
    old &&& (FILC_THREAD_STATE_CHECK_REQUESTED ||| FILC_THREAD_STATE_STOP_REQUESTED) = 0 →
    (old ||| FILC_THREAD_STATE_ENTERED) < 256 ∧
    (old ||| FILC_THREAD_STATE_ENTERED) &&& FILC_THREAD_STATE_ENTERED ≠ 0 ∧
    (old ||| FILC_THREAD_STATE_ENTERED) &&& FILC_THREAD_STATE_DEFERRED_SIGNAL = 0 ∧
    (old ||| FILC_THREAD_STATE_ENTERED) &&& FILC_THREAD_STATE_CHECK_REQUESTED = 0 := by
  decide

set_option maxRecDepth 100000 in
theorem thread_state_entered_exited : ∀ old, old < 256 →
    old &&& FILC_THREAD_STATE_ENTERED = 0 →
    (old ||| FILC_THREAD_STATE_ENTERED) &&& (255 ^^^ FILC_THREAD_STATE_ENTERED) = old := by
  decide

set_option maxRecDepth 100000 in
theorem thread_state_exited_byte : ∀ old, old < 256 →
    old &&& FILC_THREAD_STATE_DEFERRED_SIGNAL = 0 →
    (old &&& (255 ^^^ FILC_THREAD_STATE_ENTERED)) < 256 ∧
    (old &&& (255 ^^^ FILC_THREAD_STATE_ENTERED)) &&& FILC_THREAD_STATE_ENTERED = 0 ∧
    (old &&& (255 ^^^ FILC_THREAD_STATE_ENTERED)) &&& FILC_THREAD_STATE_DEFERRED_SIGNAL = 0 := by
  decide

theorem filc_enter_quiet (t : Nat → Bool) (fuel : Nat) (r : filc_thread_run)
    (hlt : r.thread.state < 256)
    (hdef : r.thread.state &&& FILC_THREAD_STATE_DEFERRED_SIGNAL = 0)
    (hent : r.thread.state &&& FILC_THREAD_STATE_ENTERED = 0)
    (hreq : r.thread.state &&&
      (FILC_THREAD_STATE_CHECK_REQUESTED ||| FILC_THREAD_STATE_STOP_REQUESTED) = 0) :
    ∃ r1, filc_enter (filc_thread_env_quiet t) (fuel + 1) r = .returned () r1 ∧
      r1.thread = { r.thread with state := r.thread.state ||| FILC_THREAD_STATE_ENTERED } ∧
      r1.writes =
        (r.thread.state, r.thread.state ||| FILC_THREAD_STATE_ENTERED) :: r.writes ∧
      r1.calls = r.calls := by
  have hb := thread_state_entered_byte _ hlt hdef hreq
  unfold filc_enter
  dsimp only
  rw [filc_thread_load_quiet t r hlt]
  dsimp only
  rw [if_neg (not_not.mpr hdef), filc_thread_load_quiet_run t _ _ _ _ hlt]
  dsimp only
  rw [if_neg (not_not.mpr hent)]
  unfold filc_enter_loop
  dsimp only
  rw [filc_thread_load_quiet_run t _ _ _ _ hlt]
  dsimp only
  rw [if_neg (not_not.mpr hdef), if_neg (not_not.mpr hent), if_neg (not_not.mpr hreq)]
  have hc := filc_thread_cas_quiet t { r with tick := r.tick + 1 + 1 + 1 }
    (r.thread.state ||| FILC_THREAD_STATE_ENTERED) hlt
  dsimp only at hc
  rw [if_pos hc.1, hc.2]
  unfold filc_thread_result.and_then filc_thread_run.set_state
  dsimp only
  rw [filc_thread_load_quiet_run t
    { r.thread with state := r.thread.state ||| FILC_THREAD_STATE_ENTERED } _ _ _ hb.1]
  dsimp only
  rw [if_neg hb.2.1]
  exact ⟨_, rfl, rfl, rfl, rfl⟩

theorem filc_exit_quiet (t : Nat → Bool) (fuel : Nat) (r : filc_thread_run)
    (hlt : r.thread.state < 256)
    (hent : r.thread.state &&& FILC_THREAD_STATE_ENTERED ≠ 0)
    (hdef : r.thread.state &&& FILC_THREAD_STATE_DEFERRED_SIGNAL = 0)
    (hreq : r.thread.state &&& FILC_THREAD_STATE_CHECK_REQUESTED = 0) :
    ∃ r1, filc_exit (filc_thread_env_quiet t) (fuel + 1) r = .returned () r1 ∧
      r1.thread =
        { r.thread with state := r.thread.state &&& (255 ^^^ FILC_THREAD_STATE_ENTERED) } ∧
      r1.writes =
        (r.thread.state, r.thread.state &&& (255 ^^^ FILC_THREAD_STATE_ENTERED)) :: r.writes ∧
      r1.calls = r.calls := by
  have hb := thread_state_exited_byte _ hlt hdef
  unfold filc_exit
  dsimp only
  rw [filc_thread_load_quiet t r hlt]
  dsimp only
  rw [if_neg hent]
  unfold filc_exit_loop
  dsimp only
  rw [filc_thread_load_quiet_run t _ _ _ _ hlt]
  dsimp only
  rw [if_neg hent, if_neg (not_not.mpr hdef), if_neg (not_not.mpr hreq)]
  have hc := filc_thread_cas_quiet t { r with tick := r.tick + 1 + 1 }
    (r.thread.state &&& (255 ^^^ FILC_THREAD_STATE_ENTERED)) hlt
  dsimp only at hc
  rw [if_pos hc.1, hc.2]
  unfold filc_thread_result.and_then filc_thread_run.set_state
  dsimp only
  rw [filc_thread_load_quiet_run t
    { r.thread with state := r.thread.state &&& (255 ^^^ FILC_THREAD_STATE_ENTERED) }
    _ _ _ hb.1]
  dsimp only
  rw [if_neg (not_not.mpr hb.2.2)]
  rw [filc_thread_load_quiet_run t
    { r.thread with state := r.thread.state &&& (255 ^^^ FILC_THREAD_STATE_ENTERED) }
    _ _ _ hb.1]
  dsimp only
  rw [if_neg (not_not.mpr hb.2.1)]
  rw [filc_thread_load_quiet_run t
    { r.thread with state := r.thread.state &&& (255 ^^^ FILC_THREAD_STATE_ENTERED) }
    _ _ _ hb.1]
  exact ⟨_, rfl, rfl, rfl, rfl⟩

theorem signal_pizlonator_quiet_immediate (t : Nat → Bool) (fuel : Nat) (r : filc_thread_run)
    (user_signum : Nat) (hs : user_signum ≤ FILC_MAX_USER_SIGNUM)
    (ht : t user_signum = true) (hlt : r.thread.state < 256)
    (hdef : r.thread.state &&& FILC_THREAD_STATE_DEFERRED_SIGNAL = 0)
    (hent : r.thread.state &&& FILC_THREAD_STATE_ENTERED = 0)
    (hreq : r.thread.state &&&
      (FILC_THREAD_STATE_CHECK_REQUESTED ||| FILC_THREAD_STATE_STOP_REQUESTED) = 0)
    (hdepth : r.thread.special_signal_deferral_depth = 0) :
    ∃ r1, signal_pizlonator (filc_thread_env_quiet t) (fuel + 1) r user_signum =
        .returned () r1 ∧
      r1.thread = r.thread ∧ r1.calls = r.calls ++ [user_signum] ∧
      r1.writes =
        (r.thread.state ||| FILC_THREAD_STATE_ENTERED, r.thread.state) ::
          (r.thread.state, r.thread.state ||| FILC_THREAD_STATE_ENTERED) :: r.writes := by
  have hb := thread_state_entered_byte _ hlt hdef hreq
  have hq : (filc_thread_env_quiet t).signal_table user_signum = true := ht
  obtain ⟨r1, e1, e2, e3, e4⟩ :=
    filc_enter_quiet t fuel { r with tick := r.tick + 1 } hlt hdef hent hreq
  dsimp only at e1 e2 e3 e4
  have st1 : r1.thread.state = r.thread.state ||| FILC_THREAD_STATE_ENTERED := by rw [e2]
  have lt1 : r1.thread.state < 256 := by rw [st1]; exact hb.1
  obtain ⟨r2, k1, k2, k3, k4⟩ := filc_exit_quiet t fuel
    { thread := r1.thread, tick := r1.tick + 1, writes := r1.writes,
      calls := r1.calls ++ [user_signum] }
    lt1 (by rw [st1]; exact hb.2.1) (by rw [st1]; exact hb.2.2.1) (by rw [st1]; exact hb.2.2.2)
  dsimp only at k1 k2 k3 k4
  refine ⟨r2, ?_, ?_, by rw [k4, e4], ?_⟩
  · unfold signal_pizlonator
    dsimp only
    rw [if_neg (not_not.mpr hs), filc_thread_load_quiet t r hlt]
    dsimp only
    rw [if_neg (by
      intro c
      rcases c with c | c
      · exact c hent
      · exact c hdepth), e1]
    unfold filc_thread_result.and_then call_signal_handler
    dsimp only
    rw [if_neg (not_not.mpr hq), filc_thread_load_quiet t r1 lt1]
    dsimp only
    exact k1
  · rw [k2, e2]
    dsimp only
    rw [thread_state_entered_exited _ hlt hent]
  · rw [k3, e3, st1, thread_state_entered_exited _ hlt hent]

/-! ## The order of delivery -/

theorem call_signal_handler_times_calls (e : filc_thread_env) (signum n : Nat) :
    ∀ r r1 : filc_thread_run,
      call_signal_handler_times e signum n r = .returned () r1 →
      r1.calls = r.calls ++ List.replicate n signum ∧
      r1.thread.num_deferred_signals = r.thread.num_deferred_signals := by
  induction n with
  | zero =>
    intro r r1 h
    unfold call_signal_handler_times at h
    injection h with _ h2
    rw [← h2, List.replicate_zero, List.append_nil]
    exact ⟨rfl, rfl⟩
  | succ n ih =>
    intro r r1 h
    unfold call_signal_handler_times call_signal_handler at h
    dsimp only at h
    by_cases ht : e.signal_table signum = true
    · rw [if_neg (not_not.mpr ht)] at h
      unfold filc_thread_result.and_then at h
      dsimp only at h
      obtain ⟨i1, i2⟩ := ih _ r1 h
      dsimp only at i1 i2
      rw [i1, i2, List.replicate_succ, List.append_assoc, List.singleton_append]
      exact ⟨rfl, rfl⟩
    · rw [if_pos ht] at h
      cases h

theorem handle_deferred_signals_deliver_calls (e : filc_thread_env) (index : Nat) :
    ∀ r r1 : filc_thread_run,
      handle_deferred_signals_deliver e index r = .returned () r1 →
      r1.calls = r.calls ++ deferred_signal_calls r.thread.num_deferred_signals index := by
  induction index with
  | zero =>
    intro r r1 h
    unfold handle_deferred_signals_deliver at h
    injection h with _ h2
    rw [← h2]
    exact (List.append_nil _).symm
  | succ index ih =>
    intro r r1 h
    have hcongr : deferred_signal_calls
        (fun s => if s = index then 0 else r.thread.num_deferred_signals s) index =
        deferred_signal_calls r.thread.num_deferred_signals index :=
      deferred_signal_calls_congr _ _ index (fun s hs => if_neg (Nat.ne_of_lt hs))
    unfold handle_deferred_signals_deliver at h
    dsimp only at h
    rw [deferred_signal_calls_succ]
    by_cases hz : r.thread.num_deferred_signals index = 0
    · rw [if_pos hz] at h
      have i1 := ih _ r1 h
      dsimp only at i1
      rw [i1, hcongr, hz, List.replicate_zero, List.nil_append]
    · rw [if_neg hz] at h
      by_cases ht : e.signal_table index = true
      · rw [if_neg (not_not.mpr ht)] at h
        generalize hx : call_signal_handler_times e index (r.thread.num_deferred_signals index)
          { thread :=
              { state := r.thread.state
                special_signal_deferral_depth := r.thread.special_signal_deferral_depth
                have_deferred_signal_special := r.thread.have_deferred_signal_special
                num_deferred_signals := fun s =>
                  if s = index then 0 else r.thread.num_deferred_signals s }
            tick := r.tick, writes := r.writes, calls := r.calls } = x at h
        cases x with
        | returned a r2 =>
          obtain ⟨j1, j2⟩ := call_signal_handler_times_calls e index _ _ r2 hx
          dsimp only at j1 j2
          have i1 := ih r2 r1 h
          rw [i1, j1, j2, hcongr, List.append_assoc]
        | asserted r2 => cases h
        | out_of_fuel r2 => cases h
      · rw [if_pos ht] at h
        cases h

theorem handle_deferred_signals_clear_calls (e : filc_thread_env) (fuel : Nat) :
    ∀ (r r1 : filc_thread_run) (cleared : Bool),
      handle_deferred_signals_clear e fuel r = .returned cleared r1 →
      r1.calls = r.calls ∧
      r1.thread.num_deferred_signals = r.thread.num_deferred_signals := by
  induction fuel with
  | zero =>
    intro r r1 cleared h
    cases h
  | succ fuel ih =>
    intro r r1 cleared h
    unfold handle_deferred_signals_clear at h
    dsimp only at h
    split_ifs at h with c1 c2
    · injection h with _ h2
      rw [← h2]
      exact ⟨rfl, rfl⟩
    · injection h with _ h2
      rw [← h2]
      obtain ⟨_, _, w3, w4, _⟩ := (filc_thread_cas_writes e (filc_thread_load e r)
        (filc_thread_load e r).thread.state
        ((filc_thread_load e r).thread.state &&&
          (255 ^^^ FILC_THREAD_STATE_DEFERRED_SIGNAL))).1 c2
      exact ⟨w3, w4⟩
    · obtain ⟨i1, i2⟩ := ih _ r1 cleared h
      have hf := (filc_thread_cas_writes e (filc_thread_load e r)
        (filc_thread_load e r).thread.state
        ((filc_thread_load e r).thread.state &&&
          (255 ^^^ FILC_THREAD_STATE_DEFERRED_SIGNAL))).2 (by
            cases hh : filc_thread_cas_succeeds e (filc_thread_load e r)
              (filc_thread_load e r).thread.state with
            | true => exact absurd hh c2
            | false => rfl)
      rw [hf] at i1 i2
      exact ⟨i1, i2⟩

theorem handle_deferred_signals_calls (e : filc_thread_env) (fuel : Nat)
    (r r1 : filc_thread_run) (h : handle_deferred_signals e fuel r = .returned () r1) :
    r1.calls = r.calls ∨
    r1.calls = r.calls ++
      deferred_signal_calls r.thread.num_deferred_signals (FILC_MAX_USER_SIGNUM + 1) := by
  unfold handle_deferred_signals at h
  dsimp only at h
  split_ifs at h
  generalize hx : handle_deferred_signals_clear e fuel (filc_thread_load e r) = x at h
  cases x with
  | returned cleared r2 =>
    obtain ⟨j1, j2⟩ := handle_deferred_signals_clear_calls e fuel _ r2 cleared hx
    unfold filc_thread_result.and_then at h
    dsimp only at h
    cases cleared with
    | true =>
      rw [if_pos rfl] at h
      right
      rw [handle_deferred_signals_deliver_calls e _ r2 r1 h, j1, j2]
      rfl
    | false =>
      rw [if_neg (by decide)] at h
      injection h with _ h2
      left
      rw [← h2, j1]
      rfl
  | asserted r2 => cases h
  | out_of_fuel r2 => cases h

theorem deferred_signal_calls_descending (c : Nat → Nat) (index : Nat) :
    (deferred_signal_calls c index).Pairwise (fun x y => y ≤ x) := by
  induction index with
  | zero => exact List.Pairwise.nil
  | succ index ih =>
    rw [deferred_signal_calls_succ, List.pairwise_append]
    refine ⟨?_, ih, fun a ha b hb => ?_⟩
    · rw [List.pairwise_replicate]
      exact Or.inr (Nat.le_refl index)
    · rw [List.eq_of_mem_replicate ha]
      exact Nat.le_of_lt ((deferred_signal_calls_mem c b index).1 hb).1

/-- Claim C25 (amended): deferred signals are delivered in descending
signal-number order.  Whatever the rest of the program does to the state
byte, when `handle_deferred_signals` returns, the handler calls it made come
after the earlier ones, and among them every call for a user signal number
`b` happens before every call for a smaller number `a`. -/
theorem deferred_signals_delivery_order (e : filc_thread_env) (fuel : Nat)
    (r r1 : filc_thread_run) (h : handle_deferred_signals e fuel r = .returned () r1) :
    ∃ new_calls, r1.calls = r.calls ++ new_calls ∧
      ∀ a b i j : Nat, a < b → new_calls[i]? = some a → new_calls[j]? = some b → j < i := by
  have hp : ∃ new_calls, r1.calls = r.calls ++ new_calls ∧
      new_calls.Pairwise (fun x y => y ≤ x) := by
    rcases handle_deferred_signals_calls e fuel r r1 h with c | c
    · exact ⟨[], by rw [c, List.append_nil], List.Pairwise.nil⟩
    · exact ⟨_, c, deferred_signal_calls_descending _ _⟩
  obtain ⟨new_calls, h1, h2⟩ := hp
  refine ⟨new_calls, h1, fun a b i j hab hi hj => ?_⟩
  obtain ⟨li, ei⟩ := List.getElem?_eq_some_iff.1 hi
  obtain ⟨lj, ej⟩ := List.getElem?_eq_some_iff.1 hj
  by_contra hji
  rcases Nat.lt_or_eq_of_le (Nat.le_of_not_lt hji) with c | c
  · have := List.pairwise_iff_getElem.1 h2 i j li lj c
    rw [ei, ej] at this
    omega
  · subst c
    rw [ei] at ej
    omega

/-- With one occurrence each of the signals 1 and 2 pending,
`handle_deferred_signals` calls the handler of 2 before that of 1. -/
theorem deferred_signals_delivery_order_counterexample :
    (signal_pizlonator_all (filc_thread_env_quiet fun _ => true) 1 [1, 2]
      (sample_thread_run 1)).run.thread.num_deferred_signals 1 = 1 ∧
    (signal_pizlonator_all (filc_thread_env_quiet fun _ => true) 1 [1, 2]
      (sample_thread_run 1)).run.thread.num_deferred_signals 2 = 1 ∧
    (handle_deferred_signals (filc_thread_env_quiet fun _ => true) 1
      (signal_pizlonator_all (filc_thread_env_quiet fun _ => true) 1 [1, 2]
        (sample_thread_run 1)).run).has_returned = true ∧
    (handle_deferred_signals (filc_thread_env_quiet fun _ => true) 1
      (signal_pizlonator_all (filc_thread_env_quiet fun _ => true) 1 [1, 2]
        (sample_thread_run 1)).run).run.calls = [2, 1] := by
  decide

/-- With the signals 3, 7 and 3 again pending, the calls made are 7, 3, 3,
in descending order. -/
theorem deferred_signals_delivery_order_witness :
    (handle_deferred_signals (filc_thread_env_quiet fun _ => true) 1
      (signal_pizlonator_all (filc_thread_env_quiet fun _ => true) 1 [3, 7, 3]
        (sample_thread_run 1)).run).run.calls = [7, 3, 3] ∧
    ∃ new_calls,
      (handle_deferred_signals (filc_thread_env_quiet fun _ => true) 1
        (signal_pizlonator_all (filc_thread_env_quiet fun _ => true) 1 [3, 7, 3]
          (sample_thread_run 1)).run).run.calls =
        (signal_pizlonator_all (filc_thread_env_quiet fun _ => true) 1 [3, 7, 3]
          (sample_thread_run 1)).run.calls ++ new_calls ∧
      ∀ a b i j : Nat, a < b → new_calls[i]? = some a → new_calls[j]? = some b → j < i :=
  ⟨by decide,
    deferred_signals_delivery_order (filc_thread_env_quiet fun _ => true) 1
      (signal_pizlonator_all (filc_thread_env_quiet fun _ => true) 1 [3, 7, 3]
        (sample_thread_run 1)).run _ rfl⟩

/-! ## Immediate delivery -/

